import Mathlib

/-!
# B+-tree index (`btfile.cpp`, `btindex.cpp`, `btfilescan.cpp`)

A shallow embedding of the B+-tree engine: pages live in a store indexed by
page id, the header names the root, and the tree operator works on the store
by explicit state passing.  Loops and recursive descents carry a fuel
argument; `none` means the fuel ran out.
-/

namespace BTree

/-! ## Basic types -/

/-- Page identifiers are machine integers; `INVALID_PAGE` is the sentinel. -/
abbrev PageID := Int

/-- The sentinel page id that denotes absence. -/
def INVALID_PAGE : PageID := -1

/-- Keys are C strings: the bytes before the terminating zero. -/
abbrev Key := List Nat

/-- Record identifier `(pageNo, slotNo)` of an external tuple. -/
structure RecordID where
  pageNo : Int
  slotNo : Int
deriving DecidableEq, Repr

/-- Status codes of the engine. -/
inductive Status where
  | OK
  | FAIL
  | DONE
deriving DecidableEq, Repr

/-- The page-type tag. -/
inductive NodeType where
  | INDEX_NODE
  | LEAF_NODE
deriving DecidableEq, Repr

/-- Byte-wise comparison of two keys, as `strcmp`: negative, zero or positive. -/
def KeyCmp : Key → Key → Int
  | [], [] => 0
  | [], _ :: _ => -1
  | _ :: _, [] => 1
  | a :: as, b :: bs => if a < b then -1 else if b < a then 1 else KeyCmp as bs

/-- Modelled from the spec: the page substrate and the entry codec are not part
of the sources at hand.  The constants are the payload size of a page
(`HEAPPAGE_DATA_SIZE`) and the encoded sizes of a record id and of a page id. -/
structure Config where
  HEAPPAGE_DATA_SIZE : Nat
  ridSize : Nat
  pidSize : Nat
deriving DecidableEq, Repr

/-- Modelled from the spec: the encoded length of an entry for a key and node
type (key bytes, terminator, payload). -/
def GetKeyDataLength (c : Config) (key : Key) (t : NodeType) : Nat :=
  match t with
  | NodeType.LEAF_NODE => key.length + 1 + c.ridSize
  | NodeType.INDEX_NODE => key.length + 1 + c.pidSize

/-- An index entry as it lies in its slot: the key read from the start of the
record, the child page id read from its end, and the slot length in bytes
(fixed when the record is inserted). -/
structure IndexEntry where
  key : Key
  pid : PageID
  len : Nat
deriving DecidableEq, Repr

/-- A page of the substrate: a leaf with its sibling links and entries in slot
order, or an index node with its leftmost child (kept in the `prev` field of
the substrate) and separators in slot order. -/
inductive Page where
  | leaf (prev next : PageID) (slots : List (Key × RecordID))
  | index (left : PageID) (slots : List IndexEntry)
deriving DecidableEq, Repr

/-- The type tag of a page. -/
def Page.GetType : Page → NodeType
  | Page.leaf _ _ _ => NodeType.LEAF_NODE
  | Page.index _ _ => NodeType.INDEX_NODE

/-- Ways in which a run yields no result: the fuel of the model ran out (the
code is still looping), an `assert` failed, or the code read or wrote memory
whose content the source does not define.  In the last case the code itself
goes on, with a content the model does not know: a theorem about the runs that
end in `Except.ok` says nothing about such a run. -/
inductive Fault where
  | fuel
  | assertion
  | undefined
deriving DecidableEq, Repr

/-! ## Slotted page substrate -/

/-- Bytes used by a list of leaf entries. -/
def leafUsed (c : Config) : List (Key × RecordID) → Nat
  | [] => 0
  | e :: es => GetKeyDataLength c e.1 NodeType.LEAF_NODE + leafUsed c es

/-- Bytes used by a list of index entries: the sum of the slot lengths. -/
def indexUsed : List IndexEntry → Nat
  | [] => 0
  | e :: es => e.len + indexUsed es

/-- Modelled from the spec: `available_space()` of a leaf, the payload size
less the encoded entries. -/
def leafAvail (c : Config) (es : List (Key × RecordID)) : Nat :=
  c.HEAPPAGE_DATA_SIZE - leafUsed c es

/-- Modelled from the spec: `available_space()` of an index node. -/
def indexAvail (c : Config) (es : List IndexEntry) : Nat :=
  c.HEAPPAGE_DATA_SIZE - indexUsed es

/-- Modelled from the spec: `SortedPage::InsertRecord` keeps slot order equal to
key order; the new record goes behind the records whose key is not larger. -/
def sortedInsert {α : Type} (keyOf : α → Key) (x : α) : List α → List α
  | [] => [x]
  | e :: es =>
    if KeyCmp (keyOf x) (keyOf e) < 0 then x :: e :: es
    else e :: sortedInsert keyOf x es

/-- Modelled from the spec: `BTLeafPage::Insert`, which fails when the encoded
entry does not fit in the available space. -/
def leafInsert (c : Config) (k : Key) (r : RecordID) (es : List (Key × RecordID)) :
    Status × List (Key × RecordID) :=
  if GetKeyDataLength c k NodeType.LEAF_NODE ≤ leafAvail c es then
    (Status.OK, sortedInsert Prod.fst (k, r) es)
  else (Status.FAIL, es)

/-- The function `BTIndexPage::Insert`: the entry is handed to the sorted page,
which fails when it does not fit. -/
def indexInsert (c : Config) (k : Key) (p : PageID) (es : List IndexEntry) :
    Status × List IndexEntry :=
  if GetKeyDataLength c k NodeType.INDEX_NODE ≤ indexAvail c es then
    (Status.OK,
      sortedInsert IndexEntry.key ⟨k, p, GetKeyDataLength c k NodeType.INDEX_NODE⟩ es)
  else (Status.FAIL, es)

/-- Modelled from the spec: `BTLeafPage::Delete` removes the first slot whose
`(key, rid)` matches exactly and fails when there is none. -/
def leafDelete (k : Key) (r : RecordID) :
    List (Key × RecordID) → Status × List (Key × RecordID)
  | [] => (Status.FAIL, [])
  | e :: es =>
    if e.1 = k ∧ e.2 = r then (Status.OK, es)
    else ((leafDelete k r es).1, e :: (leafDelete k r es).2)

/-- Remove the slot with the given number (`SortedPage::DeleteRecord`, which
compacts the slot directory). -/
def deleteSlot {α : Type} : Nat → List α → List α
  | _, [] => []
  | 0, _ :: es => es
  | n + 1, e :: es => e :: deleteSlot n es

/-! ## Index node (`btindex.cpp`) -/

/-- The scan of `BTIndexPage::Delete`: at slot `i` with current key `cur` and
the entries behind it, advance while `key` is larger than the current key.
The result is the slot number reached and the key buffer; when `GetNext` runs
off the end the slot number is one past the last slot and the buffer keeps the
last key. -/
def indexDeleteScan (key : Key) : Nat → Key → List IndexEntry → Nat × Key
  | i, cur, [] => if KeyCmp key cur > 0 then (i + 1, cur) else (i, cur)
  | i, cur, e :: es =>
    if KeyCmp key cur > 0 then indexDeleteScan key (i + 1) e.key es
    else (i, cur)

/-- The function `BTIndexPage::Delete`.  The slot reached by the scan is
deleted; when its key differs from `key` the slot before it is deleted
instead, and nothing is deleted when that slot number is negative.  On a page
without slots the assertion on `GetFirst` fails. -/
def indexDelete (key : Key) (es : List IndexEntry) : Except Fault (List IndexEntry) :=
  match es with
  | [] => Except.error Fault.assertion
  | e :: rest =>
    let r := indexDeleteScan key 0 e.key rest
    let slotNo : Int := if KeyCmp key r.2 ≠ 0 then (r.1 : Int) - 1 else (r.1 : Int)
    if slotNo < 0 then Except.ok es
    else Except.ok (deleteSlot slotNo.toNat es)

/-- The loop shared by `GetPageID`, `FindPage`, `FindKey` and `AdjustKey`: the
highest-numbered slot whose key is not larger than `key`, searched from the
last slot downwards. -/
def findSlot (key : Key) (es : List IndexEntry) : Option IndexEntry :=
  es.reverse.find? (fun e => decide (KeyCmp key e.key ≥ 0))

/-- The function `BTIndexPage::GetPageID`. -/
def GetPageID (key : Key) (left : PageID) (es : List IndexEntry) : PageID :=
  match findSlot key es with
  | some e => e.pid
  | none => left

/-- The function `BTIndexPage::FindPage`: the child and the `leftMost` flag. -/
def FindPage (key : Key) (left : PageID) (es : List IndexEntry) : PageID × Bool :=
  match findSlot key es with
  | some e => (e.pid, false)
  | none => (left, true)

/-- The function `BTIndexPage::FindKey`.  The copy takes `strlen(key) + 1` bytes
of the slot found: when the separator is longer than `key` the buffer is left
without its end and terminator, so its content is not defined (`none`). -/
def FindKey (key : Key) (es : List IndexEntry) : Status × Option Key :=
  match findSlot key es with
  | some e => (Status.OK, if e.key.length ≤ key.length then some e.key else none)
  | none => (Status.FAIL, none)

/-- Overwrite the key of the highest-numbered slot whose key is not larger
than `oldKey`, searching from the last slot downwards; the list is given in
reverse slot order.  The `memcpy` writes `strlen(newKey) + 1` bytes at the start
of the record: when they do not fit before the page id, the bytes of the page
id are overwritten and what is read back is not defined.  The code returns `OK`
and goes on with the overwritten child pointer; which page id that is depends
on the byte order of page ids (`clobberedPid` gives it for the low byte first),
and the run has no result in the model. -/
def adjustRev (c : Config) (newKey oldKey : Key) :
    List IndexEntry → Except Fault (Status × List IndexEntry)
  | [] => Except.ok (Status.FAIL, [])
  | e :: es =>
    if KeyCmp oldKey e.key ≥ 0 then
      if newKey.length + 1 + c.pidSize ≤ e.len then
        Except.ok (Status.OK, { e with key := newKey } :: es)
      else Except.error Fault.undefined
    else
      match adjustRev c newKey oldKey es with
      | Except.ok (st, es2) => Except.ok (st, e :: es2)
      | Except.error f => Except.error f

/-- The function `BTIndexPage::AdjustKey`. -/
def AdjustKey (c : Config) (newKey oldKey : Key) (es : List IndexEntry) :
    Except Fault (Status × List IndexEntry) :=
  match adjustRev c newKey oldKey es.reverse with
  | Except.ok (st, es2) => Except.ok (st, es2.reverse)
  | Except.error f => Except.error f

/-- The loop of `BTIndexPage::FindKeyWithPage` from the last slot downwards
(list in reverse slot order): the key buffer after the loop and whether
`targetPid` was found. -/
def findKeyWithPageRev (targetPid : PageID) (buf : Option Key) :
    List IndexEntry → Option Key × Bool
  | [] => (buf, false)
  | e :: es =>
    if targetPid = e.pid then (some e.key, true)
    else findKeyWithPageRev targetPid (some e.key) es

/-- The function `BTIndexPage::FindKeyWithPage`: status, the key buffer (which
starts out as `buf`) and the `leftMost` flag (unset when the call fails). -/
def FindKeyWithPage (targetPid : PageID) (buf : Option Key) (left : PageID)
    (es : List IndexEntry) : Status × Option Key × Option Bool :=
  if left = targetPid then (Status.OK, buf, some true)
  else
    match findKeyWithPageRev targetPid buf es.reverse with
    | (k, true) => (Status.OK, k, some false)
    | (k, false) => (Status.FAIL, k, none)

/-- The loop of `BTIndexPage::FindSiblingForChild` from the last slot downwards
(list in reverse slot order): the page id in the slot before the one that
holds `targetPid`, or the leftmost child when that is slot 0. -/
def findSiblingRev (targetPid left : PageID) : List IndexEntry → Option PageID
  | [] => none
  | e :: es =>
    if targetPid = e.pid then
      match es with
      | [] => some left
      | e2 :: _ => some e2.pid
    else findSiblingRev targetPid left es

/-- The function `BTIndexPage::FindSiblingForChild`: status, `siblingPid` and
`rightSibling`.  The two outputs are `none` while the call has not written
them.  When `targetPid` is the leftmost child the outputs are set from slot 0
and the loop over the slots still runs. -/
def FindSiblingForChild (targetPid left : PageID) (es : List IndexEntry) :
    Except Fault (Status × Option PageID × Option Bool) :=
  let afterLeft : Except Fault (Option PageID × Option Bool) :=
    if left = targetPid then
      match es with
      | [] => Except.error Fault.undefined
      | e :: _ => Except.ok (some e.pid, some true)
    else Except.ok (none, none)
  match afterLeft with
  | Except.error f => Except.error f
  | Except.ok (sp, rs) =>
    match findSiblingRev targetPid left es.reverse with
    | some q => Except.ok (Status.OK, some q, some false)
    | none => Except.ok (Status.FAIL, sp, rs)

/-- The `while (pageNo != pid)` loop of `BTIndexPage::DeletePage`, entered with
the current slot read: the entries from the slot that holds `pid` onwards. -/
def deletePageSeek (pid : PageID) : List IndexEntry → Option (List IndexEntry)
  | [] => none
  | e :: es => if e.pid = pid then some (e :: es) else deletePageSeek pid es

/-- The function `BTIndexPage::DeletePage`: status, leftmost child and slots
after the call.  The flag is `none` when the caller passes a variable that was
never written; the code reads it only when slot 0 holds `pid`. -/
def DeletePage (c : Config) (pid : PageID) ( rightSibling : Option Bool) (left : PageID)
    (es : List IndexEntry) : Except Fault (Status × PageID × List IndexEntry) :=
  if left = pid then
    match es with
    | [] => Except.error Fault.assertion
    | e :: _ =>
      match indexDelete e.key es with
      | Except.ok es2 => Except.ok (Status.OK, e.pid, es2)
      | Except.error f => Except.error f
  else
    match es with
    | [] =>
      -- `GetFirst` gives `INVALID_PAGE`; `Delete` then fails its assertion
      if INVALID_PAGE = pid ∧ rightSibling = none then Except.error Fault.undefined
      else if INVALID_PAGE = pid ∧ rightSibling = some true then
        Except.error Fault.assertion
      else Except.ok (Status.FAIL, left, es)
    | e :: _ =>
      if e.pid = pid ∧ rightSibling = none then Except.error Fault.undefined
      else if e.pid = pid ∧ rightSibling = some true then
        match indexDelete e.key es with
        | Except.ok es2 => Except.ok (Status.OK, left, es2)
        | Except.error f => Except.error f
      else
        match (if pid = INVALID_PAGE then none else deletePageSeek pid es) with
        | none => Except.ok (Status.FAIL, left, es)
        | some [] => Except.ok (Status.FAIL, left, es)
        | some (t :: rest) =>
          let targetKey := t.key
          let oldKey := match rest with
            | [] => t.key
            | n :: _ => n.key
          match indexDelete targetKey es with
          | Except.error f => Except.error f
          | Except.ok es2 =>
            match AdjustKey c targetKey oldKey es2 with
            | Except.error f => Except.error f
            | Except.ok (_, es3) => Except.ok (Status.OK, left, es3)

/-! ## Page store and header -/

/-- The index file: the root page id kept in the header page, the pages of the
buffer manager by page id, and the next page id `NewPage` hands out.
Modelled from the spec: the buffer manager (`new_page`, `pin`, `unpin`) is an
external collaborator; every allocation succeeds and a pin succeeds exactly on
an allocated page. -/
structure BTreeFile where
  root : PageID
  pages : List (PageID × Page)
  nextPid : PageID
deriving DecidableEq, Repr

/-- A freshly created index: the header names no root. -/
def BTreeFile.empty : BTreeFile := ⟨INVALID_PAGE, [], 0⟩

/-- Pin a page: the page stored under `pid`, if any. -/
def getPage (pages : List (PageID × Page)) (pid : PageID) : Option Page :=
  match pages with
  | [] => none
  | (q, pg) :: rest => if q = pid then some pg else getPage rest pid

/-- Write a page back under `pid`. -/
def setPage (pages : List (PageID × Page)) (pid : PageID) (pg : Page) :
    List (PageID × Page) :=
  match pages with
  | [] => [(pid, pg)]
  | (q, old) :: rest =>
    if q = pid then (pid, pg) :: rest else (q, old) :: setPage rest pid pg

/-- The call `NewPage`: the fresh page id and the file with the counter advanced. -/
def NewPage (f : BTreeFile) : PageID × BTreeFile :=
  (f.nextPid, { f with nextPid := f.nextPid + 1 })

/-- Set the `prev` link of the leaf stored under `pid` (`SetPrevPage`); on an
index page the same field is the leftmost child. -/
def setPrev (pages : List (PageID × Page)) (pid newPrev : PageID) :
    List (PageID × Page) :=
  match getPage pages pid with
  | some (Page.leaf _ n es) => setPage pages pid (Page.leaf newPrev n es)
  | some (Page.index _ es) => setPage pages pid (Page.index newPrev es)
  | none => pages

/-- Set the `next` link of the leaf stored under `pid` (`SetNextPage`). -/
def setNext (pages : List (PageID × Page)) (pid newNext : PageID) :
    List (PageID × Page) :=
  match getPage pages pid with
  | some (Page.leaf p _ es) => setPage pages pid (Page.leaf p newNext es)
  | _ => pages

/-- The slots of the leaf pinned under `pid`; a page that is absent or not a
leaf has no defined reading as a leaf. -/
def leafSlots (pages : List (PageID × Page)) (pid : PageID) :
    Except Fault (List (Key × RecordID)) :=
  match getPage pages pid with
  | some (Page.leaf _ _ es) => Except.ok es
  | _ => Except.error Fault.undefined

/-- The leftmost child and the slots of the index page pinned under `pid`. -/
def indexSlots (pages : List (PageID × Page)) (pid : PageID) :
    Except Fault (PageID × List IndexEntry) :=
  match getPage pages pid with
  | some (Page.index left es) => Except.ok (left, es)
  | _ => Except.error Fault.undefined

/-- Replace the slots of the leaf under `pid`, keeping its links. -/
def setLeafSlots (pages : List (PageID × Page)) (pid : PageID)
    (es : List (Key × RecordID)) : List (PageID × Page) :=
  match getPage pages pid with
  | some (Page.leaf p n _) => setPage pages pid (Page.leaf p n es)
  | _ => pages

/-- Replace the slots of the index page under `pid`, keeping its leftmost child. -/
def setIndexSlots (pages : List (PageID × Page)) (pid : PageID)
    (es : List IndexEntry) : List (PageID × Page) :=
  match getPage pages pid with
  | some (Page.index left _) => setPage pages pid (Page.index left es)
  | _ => pages

/-! ## Insert (`btfile.cpp`) -/

/-- The moving loop of `Split1LeafNode`: while the new leaf has more free space
than the old one and `GetFirst` on the old leaf did not report `DONE`, the
entry in the buffer `(key, keyRecordID)` is inserted into the new leaf and, when
that succeeded, deleted from the old one. `cur` is the buffer, `done` says
whether the last `GetFirst` returned `DONE`. -/
def split1Loop (c : Config) : Nat → List (Key × RecordID) → List (Key × RecordID) →
    (Key × RecordID) → Bool → Except Fault (List (Key × RecordID) × List (Key × RecordID) × (Key × RecordID))
  | 0, _, _, _, _ => Except.error Fault.fuel
  | fuel + 1, leaf, newLeaf, cur, done =>
    if leafAvail c newLeaf > leafAvail c leaf ∧ done = false then
      let ins := leafInsert c cur.1 cur.2 newLeaf
      let newLeaf2 := if ins.1 ≠ Status.OK then (leafDelete cur.1 cur.2 ins.2).2 else ins.2
      let leaf2 := if ins.1 = Status.OK then (leafDelete cur.1 cur.2 leaf).2 else leaf
      match leaf2 with
      | [] => split1Loop c fuel leaf2 newLeaf2 cur true
      | e :: _ => split1Loop c fuel leaf2 newLeaf2 e false
    else Except.ok (leaf, newLeaf, cur)

/-- The function `Split1LeafNode`: split the root leaf `leafPageID` into a new
left leaf and the old leaf under a new root; returns the status, the new root
page id and the file.  The two new pages are initialised as soon as they are
allocated. -/
def Split1LeafNode (c : Config) (fuel : Nat) (f : BTreeFile) (leafPageID : PageID)
    (newKey : Key) (newRid : RecordID) : Except Fault (Status × PageID × BTreeFile) :=
  let (newRootPageID, f1) := NewPage f
  let pagesR := setPage f1.pages newRootPageID (Page.index INVALID_PAGE [])
  let (newLeafPageID, f2) := NewPage f1
  let pagesL := setPage pagesR newLeafPageID (Page.leaf INVALID_PAGE INVALID_PAGE [])
  match getPage pagesL leafPageID with
  | none => Except.ok (Status.FAIL, newRootPageID, { f2 with pages := pagesL })
  | some (Page.index _ _) => Except.error Fault.undefined
  | some (Page.leaf _ lnext es) =>
    match es with
    | [] => Except.error Fault.undefined
    | e0 :: _ =>
      let ins := leafInsert c e0.1 e0.2 []
      let newLeaf1 := if ins.1 ≠ Status.OK then (leafDelete e0.1 e0.2 ins.2).2 else ins.2
      let leaf1 := if ins.1 = Status.OK then (leafDelete e0.1 e0.2 es).2 else es
      let start : (Key × RecordID) × Bool := match leaf1 with
        | [] => (e0, true)
        | e :: _ => (e, false)
      match split1Loop c fuel leaf1 newLeaf1 start.1 start.2 with
      | Except.error x => Except.error x
      | Except.ok (leaf2, newLeaf2, cur) =>
        let key : Key := match leaf2 with
          | [] => cur.1
          | e :: _ => e.1
        let leaf3 := if KeyCmp newKey key ≥ 0 then (leafInsert c newKey newRid leaf2).2 else leaf2
        let newLeaf3 := if KeyCmp newKey key ≥ 0 then newLeaf2 else (leafInsert c newKey newRid newLeaf2).2
        let key2 : Key := match leaf3 with
          | [] => key
          | e :: _ => e.1
        let rootSlots := (indexInsert c key2 leafPageID []).2
        let pages1 := setPage pagesL newRootPageID (Page.index newLeafPageID rootSlots)
        let pages2 := setPage pages1 newLeafPageID (Page.leaf INVALID_PAGE leafPageID newLeaf3)
        let pages3 := setPage pages2 leafPageID (Page.leaf newLeafPageID lnext leaf3)
        Except.ok (Status.OK, newRootPageID, { f2 with pages := pages3 })

/-- The moving loop of the leaf split in `_Insert`: while the new leaf has more
free space than the old one and `GetLast` on the old leaf did not report
`DONE`, the last entry of the old leaf is inserted into the new leaf and
deleted from the old one. -/
def leafSplitLoop (c : Config) : Nat → List (Key × RecordID) → List (Key × RecordID) →
    Except Fault (List (Key × RecordID) × List (Key × RecordID))
  | 0, _, _ => Except.error Fault.fuel
  | fuel + 1, leaf, newLeaf =>
    match leaf.getLast? with
    | none => Except.ok (leaf, newLeaf)
    | some e =>
      if leafAvail c newLeaf > leafAvail c leaf then
        leafSplitLoop c fuel (leafDelete e.1 e.2 leaf).2 (leafInsert c e.1 e.2 newLeaf).2
      else Except.ok (leaf, newLeaf)

/-- The moving loop of the index split in `_Insert`: the last separator of the
old page is inserted into the new page and deleted from the old one by
`BTIndexPage::Delete`. -/
def indexSplitLoop (c : Config) : Nat → List IndexEntry → List IndexEntry →
    Except Fault (List IndexEntry × List IndexEntry)
  | 0, _, _ => Except.error Fault.fuel
  | fuel + 1, old, new =>
    match old.getLast? with
    | none => Except.ok (old, new)
    | some e =>
      if indexAvail c new > indexAvail c old then
        match indexDelete e.key old with
        | Except.error x => Except.error x
        | Except.ok old2 => indexSplitLoop c fuel old2 (indexInsert c e.key e.pid new).2
      else Except.ok (old, new)

/-- The leaf branch of `_Insert`, entered with the leaf `nodePid` pinned and read
as `(lprev, lnext, es)`. -/
def insertLeaf (c : Config) (fuel : Nat) (f : BTreeFile) (nodePid lprev lnext : PageID)
    (es : List (Key × RecordID)) (targetKey : Key) (targetId : RecordID) :
    Except Fault (Status × PageID × Option Key × BTreeFile) :=
  if leafAvail c es ≥ GetKeyDataLength c targetKey NodeType.LEAF_NODE then
    let ins := leafInsert c targetKey targetId es
    Except.ok (ins.1, INVALID_PAGE, none,
      { f with pages := setPage f.pages nodePid (Page.leaf lprev lnext ins.2) })
  else
    let (newLeafPid, f1) := NewPage f
    match leafSplitLoop c fuel es [] with
    | Except.error x => Except.error x
    | Except.ok (leaf2, newLeaf2) =>
      match newLeaf2 with
      | [] => Except.error Fault.undefined
      | e :: _ =>
        let insNew := leafInsert c targetKey targetId newLeaf2
        let insOld := leafInsert c targetKey targetId leaf2
        let res := if KeyCmp targetKey e.1 ≥ 0 then insNew.1 else insOld.1
        let newLeaf3 := if KeyCmp targetKey e.1 ≥ 0 then insNew.2 else newLeaf2
        let leaf3 := if KeyCmp targetKey e.1 ≥ 0 then leaf2 else insOld.2
        let newKey : Key := match newLeaf3 with
          | [] => e.1
          | e2 :: _ => e2.1
        let pages1 := setPage f1.pages newLeafPid
          (Page.leaf INVALID_PAGE INVALID_PAGE newLeaf3)
        let pages2 := setLeafSlots pages1 nodePid leaf3
        if lnext ≠ INVALID_PAGE ∧ getPage pages2 lnext = none then
          -- the neighbour cannot be pinned: `FAIL` before the chain is repaired
          Except.ok (Status.FAIL, newLeafPid, some newKey, { f1 with pages := pages2 })
        else
          let pages3 := if lnext ≠ INVALID_PAGE then setPrev pages2 lnext newLeafPid
            else pages2
          let pages4 := setNext pages3 newLeafPid lnext
          let pages5 := setPrev pages4 newLeafPid nodePid
          let pages6 := setNext pages5 nodePid newLeafPid
          Except.ok (res, newLeafPid, some newKey, { f1 with pages := pages6 })

/-- The index branch of `_Insert` after the recursive call returned the
promotion `(tKey, tempNewPid)`; the index page `nodePid` reads `(left1, es1)`. -/
def insertIndex (c : Config) (fuel : Nat) (f1 : BTreeFile) (nodePid left1 : PageID)
    (es1 : List IndexEntry) (tKey : Key) (tempNewPid : PageID) :
    Except Fault (Status × PageID × Option Key × BTreeFile) :=
  if indexAvail c es1 ≥ GetKeyDataLength c tKey NodeType.INDEX_NODE then
    let ins := indexInsert c tKey tempNewPid es1
    Except.ok (ins.1, INVALID_PAGE, none,
      { f1 with pages := setPage f1.pages nodePid (Page.index left1 ins.2) })
  else
    let (newIndexPid, f2) := NewPage f1
    match indexSplitLoop c fuel es1 [] with
    | Except.error x => Except.error x
    | Except.ok (old2, new2) =>
      match new2 with
      | [] => Except.error Fault.assertion
      | e :: _ =>
        match indexDelete e.key new2 with
        | Except.error x => Except.error x
        | Except.ok new3 =>
          let insNew := indexInsert c tKey tempNewPid new3
          let insOld := indexInsert c tKey tempNewPid old2
          let res2 := if KeyCmp tKey e.key ≥ 0 then insNew.1 else insOld.1
          let new4 := if KeyCmp tKey e.key ≥ 0 then insNew.2 else new3
          let old3 := if KeyCmp tKey e.key ≥ 0 then old2 else insOld.2
          let pages1 := setPage f2.pages newIndexPid (Page.index e.pid new4)
          let pages2 := setPage pages1 nodePid (Page.index left1 old3)
          Except.ok (res2, newIndexPid, some e.key, { f2 with pages := pages2 })

/-- The function `_Insert`: status, `newPid`, `newKey` and the file.  A page that
cannot be pinned makes the call return before `newPid` is written, and every
caller reads `newPid`; that run has no defined result. -/
def _Insert (c : Config) : Nat → BTreeFile → PageID → Key → RecordID →
    Except Fault (Status × PageID × Option Key × BTreeFile)
  | 0, _, _, _, _ => Except.error Fault.fuel
  | fuel + 1, f, nodePid, targetKey, targetId =>
    match getPage f.pages nodePid with
    | none => Except.error Fault.undefined
    | some (Page.leaf lprev lnext es) =>
      insertLeaf c fuel f nodePid lprev lnext es targetKey targetId
    | some (Page.index left es) =>
      let targetPid := (FindPage targetKey left es).1
      match _Insert c fuel f targetPid targetKey targetId with
      | Except.error x => Except.error x
      | Except.ok (res, tempNewPid, tempNewKey, f1) =>
        if tempNewPid = INVALID_PAGE then Except.ok (res, INVALID_PAGE, none, f1)
        else
          match tempNewKey, getPage f1.pages nodePid with
          | none, _ => Except.error Fault.undefined
          | _, none => Except.error Fault.undefined
          | _, some (Page.leaf _ _ _) => Except.error Fault.undefined
          | some tKey, some (Page.index left1 es1) =>
            insertIndex c fuel f1 nodePid left1 es1 tKey tempNewPid

/-- The function `BTreeFile::Insert`.  The status is `none` where control reaches
the end of the function without a `return` statement. -/
def Insert (c : Config) (fuel : Nat) (f : BTreeFile) (key : Key) (rid : RecordID) :
    Except Fault (Option Status × BTreeFile) :=
  if f.root = INVALID_PAGE then
    let (rootPageID, f1) := NewPage f
    let ins := leafInsert c key rid []
    Except.ok (some Status.OK,
      { f1 with root := rootPageID,
                pages := setPage f1.pages rootPageID (Page.leaf INVALID_PAGE INVALID_PAGE ins.2) })
  else
    match getPage f.pages f.root with
    | none => Except.ok (some Status.FAIL, f)
    | some (Page.leaf lprev lnext es) =>
      if leafAvail c es ≥ GetKeyDataLength c key NodeType.LEAF_NODE then
        let ins := leafInsert c key rid es
        Except.ok (none, { f with pages := setPage f.pages f.root (Page.leaf lprev lnext ins.2) })
      else
        match Split1LeafNode c fuel f f.root key rid with
        | Except.error x => Except.error x
        | Except.ok (res, newRootPageID, f1) =>
          if res = Status.OK then Except.ok (none, { f1 with root := newRootPageID })
          else Except.ok (none, f1)
    | some (Page.index _ _) =>
      match _Insert c fuel f f.root key rid with
      | Except.error x => Except.error x
      | Except.ok (_, newPid, newKey, f1) =>
        if newPid ≠ INVALID_PAGE then
          match newKey with
          | none => Except.error Fault.undefined
          | some nk =>
            let (newRootPageID, f2) := NewPage f1
            let slots := (indexInsert c nk newPid []).2
            Except.ok (none,
              { f2 with root := newRootPageID,
                        pages := setPage f2.pages newRootPageID (Page.index f.root slots) })
        else Except.ok (none, f1)

/-! ## Delete (`btfile.cpp`)

The pages `_Delete` has pinned are named by their page ids and every access
goes through the store, so that two names for one page see one page. -/

/-- The redistribution loop of `_Delete` at a leaf: while the node is less than
half full, the first (right sibling) or last (left sibling) entry of the
sibling is read into the buffer, inserted into the node and, when that
succeeded, deleted from the sibling.  When the sibling has no entry left the
buffer keeps what it held. -/
def leafRedistLoop (c : Config) ( rightSibling : Bool) (nodePid siblingPid : PageID) :
    Nat → List (PageID × Page) → Option (Key × RecordID) →
    Except Fault (List (PageID × Page) × Option (Key × RecordID))
  | 0, _, _ => Except.error Fault.fuel
  | fuel + 1, pages, buf =>
    match leafSlots pages nodePid, leafSlots pages siblingPid with
    | Except.ok node, Except.ok sib =>
      if leafAvail c node > c.HEAPPAGE_DATA_SIZE / 2 then
        let got := if rightSibling then sib.head? else sib.getLast?
        let buf2 := match got with
          | some e => some e
          | none => buf
        match buf2 with
        | none => Except.error Fault.undefined
        | some e =>
          let ins := leafInsert c e.1 e.2 node
          let pages1 := setLeafSlots pages nodePid ins.2
          if ins.1 = Status.OK then
            match leafSlots pages1 siblingPid with
            | Except.ok sib1 =>
              leafRedistLoop c rightSibling nodePid siblingPid fuel
                (setLeafSlots pages1 siblingPid (leafDelete e.1 e.2 sib1).2) buf2
            | Except.error x => Except.error x
          else leafRedistLoop c rightSibling nodePid siblingPid fuel pages1 buf2
      else Except.ok (pages, buf)
    | Except.error x, _ => Except.error x
    | _, Except.error x => Except.error x

/-- The merge loop of `_Delete` at a leaf (`while (true)`): the first entry of
the sibling is inserted into the node and deleted from the sibling, until
`GetFirst` on the sibling reports `DONE`. -/
def leafMergeLoop (c : Config) (nodePid siblingPid : PageID) :
    Nat → List (PageID × Page) → Except Fault (List (PageID × Page))
  | 0, _ => Except.error Fault.fuel
  | fuel + 1, pages =>
    match leafSlots pages siblingPid with
    | Except.error x => Except.error x
    | Except.ok [] => Except.ok pages
    | Except.ok (e :: _) =>
      match leafSlots pages nodePid with
      | Except.error x => Except.error x
      | Except.ok node =>
        let pages1 := setLeafSlots pages nodePid (leafInsert c e.1 e.2 node).2
        match leafSlots pages1 siblingPid with
        | Except.error x => Except.error x
        | Except.ok sib1 =>
          leafMergeLoop c nodePid siblingPid fuel
            (setLeafSlots pages1 siblingPid (leafDelete e.1 e.2 sib1).2)

/-- The `next` link of the page under `pid` (`GetNextPage`). -/
def getNext (pages : List (PageID × Page)) (pid : PageID) : Except Fault PageID :=
  match getPage pages pid with
  | some (Page.leaf _ n _) => Except.ok n
  | _ => Except.error Fault.undefined

/-- The `prev` link of the page under `pid` (`GetPrevPage`); on an index page
this is the leftmost child. -/
def getPrev (pages : List (PageID × Page)) (pid : PageID) : Except Fault PageID :=
  match getPage pages pid with
  | some (Page.leaf p _ _) => Except.ok p
  | some (Page.index left _) => Except.ok left
  | none => Except.error Fault.undefined

/-- The leaf branch of `_Delete`, entered with the parent and the node pinned. -/
def deleteLeaf (c : Config) (fuel : Nat) (f : BTreeFile) (parentPid nodePid : PageID)
    (key : Key) (rid : RecordID) :
    Except Fault (Status × PageID × Option Bool × BTreeFile) :=
  match leafSlots f.pages nodePid with
  | Except.error x => Except.error x
  | Except.ok nslots =>
    let del := leafDelete key rid nslots
    let res := del.1
    let pages1 := if res = Status.OK then setLeafSlots f.pages nodePid del.2 else f.pages
    if res = Status.FAIL ∨ leafAvail c del.2 ≤ c.HEAPPAGE_DATA_SIZE / 2 then
      Except.ok (res, INVALID_PAGE, none, { f with pages := pages1 })
    else
      match indexSlots pages1 parentPid with
      | Except.error x => Except.error x
      | Except.ok (pleft, pslots) =>
        match FindSiblingForChild nodePid pleft pslots with
        | Except.error x => Except.error x
        | Except.ok (_, none, _) => Except.error Fault.undefined
        | Except.ok (_, _, none) => Except.error Fault.undefined
        | Except.ok (_, some siblingPid, some rightSibling) =>
          match getPage pages1 siblingPid with
          | none =>
            Except.ok (Status.FAIL, INVALID_PAGE, some rightSibling, { f with pages := pages1 })
          | some (Page.index _ _) => Except.error Fault.undefined
          | some (Page.leaf _ _ sslots) =>
            let buf0 : Option (Key × RecordID) :=
              if rightSibling then sslots.head? else del.2.head?
            match buf0 with
            | none => Except.error Fault.undefined
            | some b0 =>
              let oldParentKey := (FindKey b0.1 pslots).2
              match leafRedistLoop c rightSibling nodePid siblingPid fuel pages1 buf0 with
              | Except.error x => Except.error x
              | Except.ok (pages2, buf2) =>
                match leafSlots pages2 nodePid, leafSlots pages2 siblingPid,
                    indexSlots pages2 parentPid with
                | Except.ok node2, Except.ok sib2, Except.ok (_, pslots2) =>
                  if leafAvail c sib2 ≤ c.HEAPPAGE_DATA_SIZE / 2 then
                    let got := if rightSibling then sib2.head? else node2.head?
                    let tempKey : Option Key := match got with
                      | some e => some e.1
                      | none => buf2.map Prod.fst
                    match tempKey, oldParentKey with
                    | none, _ => Except.error Fault.undefined
                    | _, none => Except.error Fault.undefined
                    | some tk, some opk =>
                      match AdjustKey c tk opk pslots2 with
                      | Except.error x => Except.error x
                      | Except.ok (_, pslots3) =>
                        Except.ok (res, INVALID_PAGE, some rightSibling,
                          { f with pages := setIndexSlots pages2 parentPid pslots3 })
                  else if leafAvail c sib2 + leafAvail c node2 ≥ c.HEAPPAGE_DATA_SIZE then
                    match leafMergeLoop c nodePid siblingPid fuel pages2 with
                    | Except.error x => Except.error x
                    | Except.ok pages3 =>
                      let link := if rightSibling then getNext pages3 siblingPid
                        else getPrev pages3 siblingPid
                      match link with
                      | Except.error x => Except.error x
                      | Except.ok nb =>
                        if nb ≠ INVALID_PAGE ∧ getPage pages3 nb = none then
                          Except.ok (Status.FAIL, INVALID_PAGE, some rightSibling,
                            { f with pages := pages3 })
                        else if rightSibling then
                          let pages4 := if nb ≠ INVALID_PAGE then setPrev pages3 nb nodePid
                            else pages3
                          Except.ok (res, siblingPid, some rightSibling,
                            { f with pages := setNext pages4 nodePid nb })
                        else
                          let pages4 := if nb ≠ INVALID_PAGE then setNext pages3 nb nodePid
                            else pages3
                          Except.ok (res, siblingPid, some rightSibling,
                            { f with pages := setPrev pages4 nodePid nb })
                  else
                    Except.ok (res, INVALID_PAGE, some rightSibling, { f with pages := pages2 })
                | _, _, _ => Except.error Fault.undefined

/-- The store and the key buffers the index branch of `_Delete` works on: the
buffer `tempKey`, the buffer first bound to `keyToAdjust`, and whether
`keyToAdjust` has been re-pointed at `tempKey` (after `keyToAdjust = tempKey`
both names denote one buffer). -/
structure IdxState where
  pages : List (PageID × Page)
  tempKey : Option Key
  ownKey : Option Key
  aliased : Bool
deriving DecidableEq, Repr

/-- The content of `keyToAdjust` as the code reads it. -/
def IdxState.keyToAdjust (st : IdxState) : Option Key :=
  if st.aliased then st.tempKey else st.ownKey

/-- The call `page->Insert(key, child, rid)` on the index page under `pid`, the
status dropped. -/
def pgIndexInsert (c : Config) (pages : List (PageID × Page)) (pid : PageID)
    (key : Key) (child : PageID) : Except Fault (List (PageID × Page)) :=
  match indexSlots pages pid with
  | Except.error x => Except.error x
  | Except.ok (_, es) => Except.ok (setIndexSlots pages pid (indexInsert c key child es).2)

/-- The call `page->Delete(key, rid)` on the index page under `pid`. -/
def pgIndexDelete (pages : List (PageID × Page)) (pid : PageID) (key : Key) :
    Except Fault (List (PageID × Page)) :=
  match indexSlots pages pid with
  | Except.error x => Except.error x
  | Except.ok (_, es) =>
    match indexDelete key es with
    | Except.error x => Except.error x
    | Except.ok es2 => Except.ok (setIndexSlots pages pid es2)

/-- The call `page->AdjustKey(newKey, oldKey)` on the index page under `pid`,
the status dropped. -/
def pgAdjustKey (c : Config) (pages : List (PageID × Page)) (pid : PageID)
    (newKey oldKey : Key) : Except Fault (List (PageID × Page)) :=
  match indexSlots pages pid with
  | Except.error x => Except.error x
  | Except.ok (_, es) =>
    match AdjustKey c newKey oldKey es with
    | Except.error x => Except.error x
    | Except.ok (_, es2) => Except.ok (setIndexSlots pages pid es2)

/-- The tail shared by the loop bodies of the index branch:
`parent->AdjustKey(tempKey, keyToAdjust)`, `keyToAdjust = tempKey`,
`SetLeftLink(tempPid)` on the sibling (right sibling) or on the node (left
sibling), and `sibling->Delete(tempKey, tempRid)`. -/
def idxRotate (c : Config) ( rightSibling : Bool) (parentPid nodePid siblingPid : PageID)
    (st : IdxState) (tempPid : PageID) : Except Fault IdxState :=
  match st.tempKey, st.keyToAdjust with
  | none, _ => Except.error Fault.undefined
  | _, none => Except.error Fault.undefined
  | some tk, some kta =>
    match pgAdjustKey c st.pages parentPid tk kta with
    | Except.error x => Except.error x
    | Except.ok pages1 =>
      let pages2 := setPrev pages1 (if rightSibling then siblingPid else nodePid) tempPid
      match pgIndexDelete pages2 siblingPid tk with
      | Except.error x => Except.error x
      | Except.ok pages3 => Except.ok { st with pages := pages3, aliased := true }

/-- One pass through the body of the index redistribution loop. -/
def idxRedistStep (c : Config) ( rightSibling : Bool) (parentPid nodePid siblingPid : PageID)
    (st : IdxState) : Except Fault IdxState :=
  match indexSlots st.pages siblingPid with
  | Except.error x => Except.error x
  | Except.ok (sleft, sslots) =>
    let got := if rightSibling then sslots.head? else sslots.getLast?
    let st1 : IdxState := match got with
      | some e => { st with tempKey := some e.key }
      | none => st
    let tempPid : PageID := match got with
      | some e => e.pid
      | none => INVALID_PAGE
    match st1.keyToAdjust, indexSlots st.pages nodePid with
    | none, _ => Except.error Fault.undefined
    | _, Except.error x => Except.error x
    | some kta, Except.ok (nleft, _) =>
      match pgIndexInsert c st1.pages nodePid kta (if rightSibling then sleft else nleft) with
      | Except.error x => Except.error x
      | Except.ok pages1 =>
        idxRotate c rightSibling parentPid nodePid siblingPid { st1 with pages := pages1 } tempPid

/-- The index redistribution loop: while the node is less than half full. -/
def idxRedistLoop (c : Config) ( rightSibling : Bool) (parentPid nodePid siblingPid : PageID) :
    Nat → IdxState → Except Fault IdxState
  | 0, _ => Except.error Fault.fuel
  | fuel + 1, st =>
    match indexSlots st.pages nodePid with
    | Except.error x => Except.error x
    | Except.ok (_, nslots) =>
      if indexAvail c nslots > c.HEAPPAGE_DATA_SIZE / 2 then
        match idxRedistStep c rightSibling parentPid nodePid siblingPid st with
        | Except.error x => Except.error x
        | Except.ok st2 => idxRedistLoop c rightSibling parentPid nodePid siblingPid fuel st2
      else Except.ok st

/-- The index merge loop (`while (true)`), left at the first `DONE`. -/
def idxMergeLoop (c : Config) ( rightSibling : Bool) (parentPid nodePid siblingPid : PageID) :
    Nat → IdxState → Except Fault IdxState
  | 0, _ => Except.error Fault.fuel
  | fuel + 1, st =>
    if rightSibling then
      match indexSlots st.pages siblingPid with
      | Except.error x => Except.error x
      | Except.ok (sleft, sslots) =>
        let got := sslots.head?
        let st1 : IdxState := match got with
          | some e => { st with tempKey := some e.key }
          | none => st
        match st1.keyToAdjust with
        | none => Except.error Fault.undefined
        | some kta =>
          match pgIndexInsert c st1.pages nodePid kta sleft with
          | Except.error x => Except.error x
          | Except.ok pages1 =>
            match got with
            | none => Except.ok { st1 with pages := pages1 }
            | some e =>
              match idxRotate c true parentPid nodePid siblingPid
                  { st1 with pages := pages1 } e.pid with
              | Except.error x => Except.error x
              | Except.ok st3 =>
                idxMergeLoop c rightSibling parentPid nodePid siblingPid fuel st3
    else
      match st.keyToAdjust, indexSlots st.pages nodePid with
      | none, _ => Except.error Fault.undefined
      | _, Except.error x => Except.error x
      | some kta, Except.ok (nleft, _) =>
        match pgIndexInsert c st.pages nodePid kta nleft with
        | Except.error x => Except.error x
        | Except.ok pages1 =>
          match indexSlots pages1 siblingPid with
          | Except.error x => Except.error x
          | Except.ok (sleft, sslots) =>
            match sslots.getLast? with
            | none => Except.ok { st with pages := setPrev pages1 nodePid sleft }
            | some e =>
              match idxRotate c false parentPid nodePid siblingPid
                  { st with pages := pages1, tempKey := some e.key } e.pid with
              | Except.error x => Except.error x
              | Except.ok st3 =>
                idxMergeLoop c rightSibling parentPid nodePid siblingPid fuel st3

/-- The index branch of `_Delete` after the recursive call reported a merged
child `tempOldPid`: remove the child from the node, then rebalance the node
against a sibling found through the parent.  The `rightSibling` written here
is a local variable of the branch; the output parameter of that name is never
written (`none`). -/
def deleteIndex (c : Config) (fuel : Nat) (f : BTreeFile) (parentPid nodePid : PageID)
    (res : Status) (tempOldPid : PageID) (tempRightSibling : Option Bool) :
    Except Fault (Status × PageID × Option Bool × BTreeFile) :=
  match indexSlots f.pages nodePid with
  | Except.error x => Except.error x
  | Except.ok (nleft, nslots) =>
    match DeletePage c tempOldPid tempRightSibling nleft nslots with
    | Except.error x => Except.error x
    | Except.ok (_, nleft1, nslots1) =>
      let pagesN := setPage f.pages nodePid (Page.index nleft1 nslots1)
      if indexAvail c nslots1 ≤ c.HEAPPAGE_DATA_SIZE / 2 then
        Except.ok (res, INVALID_PAGE, none, { f with pages := pagesN })
      else
        match indexSlots pagesN parentPid with
        | Except.error x => Except.error x
        | Except.ok (pleft, pslots) =>
          match FindSiblingForChild nodePid pleft pslots with
          | Except.error x => Except.error x
          | Except.ok (_, none, _) => Except.error Fault.undefined
          | Except.ok (_, _, none) => Except.error Fault.undefined
          | Except.ok (_, some siblingPid, some rightSibling) =>
            match getPage pagesN siblingPid with
            | none => Except.ok (Status.FAIL, INVALID_PAGE, none, { f with pages := pagesN })
            | some (Page.leaf _ _ _) => Except.error Fault.undefined
            | some (Page.index _ _) =>
              let kta := (FindKeyWithPage (if rightSibling then siblingPid else nodePid)
                none pleft pslots).2.1
              match idxRedistLoop c rightSibling parentPid nodePid siblingPid fuel
                  ⟨pagesN, none, kta, false⟩ with
              | Except.error x => Except.error x
              | Except.ok st1 =>
                match indexSlots st1.pages nodePid, indexSlots st1.pages siblingPid with
                | Except.ok (_, nslots2), Except.ok (_, sslots2) =>
                  if indexAvail c sslots2 ≤ c.HEAPPAGE_DATA_SIZE / 2 then
                    Except.ok (res, INVALID_PAGE, none, { f with pages := st1.pages })
                  else if indexAvail c sslots2 + indexAvail c nslots2
                      ≥ c.HEAPPAGE_DATA_SIZE then
                    match idxMergeLoop c rightSibling parentPid nodePid siblingPid fuel st1 with
                    | Except.error x => Except.error x
                    | Except.ok st2 =>
                      match indexSlots st2.pages siblingPid with
                      | Except.error x => Except.error x
                      | Except.ok (_, []) =>
                        Except.ok (res, siblingPid, none, { f with pages := st2.pages })
                      | Except.ok (_, _ :: _) =>
                        Except.ok (res, INVALID_PAGE, none, { f with pages := st2.pages })
                  else Except.ok (res, INVALID_PAGE, none, { f with pages := st1.pages })
                | _, _ => Except.error Fault.undefined

/-- The function `_Delete`: status, `oldPid`, the output parameter `rightSibling`
(`none` while unwritten) and the file. -/
def _Delete (c : Config) : Nat → BTreeFile → PageID → PageID → Key → RecordID →
    Except Fault (Status × PageID × Option Bool × BTreeFile)
  | 0, _, _, _, _, _ => Except.error Fault.fuel
  | fuel + 1, f, parentPid, nodePid, key, rid =>
    match getPage f.pages parentPid with
    | none => Except.ok (Status.FAIL, INVALID_PAGE, none, f)
    | some _ =>
      match getPage f.pages nodePid with
      | none => Except.ok (Status.FAIL, INVALID_PAGE, none, f)
      | some (Page.leaf _ _ _) => deleteLeaf c fuel f parentPid nodePid key rid
      | some (Page.index nleft nslots) =>
        let targetPid := (FindPage key nleft nslots).1
        match _Delete c fuel f nodePid targetPid key rid with
        | Except.error x => Except.error x
        | Except.ok (res, tempOldPid, tempRightSibling, f1) =>
          if res = Status.FAIL ∨ tempOldPid = INVALID_PAGE then
            Except.ok (res, INVALID_PAGE, none, f1)
          else deleteIndex c fuel f1 parentPid nodePid res tempOldPid tempRightSibling

/-- The function `BTreeFile::Delete`. -/
def Delete (c : Config) (fuel : Nat) (f : BTreeFile) (key : Key) (rid : RecordID) :
    Except Fault (Status × BTreeFile) :=
  match getPage f.pages f.root with
  | none => Except.ok (Status.FAIL, f)
  | some (Page.leaf _ _ es) =>
    let del := leafDelete key rid es
    let pages1 := if del.1 = Status.OK then setLeafSlots f.pages f.root del.2 else f.pages
    if del.2.length = 0 then Except.ok (del.1, { f with root := INVALID_PAGE, pages := pages1 })
    else Except.ok (del.1, { f with pages := pages1 })
  | some (Page.index left es) =>
    let childPid := GetPageID key left es
    match _Delete c fuel f f.root childPid key rid with
    | Except.error x => Except.error x
    | Except.ok (res, oldPid, rightSibling, f1) =>
      if res = Status.FAIL then Except.ok (Status.FAIL, f1)
      else if oldPid ≠ INVALID_PAGE then
        match indexSlots f1.pages f.root with
        | Except.error x => Except.error x
        | Except.ok (left1, es1) =>
          match DeletePage c oldPid rightSibling left1 es1 with
          | Except.error x => Except.error x
          | Except.ok (_, left2, es2) =>
            let pages2 := setPage f1.pages f.root (Page.index left2 es2)
            match es2 with
            | [] => Except.ok (res, { f1 with root := left2, pages := pages2 })
            | _ :: _ => Except.ok (res, { f1 with pages := pages2 })
      else Except.ok (res, f1)

/-! ## Search and scan (`btfile.cpp`, `btfilescan.cpp`) -/

/-- The function `_Search` together with `_SearchIndex`: the status and
`foundID` (`none` while unwritten).  The status of `_SearchIndex` is dropped
and `OK` is returned once the page at hand could be pinned. -/
def _Search : Nat → List (PageID × Page) → Key → PageID →
    Except Fault (Status × Option PageID)
  | 0, _, _, _ => Except.error Fault.fuel
  | fuel + 1, pages, key, currID =>
    match getPage pages currID with
    | none => Except.ok (Status.FAIL, none)
    | some (Page.leaf _ _ _) => Except.ok (Status.OK, some currID)
    | some (Page.index left es) =>
      match _Search fuel pages key (GetPageID key left es) with
      | Except.error x => Except.error x
      | Except.ok (_, found) => Except.ok (Status.OK, found)

/-- The function `BTreeFile::Search`. -/
def Search (fuel : Nat) (f : BTreeFile) (key : Key) : Except Fault (Status × Option PageID) :=
  if f.root = INVALID_PAGE then Except.ok (Status.DONE, some INVALID_PAGE)
  else
    match _Search fuel f.pages key f.root with
    | Except.error x => Except.error x
    | Except.ok (st, found) =>
      if st ≠ Status.OK then Except.ok (Status.FAIL, found) else Except.ok (Status.OK, found)

/-- The function `GetLeftmostLeaf`: follow the leftmost child down to a leaf. -/
def GetLeftmostLeaf : Nat → List (PageID × Page) → PageID → Except Fault PageID
  | 0, _, _ => Except.error Fault.fuel
  | fuel + 1, pages, curPid =>
    if curPid = INVALID_PAGE then Except.ok curPid
    else
      match getPage pages curPid with
      | none => Except.ok INVALID_PAGE
      | some (Page.leaf _ _ _) => Except.ok curPid
      | some (Page.index left _) => GetLeftmostLeaf fuel pages left

/-- The scan cursor `BTreeFileScan`; `crid` is the slot number of the current
record and `pid` the current leaf, both `none` while never set. -/
structure BTreeFileScan where
  firstTime : Bool
  lowKey : Option Key
  highKey : Option Key
  crid : Option Nat
  pid : Option PageID
deriving DecidableEq, Repr

/-- The positioning loop of `OpenScan`, `while (strcmp(lowKey, key) != 0)`:
`GetNext` on the start leaf advances the slot number and, past the last slot,
returns `DONE` and leaves the key buffer as it is. -/
def openScanLoop (lowKey : Key) (es : List (Key × RecordID)) :
    Nat → Nat → Key → Except Fault (Nat × Key)
  | 0, _, _ => Except.error Fault.fuel
  | fuel + 1, slotNo, key =>
    if KeyCmp lowKey key ≠ 0 then
      match es.get? (slotNo + 1) with
      | some e => openScanLoop lowKey es fuel (slotNo + 1) e.1
      | none => openScanLoop lowKey es fuel (slotNo + 1) key
    else Except.ok (slotNo, key)

/-- The function `BTreeFile::OpenScan`. -/
def OpenScan (fuel : Nat) (f : BTreeFile) (lowKey highKey : Option Key) :
    Except Fault BTreeFileScan :=
  let scan : BTreeFileScan := ⟨true, lowKey, highKey, none, none⟩
  if f.root = INVALID_PAGE then Except.ok { scan with pid := some INVALID_PAGE }
  else
    let start : Except Fault (Option (Option PageID)) :=
      match lowKey with
      | none =>
        match GetLeftmostLeaf fuel f.pages f.root with
        | Except.error x => Except.error x
        | Except.ok p => Except.ok (some (some p))
      | some lk =>
        match _Search fuel f.pages lk f.root with
        | Except.error x => Except.error x
        | Except.ok (st, found) =>
          if st ≠ Status.OK then Except.ok none else Except.ok (some found)
    match start with
    | Except.error x => Except.error x
    | Except.ok none => Except.ok scan
    | Except.ok (some none) => Except.error Fault.undefined
    | Except.ok (some (some startPageID)) =>
      let scan1 := { scan with pid := some startPageID }
      match getPage f.pages startPageID with
      | none => Except.error Fault.undefined
      | some (Page.index _ _) => Except.error Fault.undefined
      | some (Page.leaf _ _ es) =>
        match es with
        | [] => Except.ok scan1
        | e :: _ =>
          match lowKey with
          | none => Except.ok { scan1 with crid := some 0 }
          | some lk =>
            match openScanLoop lk es fuel 0 e.1 with
            | Except.error x => Except.error x
            | Except.ok (slotNo, key) =>
              Except.ok { scan1 with lowKey := some key, crid := some slotNo }

/-- The function `BTreeFileScan::GetNext`: the status, the entry handed out on
`OK`, and the cursor. -/
def GetNext (pages : List (PageID × Page)) (scan : BTreeFileScan) :
    Except Fault (Status × Option (Key × RecordID) × BTreeFileScan) :=
  match scan.pid with
  | none => Except.error Fault.undefined
  | some pid =>
    if pid = INVALID_PAGE then Except.ok (Status.DONE, none, scan)
    else
      match getPage pages pid, scan.crid with
      | some (Page.leaf _ next es), some slot =>
        let slot1 := if scan.firstTime then slot else slot + 1
        let scan1 := { scan with firstTime := false, crid := some slot1 }
        let step : Except Fault (Option ((Key × RecordID) × BTreeFileScan)) :=
          match es.get? slot1 with
          | some e => Except.ok (some (e, scan1))
          | none =>
            if next = INVALID_PAGE then Except.ok none
            else
              match getPage pages next with
              | some (Page.leaf _ _ (e :: _)) =>
                Except.ok (some (e, { scan1 with pid := some next, crid := some 0 }))
              | _ => Except.error Fault.undefined
        match step with
        | Except.error x => Except.error x
        | Except.ok none => Except.ok (Status.DONE, none, scan1)
        | Except.ok (some (e, scan2)) =>
          match scan2.highKey with
          | none => Except.ok (Status.OK, some e, scan2)
          | some hk =>
            if KeyCmp e.1 hk ≤ 0 then Except.ok (Status.OK, some e, scan2)
            else Except.ok (Status.DONE, none, scan2)
      | _, _ => Except.error Fault.undefined

/-- Call `GetNext` until it returns `DONE` and collect the entries handed out. -/
def scanAll (pages : List (PageID × Page)) : Nat → BTreeFileScan →
    Except Fault (List (Key × RecordID))
  | 0, _ => Except.error Fault.fuel
  | fuel + 1, scan =>
    match GetNext pages scan with
    | Except.error x => Except.error x
    | Except.ok (Status.OK, some e, scan1) =>
      match scanAll pages fuel scan1 with
      | Except.error x => Except.error x
      | Except.ok rest => Except.ok (e :: rest)
    | Except.ok (_, _, _) => Except.ok []

/-- Open a scan and read it to the end. -/
def scan (fuel : Nat) (f : BTreeFile) (lowKey highKey : Option Key) :
    Except Fault (List (Key × RecordID)) :=
  match OpenScan fuel f lowKey highKey with
  | Except.error x => Except.error x
  | Except.ok sc => scanAll f.pages fuel sc

/-- Apply a sequence of `Insert` calls, dropping the statuses. -/
def insertAll (c : Config) (fuel : Nat) : BTreeFile → List (Key × RecordID) →
    Except Fault BTreeFile
  | f, [] => Except.ok f
  | f, e :: es =>
    match Insert c fuel f e.1 e.2 with
    | Except.error x => Except.error x
    | Except.ok (_, f1) => insertAll c fuel f1 es

/-- A call of the index interface that changes the tree. -/
inductive Op where
  | Insert (key : Key) (rid : RecordID)
  | Delete (key : Key) (rid : RecordID)
deriving DecidableEq, Repr

/-- Apply a sequence of `Insert` and `Delete` calls, dropping the statuses. -/
def applyOps (c : Config) (fuel : Nat) : BTreeFile → List Op → Except Fault BTreeFile
  | f, [] => Except.ok f
  | f, Op.Insert key rid :: ops =>
    match Insert c fuel f key rid with
    | Except.error x => Except.error x
    | Except.ok (_, f1) => applyOps c fuel f1 ops
  | f, Op.Delete key rid :: ops =>
    match Delete c fuel f key rid with
    | Except.error x => Except.error x
    | Except.ok (_, f1) => applyOps c fuel f1 ops

/-! ## Notions the properties are stated with -/

/-- The entries of all leaf pages of a store, page by page in slot order. -/
def allLeafEntries : List (PageID × Page) → List (Key × RecordID)
  | [] => []
  | (_, Page.leaf _ _ es) :: rest => es ++ allLeafEntries rest
  | (_, Page.index _ _) :: rest => allLeafEntries rest

/-- Check that the keys of a sequence of entries ascend weakly. -/
def keysAscending : List (Key × RecordID) → Bool
  | [] => true
  | [_] => true
  | a :: b :: rest => decide (KeyCmp a.1 b.1 ≤ 0) && keysAscending (b :: rest)

/-- Weakly ascending key order of a sequence of entries. -/
def KeysAscending (l : List (Key × RecordID)) : Prop := keysAscending l = true

instance (l : List (Key × RecordID)) : Decidable (KeysAscending l) :=
  inferInstanceAs (Decidable (keysAscending l = true))

/-- The entries read forward from the first slot of the leaf `pid` along the
`next` links, for at most `fuel` leaves. -/
def chainEntries (pages : List (PageID × Page)) : Nat → PageID → List (Key × RecordID)
  | 0, _ => []
  | fuel + 1, pid =>
    match getPage pages pid with
    | some (Page.leaf _ next es) => es ++ chainEntries pages fuel next
    | _ => []

/-- The leaves met by following `next` from the leaf `pid`, for at most `fuel`
leaves. -/
def leafChain (pages : List (PageID × Page)) : Nat → PageID → List PageID
  | 0, _ => []
  | fuel + 1, pid =>
    match getPage pages pid with
    | some (Page.leaf _ next _) => pid :: leafChain pages fuel next
    | _ => []

/-- The child pointers of an index page: the leftmost child, then the slots. -/
def children (left : PageID) (es : List IndexEntry) : List PageID :=
  left :: es.map IndexEntry.pid

/-- The leaves reachable from `pid` through child pointers in at most `fuel`
steps, each with its depth below `pid`, left to right. -/
def leavesBelow (pages : List (PageID × Page)) : Nat → PageID → Nat → List (PageID × Nat)
  | 0, _, _ => []
  | fuel + 1, pid, depth =>
    match getPage pages pid with
    | some (Page.leaf _ _ _) => [(pid, depth)]
    | some (Page.index left es) =>
      ((children left es).map (fun q => leavesBelow pages fuel q (depth + 1))).flatten
    | none => []

/-- The page reached from `pid` by `depth` child pointers. -/
inductive ReachAt (pages : List (PageID × Page)) : PageID → Nat → PageID → Prop where
  | here (p : PageID) : ReachAt pages p 0 p
  | step (p q r : PageID) (d : Nat) (left : PageID) (es : List IndexEntry) :
      getPage pages p = some (Page.index left es) → q ∈ children left es →
      ReachAt pages q d r → ReachAt pages p (d + 1) r

/-- All leaves below the root named by the header are at the same depth. -/
def Balanced (f : BTreeFile) : Prop :=
  ∀ p q d1 d2, ReachAt f.pages f.root d1 p → ReachAt f.pages f.root d2 q →
    (∃ a b es, getPage f.pages p = some (Page.leaf a b es)) →
    (∃ a b es, getPage f.pages q = some (Page.leaf a b es)) → d1 = d2

/-- The leaf the descent of `Delete` and `_Delete` reaches from `pid`: at each
index node the child `FindPage` selects (the root uses `GetPageID`). -/
def deleteDescent : Nat → List (PageID × Page) → Key → PageID → Option PageID
  | 0, _, _, _ => none
  | fuel + 1, pages, key, pid =>
    match getPage pages pid with
    | some (Page.leaf _ _ _) => some pid
    | some (Page.index left es) => deleteDescent fuel pages key (FindPage key left es).1
    | none => none

/-- The index is not empty: a root that is a leaf holds an entry. -/
def NonEmptyIndex (f : BTreeFile) : Prop :=
  ∀ a b es, getPage f.pages f.root = some (Page.leaf a b es) → es ≠ []

/-- A small page size for worked examples: four leaf entries or six index
entries with one-byte keys fill a page. -/
def cfg40 : Config := ⟨40, 8, 4⟩

/-- A page size that is not a multiple of the entry size. -/
def cfg45 : Config := ⟨45, 8, 4⟩

/-- Nine inserts with the duplicate keys "b", "c" and "a". -/
def dupInserts : List (Key × RecordID) :=
  [([98], ⟨1, 0⟩), ([98], ⟨1, 1⟩), ([98], ⟨1, 2⟩), ([99], ⟨1, 3⟩), ([97], ⟨1, 4⟩),
   ([97], ⟨1, 5⟩), ([97], ⟨1, 6⟩), ([99], ⟨1, 7⟩), ([99], ⟨1, 8⟩)]

/-- The index after `dupInserts` under `cfg40`. -/
def dupTree : BTreeFile :=
  ⟨1, [(0, Page.leaf 3 (-1) [([98], ⟨1, 2⟩), ([99], ⟨1, 3⟩)]),
       (1, Page.index 2 [⟨[98], 0, 6⟩, ⟨[98], 3, 6⟩]),
       (2, Page.leaf (-1) 3 [([97], ⟨1, 4⟩), ([97], ⟨1, 5⟩), ([97], ⟨1, 6⟩)]),
       (3, Page.leaf 2 0 [([98], ⟨1, 1⟩), ([98], ⟨1, 0⟩), ([99], ⟨1, 7⟩), ([99], ⟨1, 8⟩)])], 4⟩

/-- Five inserts of the key "b" with different record ids. -/
def fiveB : List (Key × RecordID) :=
  [([98], ⟨9, 1⟩), ([98], ⟨9, 2⟩), ([98], ⟨9, 3⟩), ([98], ⟨9, 4⟩), ([98], ⟨9, 5⟩)]

/-- The index after `fiveB` under `cfg40`: the root leaf was split. -/
def fiveBTree : BTreeFile :=
  ⟨1, [(0, Page.leaf 2 (-1) [([98], ⟨9, 3⟩), ([98], ⟨9, 4⟩), ([98], ⟨9, 5⟩)]),
       (1, Page.index 2 [⟨[98], 0, 6⟩]),
       (2, Page.leaf (-1) 0 [([98], ⟨9, 1⟩), ([98], ⟨9, 2⟩)])], 3⟩

/-- The index that holds the single entry `("b", (1, 0))`. -/
def oneBTree : BTreeFile :=
  ⟨0, [(0, Page.leaf (-1) (-1) [([98], ⟨1, 0⟩)])], 1⟩

/-- Nine calls with pairwise distinct keys ("e", "h", "a", "c", "f", "g", then
delete "c", then "b", "d") that lead to `chainTree` under `cfg45`. -/
def chainOps : List Op :=
  [Op.Insert [101] ⟨1, 0⟩, Op.Insert [104] ⟨1, 1⟩, Op.Insert [97] ⟨1, 2⟩,
   Op.Insert [99] ⟨1, 3⟩, Op.Insert [102] ⟨1, 4⟩, Op.Insert [103] ⟨1, 5⟩,
   Op.Delete [99] ⟨1, 3⟩, Op.Insert [98] ⟨1, 6⟩, Op.Insert [100] ⟨1, 7⟩]

/-- The index after `chainOps`: the chain of leaves is 2, 3, 0. -/
def chainTree : BTreeFile :=
  ⟨1, [(0, Page.leaf 3 (-1) [([103], ⟨1, 5⟩), ([104], ⟨1, 1⟩)]),
       (1, Page.index 2 [⟨[101], 0, 6⟩, ⟨[101], 3, 6⟩]),
       (2, Page.leaf (-1) 3 [([97], ⟨1, 2⟩), ([98], ⟨1, 6⟩), ([100], ⟨1, 7⟩)]),
       (3, Page.leaf 2 0 [([101], ⟨1, 0⟩), ([102], ⟨1, 4⟩)])], 4⟩

/-- The index after `Delete("f", (1,4))` on `chainTree`: leaf 3 is its own
neighbour on both sides. -/
def chainTreeAfter : BTreeFile :=
  ⟨1, [(0, Page.leaf 3 (-1) []),
       (1, Page.index 2 [⟨[101], 3, 6⟩]),
       (2, Page.leaf (-1) 3 [([97], ⟨1, 2⟩), ([98], ⟨1, 6⟩), ([100], ⟨1, 7⟩)]),
       (3, Page.leaf 3 3 [([101], ⟨1, 0⟩), ([103], ⟨1, 5⟩), ([104], ⟨1, 1⟩)])], 4⟩

/-- Thirteen calls with pairwise distinct keys "a" to "j" that lead to
`dupEntryTree` under `cfg45`. -/
def dupEntryOps : List Op :=
  [Op.Insert [100] ⟨1, 0⟩, Op.Insert [101] ⟨1, 1⟩, Op.Insert [106] ⟨1, 2⟩,
   Op.Insert [97] ⟨1, 3⟩, Op.Insert [98] ⟨1, 4⟩, Op.Insert [99] ⟨1, 5⟩,
   Op.Delete [106] ⟨1, 2⟩, Op.Insert [102] ⟨1, 6⟩, Op.Insert [104] ⟨1, 7⟩,
   Op.Insert [103] ⟨1, 8⟩, Op.Insert [105] ⟨1, 9⟩, Op.Delete [105] ⟨1, 9⟩,
   Op.Delete [104] ⟨1, 7⟩]

/-- The index after `dupEntryOps`. -/
def dupEntryTree : BTreeFile :=
  ⟨1, [(0, Page.leaf 2 4 [([99], ⟨1, 5⟩), ([100], ⟨1, 0⟩)]),
       (1, Page.index 2 [⟨[101], 3, 6⟩, ⟨[101], 4, 6⟩]),
       (2, Page.leaf (-1) 0 [([97], ⟨1, 3⟩), ([98], ⟨1, 4⟩)]),
       (3, Page.leaf 0 4 []),
       (4, Page.leaf 0 (-1) [([101], ⟨1, 1⟩), ([102], ⟨1, 6⟩), ([103], ⟨1, 8⟩)])], 5⟩

/-- The index after `Delete("e", (1,1))` on `dupEntryTree`. -/
def dupEntryTreeAfter : BTreeFile :=
  ⟨1, [(0, Page.leaf 2 4 [([99], ⟨1, 5⟩), ([100], ⟨1, 0⟩)]),
       (1, Page.index 2 [⟨[101], 4, 6⟩]),
       (2, Page.leaf (-1) 0 [([97], ⟨1, 3⟩), ([98], ⟨1, 4⟩)]),
       (3, Page.leaf 0 4 []),
       (4, Page.leaf 0 (-1) [([102], ⟨1, 6⟩), ([102], ⟨1, 6⟩), ([103], ⟨1, 8⟩)])], 5⟩

/-! ## Levels -/

/-- A child pointer `q` kept in page `p` respects the levels: it lies below the
allocation bound and, unless it is negative, page `p` is one level above it. -/
def ChildOK (lvl : PageID → Nat) (bound : PageID) (p q : PageID) : Prop :=
  q < bound ∧ (0 ≤ q → lvl p = lvl q + 1)

/-- A sibling link of a leaf lies below the allocation bound and does not name
an index page. -/
def LinkOK (pages : List (PageID × Page)) (bound : PageID) (a : PageID) : Prop :=
  a < bound ∧ ∀ l es, getPage pages a ≠ some (Page.index l es)

/-- The store is levelled by `lvl`: pages have ids in `[0, bound)`, leaves are at
level 0 and link only to pages that are no index nodes, and every index page
is one level above each of its children. -/
structure Leveled (lvl : PageID → Nat) (pages : List (PageID × Page)) (bound : PageID) :
    Prop where
  bound_nonneg : 0 ≤ bound
  pid_range : ∀ p pg, getPage pages p = some pg → 0 ≤ p ∧ p < bound
  leaf_level : ∀ p a b es, getPage pages p = some (Page.leaf a b es) → lvl p = 0
  leaf_links : ∀ p a b es, getPage pages p = some (Page.leaf a b es) →
    LinkOK pages bound a ∧ LinkOK pages bound b
  index_children : ∀ p left es, getPage pages p = some (Page.index left es) →
    ∀ q ∈ children left es, ChildOK lvl bound p q

/-- Every index page of `pages2` is an index page of `pages1` already. -/
def IdxSub (pages2 pages1 : List (PageID × Page)) : Prop :=
  ∀ q l es, getPage pages2 q = some (Page.index l es) →
    ∃ l0 es0, getPage pages1 q = some (Page.index l0 es0)

/-- The levels `lvl2` agree with `lvl1` on the pages below `bound`. -/
def LvlExt (lvl1 lvl2 : PageID → Nat) (bound : PageID) : Prop :=
  ∀ p, p < bound → lvl2 p = lvl1 p

/-- Five inserts of the distinct keys "a" to "e". -/
def fiveDistinct : List (Key × RecordID) :=
  [([97], ⟨1, 0⟩), ([98], ⟨1, 1⟩), ([99], ⟨1, 2⟩), ([100], ⟨1, 3⟩), ([101], ⟨1, 4⟩)]

/-- The index after `fiveDistinct` under `cfg45`: the root leaf was split into
leaf 2 with two entries and leaf 0 with three. -/
def fiveDistinctTree : BTreeFile :=
  ⟨1, [(0, Page.leaf 2 (-1) [([99], ⟨1, 2⟩), ([100], ⟨1, 3⟩), ([101], ⟨1, 4⟩)]),
       (1, Page.index 2 [⟨[99], 0, 6⟩]),
       (2, Page.leaf (-1) 0 [([97], ⟨1, 0⟩), ([98], ⟨1, 1⟩)])], 3⟩

/-- The index after inserting the keys "a" to "f" under `cfg40`. -/
def sixTree : BTreeFile :=
  ⟨1, [(0, Page.leaf 2 (-1)
          [([99], ⟨1, 2⟩), ([100], ⟨1, 3⟩), ([101], ⟨1, 4⟩), ([102], ⟨1, 5⟩)]),
       (1, Page.index 2 [⟨[99], 0, 6⟩]),
       (2, Page.leaf (-1) 0 [([97], ⟨1, 0⟩), ([98], ⟨1, 1⟩)])], 3⟩

/-- The file after the leaf branch of `_Delete` removed ("a", (1,0)) from leaf 2
of `sixTree` and moved "c" over from the right sibling. -/
def sixTreeAfter : BTreeFile :=
  ⟨1, [(0, Page.leaf 2 (-1) [([100], ⟨1, 3⟩), ([101], ⟨1, 4⟩), ([102], ⟨1, 5⟩)]),
       (1, Page.index 2 [⟨[100], 0, 6⟩]),
       (2, Page.leaf (-1) 0 [([98], ⟨1, 1⟩), ([99], ⟨1, 2⟩)])], 3⟩

/-! ## Key ranges -/

/-- The key `κ` is stored in the subtree at `c`: some leaf reached from `c` by
child pointers holds an entry with that key. -/
def InSubtree (pages : List (PageID × Page)) (c : PageID) (κ : Key) : Prop :=
  ∃ d q a b es, ReachAt pages c d q ∧ getPage pages q = some (Page.leaf a b es) ∧
    κ ∈ es.map Prod.fst

/-- The keys of a list of slots ascend strictly. -/
def KeysStrict {α : Type} (keyOf : α → Key) (l : List α) : Prop :=
  l.Pairwise (fun a b => KeyCmp (keyOf a) (keyOf b) < 0)

/-- Key ranges of the children of an index node, read from the child `c` whose
lower separator is `lo` (`none` for the leftmost child): every key below `c` is
not smaller than `lo` and smaller than the next separator, when there is one. -/
def SlotsInRange (pages : List (PageID × Page)) :
    Option Key → PageID → List IndexEntry → Prop
  | lo, c, [] => ∀ κ, InSubtree pages c κ → ∀ l, lo = some l → KeyCmp κ l ≥ 0
  | lo, c, e :: rest =>
    (∀ κ, InSubtree pages c κ → (∀ l, lo = some l → KeyCmp κ l ≥ 0) ∧ KeyCmp κ e.key < 0) ∧
    SlotsInRange pages (some e.key) e.pid rest

/-- The key-range invariant at an index page with leftmost child `left` and
slots `es`. -/
def KeyRangeAt (pages : List (PageID × Page)) (left : PageID) (es : List IndexEntry) : Prop :=
  KeysStrict IndexEntry.key es ∧ SlotsInRange pages none left es

/-- The key-range invariant of the tree below the root named by the header. -/
def KeyRangeInv (f : BTreeFile) : Prop :=
  ∀ d p left es, ReachAt f.pages f.root d p →
    getPage f.pages p = some (Page.index left es) → KeyRangeAt f.pages left es

/-- Every entry with a key of `K` takes at most a third of the payload of a
leaf page. -/
def SmallKeys (c : Config) (K : List Key) : Prop :=
  ∀ κ ∈ K, 3 * GetKeyDataLength c κ NodeType.LEAF_NODE ≤ c.HEAPPAGE_DATA_SIZE

/-- Bookkeeping for the key-range proof: for every page a lower bound `lo`
(`none` is no bound), an upper bound `hi` (`none` is no bound) and the page
that holds the pointer to it. -/
structure Ghost where
  lo : PageID → Option Key
  hi : PageID → Option Key
  par : PageID → PageID

/-- The key `k` is not below the lower bound `a`. -/
def LoLe (a : Option Key) (k : Key) : Prop := ∀ x, a = some x → KeyCmp x k ≤ 0

/-- The key `k` is above the lower bound `a`. -/
def LoLt (a : Option Key) (k : Key) : Prop := ∀ x, a = some x → KeyCmp x k < 0

/-- The key `k` is below the upper bound `b`. -/
def LtHi (k : Key) (b : Option Key) : Prop := ∀ y, b = some y → KeyCmp k y < 0

/-- The upper bound `b1` is not above the upper bound `b2`. -/
def HiLe (b1 b2 : Option Key) : Prop :=
  ∀ y, b2 = some y → ∃ x, b1 = some x ∧ KeyCmp x y ≤ 0

/-- The slots of a leaf with bounds `a` and `b`: strictly ascending keys of `K`
within the bounds, and not more bytes than a page holds. -/
def LeafOK (c : Config) (K : List Key) (a b : Option Key) (es : List (Key × RecordID)) :
    Prop :=
  KeysStrict Prod.fst es ∧ leafUsed c es ≤ c.HEAPPAGE_DATA_SIZE ∧
  ∀ e ∈ es, e.1 ∈ K ∧ LoLe a e.1 ∧ LtHi e.1 b

/-- A page agrees with the bookkeeping: a leaf holds strictly ascending keys of
`K` within its bounds and is not over-full; an index page holds strictly
ascending separators strictly within its bounds, its leftmost child starts at
its own lower bound, the child of a slot starts at the separator of the slot,
and every child names the page as its parent and ends at or before the upper
bound of the page and every separator above the start of the child. -/
def PageOK (c : Config) (K : List Key) (G : Ghost) (pid : PageID) : Page → Prop
  | Page.leaf _ _ es => LeafOK c K (G.lo pid) (G.hi pid) es
  | Page.index left es =>
    KeysStrict IndexEntry.key es ∧
    (∀ e ∈ es, LoLt (G.lo pid) e.key ∧ LtHi e.key (G.hi pid)) ∧
    G.lo left = G.lo pid ∧
    (∀ e ∈ es, G.lo e.pid = some e.key) ∧
    ∀ q ∈ children left es, G.par q = pid ∧ HiLe (G.hi q) (G.hi pid) ∧
      ∀ e ∈ es, LoLt (G.lo q) e.key → HiLe (G.hi q) (some e.key)

/-- Every page of the store agrees with the bookkeeping. -/
def Ranged (c : Config) (K : List Key) (G : Ghost) (pages : List (PageID × Page)) : Prop :=
  ∀ pid pg, getPage pages pid = some pg → PageOK c K G pid pg

/-- The key and the child of an index entry, without the slot length. -/
def IndexEntry.kp (e : IndexEntry) : Key × PageID := (e.key, e.pid)

/-- Two pages hold the same slots; for index pages also the same leftmost
child.  The sibling links of leaves may differ. -/
def SameSlots : Page → Page → Prop
  | Page.leaf _ _ es, Page.leaf _ _ es2 => es = es2
  | Page.index l es, Page.index l2 es2 => l = l2 ∧ es = es2
  | _, _ => False

/-- Every page of `pages2` holds the slots it holds in `pages1`. -/
def SameStore (pages2 pages1 : List (PageID × Page)) : Prop :=
  ∀ q pg2, getPage pages2 q = some pg2 → ∃ pg1, getPage pages1 q = some pg1 ∧ SameSlots pg1 pg2

/-- The bookkeeping after a node was split at the key `t`: the old node ends at
`t` and the page `n` allocated for the new node runs from `t` to the old end. -/
def Ghost.splitAt (G : Ghost) (node n : PageID) (t : Key) : Ghost :=
  ⟨Function.update G.lo n (some t),
   Function.update (Function.update G.hi node (some t)) n (G.hi node),
   Function.update G.par n n⟩


/-- The store `pages2` arises from `pages1` by changes to sibling links of
leaves only: every page holds the slots it held, and index pages are
untouched. -/
def LinksOnly (pages2 pages1 : List (PageID × Page)) : Prop :=
  SameStore pages2 pages1 ∧
  ∀ q l es, getPage pages1 q = some (Page.index l es) → getPage pages2 q = some (Page.index l es)

/-- The bookkeeping with the upper bound of the page `q` set to `B`. -/
def Ghost.setHi (G : Ghost) (q : PageID) (B : Option Key) : Ghost :=
  ⟨G.lo, Function.update G.hi q B, G.par⟩

/-- The bookkeeping with the page `n` named as the parent of the pages `kids`. -/
def Ghost.adopt (G : Ghost) (n : PageID) (kids : List PageID) : Ghost :=
  ⟨G.lo, G.hi, fun q => if q ∈ kids then n else G.par q⟩

/-- The bookkeeping with the fresh page `n` entered with the bounds `a` and `b`
and no parent. -/
def Ghost.alloc (G : Ghost) (n : PageID) (a b : Option Key) : Ghost :=
  ⟨Function.update G.lo n a, Function.update G.hi n b, Function.update G.par n n⟩

/-- The bookkeeping with the lower bound of the page `q` set to `a`. -/
def Ghost.setLo (G : Ghost) (q : PageID) (a : Option Key) : Ghost :=
  ⟨Function.update G.lo q a, G.hi, G.par⟩

/-- The file agrees with some levels and some bookkeeping in which the root has
no bounds and no parent. -/
def TreeOK (c : Config) (K : List Key) (f : BTreeFile) : Prop :=
  ∃ lvl G, Leveled lvl f.pages f.nextPid ∧ Ranged c K G f.pages ∧
    (f.root ≠ INVALID_PAGE →
      G.lo f.root = none ∧ G.hi f.root = none ∧ G.par f.root = f.root)

/-- Three inserts of distinct keys of five and six bytes: under `cfg40` each
entry takes more than a third of a page. -/
def bigEntryInserts : List (Key × RecordID) :=
  [([97, 1, 1, 1, 1], ⟨1, 0⟩), ([98, 1, 1, 1, 1, 1], ⟨1, 1⟩), ([97, 2, 1, 1, 1], ⟨1, 2⟩)]

/-- The index after `bigEntryInserts` under `cfg40`: the split of the root leaf
moved both entries to the new left leaf. -/
def bigEntryTree : BTreeFile :=
  ⟨1, [(0, Page.leaf 2 (-1) []),
       (1, Page.index 2 [⟨[98, 1, 1, 1, 1, 1], 0, 11⟩]),
       (2, Page.leaf (-1) 0 [([97, 1, 1, 1, 1], ⟨1, 0⟩), ([98, 1, 1, 1, 1, 1], ⟨1, 1⟩)])], 3⟩

/-- The index after inserting the keys "a" to "d" under `cfg40`: a full root
leaf. -/
def fourTree : BTreeFile :=
  ⟨0, [(0, Page.leaf (-1) (-1)
          [([97], ⟨1, 0⟩), ([98], ⟨1, 1⟩), ([99], ⟨1, 2⟩), ([100], ⟨1, 3⟩)])], 1⟩

/-- The index after inserting the sixteen keys "a" to "p" in order under
`cfg40`: the root holds six separators and has no room for a seventh. -/
def sixteenTree : BTreeFile :=
  ⟨1, [(0, Page.leaf 2 3 [([99], ⟨1, 2⟩), ([100], ⟨1, 3⟩)]),
       (1, Page.index 2 [⟨[99], 0, 6⟩, ⟨[101], 3, 6⟩, ⟨[103], 4, 6⟩, ⟨[105], 5, 6⟩,
                         ⟨[107], 6, 6⟩, ⟨[109], 7, 6⟩]),
       (2, Page.leaf (-1) 0 [([97], ⟨1, 0⟩), ([98], ⟨1, 1⟩)]),
       (3, Page.leaf 0 4 [([101], ⟨1, 4⟩), ([102], ⟨1, 5⟩)]),
       (4, Page.leaf 3 5 [([103], ⟨1, 6⟩), ([104], ⟨1, 7⟩)]),
       (5, Page.leaf 4 6 [([105], ⟨1, 8⟩), ([106], ⟨1, 9⟩)]),
       (6, Page.leaf 5 7 [([107], ⟨1, 10⟩), ([108], ⟨1, 11⟩)]),
       (7, Page.leaf 6 (-1) [([109], ⟨1, 12⟩), ([110], ⟨1, 13⟩), ([111], ⟨1, 14⟩),
                             ([112], ⟨1, 15⟩)])], 8⟩

/-- The file `_Insert` leaves when "q" is inserted below the root of
`sixteenTree`: leaf 7 and the root were split and `("i", 9)` is promoted. -/
def sixteenTreeSplit : BTreeFile :=
  ⟨1, [(0, Page.leaf 2 3 [([99], ⟨1, 2⟩), ([100], ⟨1, 3⟩)]),
       (1, Page.index 2 [⟨[99], 0, 6⟩, ⟨[101], 3, 6⟩, ⟨[103], 4, 6⟩]),
       (2, Page.leaf (-1) 0 [([97], ⟨1, 0⟩), ([98], ⟨1, 1⟩)]),
       (3, Page.leaf 0 4 [([101], ⟨1, 4⟩), ([102], ⟨1, 5⟩)]),
       (4, Page.leaf 3 5 [([103], ⟨1, 6⟩), ([104], ⟨1, 7⟩)]),
       (5, Page.leaf 4 6 [([105], ⟨1, 8⟩), ([106], ⟨1, 9⟩)]),
       (6, Page.leaf 5 7 [([107], ⟨1, 10⟩), ([108], ⟨1, 11⟩)]),
       (7, Page.leaf 6 8 [([109], ⟨1, 12⟩), ([110], ⟨1, 13⟩)]),
       (8, Page.leaf 7 (-1) [([111], ⟨1, 14⟩), ([112], ⟨1, 15⟩), ([113], ⟨1, 16⟩)]),
       (9, Page.index 5 [⟨[107], 6, 6⟩, ⟨[109], 7, 6⟩, ⟨[111], 8, 6⟩])], 10⟩
/-- Sixteen inserts of the keys "a" to "p" in ascending order. -/
def sixteenInserts : List (Key × RecordID) :=
  [([97], ⟨1, 0⟩), ([98], ⟨1, 1⟩), ([99], ⟨1, 2⟩), ([100], ⟨1, 3⟩), ([101], ⟨1, 4⟩),
   ([102], ⟨1, 5⟩), ([103], ⟨1, 6⟩), ([104], ⟨1, 7⟩), ([105], ⟨1, 8⟩), ([106], ⟨1, 9⟩),
   ([107], ⟨1, 10⟩), ([108], ⟨1, 11⟩), ([109], ⟨1, 12⟩), ([110], ⟨1, 13⟩), ([111], ⟨1, 14⟩),
   ([112], ⟨1, 15⟩)]

/-- Weakly ascending key order of the slots of a page (duplicate keys allowed). -/
def KeysWeak {α : Type} (keyOf : α → Key) (l : List α) : Prop :=
  l.Pairwise (fun a b => KeyCmp (keyOf a) (keyOf b) ≤ 0)

/-- A page payload of 60 bytes with 8-byte record ids and 4-byte page ids. -/
def cfg60 : Config := ⟨60, 8, 4⟩

/-- Four inserts with keys of 3, 4, 11 and 6 bytes: leaf entries of 12, 13, 20
and 15 bytes, which fill a 60-byte page. -/
def wideInserts : List (Key × RecordID) :=
  [([97, 97, 97], ⟨1, 0⟩), ([98, 98, 98, 98], ⟨1, 1⟩),
   ([99, 99, 99, 99, 99, 99, 99, 99, 99, 99, 99], ⟨1, 2⟩),
   ([101, 101, 101, 101, 101, 101], ⟨1, 3⟩)]

/-- The index after `wideInserts` under `cfg60`: a root leaf without free space. -/
def wideLeafTree : BTreeFile :=
  ⟨0, [(0, Page.leaf (-1) (-1) wideInserts)], 1⟩

/-- The file after `Insert` of the 11-byte key "ddddddddddd" into
`wideLeafTree`. -/
def wideLeafTreeAfter : BTreeFile :=
  ⟨1, [(0, Page.leaf 2 (-1) [([101, 101, 101, 101, 101, 101], ⟨1, 3⟩)]),
       (1, Page.index 2 [⟨[101, 101, 101, 101, 101, 101], 0, 11⟩]),
       (2, Page.leaf (-1) 0 [([97, 97, 97], ⟨1, 0⟩), ([98, 98, 98, 98], ⟨1, 1⟩),
          ([99, 99, 99, 99, 99, 99, 99, 99, 99, 99, 99], ⟨1, 2⟩)])], 3⟩

/-- The leaf stored under `q` holds the slots `es`, whatever its links are. -/
def HasSlots (pages : List (PageID × Page)) (q : PageID) (es : List (Key × RecordID)) : Prop :=
  ∃ a b, getPage pages q = some (Page.leaf a b es)

/-- Five inserts with keys of 7, 5, 11, 6 and 1 bytes under `cfg60`. -/
def mixedInserts : List (Key × RecordID) :=
  [([122, 122, 122, 122, 122, 122, 122], ⟨1, 0⟩), ([98, 98, 98, 98, 98], ⟨1, 1⟩),
   ([99, 99, 99, 99, 99, 99, 99, 99, 99, 99, 99], ⟨1, 2⟩),
   ([100, 100, 100, 100, 100, 100], ⟨1, 3⟩), ([101], ⟨1, 4⟩)]

/-- The index after `mixedInserts` under `cfg60`: leaf 2 holds entries of 14,
20, 15 and 10 bytes and has one byte left. -/
def mixedTree : BTreeFile :=
  ⟨1, [(0, Page.leaf 2 (-1) [([122, 122, 122, 122, 122, 122, 122], ⟨1, 0⟩)]),
       (1, Page.index 2 [⟨[122, 122, 122, 122, 122, 122, 122], 0, 12⟩]),
       (2, Page.leaf (-1) 0 [([98, 98, 98, 98, 98], ⟨1, 1⟩),
          ([99, 99, 99, 99, 99, 99, 99, 99, 99, 99, 99], ⟨1, 2⟩),
          ([100, 100, 100, 100, 100, 100], ⟨1, 3⟩), ([101], ⟨1, 4⟩)])], 3⟩

/-- The file `_Insert` leaves at leaf 2 of `mixedTree` for the 7-byte key
"fffffff": leaf 2 was split into itself and the new leaf 3. -/
def mixedTreeSplit : BTreeFile :=
  ⟨1, [(0, Page.leaf 3 (-1) [([122, 122, 122, 122, 122, 122, 122], ⟨1, 0⟩)]),
       (1, Page.index 2 [⟨[122, 122, 122, 122, 122, 122, 122], 0, 12⟩]),
       (2, Page.leaf (-1) 3 [([98, 98, 98, 98, 98], ⟨1, 1⟩)]),
       (3, Page.leaf 2 0 [([99, 99, 99, 99, 99, 99, 99, 99, 99, 99, 99], ⟨1, 2⟩),
          ([100, 100, 100, 100, 100, 100], ⟨1, 3⟩), ([101], ⟨1, 4⟩)])], 4⟩

/-- The slot `BTIndexPage::Insert` writes for the key and child of `e`: the
slot length is the encoded length of the key and the page id. -/
def IndexEntry.fresh (c : Config) (e : IndexEntry) : IndexEntry :=
  ⟨e.key, e.pid, GetKeyDataLength c e.key NodeType.INDEX_NODE⟩

/-- The file `_Insert` leaves at leaf 7 of `sixteenTree` for the key "q": leaf 7
was split and `("o", 8)` is handed to the root, which has no room for it. -/
def sixteenTreeLeafSplit : BTreeFile :=
  ⟨1, [(0, Page.leaf 2 3 [([99], ⟨1, 2⟩), ([100], ⟨1, 3⟩)]),
       (1, Page.index 2 [⟨[99], 0, 6⟩, ⟨[101], 3, 6⟩, ⟨[103], 4, 6⟩, ⟨[105], 5, 6⟩,
                         ⟨[107], 6, 6⟩, ⟨[109], 7, 6⟩]),
       (2, Page.leaf (-1) 0 [([97], ⟨1, 0⟩), ([98], ⟨1, 1⟩)]),
       (3, Page.leaf 0 4 [([101], ⟨1, 4⟩), ([102], ⟨1, 5⟩)]),
       (4, Page.leaf 3 5 [([103], ⟨1, 6⟩), ([104], ⟨1, 7⟩)]),
       (5, Page.leaf 4 6 [([105], ⟨1, 8⟩), ([106], ⟨1, 9⟩)]),
       (6, Page.leaf 5 7 [([107], ⟨1, 10⟩), ([108], ⟨1, 11⟩)]),
       (7, Page.leaf 6 8 [([109], ⟨1, 12⟩), ([110], ⟨1, 13⟩)]),
       (8, Page.leaf 7 (-1) [([111], ⟨1, 14⟩), ([112], ⟨1, 15⟩), ([113], ⟨1, 16⟩)])], 9⟩

/-- Five inserts under `cfg60`: a key of 50 bytes "m...m" and keys of 3, 7, 11
and 15 bytes above it. -/
def wideSepInserts : List (Key × RecordID) :=
  [(List.replicate 50 109, ⟨1, 0⟩), (List.replicate 3 110, ⟨1, 1⟩),
   (List.replicate 7 111, ⟨1, 2⟩), (List.replicate 11 112, ⟨1, 3⟩),
   (List.replicate 15 113, ⟨1, 4⟩)]

/-- The index after `wideSepInserts` under `cfg60`. -/
def wideSepTree : BTreeFile :=
  ⟨1, [(0, Page.leaf 2 3 [(List.replicate 3 110, ⟨1, 1⟩)]),
       (1, Page.index 2 [⟨List.replicate 3 110, 0, 8⟩, ⟨List.replicate 7 111, 3, 12⟩]),
       (2, Page.leaf (-1) 0 [(List.replicate 50 109, ⟨1, 0⟩)]),
       (3, Page.leaf 0 (-1) [(List.replicate 7 111, ⟨1, 2⟩), (List.replicate 11 112, ⟨1, 3⟩),
          (List.replicate 15 113, ⟨1, 4⟩)])], 4⟩

/-- The file the recursive insert of the 47-byte key "a...a" leaves below the
root of `wideSepTree`: leaf 2 was split and `("m...m", 4)` is promoted. -/
def wideSepLeafSplit : BTreeFile :=
  ⟨1, [(0, Page.leaf 4 3 [(List.replicate 3 110, ⟨1, 1⟩)]),
       (1, Page.index 2 [⟨List.replicate 3 110, 0, 8⟩, ⟨List.replicate 7 111, 3, 12⟩]),
       (2, Page.leaf (-1) 4 [(List.replicate 47 97, ⟨1, 5⟩)]),
       (3, Page.leaf 0 (-1) [(List.replicate 7 111, ⟨1, 2⟩), (List.replicate 11 112, ⟨1, 3⟩),
          (List.replicate 15 113, ⟨1, 4⟩)]),
       (4, Page.leaf 2 0 [(List.replicate 50 109, ⟨1, 0⟩)])], 5⟩

/-- The file after the index split of the root of `wideSepLeafSplit`. -/
def wideSepAfter : BTreeFile :=
  ⟨1, [(0, Page.leaf 4 3 [(List.replicate 3 110, ⟨1, 1⟩)]),
       (1, Page.index 2 [⟨List.replicate 3 110, 0, 8⟩]),
       (2, Page.leaf (-1) 4 [(List.replicate 47 97, ⟨1, 5⟩)]),
       (3, Page.leaf 0 (-1) [(List.replicate 7 111, ⟨1, 2⟩), (List.replicate 11 112, ⟨1, 3⟩),
          (List.replicate 15 113, ⟨1, 4⟩)]),
       (4, Page.leaf 2 0 [(List.replicate 50 109, ⟨1, 0⟩)]),
       (5, Page.index 3 [])], 6⟩

/-- Six inserts under `cfg45` with keys of 3, 2, 1, 4, 3 and 1 bytes ("bbb",
"cc", "d", "eeee", "fff", "a"). -/
def redistInserts : List (Key × RecordID) :=
  [([98, 98, 98], ⟨1, 0⟩), ([99, 99], ⟨1, 1⟩), ([100], ⟨1, 2⟩), ([101, 101, 101, 101], ⟨1, 3⟩),
   ([102, 102, 102], ⟨1, 4⟩), ([97], ⟨1, 5⟩)]

/-- The index after `redistInserts` under `cfg45`: the separator "d" of the
root lies in a slot of 6 bytes. -/
def redistTree : BTreeFile :=
  ⟨1, [(0, Page.leaf 2 (-1) [([100], ⟨1, 2⟩), ([101, 101, 101, 101], ⟨1, 3⟩),
          ([102, 102, 102], ⟨1, 4⟩)]),
       (1, Page.index 2 [⟨[100], 0, 6⟩]),
       (2, Page.leaf (-1) 0 [([97], ⟨1, 5⟩), ([98, 98, 98], ⟨1, 0⟩), ([99, 99], ⟨1, 1⟩)])], 3⟩

/-- The store after the redistribution loop of `_Delete` for the deletion of
"bbb" from leaf 2 of `redistTree`: "d" was moved over from the right sibling. -/
def redistTreeMoved : BTreeFile :=
  ⟨1, [(0, Page.leaf 2 (-1) [([101, 101, 101, 101], ⟨1, 3⟩), ([102, 102, 102], ⟨1, 4⟩)]),
       (1, Page.index 2 [⟨[100], 0, 6⟩]),
       (2, Page.leaf (-1) 0 [([97], ⟨1, 5⟩), ([99, 99], ⟨1, 1⟩), ([100], ⟨1, 2⟩)])], 3⟩

/-- The file after `_Delete` removed ("a", (1,0)) from leaf 2 of `sixTree` under
`cfg45`: "c" and "d" were moved over from the right sibling and the parent was
left as it was. -/
def sixTreeMoved : BTreeFile :=
  ⟨1, [(0, Page.leaf 2 (-1) [([101], ⟨1, 4⟩), ([102], ⟨1, 5⟩)]),
       (1, Page.index 2 [⟨[99], 0, 6⟩]),
       (2, Page.leaf (-1) 0 [([98], ⟨1, 1⟩), ([99], ⟨1, 2⟩), ([100], ⟨1, 3⟩)])], 3⟩

/-- The store the redistribution loop of `_Delete` leaves when ("a", (1,0)) is
deleted from leaf 2 of `fiveDistinctTree` under `cfg45`: "c" and "d" were moved
over from the right sibling 0. -/
def fiveDistinctMoved : BTreeFile :=
  ⟨1, [(0, Page.leaf 2 (-1) [([101], ⟨1, 4⟩)]),
       (1, Page.index 2 [⟨[99], 0, 6⟩]),
       (2, Page.leaf (-1) 0 [([98], ⟨1, 1⟩), ([99], ⟨1, 2⟩), ([100], ⟨1, 3⟩)])], 3⟩

/-- The file the recursive delete leaves when ("a", (1,0)) is deleted from
`fiveDistinctTree` under `cfg45`: leaf 0 was merged into leaf 2. -/
def fiveDistinctMerged : BTreeFile :=
  ⟨1, [(0, Page.leaf 2 (-1) []),
       (1, Page.index 2 [⟨[99], 0, 6⟩]),
       (2, Page.leaf (-1) (-1)
          [([98], ⟨1, 1⟩), ([99], ⟨1, 2⟩), ([100], ⟨1, 3⟩), ([101], ⟨1, 4⟩)])], 3⟩

/-- Five inserts with the key "c" three times: "a", "c", "c", "d", "c". -/
def tieInserts : List (Key × RecordID) :=
  [([97], ⟨1, 0⟩), ([99], ⟨1, 1⟩), ([99], ⟨1, 2⟩), ([100], ⟨1, 3⟩), ([99], ⟨1, 4⟩)]

/-- The index after `tieInserts` under `cfg40`: the root leaf was split between
two entries of the key "c", which is also the separator. -/
def tieTree : BTreeFile :=
  ⟨1, [(0, Page.leaf 2 (-1) [([99], ⟨1, 2⟩), ([99], ⟨1, 4⟩), ([100], ⟨1, 3⟩)]),
       (1, Page.index 2 [⟨[99], 0, 6⟩]),
       (2, Page.leaf (-1) 0 [([97], ⟨1, 0⟩), ([99], ⟨1, 1⟩)])], 3⟩

/-! ## Destroying the file (`btfile.cpp`) -/

/-- The loop of `DestroyNode` over the children of an index node, the leftmost
child first: `s = DestroyNode(child); FREEPAGE(child);`.  The buffer manager is
outside the code: `freeOK log pid` is the answer of its `FreePage` to the call
for `pid` after the calls in `log`, and the log records every call.  The macro
`FREEPAGE` returns `FAIL` from the function when the call fails; the status of
the recursive call is kept in `s` and is not looked at before the page is
freed. -/
def destroyChildren (freeOK : List PageID → PageID → Bool)
    (rec : PageID → List PageID → Except Fault (Status × List PageID)) :
    List PageID → Status → List PageID → Except Fault (Status × List PageID)
  | [], s, log => Except.ok (s, log)
  | k :: ks, _, log =>
    match rec k log with
    | Except.error x => Except.error x
    | Except.ok (s1, log1) =>
      if freeOK log1 k then destroyChildren freeOK rec ks s1 (log1 ++ [k])
      else Except.ok (Status.FAIL, log1 ++ [k])

/-- The function `BTreeFile::DestroyNode`: the status and the log of the calls
to `FreePage`.  A leaf is freed by the call itself; an index node has its
children destroyed and freed and is then unpinned, not freed. -/
def DestroyNode (freeOK : List PageID → PageID → Bool) :
    Nat → List (PageID × Page) → PageID → List PageID →
    Except Fault (Status × List PageID)
  | 0, _, _, _ => Except.error Fault.fuel
  | fuel + 1, pages, pageID, log =>
    match getPage pages pageID with
    | none => Except.ok (Status.FAIL, log)
    | some (Page.leaf _ _ _) =>
      if freeOK log pageID then Except.ok (Status.OK, log ++ [pageID])
      else Except.ok (Status.FAIL, log ++ [pageID])
    | some (Page.index left es) =>
      destroyChildren freeOK (DestroyNode freeOK fuel pages) (children left es) Status.OK log

/-- The function `BTreeFile::DestroyFile` on the file with header page
`headerID`: the status, the log of the calls to `FreePage`, and whether
`DeleteFileEntry` was called.  A root leaf is freed with `FREEPAGE`; a root
index node is handed to `DestroyNode` and then freed without a look at the
status.  The database's `DeleteFileEntry` is outside the code and taken to
return `OK`. -/
def DestroyFile (freeOK : List PageID → PageID → Bool) (fuel : Nat) (headerID : PageID)
    (f : BTreeFile) : Except Fault (Status × List PageID × Bool) :=
  if headerID = INVALID_PAGE then Except.ok (Status.OK, [], true)
  else
    let rootStep : Except Fault (Bool × List PageID) :=
      if f.root = INVALID_PAGE then Except.ok (true, [])
      else
        match getPage f.pages f.root with
        | none => Except.ok (false, [])
        | some (Page.leaf _ _ _) => Except.ok (freeOK [] f.root, [f.root])
        | some (Page.index _ _) =>
          match DestroyNode freeOK fuel f.pages f.root [] with
          | Except.error x => Except.error x
          | Except.ok (_, log) => Except.ok (true, log ++ [f.root])
    match rootStep with
    | Except.error x => Except.error x
    | Except.ok (false, log) => Except.ok (Status.FAIL, log, false)
    | Except.ok (true, log) =>
      if freeOK log headerID then Except.ok (Status.OK, log ++ [headerID], true)
      else Except.ok (Status.FAIL, log ++ [headerID], false)

/-- Nineteen inserts of the keys "a" to "s" in ascending order. -/
def nineteenInserts : List (Key × RecordID) :=
  [([97], ⟨1, 0⟩), ([98], ⟨1, 1⟩), ([99], ⟨1, 2⟩), ([100], ⟨1, 3⟩), ([101], ⟨1, 4⟩),
   ([102], ⟨1, 5⟩), ([103], ⟨1, 6⟩), ([104], ⟨1, 7⟩), ([105], ⟨1, 8⟩), ([106], ⟨1, 9⟩),
   ([107], ⟨1, 10⟩), ([108], ⟨1, 11⟩), ([109], ⟨1, 12⟩), ([110], ⟨1, 13⟩), ([111], ⟨1, 14⟩),
   ([112], ⟨1, 15⟩), ([113], ⟨1, 16⟩), ([114], ⟨1, 17⟩), ([115], ⟨1, 18⟩)]

/-- The index after `nineteenInserts` under `cfg40`: the root 10 has the index
nodes 1 (four children) and 9 (five children) below the separator "i". -/
def nineteenTree : BTreeFile :=
  ⟨10, [(0, Page.leaf 2 3 [([99], ⟨1, 2⟩), ([100], ⟨1, 3⟩)]),
        (1, Page.index 2 [⟨[99], 0, 6⟩, ⟨[101], 3, 6⟩, ⟨[103], 4, 6⟩]),
        (2, Page.leaf (-1) 0 [([97], ⟨1, 0⟩), ([98], ⟨1, 1⟩)]),
        (3, Page.leaf 0 4 [([101], ⟨1, 4⟩), ([102], ⟨1, 5⟩)]),
        (4, Page.leaf 3 5 [([103], ⟨1, 6⟩), ([104], ⟨1, 7⟩)]),
        (5, Page.leaf 4 6 [([105], ⟨1, 8⟩), ([106], ⟨1, 9⟩)]),
        (6, Page.leaf 5 7 [([107], ⟨1, 10⟩), ([108], ⟨1, 11⟩)]),
        (7, Page.leaf 6 8 [([109], ⟨1, 12⟩), ([110], ⟨1, 13⟩)]),
        (8, Page.leaf 7 11 [([111], ⟨1, 14⟩), ([112], ⟨1, 15⟩)]),
        (9, Page.index 5 [⟨[107], 6, 6⟩, ⟨[109], 7, 6⟩, ⟨[111], 8, 6⟩, ⟨[113], 11, 6⟩]),
        (10, Page.index 1 [⟨[105], 9, 6⟩]),
        (11, Page.leaf 8 (-1) [([113], ⟨1, 16⟩), ([114], ⟨1, 17⟩), ([115], ⟨1, 18⟩)])], 12⟩

/-- The file after the recursive call of `_Delete` on leaf 2 of `nineteenTree`
for ("a", (1,0)): leaf 0 was merged into leaf 2. -/
def nineteenTreeLeafMerged : BTreeFile :=
  ⟨10, [(0, Page.leaf 2 3 []),
        (1, Page.index 2 [⟨[99], 0, 6⟩, ⟨[101], 3, 6⟩, ⟨[103], 4, 6⟩]),
        (2, Page.leaf (-1) 3 [([98], ⟨1, 1⟩), ([99], ⟨1, 2⟩), ([100], ⟨1, 3⟩)]),
        (3, Page.leaf 2 4 [([101], ⟨1, 4⟩), ([102], ⟨1, 5⟩)]),
        (4, Page.leaf 3 5 [([103], ⟨1, 6⟩), ([104], ⟨1, 7⟩)]),
        (5, Page.leaf 4 6 [([105], ⟨1, 8⟩), ([106], ⟨1, 9⟩)]),
        (6, Page.leaf 5 7 [([107], ⟨1, 10⟩), ([108], ⟨1, 11⟩)]),
        (7, Page.leaf 6 8 [([109], ⟨1, 12⟩), ([110], ⟨1, 13⟩)]),
        (8, Page.leaf 7 11 [([111], ⟨1, 14⟩), ([112], ⟨1, 15⟩)]),
        (9, Page.index 5 [⟨[107], 6, 6⟩, ⟨[109], 7, 6⟩, ⟨[111], 8, 6⟩, ⟨[113], 11, 6⟩]),
        (10, Page.index 1 [⟨[105], 9, 6⟩]),
        (11, Page.leaf 8 (-1) [([113], ⟨1, 16⟩), ([114], ⟨1, 17⟩), ([115], ⟨1, 18⟩)])], 12⟩

/-- The file `_Delete` leaves on index node 1 of `nineteenTree` for
("a", (1,0)): node 9 was merged into node 1 and is empty, with leaf 11 as its
leftmost child. -/
def nineteenTreeAfter : BTreeFile :=
  ⟨10, [(0, Page.leaf 2 3 []),
        (1, Page.index 2 [⟨[101], 3, 6⟩, ⟨[103], 4, 6⟩, ⟨[105], 5, 6⟩, ⟨[109], 6, 6⟩,
                          ⟨[111], 7, 6⟩, ⟨[113], 8, 6⟩]),
        (2, Page.leaf (-1) 3 [([98], ⟨1, 1⟩), ([99], ⟨1, 2⟩), ([100], ⟨1, 3⟩)]),
        (3, Page.leaf 2 4 [([101], ⟨1, 4⟩), ([102], ⟨1, 5⟩)]),
        (4, Page.leaf 3 5 [([103], ⟨1, 6⟩), ([104], ⟨1, 7⟩)]),
        (5, Page.leaf 4 6 [([105], ⟨1, 8⟩), ([106], ⟨1, 9⟩)]),
        (6, Page.leaf 5 7 [([107], ⟨1, 10⟩), ([108], ⟨1, 11⟩)]),
        (7, Page.leaf 6 8 [([109], ⟨1, 12⟩), ([110], ⟨1, 13⟩)]),
        (8, Page.leaf 7 11 [([111], ⟨1, 14⟩), ([112], ⟨1, 15⟩)]),
        (9, Page.index 11 []),
        (10, Page.index 1 [⟨[113], 9, 6⟩]),
        (11, Page.leaf 8 (-1) [([113], ⟨1, 16⟩), ([114], ⟨1, 17⟩), ([115], ⟨1, 18⟩)])], 12⟩

/-- The index after inserting the keys "a" to "q" in ascending order under
`cfg40`: the root 10 has the index nodes 1 and 9, four children each. -/
def seventeenTree : BTreeFile :=
  ⟨10, [(0, Page.leaf 2 3 [([99], ⟨1, 2⟩), ([100], ⟨1, 3⟩)]),
        (1, Page.index 2 [⟨[99], 0, 6⟩, ⟨[101], 3, 6⟩, ⟨[103], 4, 6⟩]),
        (2, Page.leaf (-1) 0 [([97], ⟨1, 0⟩), ([98], ⟨1, 1⟩)]),
        (3, Page.leaf 0 4 [([101], ⟨1, 4⟩), ([102], ⟨1, 5⟩)]),
        (4, Page.leaf 3 5 [([103], ⟨1, 6⟩), ([104], ⟨1, 7⟩)]),
        (5, Page.leaf 4 6 [([105], ⟨1, 8⟩), ([106], ⟨1, 9⟩)]),
        (6, Page.leaf 5 7 [([107], ⟨1, 10⟩), ([108], ⟨1, 11⟩)]),
        (7, Page.leaf 6 8 [([109], ⟨1, 12⟩), ([110], ⟨1, 13⟩)]),
        (8, Page.leaf 7 (-1) [([111], ⟨1, 14⟩), ([112], ⟨1, 15⟩), ([113], ⟨1, 16⟩)]),
        (9, Page.index 5 [⟨[107], 6, 6⟩, ⟨[109], 7, 6⟩, ⟨[111], 8, 6⟩]),
        (10, Page.index 1 [⟨[105], 9, 6⟩])], 11⟩

/-- The file `_Delete` leaves on index node 9 of `seventeenTree` for
("i", (1,8)): the left sibling 1 was merged into node 9. -/
def seventeenTreeAfter : BTreeFile :=
  ⟨10, [(0, Page.leaf 2 3 [([99], ⟨1, 2⟩), ([100], ⟨1, 3⟩)]),
        (1, Page.index 2 []),
        (2, Page.leaf (-1) 0 [([97], ⟨1, 0⟩), ([98], ⟨1, 1⟩)]),
        (3, Page.leaf 0 4 [([101], ⟨1, 4⟩), ([102], ⟨1, 5⟩)]),
        (4, Page.leaf 3 5 [([103], ⟨1, 6⟩), ([104], ⟨1, 7⟩)]),
        (5, Page.leaf 4 7 [([106], ⟨1, 9⟩), ([107], ⟨1, 10⟩), ([108], ⟨1, 11⟩)]),
        (6, Page.leaf 5 7 []),
        (7, Page.leaf 5 8 [([109], ⟨1, 12⟩), ([110], ⟨1, 13⟩)]),
        (8, Page.leaf 7 (-1) [([111], ⟨1, 14⟩), ([112], ⟨1, 15⟩), ([113], ⟨1, 16⟩)]),
        (9, Page.index 2 [⟨[99], 0, 6⟩, ⟨[101], 4, 6⟩, ⟨[101], 3, 6⟩, ⟨[105], 5, 6⟩,
                          ⟨[109], 7, 6⟩, ⟨[111], 8, 6⟩]),
        (10, Page.index 1 [⟨[103], 9, 6⟩])], 11⟩

/-- Twenty-three inserts of the keys "a" to "w" in ascending order. -/
def twentyThreeInserts : List (Key × RecordID) :=
  nineteenInserts ++ [([116], ⟨1, 19⟩), ([117], ⟨1, 20⟩), ([118], ⟨1, 21⟩), ([119], ⟨1, 22⟩)]

/-- The index after `twentyThreeInserts` under `cfg40`: the root 10 has the
index nodes 1 (four children) and 9 (seven children) below the separator "i". -/
def twentyThreeTree : BTreeFile :=
  ⟨10, [(0, Page.leaf 2 3 [([99], ⟨1, 2⟩), ([100], ⟨1, 3⟩)]),
        (1, Page.index 2 [⟨[99], 0, 6⟩, ⟨[101], 3, 6⟩, ⟨[103], 4, 6⟩]),
        (2, Page.leaf (-1) 0 [([97], ⟨1, 0⟩), ([98], ⟨1, 1⟩)]),
        (3, Page.leaf 0 4 [([101], ⟨1, 4⟩), ([102], ⟨1, 5⟩)]),
        (4, Page.leaf 3 5 [([103], ⟨1, 6⟩), ([104], ⟨1, 7⟩)]),
        (5, Page.leaf 4 6 [([105], ⟨1, 8⟩), ([106], ⟨1, 9⟩)]),
        (6, Page.leaf 5 7 [([107], ⟨1, 10⟩), ([108], ⟨1, 11⟩)]),
        (7, Page.leaf 6 8 [([109], ⟨1, 12⟩), ([110], ⟨1, 13⟩)]),
        (8, Page.leaf 7 11 [([111], ⟨1, 14⟩), ([112], ⟨1, 15⟩)]),
        (9, Page.index 5 [⟨[107], 6, 6⟩, ⟨[109], 7, 6⟩, ⟨[111], 8, 6⟩, ⟨[113], 11, 6⟩,
                          ⟨[115], 12, 6⟩, ⟨[117], 13, 6⟩]),
        (10, Page.index 1 [⟨[105], 9, 6⟩]),
        (11, Page.leaf 8 12 [([113], ⟨1, 16⟩), ([114], ⟨1, 17⟩)]),
        (12, Page.leaf 11 13 [([115], ⟨1, 18⟩), ([116], ⟨1, 19⟩)]),
        (13, Page.leaf 12 (-1) [([117], ⟨1, 20⟩), ([118], ⟨1, 21⟩), ([119], ⟨1, 22⟩)])], 14⟩

/-- The index after `Delete("a", (1,0))` on `twentyThreeTree`: leaf 0 was merged
into leaf 2 and the index redistribution moved the children 5 and 6 from node 9
to node 1. -/
def twentyThreeTreeAfter : BTreeFile :=
  ⟨10, [(0, Page.leaf 2 3 []),
        (1, Page.index 2 [⟨[101], 3, 6⟩, ⟨[103], 4, 6⟩, ⟨[105], 5, 6⟩, ⟨[109], 6, 6⟩]),
        (2, Page.leaf (-1) 3 [([98], ⟨1, 1⟩), ([99], ⟨1, 2⟩), ([100], ⟨1, 3⟩)]),
        (3, Page.leaf 2 4 [([101], ⟨1, 4⟩), ([102], ⟨1, 5⟩)]),
        (4, Page.leaf 3 5 [([103], ⟨1, 6⟩), ([104], ⟨1, 7⟩)]),
        (5, Page.leaf 4 6 [([105], ⟨1, 8⟩), ([106], ⟨1, 9⟩)]),
        (6, Page.leaf 5 7 [([107], ⟨1, 10⟩), ([108], ⟨1, 11⟩)]),
        (7, Page.leaf 6 8 [([109], ⟨1, 12⟩), ([110], ⟨1, 13⟩)]),
        (8, Page.leaf 7 11 [([111], ⟨1, 14⟩), ([112], ⟨1, 15⟩)]),
        (9, Page.index 7 [⟨[111], 8, 6⟩, ⟨[113], 11, 6⟩, ⟨[115], 12, 6⟩, ⟨[117], 13, 6⟩]),
        (10, Page.index 1 [⟨[109], 9, 6⟩]),
        (11, Page.leaf 8 12 [([113], ⟨1, 16⟩), ([114], ⟨1, 17⟩)]),
        (12, Page.leaf 11 13 [([115], ⟨1, 18⟩), ([116], ⟨1, 19⟩)]),
        (13, Page.leaf 12 (-1) [([117], ⟨1, 20⟩), ([118], ⟨1, 21⟩), ([119], ⟨1, 22⟩)])], 14⟩

/-- Twenty-five inserts of the keys "a" to "y" in ascending order. -/
def twentyFiveInserts : List (Key × RecordID) :=
  twentyThreeInserts ++ [([120], ⟨1, 23⟩), ([121], ⟨1, 24⟩)]

/-- The index after `twentyFiveInserts` under `cfg40`: the root 10 has the index
nodes 1, 9 and 15 below the separators "i" and "q". -/
def twentyFiveTree : BTreeFile :=
  ⟨10, [(0, Page.leaf 2 3 [([99], ⟨1, 2⟩), ([100], ⟨1, 3⟩)]),
        (1, Page.index 2 [⟨[99], 0, 6⟩, ⟨[101], 3, 6⟩, ⟨[103], 4, 6⟩]),
        (2, Page.leaf (-1) 0 [([97], ⟨1, 0⟩), ([98], ⟨1, 1⟩)]),
        (3, Page.leaf 0 4 [([101], ⟨1, 4⟩), ([102], ⟨1, 5⟩)]),
        (4, Page.leaf 3 5 [([103], ⟨1, 6⟩), ([104], ⟨1, 7⟩)]),
        (5, Page.leaf 4 6 [([105], ⟨1, 8⟩), ([106], ⟨1, 9⟩)]),
        (6, Page.leaf 5 7 [([107], ⟨1, 10⟩), ([108], ⟨1, 11⟩)]),
        (7, Page.leaf 6 8 [([109], ⟨1, 12⟩), ([110], ⟨1, 13⟩)]),
        (8, Page.leaf 7 11 [([111], ⟨1, 14⟩), ([112], ⟨1, 15⟩)]),
        (9, Page.index 5 [⟨[107], 6, 6⟩, ⟨[109], 7, 6⟩, ⟨[111], 8, 6⟩]),
        (10, Page.index 1 [⟨[105], 9, 6⟩, ⟨[113], 15, 6⟩]),
        (11, Page.leaf 8 12 [([113], ⟨1, 16⟩), ([114], ⟨1, 17⟩)]),
        (12, Page.leaf 11 13 [([115], ⟨1, 18⟩), ([116], ⟨1, 19⟩)]),
        (13, Page.leaf 12 14 [([117], ⟨1, 20⟩), ([118], ⟨1, 21⟩)]),
        (14, Page.leaf 13 (-1) [([119], ⟨1, 22⟩), ([120], ⟨1, 23⟩), ([121], ⟨1, 24⟩)]),
        (15, Page.index 11 [⟨[115], 12, 6⟩, ⟨[117], 13, 6⟩, ⟨[119], 14, 6⟩])], 16⟩

/-! ## The child pointer after an overrun of `AdjustKey` -/

theorem leafDelete_not_mem (k : Key) (r : RecordID) :
    ∀ es : List (Key × RecordID), (k, r) ∉ es → leafDelete k r es = (Status.FAIL, es) := by
  intro es
  induction es with
  | nil => intro _; rfl
  | cons e es ih =>
    intro h
    have h1 : ¬ (e.1 = k ∧ e.2 = r) := by
      intro hh
      apply h
      have : e = (k, r) := Prod.ext hh.1 hh.2
      simp [this]
    have h2 : (k, r) ∉ es := fun hm => h (List.mem_cons_of_mem _ hm)
    simp [leafDelete, h1, ih h2]

theorem GetPageID_eq_FindPage (key : Key) (left : PageID) (es : List IndexEntry) :
    GetPageID key left es = (FindPage key left es).1 := by
  unfold GetPageID FindPage
  cases findSlot key es <;> rfl

/-! ### A delete that does not find its entry -/

theorem deleteLeaf_not_held (c : Config) (fuel : Nat) (f : BTreeFile)
    (parentPid nodePid : PageID) (key : Key) (rid : RecordID) (a b : PageID)
    (es : List (Key × RecordID))
    (hp : getPage f.pages nodePid = some (Page.leaf a b es)) (hn : (key, rid) ∉ es) :
    deleteLeaf c fuel f parentPid nodePid key rid
      = Except.ok (Status.FAIL, INVALID_PAGE, none, f) := by
  simp [deleteLeaf, leafSlots, hp, leafDelete_not_mem key rid es hn]

theorem _Delete_not_held (c : Config) (key : Key) (rid : RecordID) (f : BTreeFile) :
    ∀ (fuel : Nat) (parentPid nodePid : PageID) r,
      (∀ p a b es, deleteDescent fuel f.pages key nodePid = some p →
        getPage f.pages p = some (Page.leaf a b es) → (key, rid) ∉ es) →
      _Delete c fuel f parentPid nodePid key rid = Except.ok r →
      r = (Status.FAIL, INVALID_PAGE, none, f) := by
  intro fuel
  induction fuel with
  | zero => intro parentPid nodePid r _ h; simp [_Delete] at h
  | succ n ih =>
    intro parentPid nodePid r hnot h
    unfold _Delete at h
    cases hpp : getPage f.pages parentPid with
    | none => simp [hpp] at h; exact h.symm
    | some pp =>
      simp only [hpp] at h
      cases hnp : getPage f.pages nodePid with
      | none => simp [hnp] at h; exact h.symm
      | some np =>
        cases np with
        | leaf a b es =>
          simp only [hnp] at h
          have hn : (key, rid) ∉ es := by
            apply hnot nodePid a b es _ hnp
            simp [deleteDescent, hnp]
          rw [deleteLeaf_not_held c n f parentPid nodePid key rid a b es hnp hn] at h
          cases h; rfl
        | index nleft nslots =>
          simp only [hnp] at h
          cases hrec : _Delete c n f nodePid (FindPage key nleft nslots).1 key rid with
          | error x => simp [hrec] at h
          | ok r1 =>
            have hr1 := ih nodePid (FindPage key nleft nslots).1 r1 (by
              intro p a b es hd hg
              apply hnot p a b es _ hg
              simp [deleteDescent, hnp, hd]) hrec
            subst hr1
            simp [hrec] at h
            exact h.symm

/-! ### Worked runs -/

theorem openScanLoop_stuck (fuel : Nat) : ∀ slotNo : Nat,
    openScanLoop [97] [([98], ⟨1, 0⟩)] fuel slotNo [98] = Except.error Fault.fuel := by
  induction fuel with
  | zero => intro slotNo; rfl
  | succ n ih =>
    intro slotNo
    have h : KeyCmp [97] [98] ≠ 0 := by decide
    simp only [openScanLoop, h, ne_eq, not_false_eq_true, if_true]
    have : ([([98], (⟨1, 0⟩ : RecordID))] : List (Key × RecordID)).get? (slotNo + 1) = none := by
      simp
    rw [this]
    exact ih (slotNo + 1)

/-- C1: nine inserts with duplicate keys into a fresh index build `dupTree`, and
the full scan `OpenScan(NULL, NULL)` read to `DONE` hands out all nine entries
but not in ascending key order: ("b", (1,2)) comes after two entries of key
"c". -/
theorem C1_scan_after_duplicate_inserts :
    insertAll cfg40 20 BTreeFile.empty dupInserts = Except.ok dupTree ∧
    scan 20 dupTree none none = Except.ok
      [([97], ⟨1, 4⟩), ([97], ⟨1, 5⟩), ([97], ⟨1, 6⟩), ([98], ⟨1, 1⟩), ([98], ⟨1, 0⟩),
       ([99], ⟨1, 7⟩), ([99], ⟨1, 8⟩), ([98], ⟨1, 2⟩), ([99], ⟨1, 3⟩)] ∧
    ¬ KeysAscending
      [([97], ⟨1, 4⟩), ([97], ⟨1, 5⟩), ([97], ⟨1, 6⟩), ([98], ⟨1, 1⟩), ([98], ⟨1, 0⟩),
       ([99], ⟨1, 7⟩), ([99], ⟨1, 8⟩), ([98], ⟨1, 2⟩), ([99], ⟨1, 3⟩)] :=
  ⟨by rfl, by rfl, by decide⟩

/-- C2: on the index that holds only ("b", (1,0)), `OpenScan("a", "c")` never
finishes: whatever the fuel, the positioning loop is still running, because it
waits for a key equal to "a". -/
theorem C2_scan_with_absent_low_key_diverges :
    insertAll cfg40 20 BTreeFile.empty [([98], ⟨1, 0⟩)] = Except.ok oneBTree ∧
    ∀ fuel : Nat, scan fuel oneBTree (some [97]) (some [99]) = Except.error Fault.fuel := by
  refine ⟨by rfl, ?_⟩
  intro fuel
  cases fuel with
  | zero => rfl
  | succ n =>
    have h := openScanLoop_stuck (n + 1) 0
    simp only [scan, OpenScan, oneBTree, _Search, getPage]
    simp [INVALID_PAGE, h]

/-- C3: after five inserts of the key "b", `Search("b")` returns `OK` with leaf 0,
and reading forward from leaf 0 along the chain never meets the inserted
entry ("b", (9,1)), which lies in the leaf to the left. -/
theorem C3_search_skips_duplicates_on_the_left :
    insertAll cfg40 20 BTreeFile.empty fiveB = Except.ok fiveBTree ∧
    Search 20 fiveBTree [98] = Except.ok (Status.OK, some 0) ∧
    (([98], ⟨9, 1⟩) : Key × RecordID) ∉ chainEntries fiveBTree.pages 20 0 :=
  ⟨by rfl, by rfl, by decide⟩

/-- C5: in the index built by five inserts of the key "b", the entry
("b", (9,1)) is stored in a leaf, yet `Delete("b", (9,1))` returns `FAIL`. -/
theorem C5_delete_fails_on_stored_duplicate :
    insertAll cfg40 20 BTreeFile.empty fiveB = Except.ok fiveBTree ∧
    (([98], ⟨9, 1⟩) : Key × RecordID) ∈ allLeafEntries fiveBTree.pages ∧
    Delete cfg40 20 fiveBTree [98] ⟨9, 1⟩ = Except.ok (Status.FAIL, fiveBTree) :=
  ⟨by rfl, by decide, by rfl⟩

/-- C6: on a non-empty index, when `Delete(key, rid)` returns `FAIL` and the leaf
its descent reaches does not hold `(key, rid)`, the file after the call (root,
every index node, every leaf with its entries and links) equals the file
before. -/
theorem C6_failed_delete_leaves_file_unchanged (c : Config) (fuel : Nat) (f f2 : BTreeFile)
    (key : Key) (rid : RecordID) (hne : NonEmptyIndex f)
    (hnot : ∀ p a b es, deleteDescent (fuel + 1) f.pages key f.root = some p →
      getPage f.pages p = some (Page.leaf a b es) → (key, rid) ∉ es)
    (h : Delete c fuel f key rid = Except.ok (Status.FAIL, f2)) : f2 = f := by
  unfold Delete at h
  cases hr : getPage f.pages f.root with
  | none => simp [hr] at h; exact h.symm
  | some rp =>
    cases rp with
    | leaf a b es =>
      have hn : (key, rid) ∉ es := by
        apply hnot f.root a b es _ hr
        simp [deleteDescent, hr]
      have hes : es ≠ [] := hne a b es hr
      have hlen : es.length ≠ 0 := by
        intro h0; exact hes (List.length_eq_zero.mp h0)
      simp [hr, leafDelete_not_mem key rid es hn, hlen] at h
      exact h.symm
    | index left es =>
      simp only [hr] at h
      cases hrec : _Delete c fuel f f.root (GetPageID key left es) key rid with
      | error x => simp [hrec] at h
      | ok r1 =>
        have hr1 := _Delete_not_held c key rid f fuel f.root (GetPageID key left es) r1 (by
          intro p a b es2 hd hg
          apply hnot p a b es2 _ hg
          simp [deleteDescent, hr, ← GetPageID_eq_FindPage, hd]) hrec
        subst hr1
        simp [hrec] at h
        exact h.symm

/-- Witness for C6: `Delete("b", (9,1))` on `fiveBTree` descends to leaf 0, which
does not hold the entry, returns `FAIL`, and the file is as before. -/
theorem C6_failed_delete_leaves_file_unchanged_witness :
    NonEmptyIndex fiveBTree ∧
    (∀ p a b es, deleteDescent (20 + 1) fiveBTree.pages [98] fiveBTree.root = some p →
      getPage fiveBTree.pages p = some (Page.leaf a b es) →
      (([98], ⟨9, 1⟩) : Key × RecordID) ∉ es) ∧
    Delete cfg40 20 fiveBTree [98] ⟨9, 1⟩ = Except.ok (Status.FAIL, fiveBTree) ∧
    fiveBTree = fiveBTree := by
  have hne : NonEmptyIndex fiveBTree := by
    intro a b es h
    have h2 : getPage fiveBTree.pages fiveBTree.root
        = some (Page.index 2 [⟨[98], 0, 6⟩]) := by rfl
    rw [h2] at h
    cases h
  have hnot : ∀ p a b es,
      deleteDescent (20 + 1) fiveBTree.pages [98] fiveBTree.root = some p →
      getPage fiveBTree.pages p = some (Page.leaf a b es) →
      (([98], ⟨9, 1⟩) : Key × RecordID) ∉ es := by
    intro p a b es hd hg
    have h2 : deleteDescent (20 + 1) fiveBTree.pages [98] fiveBTree.root = some 0 := by rfl
    rw [h2] at hd
    cases hd
    have h3 : getPage fiveBTree.pages 0 =
        some (Page.leaf 2 (-1) [([98], ⟨9, 3⟩), ([98], ⟨9, 4⟩), ([98], ⟨9, 5⟩)]) := by rfl
    rw [h3] at hg
    cases hg
    decide
  have hd : Delete cfg40 20 fiveBTree [98] ⟨9, 1⟩ = Except.ok (Status.FAIL, fiveBTree) := by
    rfl
  exact ⟨hne, hnot, hd,
    C6_failed_delete_leaves_file_unchanged cfg40 20 fiveBTree fiveBTree [98] ⟨9, 1⟩ hne hnot hd⟩

/-- C4: after thirteen inserts and deletes of pairwise distinct keys,
`Delete("e", (1,1))` returns `OK`, and afterwards the leaves hold the other
entry ("f", (1,6)) twice where they held it once before. -/
theorem C4_delete_duplicates_another_entry :
    applyOps cfg45 20 BTreeFile.empty dupEntryOps = Except.ok dupEntryTree ∧
    Delete cfg45 20 dupEntryTree [101] ⟨1, 1⟩ = Except.ok (Status.OK, dupEntryTreeAfter) ∧
    (allLeafEntries dupEntryTree.pages).count (([102], ⟨1, 6⟩) : Key × RecordID) = 1 ∧
    (allLeafEntries dupEntryTreeAfter.pages).count (([102], ⟨1, 6⟩) : Key × RecordID) = 2 :=
  ⟨by rfl, by rfl, by decide, by decide⟩

/-- C9: after nine inserts and deletes of pairwise distinct keys and
`Delete("f", (1,4))`, following `next` from the leftmost leaf 2 runs 2, 3, 3, 3
and so on: leaf 3 is its own `next` and its own `prev`, and the chain never
ends at `INVALID_PAGE`. -/
theorem C9_leaf_chain_loops_after_merge :
    applyOps cfg45 20 BTreeFile.empty chainOps = Except.ok chainTree ∧
    Delete cfg45 20 chainTree [102] ⟨1, 4⟩ = Except.ok (Status.OK, chainTreeAfter) ∧
    GetLeftmostLeaf 20 chainTreeAfter.pages chainTreeAfter.root = Except.ok 2 ∧
    leafChain chainTreeAfter.pages 5 2 = [2, 3, 3, 3, 3] ∧
    getPage chainTreeAfter.pages 3
      = some (Page.leaf 3 3 [([101], ⟨1, 0⟩), ([103], ⟨1, 5⟩), ([104], ⟨1, 1⟩)]) :=
  ⟨by rfl, by rfl, by rfl, by rfl, by rfl⟩

/-! ### Levels: store updates -/

theorem getPage_setPage (pages : List (PageID × Page)) (p q : PageID) (pg : Page) :
    getPage (setPage pages p pg) q = if q = p then some pg else getPage pages q := by
  induction pages with
  | nil =>
    by_cases h : q = p
    · simp [setPage, getPage, h]
    · have h2 : ¬ p = q := fun e => h e.symm
      simp [setPage, getPage, h, h2]
  | cons hd tl ih =>
    obtain ⟨r, old⟩ := hd
    by_cases hr : r = p
    · subst hr
      by_cases h : q = r
      · simp [setPage, getPage, h]
      · have h2 : ¬ r = q := fun e => h e.symm
        simp [setPage, getPage, h, h2]
    · by_cases h : q = p
      · subst h
        simp [setPage, getPage, hr, ih]
      · by_cases hq : r = q
        · simp [setPage, getPage, hr, hq, h]
        · simp [setPage, getPage, hr, hq, h, ih]

theorem getPage_setPage_same (pages : List (PageID × Page)) (p : PageID) (pg : Page) :
    getPage (setPage pages p pg) p = some pg := by
  simp [getPage_setPage]

theorem getPage_setPage_ne (pages : List (PageID × Page)) (p q : PageID) (pg : Page)
    (h : q ≠ p) : getPage (setPage pages p pg) q = getPage pages q := by
  simp [getPage_setPage, h]

theorem ChildOK_mono {lvl : PageID → Nat} {bound bound2 p q : PageID} (hb : bound ≤ bound2)
    (h : ChildOK lvl bound p q) : ChildOK lvl bound2 p q :=
  ⟨lt_of_lt_of_le h.1 hb, h.2⟩

theorem ChildOK_invalid (lvl : PageID → Nat) (bound p : PageID) (hb : 0 ≤ bound) :
    ChildOK lvl bound p INVALID_PAGE := by
  have hb2 : (0 : Int) ≤ bound := hb
  constructor
  · show (-1 : Int) < bound
    omega
  · intro h
    have h2 : (0 : Int) ≤ -1 := h
    omega

/-- In-place write of a leaf page. -/
theorem Leveled.set_leaf {lvl : PageID → Nat} {pages : List (PageID × Page)} {bound : PageID}
    (h : Leveled lvl pages bound) {p a0 b0 : PageID} {es0 : List (Key × RecordID)}
    (hp : getPage pages p = some (Page.leaf a0 b0 es0)) (a b : PageID)
    (es : List (Key × RecordID)) (ha : LinkOK pages bound a) (hb : LinkOK pages bound b) :
    Leveled lvl (setPage pages p (Page.leaf a b es)) bound := by
  have hidx : ∀ q l es2, getPage (setPage pages p (Page.leaf a b es)) q = some (Page.index l es2) →
      getPage pages q = some (Page.index l es2) := by
    intro q l es2 hq
    rw [getPage_setPage] at hq
    by_cases hqp : q = p
    · simp [hqp] at hq
    · simpa [hqp] using hq
  have hlink : ∀ x, LinkOK pages bound x → LinkOK (setPage pages p (Page.leaf a b es)) bound x := by
    intro x hx
    refine ⟨hx.1, ?_⟩
    intro l es2 hq
    exact hx.2 l es2 (hidx x l es2 hq)
  constructor
  · exact h.bound_nonneg
  · intro q pg hq
    rw [getPage_setPage] at hq
    by_cases hqp : q = p
    · subst hqp; exact h.pid_range q _ hp
    · simp [hqp] at hq; exact h.pid_range q pg hq
  · intro q a1 b1 es1 hq
    rw [getPage_setPage] at hq
    by_cases hqp : q = p
    · subst hqp; exact h.leaf_level q _ _ _ hp
    · simp [hqp] at hq; exact h.leaf_level q _ _ _ hq
  · intro q a1 b1 es1 hq
    rw [getPage_setPage] at hq
    by_cases hqp : q = p
    · simp [hqp] at hq
      obtain ⟨h1, h2, _⟩ := hq
      subst h1; subst h2
      exact ⟨hlink _ ha, hlink _ hb⟩
    · simp [hqp] at hq
      have := h.leaf_links q _ _ _ hq
      exact ⟨hlink _ this.1, hlink _ this.2⟩
  · intro q l es2 hq
    exact h.index_children q l es2 (hidx q l es2 hq)

/-- In-place write of an index page. -/
theorem Leveled.set_index {lvl : PageID → Nat} {pages : List (PageID × Page)} {bound : PageID}
    (h : Leveled lvl pages bound) {p l0 : PageID} {es0 : List IndexEntry}
    (hp : getPage pages p = some (Page.index l0 es0)) (l : PageID) (es : List IndexEntry)
    (hc : ∀ q ∈ children l es, ChildOK lvl bound p q) :
    Leveled lvl (setPage pages p (Page.index l es)) bound := by
  have hidx : ∀ q l2 es2, getPage (setPage pages p (Page.index l es)) q = some (Page.index l2 es2) →
      ∃ l3 es3, getPage pages q = some (Page.index l3 es3) := by
    intro q l2 es2 hq
    rw [getPage_setPage] at hq
    by_cases hqp : q = p
    · subst hqp; exact ⟨l0, es0, hp⟩
    · simp [hqp] at hq; exact ⟨l2, es2, hq⟩
  have hlink : ∀ x, LinkOK pages bound x → LinkOK (setPage pages p (Page.index l es)) bound x := by
    intro x hx
    refine ⟨hx.1, ?_⟩
    intro l2 es2 hq
    obtain ⟨l3, es3, h3⟩ := hidx x l2 es2 hq
    exact hx.2 l3 es3 h3
  constructor
  · exact h.bound_nonneg
  · intro q pg hq
    rw [getPage_setPage] at hq
    by_cases hqp : q = p
    · subst hqp; exact h.pid_range q _ hp
    · simp [hqp] at hq; exact h.pid_range q pg hq
  · intro q a1 b1 es1 hq
    rw [getPage_setPage] at hq
    by_cases hqp : q = p
    · simp [hqp] at hq
    · simp [hqp] at hq; exact h.leaf_level q _ _ _ hq
  · intro q a1 b1 es1 hq
    rw [getPage_setPage] at hq
    by_cases hqp : q = p
    · simp [hqp] at hq
    · simp [hqp] at hq
      have := h.leaf_links q _ _ _ hq
      exact ⟨hlink _ this.1, hlink _ this.2⟩
  · intro q l2 es2 hq
    rw [getPage_setPage] at hq
    by_cases hqp : q = p
    · simp [hqp] at hq
      obtain ⟨h1, h2⟩ := hq
      subst h1; subst h2; subst hqp
      exact hc
    · simp [hqp] at hq
      exact h.index_children q l2 es2 hq


theorem LinkOK_invalid {lvl : PageID → Nat} {pages : List (PageID × Page)} {bound : PageID}
    (h : Leveled lvl pages bound) : LinkOK pages bound INVALID_PAGE := by
  have hb2 : (0 : Int) ≤ bound := h.bound_nonneg
  constructor
  · show (-1 : Int) < bound
    omega
  · intro l es hq
    have := (h.pid_range _ _ hq).1
    have h2 : (0 : Int) ≤ -1 := this
    omega

theorem Leveled.fresh {lvl : PageID → Nat} {pages : List (PageID × Page)} {bound : PageID}
    (h : Leveled lvl pages bound) : getPage pages bound = none := by
  cases hq : getPage pages bound with
  | none => rfl
  | some pg =>
    have := (h.pid_range _ _ hq).2
    exact absurd this (lt_irrefl _)

theorem update_lvl_of_lt (lvl : PageID → Nat) (bound q : PageID) (k : Nat) (hq : q < bound) :
    Function.update lvl bound k q = lvl q := by
  have : q ≠ bound := ne_of_lt hq
  simp [Function.update, this]

/-- Allocation of a page at the bound. -/
theorem Leveled.alloc {lvl : PageID → Nat} {pages : List (PageID × Page)} {bound : PageID}
    (h : Leveled lvl pages bound) (k : Nat) (pg : Page)
    (hleaf : ∀ a b es, pg = Page.leaf a b es → k = 0 ∧ a = INVALID_PAGE ∧ b = INVALID_PAGE)
    (hidx : ∀ l es, pg = Page.index l es →
      ∀ q ∈ children l es, q < bound ∧ (0 ≤ q → k = lvl q + 1)) :
    Leveled (Function.update lvl bound k) (setPage pages bound pg) (bound + 1) := by
  have hb2 : (0 : Int) ≤ bound := h.bound_nonneg
  have hlt : ∀ x : PageID, x < bound → x < bound + 1 :=
    fun x hx => lt_trans hx (lt_add_one bound)
  have hlink : ∀ x, LinkOK pages bound x → LinkOK (setPage pages bound pg) (bound + 1) x := by
    intro x hx
    refine ⟨hlt x hx.1, ?_⟩
    intro l es hq
    rw [getPage_setPage_ne _ _ _ _ (ne_of_lt hx.1)] at hq
    exact hx.2 l es hq
  constructor
  · exact le_trans h.bound_nonneg (le_of_lt (lt_add_one bound))
  · intro q pg2 hq
    rw [getPage_setPage] at hq
    by_cases hqp : q = bound
    · subst hqp
      exact ⟨h.bound_nonneg, lt_add_one q⟩
    · simp [hqp] at hq
      have := h.pid_range q pg2 hq
      exact ⟨this.1, hlt q this.2⟩
  · intro q a b es hq
    rw [getPage_setPage] at hq
    by_cases hqp : q = bound
    · subst hqp
      simp at hq
      simp [Function.update, (hleaf a b es hq).1]
    · simp [hqp] at hq
      rw [update_lvl_of_lt lvl bound q k (h.pid_range q _ hq).2]
      exact h.leaf_level q _ _ _ hq
  · intro q a b es hq
    rw [getPage_setPage] at hq
    by_cases hqp : q = bound
    · simp [hqp] at hq
      obtain ⟨_, ha, hb⟩ := hleaf a b es hq
      subst ha; subst hb
      exact ⟨hlink _ (LinkOK_invalid h), hlink _ (LinkOK_invalid h)⟩
    · simp [hqp] at hq
      have := h.leaf_links q _ _ _ hq
      exact ⟨hlink _ this.1, hlink _ this.2⟩
  · intro q l es hq x hx
    rw [getPage_setPage] at hq
    by_cases hqp : q = bound
    · subst hqp
      simp at hq
      have := hidx l es hq x hx
      refine ⟨hlt x this.1, ?_⟩
      intro hx0
      rw [update_lvl_of_lt lvl q x k this.1]
      simp [Function.update, this.2 hx0]
    · simp [hqp] at hq
      have hc := h.index_children q l es hq x hx
      refine ⟨hlt x hc.1, ?_⟩
      intro hx0
      rw [update_lvl_of_lt lvl bound q k (h.pid_range q _ hq).2,
        update_lvl_of_lt lvl bound x k hc.1]
      exact hc.2 hx0

theorem Leveled.setLeafSlots {lvl : PageID → Nat} {pages : List (PageID × Page)}
    {bound : PageID} (h : Leveled lvl pages bound) (p : PageID) (es : List (Key × RecordID)) :
    Leveled lvl (setLeafSlots pages p es) bound := by
  unfold BTree.setLeafSlots
  cases hp : getPage pages p with
  | none => exact h
  | some pg =>
    cases pg with
    | leaf a b es0 =>
      have hl := h.leaf_links p a b es0 hp
      exact h.set_leaf hp a b es hl.1 hl.2
    | index l es0 => exact h

theorem Leveled.setIndexSlots {lvl : PageID → Nat} {pages : List (PageID × Page)}
    {bound : PageID} (h : Leveled lvl pages bound) (p : PageID) (es : List IndexEntry)
    (hc : ∀ e ∈ es, ChildOK lvl bound p e.pid) :
    Leveled lvl (setIndexSlots pages p es) bound := by
  unfold BTree.setIndexSlots
  cases hp : getPage pages p with
  | none => exact h
  | some pg =>
    cases pg with
    | leaf a b es0 => exact h
    | index l es0 =>
      apply h.set_index hp l es
      intro q hq
      simp only [children, List.mem_cons, List.mem_map] at hq
      rcases hq with hq | ⟨e, he, rfl⟩
      · subst hq
        exact h.index_children p q es0 hp q (by simp [children])
      · exact hc e he

theorem Leveled.setPrev {lvl : PageID → Nat} {pages : List (PageID × Page)}
    {bound : PageID} (h : Leveled lvl pages bound) (p x : PageID)
    (hleaf : ∀ a b es, getPage pages p = some (Page.leaf a b es) → LinkOK pages bound x)
    (hidx : ∀ l es, getPage pages p = some (Page.index l es) → ChildOK lvl bound p x) :
    Leveled lvl (setPrev pages p x) bound := by
  unfold BTree.setPrev
  cases hp : getPage pages p with
  | none => exact h
  | some pg =>
    cases pg with
    | leaf a b es0 =>
      have hl := h.leaf_links p a b es0 hp
      exact h.set_leaf hp x b es0 (hleaf a b es0 hp) hl.2
    | index l es0 =>
      apply h.set_index hp x es0
      intro q hq
      simp only [children, List.mem_cons, List.mem_map] at hq
      rcases hq with hq | ⟨e, he, rfl⟩
      · subst hq
        exact hidx l es0 hp
      · exact h.index_children p l es0 hp e.pid (by simp [children]; exact Or.inr ⟨e, he, rfl⟩)

theorem Leveled.setNext {lvl : PageID → Nat} {pages : List (PageID × Page)}
    {bound : PageID} (h : Leveled lvl pages bound) (p x : PageID)
    (hleaf : ∀ a b es, getPage pages p = some (Page.leaf a b es) → LinkOK pages bound x) :
    Leveled lvl (setNext pages p x) bound := by
  unfold BTree.setNext
  cases hp : getPage pages p with
  | none => exact h
  | some pg =>
    cases pg with
    | leaf a b es0 =>
      have hl := h.leaf_links p a b es0 hp
      exact h.set_leaf hp a x es0 hl.1 (hleaf a b es0 hp)
    | index l es0 => exact h

/-! ### Levels: children of index pages -/

theorem mem_sortedInsert {α : Type} (keyOf : α → Key) (x y : α) (es : List α) :
    y ∈ sortedInsert keyOf x es ↔ y = x ∨ y ∈ es := by
  induction es with
  | nil => simp [sortedInsert]
  | cons e es ih =>
    unfold sortedInsert
    by_cases h : KeyCmp (keyOf x) (keyOf e) < 0
    · simp [h]
    · simp [h, ih]
      tauto

theorem mem_indexInsert (c : Config) (k : Key) (p : PageID) (es : List IndexEntry)
    (e : IndexEntry) (h : e ∈ (indexInsert c k p es).2) : e.pid = p ∨ e ∈ es := by
  unfold indexInsert at h
  by_cases hfit : GetKeyDataLength c k NodeType.INDEX_NODE ≤ indexAvail c es
  · simp only [hfit, if_true] at h
    rcases (mem_sortedInsert _ _ _ _).1 h with h1 | h1
    · left; rw [h1]
    · right; exact h1
  · simp only [hfit, if_false] at h
    right; exact h

theorem mem_deleteSlot {α : Type} (n : Nat) (es : List α) (x : α) (h : x ∈ deleteSlot n es) :
    x ∈ es := by
  induction es generalizing n with
  | nil => simp [deleteSlot] at h
  | cons e es ih =>
    cases n with
    | zero => simp [deleteSlot] at h; exact List.mem_cons_of_mem _ h
    | succ m =>
      simp only [deleteSlot, List.mem_cons] at h
      rcases h with h | h
      · simp [h]
      · exact List.mem_cons_of_mem _ (ih m h)

theorem mem_indexDelete (key : Key) (es es2 : List IndexEntry)
    (h : indexDelete key es = Except.ok es2) (e : IndexEntry) (he : e ∈ es2) : e ∈ es := by
  unfold indexDelete at h
  cases es with
  | nil => simp at h
  | cons e0 rest =>
    simp only at h
    split at h
    · split at h
      · cases h; exact he
      · cases h; exact mem_deleteSlot _ _ _ he
    · split at h
      · cases h; exact he
      · cases h; exact mem_deleteSlot _ _ _ he

theorem adjustRev_pids (c : Config) (newKey oldKey : Key) :
    ∀ (es es2 : List IndexEntry) (st : Status),
      adjustRev c newKey oldKey es = Except.ok (st, es2) → es2.map IndexEntry.pid = es.map IndexEntry.pid := by
  intro es
  induction es with
  | nil => intro es2 st h; simp [adjustRev] at h; simp [h.2.symm]
  | cons e es ih =>
    intro es2 st h
    unfold adjustRev at h
    by_cases h1 : KeyCmp oldKey e.key ≥ 0
    · simp only [h1, if_true] at h
      by_cases h2 : newKey.length + 1 + c.pidSize ≤ e.len
      · simp only [h2, if_true] at h
        cases h
        simp
      · simp [h2] at h
    · simp only [h1, if_false] at h
      cases hrec : adjustRev c newKey oldKey es with
      | error x => simp [hrec] at h
      | ok r =>
        obtain ⟨st2, es3⟩ := r
        simp only [hrec] at h
        cases h
        simp [ih es3 _ hrec]

theorem AdjustKey_pids (c : Config) (newKey oldKey : Key) (es es2 : List IndexEntry) (st : Status)
    (h : AdjustKey c newKey oldKey es = Except.ok (st, es2)) :
    es2.map IndexEntry.pid = es.map IndexEntry.pid := by
  unfold AdjustKey at h
  cases hrec : adjustRev c newKey oldKey es.reverse with
  | error x => simp [hrec] at h
  | ok r =>
    obtain ⟨st2, es3⟩ := r
    simp only [hrec] at h
    cases h
    have := adjustRev_pids c newKey oldKey _ _ _ hrec
    rw [List.map_reverse, this, List.map_reverse, List.reverse_reverse]

theorem AdjustKey_mem_pid (c : Config) (newKey oldKey : Key) (es es2 : List IndexEntry) (st : Status)
    (h : AdjustKey c newKey oldKey es = Except.ok (st, es2)) (e : IndexEntry) (he : e ∈ es2) :
    ∃ e0 ∈ es, e.pid = e0.pid := by
  have hp := AdjustKey_pids c newKey oldKey es es2 st h
  have : e.pid ∈ es2.map IndexEntry.pid := List.mem_map_of_mem _ he
  rw [hp] at this
  obtain ⟨e0, he0, h0⟩ := List.mem_map.1 this
  exact ⟨e0, he0, h0.symm⟩

theorem findSlot_mem (key : Key) (es : List IndexEntry) (e : IndexEntry)
    (h : findSlot key es = some e) : e ∈ es := by
  unfold findSlot at h
  have := List.mem_of_find?_eq_some h
  exact List.mem_reverse.1 this

theorem FindPage_mem_children (key : Key) (left : PageID) (es : List IndexEntry) :
    (FindPage key left es).1 ∈ children left es := by
  unfold FindPage
  cases h : findSlot key es with
  | none => simp [children]
  | some e =>
    simp only [children, List.mem_cons, List.mem_map]
    right
    exact ⟨e, findSlot_mem key es e h, rfl⟩

theorem GetPageID_mem_children (key : Key) (left : PageID) (es : List IndexEntry) :
    GetPageID key left es ∈ children left es := by
  have : GetPageID key left es = (FindPage key left es).1 := by
    unfold GetPageID FindPage
    cases findSlot key es <;> rfl
  rw [this]
  exact FindPage_mem_children key left es

theorem findSiblingRev_mem (targetPid left : PageID) :
    ∀ (es : List IndexEntry) (q : PageID), findSiblingRev targetPid left es = some q →
      (q = left ∨ ∃ e ∈ es, q = e.pid) ∧ ∃ e ∈ es, targetPid = e.pid := by
  intro es
  induction es with
  | nil => intro q h; simp [findSiblingRev] at h
  | cons e es ih =>
    intro q h
    unfold findSiblingRev at h
    by_cases ht : targetPid = e.pid
    · simp only [ht, if_true] at h
      cases es with
      | nil =>
        simp at h
        exact ⟨Or.inl h.symm, e, by simp, ht⟩
      | cons e2 rest =>
        simp at h
        exact ⟨Or.inr ⟨e2, by simp, h.symm⟩, e, by simp, ht⟩
    · simp only [ht, if_false] at h
      obtain ⟨h1, e1, he1, h2⟩ := ih q h
      refine ⟨?_, e1, List.mem_cons_of_mem _ he1, h2⟩
      rcases h1 with h1 | ⟨e3, he3, h3⟩
      · exact Or.inl h1
      · exact Or.inr ⟨e3, List.mem_cons_of_mem _ he3, h3⟩

theorem FindSiblingForChild_mem (targetPid left : PageID) (es : List IndexEntry) (st : Status)
    (s : PageID) (r : Bool)
    (h : FindSiblingForChild targetPid left es = Except.ok (st, some s, some r)) :
    s ∈ children left es ∧ targetPid ∈ children left es := by
  unfold FindSiblingForChild at h
  by_cases hl : left = targetPid
  · cases es with
    | nil => simp [hl] at h
    | cons e rest =>
      simp only [hl, if_true] at h
      cases hf : findSiblingRev targetPid targetPid (e :: rest).reverse with
      | none =>
        simp only [hf] at h
        cases h
        subst hl
        simp [children]
      | some q =>
        simp only [hf] at h
        cases h
        obtain ⟨h1, e1, he1, h2⟩ := findSiblingRev_mem _ _ _ _ hf
        subst hl
        constructor
        · rcases h1 with h1 | ⟨e3, he3, h3⟩
          · simp [children, h1]
          · exact List.mem_cons_of_mem _
              (List.mem_map.2 ⟨e3, List.mem_reverse.1 he3, h3.symm⟩)
        · simp [children]
  · simp only [hl, if_false] at h
    cases hf : findSiblingRev targetPid left es.reverse with
    | none => simp [hf] at h
    | some q =>
      simp only [hf] at h
      cases h
      obtain ⟨h1, e1, he1, h2⟩ := findSiblingRev_mem _ _ _ _ hf
      constructor
      · rcases h1 with h1 | ⟨e3, he3, h3⟩
        · simp [children, h1]
        · simp only [children, List.mem_cons, List.mem_map]
          right
          exact ⟨e3, List.mem_reverse.1 he3, h3.symm⟩
      · simp only [children, List.mem_cons, List.mem_map]
        right
        exact ⟨e1, List.mem_reverse.1 he1, h2.symm⟩

theorem DeletePage_children (c : Config) (pid : PageID) (rs : Option Bool) (left : PageID)
    (es : List IndexEntry) (st : Status) (left2 : PageID) (es2 : List IndexEntry)
    (h : DeletePage c pid rs left es = Except.ok (st, left2, es2)) :
    left2 ∈ children left es ∧ ∀ e ∈ es2, ∃ e0 ∈ es, e.pid = e0.pid := by
  unfold DeletePage at h
  by_cases hl : left = pid
  · simp only [hl, if_true] at h
    cases es with
    | nil => simp at h
    | cons e rest =>
      simp only at h
      cases hd : indexDelete e.key (e :: rest) with
      | error x => simp [hd] at h
      | ok es3 =>
        simp only [hd] at h
        cases h
        refine ⟨by simp [children], ?_⟩
        intro e1 he1
        exact ⟨e1, mem_indexDelete _ _ _ hd e1 he1, rfl⟩
  · simp only [hl, if_false] at h
    cases es with
    | nil =>
      simp only at h
      split at h
      · simp at h
      · split at h
        · simp at h
        · cases h
          exact ⟨by simp [children], by simp⟩
    | cons e rest =>
      simp only at h
      split at h
      · simp at h
      · split at h
        · cases hd : indexDelete e.key (e :: rest) with
          | error x => simp [hd] at h
          | ok es3 =>
            simp only [hd] at h
            cases h
            refine ⟨by simp [children], ?_⟩
            intro e1 he1
            exact ⟨e1, mem_indexDelete _ _ _ hd e1 he1, rfl⟩
        · split at h
          · cases h
            exact ⟨by simp [children], fun e1 he1 => ⟨e1, he1, rfl⟩⟩
          · cases h
            exact ⟨by simp [children], fun e1 he1 => ⟨e1, he1, rfl⟩⟩
          · rename_i t rest2 hseek
            cases hd : indexDelete t.key (e :: rest) with
            | error x => simp [hd] at h
            | ok es3 =>
              simp only [hd] at h
              split at h
              · simp at h
              · rename_i st3 es4 hadj
                cases h
                refine ⟨by simp [children], ?_⟩
                intro e1 he1
                obtain ⟨e0, he0, h0⟩ := AdjustKey_mem_pid _ _ _ _ _ _ hadj e1 he1
                exact ⟨e0, mem_indexDelete _ _ _ hd e0 he0, h0⟩

theorem IdxSub.sub_refl (pages : List (PageID × Page)) : IdxSub pages pages :=
  fun _ l es h => ⟨l, es, h⟩

theorem IdxSub.sub_trans {p3 p2 p1 : List (PageID × Page)} (h1 : IdxSub p3 p2) (h2 : IdxSub p2 p1) :
    IdxSub p3 p1 := by
  intro q l es h
  obtain ⟨l0, es0, h0⟩ := h1 q l es h
  exact h2 q l0 es0 h0

theorem IdxSub_setPage_leaf (pages : List (PageID × Page)) (p a b : PageID)
    (es : List (Key × RecordID)) : IdxSub (setPage pages p (Page.leaf a b es)) pages := by
  intro q l es2 h
  rw [getPage_setPage] at h
  by_cases hq : q = p
  · simp [hq] at h
  · simp [hq] at h; exact ⟨l, es2, h⟩

theorem IdxSub_setPage_index (pages : List (PageID × Page)) (p l0 l : PageID)
    (es0 es : List IndexEntry) (hp : getPage pages p = some (Page.index l0 es0)) :
    IdxSub (setPage pages p (Page.index l es)) pages := by
  intro q l2 es2 h
  rw [getPage_setPage] at h
  by_cases hq : q = p
  · subst hq; exact ⟨l0, es0, hp⟩
  · simp [hq] at h; exact ⟨l2, es2, h⟩

theorem IdxSub_setLeafSlots (pages : List (PageID × Page)) (p : PageID)
    (es : List (Key × RecordID)) : IdxSub (setLeafSlots pages p es) pages := by
  unfold setLeafSlots
  cases hp : getPage pages p with
  | none => exact IdxSub.sub_refl _
  | some pg =>
    cases pg with
    | leaf a b es0 => exact IdxSub_setPage_leaf _ _ _ _ _
    | index l es0 => exact IdxSub.sub_refl _

theorem IdxSub_setIndexSlots (pages : List (PageID × Page)) (p : PageID)
    (es : List IndexEntry) : IdxSub (setIndexSlots pages p es) pages := by
  unfold setIndexSlots
  cases hp : getPage pages p with
  | none => exact IdxSub.sub_refl _
  | some pg =>
    cases pg with
    | leaf a b es0 => exact IdxSub.sub_refl _
    | index l es0 => exact IdxSub_setPage_index _ _ _ _ _ _ hp

theorem IdxSub_setPrev (pages : List (PageID × Page)) (p x : PageID) :
    IdxSub (setPrev pages p x) pages := by
  unfold setPrev
  cases hp : getPage pages p with
  | none => exact IdxSub.sub_refl _
  | some pg =>
    cases pg with
    | leaf a b es0 => exact IdxSub_setPage_leaf _ _ _ _ _
    | index l es0 => exact IdxSub_setPage_index _ _ _ _ _ _ hp

theorem IdxSub_setNext (pages : List (PageID × Page)) (p x : PageID) :
    IdxSub (setNext pages p x) pages := by
  unfold setNext
  cases hp : getPage pages p with
  | none => exact IdxSub.sub_refl _
  | some pg =>
    cases pg with
    | leaf a b es0 => exact IdxSub_setPage_leaf _ _ _ _ _
    | index l es0 => exact IdxSub.sub_refl _

theorem LinkOK.of_IdxSub {pages pages2 : List (PageID × Page)} {bound bound2 x : PageID}
    (h : LinkOK pages bound x) (hs : IdxSub pages2 pages) (hb : bound ≤ bound2) :
    LinkOK pages2 bound2 x := by
  refine ⟨lt_of_lt_of_le h.1 hb, ?_⟩
  intro l es hq
  obtain ⟨l0, es0, h0⟩ := hs x l es hq
  exact h.2 l0 es0 h0

theorem LinkOK.of_not_index {pages pages2 : List (PageID × Page)} {bound x : PageID}
    (hx : x < bound) (hn : ∀ l es, getPage pages x ≠ some (Page.index l es))
    (hs : IdxSub pages2 pages) : LinkOK pages2 bound x :=
  LinkOK.of_IdxSub ⟨hx, hn⟩ hs (le_refl _)

theorem LvlExt.ext_refl (lvl : PageID → Nat) (bound : PageID) : LvlExt lvl lvl bound :=
  fun _ _ => rfl

theorem LvlExt.ext_trans {l1 l2 l3 : PageID → Nat} {b1 b2 : PageID} (h12 : LvlExt l1 l2 b1)
    (h23 : LvlExt l2 l3 b2) (hb : b1 ≤ b2) : LvlExt l1 l3 b1 := by
  intro p hp
  rw [h23 p (lt_of_lt_of_le hp hb), h12 p hp]

theorem LvlExt_update (lvl : PageID → Nat) (bound : PageID) (k : Nat) :
    LvlExt lvl (Function.update lvl bound k) bound :=
  fun p hp => update_lvl_of_lt lvl bound p k hp

/-! ### Levels: insert -/

theorem insertLeaf_leveled (c : Config) (fuel : Nat) (f f2 : BTreeFile) (lvl : PageID → Nat)
    (nodePid lprev lnext : PageID) (es : List (Key × RecordID)) (k : Key) (r : RecordID)
    (st : Status) (newPid : PageID) (newKey : Option Key)
    (h : Leveled lvl f.pages f.nextPid)
    (hp : getPage f.pages nodePid = some (Page.leaf lprev lnext es))
    (hr : insertLeaf c fuel f nodePid lprev lnext es k r = Except.ok (st, newPid, newKey, f2)) :
    ∃ lvl2, Leveled lvl2 f2.pages f2.nextPid ∧ LvlExt lvl lvl2 f.nextPid ∧
      f.nextPid ≤ f2.nextPid ∧
      (newPid ≠ INVALID_PAGE → 0 ≤ newPid ∧ newPid < f2.nextPid ∧ lvl2 newPid = lvl nodePid) := by
  have hlinks := h.leaf_links nodePid lprev lnext es hp
  unfold insertLeaf at hr
  split at hr
  · cases hr
    exact ⟨lvl, h.set_leaf hp _ _ _ hlinks.1 hlinks.2, LvlExt.ext_refl _ _, le_refl _,
      fun hne => absurd rfl hne⟩
  · simp only [NewPage] at hr
    split at hr
    · simp at hr
    · rename_i leaf2 newLeaf2 hloop
      split at hr
      · simp at hr
      · rename_i e rest
        -- abbreviations
        generalize hn3 : (if KeyCmp k e.1 ≥ 0 then (leafInsert c k r (e :: rest)).2 else e :: rest)
          = newLeaf3 at hr
        generalize hl3 : (if KeyCmp k e.1 ≥ 0 then leaf2 else (leafInsert c k r leaf2).2)
          = leaf3 at hr
        have H1 : Leveled (Function.update lvl f.nextPid 0)
            (setPage f.pages f.nextPid (Page.leaf INVALID_PAGE INVALID_PAGE newLeaf3))
            (f.nextPid + 1) := by
          apply h.alloc 0
          · intro a b es2 heq; cases heq; exact ⟨rfl, rfl, rfl⟩
          · intro l es2 heq; cases heq
        have S1 : IdxSub (setPage f.pages f.nextPid (Page.leaf INVALID_PAGE INVALID_PAGE newLeaf3))
            f.pages := IdxSub_setPage_leaf _ _ _ _ _
        have hNleaf : ∀ l es2, getPage
            (setPage f.pages f.nextPid (Page.leaf INVALID_PAGE INVALID_PAGE newLeaf3)) f.nextPid
            ≠ some (Page.index l es2) := by
          intro l es2 hq
          rw [getPage_setPage_same] at hq
          cases hq
        have hnodeLt : nodePid < f.nextPid + 1 :=
          lt_trans (h.pid_range _ _ hp).2 (lt_add_one _)
        have hnodeNI : ∀ l es2, getPage f.pages nodePid ≠ some (Page.index l es2) := by
          intro l es2 hq; rw [hp] at hq; cases hq
        have H2 := H1.setLeafSlots nodePid leaf3
        have S2 := IdxSub_setLeafSlots
          (setPage f.pages f.nextPid (Page.leaf INVALID_PAGE INVALID_PAGE newLeaf3)) nodePid leaf3
        have hpost : 0 ≤ f.nextPid ∧ f.nextPid < f.nextPid + 1 ∧
            Function.update lvl f.nextPid 0 f.nextPid = lvl nodePid := by
          refine ⟨h.bound_nonneg, lt_add_one _, ?_⟩
          rw [h.leaf_level _ _ _ _ hp]
          simp [Function.update]
        split at hr
        · cases hr
          exact ⟨_, H2, LvlExt_update _ _ _, le_of_lt (lt_add_one _), fun _ => hpost⟩
        · cases hr
          refine ⟨_, ?_, LvlExt_update _ _ _, le_of_lt (lt_add_one _), fun _ => hpost⟩
          simp only
          generalize hp2 : setLeafSlots
            (setPage f.pages f.nextPid (Page.leaf INVALID_PAGE INVALID_PAGE newLeaf3)) nodePid leaf3
            = pages2 at H2 S2
          have S20 : IdxSub pages2 f.pages := S2.sub_trans S1
          have H3 : Leveled (Function.update lvl f.nextPid 0)
              (if lnext ≠ INVALID_PAGE then setPrev pages2 lnext f.nextPid else pages2)
              (f.nextPid + 1) := by
            split
            · apply H2.setPrev
              · intro _ _ _ _
                exact LinkOK.of_not_index (lt_add_one _) hNleaf S2
              · intro l es2 hq
                obtain ⟨l0, es0, h0⟩ := S20 _ _ _ hq
                exact absurd h0 (hlinks.2.2 l0 es0)
            · exact H2
          have S3 : IdxSub (if lnext ≠ INVALID_PAGE then setPrev pages2 lnext f.nextPid else pages2)
              pages2 := by
            split
            · exact IdxSub_setPrev _ _ _
            · exact IdxSub.sub_refl _
          generalize hp3 : (if lnext ≠ INVALID_PAGE then setPrev pages2 lnext f.nextPid else pages2)
            = pages3 at H3 S3
          have H4 := H3.setNext f.nextPid lnext (fun _ _ _ _ =>
            LinkOK.of_IdxSub hlinks.2 (S3.sub_trans S20) (le_of_lt (lt_add_one _)))
          have S4 := IdxSub_setNext pages3 f.nextPid lnext
          have H5 := H4.setPrev f.nextPid nodePid
            (fun _ _ _ _ => LinkOK.of_not_index hnodeLt hnodeNI (S4.sub_trans (S3.sub_trans S20)))
            (fun l es2 hq => by
              obtain ⟨l0, es0, h0⟩ := (S4.sub_trans (S3.sub_trans S2)) _ _ _ hq
              exact absurd h0 (hNleaf l0 es0))
          have S5 := IdxSub_setPrev (setNext pages3 f.nextPid lnext) f.nextPid nodePid
          exact H5.setNext nodePid f.nextPid (fun _ _ _ _ =>
            LinkOK.of_not_index (lt_add_one _) hNleaf (S5.sub_trans (S4.sub_trans (S3.sub_trans S2))))

theorem indexSplitLoop_pids (c : Config) :
    ∀ (fuel : Nat) (old new old2 new2 : List IndexEntry),
      indexSplitLoop c fuel old new = Except.ok (old2, new2) →
      (∀ e ∈ old2, e ∈ old) ∧ (∀ e ∈ new2, e ∈ new ∨ ∃ e0 ∈ old, e.pid = e0.pid) := by
  intro fuel
  induction fuel with
  | zero => intro old new old2 new2 h; simp [indexSplitLoop] at h
  | succ n ih =>
    intro old new old2 new2 h
    unfold indexSplitLoop at h
    split at h
    · cases h
      exact ⟨fun e he => he, fun e he => Or.inl he⟩
    · rename_i e hlast
      split at h
      · split at h
        · simp at h
        · rename_i old3 hdel
          obtain ⟨h1, h2⟩ := ih _ _ _ _ h
          have hsub : ∀ x ∈ old3, x ∈ old := fun x hx => mem_indexDelete _ _ _ hdel x hx
          refine ⟨fun x hx => hsub x (h1 x hx), ?_⟩
          intro x hx
          rcases h2 x hx with h3 | ⟨e0, he0, h0⟩
          · rcases mem_indexInsert _ _ _ _ _ h3 with h4 | h4
            · right
              exact ⟨e, List.mem_of_mem_getLast? hlast, h4⟩
            · left; exact h4
          · right
            exact ⟨e0, hsub e0 he0, h0⟩
      · cases h
        exact ⟨fun e he => he, fun e he => Or.inl he⟩

theorem insertIndex_leveled (c : Config) (fuel : Nat) (f1 f2 : BTreeFile) (lvl : PageID → Nat)
    (nodePid left1 : PageID) (es1 : List IndexEntry) (tKey : Key) (tempNewPid : PageID)
    (st : Status) (newPid : PageID) (newKey : Option Key)
    (h : Leveled lvl f1.pages f1.nextPid)
    (hp : getPage f1.pages nodePid = some (Page.index left1 es1))
    (hnew : ChildOK lvl f1.nextPid nodePid tempNewPid)
    (hr : insertIndex c fuel f1 nodePid left1 es1 tKey tempNewPid
      = Except.ok (st, newPid, newKey, f2)) :
    ∃ lvl2, Leveled lvl2 f2.pages f2.nextPid ∧ LvlExt lvl lvl2 f1.nextPid ∧
      f1.nextPid ≤ f2.nextPid ∧
      (newPid ≠ INVALID_PAGE → 0 ≤ newPid ∧ newPid < f2.nextPid ∧ lvl2 newPid = lvl nodePid) := by
  have hch := h.index_children nodePid left1 es1 hp
  have hchE : ∀ e ∈ es1, ChildOK lvl f1.nextPid nodePid e.pid := by
    intro e he
    apply hch
    simp only [children, List.mem_cons, List.mem_map]
    exact Or.inr ⟨e, he, rfl⟩
  have hins : ∀ (l : List IndexEntry), (∀ e ∈ l, ChildOK lvl f1.nextPid nodePid e.pid) →
      ∀ e ∈ (indexInsert c tKey tempNewPid l).2, ChildOK lvl f1.nextPid nodePid e.pid := by
    intro l hl e he
    rcases mem_indexInsert _ _ _ _ _ he with h1 | h1
    · rw [h1]; exact hnew
    · exact hl e h1
  unfold insertIndex at hr
  split at hr
  · cases hr
    refine ⟨lvl, ?_, LvlExt.ext_refl _ _, le_refl _, fun hne => absurd rfl hne⟩
    apply h.set_index hp
    intro q hq
    simp only [children, List.mem_cons, List.mem_map] at hq
    rcases hq with hq | ⟨e, he, rfl⟩
    · subst hq; exact hch _ (by simp [children])
    · exact hins es1 hchE e he
  · simp only [NewPage] at hr
    split at hr
    · simp at hr
    · rename_i old2 new2 hloop
      obtain ⟨hold, hnewl⟩ := indexSplitLoop_pids c _ _ _ _ _ hloop
      have hold2 : ∀ e ∈ old2, ChildOK lvl f1.nextPid nodePid e.pid :=
        fun e he => hchE e (hold e he)
      have hnew2 : ∀ e ∈ new2, ChildOK lvl f1.nextPid nodePid e.pid := by
        intro e he
        rcases hnewl e he with h1 | ⟨e0, he0, h0⟩
        · simp at h1
        · rw [h0]; exact hchE e0 he0
      split at hr
      · simp at hr
      · rename_i e rest
        split at hr
        · simp at hr
        · rename_i new3 hdel
          have hnew3 : ∀ x ∈ new3, ChildOK lvl f1.nextPid nodePid x.pid :=
            fun x hx => hnew2 x (mem_indexDelete _ _ _ hdel x hx)
          cases hr
          generalize hn4 : (if KeyCmp tKey e.key ≥ 0 then (indexInsert c tKey tempNewPid new3).2
            else new3) = new4
          generalize ho3 : (if KeyCmp tKey e.key ≥ 0 then old2
            else (indexInsert c tKey tempNewPid old2).2) = old3
          have hnew4 : ∀ x ∈ new4, ChildOK lvl f1.nextPid nodePid x.pid := by
            rw [← hn4]
            split
            · exact hins new3 hnew3
            · exact hnew3
          have hold3 : ∀ x ∈ old3, ChildOK lvl f1.nextPid nodePid x.pid := by
            rw [← ho3]
            split
            · exact hold2
            · exact hins old2 hold2
          have he : ChildOK lvl f1.nextPid nodePid e.pid := hnew2 e (by simp)
          have hnodeLt : nodePid < f1.nextPid := (h.pid_range _ _ hp).2
          have H1 : Leveled (Function.update lvl f1.nextPid (lvl nodePid))
              (setPage f1.pages f1.nextPid (Page.index e.pid new4)) (f1.nextPid + 1) := by
            apply h.alloc (lvl nodePid)
            · intro a b es2 heq; cases heq
            · intro l es2 heq q hq
              cases heq
              simp only [children, List.mem_cons, List.mem_map] at hq
              rcases hq with hq | ⟨x, hx, rfl⟩
              · subst hq; exact he
              · exact hnew4 x hx
          have hp1 : getPage (setPage f1.pages f1.nextPid (Page.index e.pid new4)) nodePid
              = some (Page.index left1 es1) := by
            rw [getPage_setPage_ne _ _ _ _ (ne_of_lt hnodeLt)]
            exact hp
          have hup : ∀ q, ChildOK lvl f1.nextPid nodePid q →
              ChildOK (Function.update lvl f1.nextPid (lvl nodePid)) (f1.nextPid + 1) nodePid q := by
            intro q hq
            refine ⟨lt_trans hq.1 (lt_add_one _), ?_⟩
            intro hq0
            rw [update_lvl_of_lt _ _ _ _ hnodeLt, update_lvl_of_lt _ _ _ _ hq.1]
            exact hq.2 hq0
          refine ⟨Function.update lvl f1.nextPid (lvl nodePid), ?_, LvlExt_update _ _ _,
            le_of_lt (lt_add_one _), fun _ =>
            ⟨h.bound_nonneg, lt_add_one _, by simp [Function.update]⟩⟩
          apply H1.set_index hp1
          intro q hq
          simp only [children, List.mem_cons, List.mem_map] at hq
          rcases hq with hq | ⟨x, hx, rfl⟩
          · subst hq; exact hup _ (hch _ (by simp [children]))
          · exact hup _ (hold3 x hx)

theorem _Insert_page_exists (c : Config) (fuel : Nat) (f : BTreeFile) (nodePid : PageID)
    (k : Key) (r : RecordID) (res : Status × PageID × Option Key × BTreeFile)
    (h : _Insert c fuel f nodePid k r = Except.ok res) : ∃ pg, getPage f.pages nodePid = some pg := by
  cases fuel with
  | zero => simp [_Insert] at h
  | succ n =>
    unfold _Insert at h
    cases hp : getPage f.pages nodePid with
    | none => simp [hp] at h
    | some pg => exact ⟨pg, rfl⟩

theorem _Insert_leveled (c : Config) (k : Key) (r : RecordID) :
    ∀ (fuel : Nat) (f f2 : BTreeFile) (lvl : PageID → Nat) (nodePid : PageID)
      (st : Status) (newPid : PageID) (newKey : Option Key),
      Leveled lvl f.pages f.nextPid →
      _Insert c fuel f nodePid k r = Except.ok (st, newPid, newKey, f2) →
      ∃ lvl2, Leveled lvl2 f2.pages f2.nextPid ∧ LvlExt lvl lvl2 f.nextPid ∧
        f.nextPid ≤ f2.nextPid ∧
        (newPid ≠ INVALID_PAGE →
          0 ≤ newPid ∧ newPid < f2.nextPid ∧ lvl2 newPid = lvl nodePid) := by
  intro fuel
  induction fuel with
  | zero => intro f f2 lvl nodePid st newPid newKey _ h; simp [_Insert] at h
  | succ n ih =>
    intro f f2 lvl nodePid st newPid newKey hlv h
    unfold _Insert at h
    split at h
    · simp at h
    · rename_i lprev lnext es hp
      exact insertLeaf_leveled c n f f2 lvl nodePid lprev lnext es k r st newPid newKey hlv hp h
    · rename_i left es hp
      simp only at h
      split at h
      · simp at h
      · rename_i res tempNewPid tempNewKey f1 hrec
        obtain ⟨lvl1, hlv1, hext1, hle1, hpost1⟩ :=
          ih f f1 lvl (FindPage k left es).1 res tempNewPid tempNewKey hlv hrec
        split at h
        · cases h
          exact ⟨lvl1, hlv1, hext1, hle1, fun hne => absurd rfl hne⟩
        · rename_i hne
          split at h
          · simp at h
          · simp at h
          · simp at h
          · rename_i tKey left1 es1 hp1
            obtain ⟨hn0, hnlt, hnl⟩ := hpost1 hne
            obtain ⟨pgT, hT⟩ := _Insert_page_exists c n f _ k r _ hrec
            have hT0 : 0 ≤ (FindPage k left es).1 := (hlv.pid_range _ _ hT).1
            have hchild := hlv.index_children nodePid left es hp _ (FindPage_mem_children k left es)
            have hnodeLt : nodePid < f.nextPid := (hlv.pid_range _ _ hp).2
            have hnew : ChildOK lvl1 f1.nextPid nodePid tempNewPid := by
              refine ⟨hnlt, fun _ => ?_⟩
              rw [hnl, hext1 nodePid hnodeLt]
              exact hchild.2 hT0
            obtain ⟨lvl2, hlv2, hext2, hle2, hpost2⟩ :=
              insertIndex_leveled c n f1 f2 lvl1 nodePid left1 es1 tKey tempNewPid st newPid
                newKey hlv1 hp1 hnew h
            refine ⟨lvl2, hlv2, LvlExt.ext_trans hext1 hext2 hle1, le_trans hle1 hle2, ?_⟩
            intro hne2
            obtain ⟨a, b, c2⟩ := hpost2 hne2
            exact ⟨a, b, by rw [c2, hext1 nodePid hnodeLt]⟩

theorem Split1LeafNode_leveled (c : Config) (fuel : Nat) (f f2 : BTreeFile) (lvl : PageID → Nat)
    (leafPageID a lnext : PageID) (es : List (Key × RecordID)) (k : Key) (r : RecordID)
    (st : Status) (newRoot : PageID)
    (h : Leveled lvl f.pages f.nextPid)
    (hp : getPage f.pages leafPageID = some (Page.leaf a lnext es))
    (hr : Split1LeafNode c fuel f leafPageID k r = Except.ok (st, newRoot, f2)) :
    ∃ lvl2, Leveled lvl2 f2.pages f2.nextPid := by
  have hlt : leafPageID < f.nextPid := (h.pid_range _ _ hp).2
  have hlinks := h.leaf_links _ _ _ _ hp
  have hn1 : f.nextPid < f.nextPid + 1 := lt_add_one _
  have hn2 : f.nextPid + 1 < f.nextPid + 1 + 1 := lt_add_one _
  -- the two allocations
  have HR : Leveled (Function.update lvl f.nextPid 1)
      (setPage f.pages f.nextPid (Page.index INVALID_PAGE [])) (f.nextPid + 1) := by
    apply h.alloc 1
    · intro a b es2 heq; cases heq
    · intro l es2 heq q hq
      cases heq
      simp only [children, List.map_nil, List.mem_singleton] at hq
      subst hq
      have hb : (0 : Int) ≤ f.nextPid := h.bound_nonneg
      constructor
      · show (-1 : Int) < f.nextPid
        omega
      · intro h0
        have : (0 : Int) ≤ -1 := h0
        omega
  generalize hpR : setPage f.pages f.nextPid (Page.index INVALID_PAGE []) = pagesR at HR
  have hRn : getPage pagesR f.nextPid = some (Page.index INVALID_PAGE []) := by
    rw [← hpR, getPage_setPage_same]
  have hRo : ∀ q, q < f.nextPid → getPage pagesR q = getPage f.pages q := by
    intro q hq
    rw [← hpR, getPage_setPage_ne _ _ _ _ (ne_of_lt hq)]
  have HL : Leveled (Function.update (Function.update lvl f.nextPid 1) (f.nextPid + 1) 0)
      (setPage pagesR (f.nextPid + 1) (Page.leaf INVALID_PAGE INVALID_PAGE []))
      (f.nextPid + 1 + 1) := by
    apply HR.alloc 0
    · intro a b es2 heq; cases heq; exact ⟨rfl, rfl, rfl⟩
    · intro l es2 heq; cases heq
  generalize hlv2 : Function.update (Function.update lvl f.nextPid 1) (f.nextPid + 1) 0 = lvl2
    at HL
  have hl2n : lvl2 f.nextPid = 1 := by
    rw [← hlv2, update_lvl_of_lt _ _ _ _ hn1]
    simp [Function.update]
  have hl2n1 : lvl2 (f.nextPid + 1) = 0 := by
    rw [← hlv2]; simp [Function.update]
  have hl2leaf : lvl2 leafPageID = 0 := by
    rw [← hlv2, update_lvl_of_lt _ _ _ _ (lt_trans hlt hn1), update_lvl_of_lt _ _ _ _ hlt]
    exact h.leaf_level _ _ _ _ hp
  have SL : IdxSub (setPage pagesR (f.nextPid + 1) (Page.leaf INVALID_PAGE INVALID_PAGE []))
      pagesR := IdxSub_setPage_leaf _ _ _ _ _
  generalize hpL : setPage pagesR (f.nextPid + 1) (Page.leaf INVALID_PAGE INVALID_PAGE [])
    = pagesL at HL SL
  have hLn : getPage pagesL f.nextPid = some (Page.index INVALID_PAGE []) := by
    rw [← hpL, getPage_setPage_ne _ _ _ _ (ne_of_lt hn1), hRn]
  have hLn1 : getPage pagesL (f.nextPid + 1)
      = some (Page.leaf INVALID_PAGE INVALID_PAGE []) := by
    rw [← hpL, getPage_setPage_same]
  have hLleaf : getPage pagesL leafPageID = some (Page.leaf a lnext es) := by
    rw [← hpL, getPage_setPage_ne _ _ _ _ (ne_of_lt (lt_trans hlt hn1)), hRo _ hlt, hp]
  unfold Split1LeafNode at hr
  simp only [NewPage, hpR, hpL, hLleaf] at hr
  split at hr
  · simp at hr
  · rename_i e0 rest
    split at hr
    · simp at hr
    · rename_i leaf2 newLeaf2 cur hloop
      cases hr
      refine ⟨lvl2, ?_⟩
      simp only
      have hrs : ∀ key2, ∀ e ∈ (indexInsert c key2 leafPageID []).2, e.pid = leafPageID := by
        intro key2 e he
        rcases mem_indexInsert _ _ _ _ _ he with h1 | h1
        · exact h1
        · simp at h1
      suffices key : ∀ (rootSlots : List IndexEntry) (newLeaf3 leaf3 : List (Key × RecordID)),
          (∀ e ∈ rootSlots, e.pid = leafPageID) →
          Leveled lvl2 (setPage (setPage (setPage pagesL f.nextPid
            (Page.index (f.nextPid + 1) rootSlots)) (f.nextPid + 1)
            (Page.leaf INVALID_PAGE leafPageID newLeaf3)) leafPageID
            (Page.leaf (f.nextPid + 1) lnext leaf3)) (f.nextPid + 1 + 1) from
        key _ _ _ (hrs _)
      intro rootSlots newLeaf3 leaf3 hrs2
      have H1 : Leveled lvl2 (setPage pagesL f.nextPid (Page.index (f.nextPid + 1) rootSlots))
          (f.nextPid + 1 + 1) := by
        apply HL.set_index hLn
        intro q hq
        simp only [children, List.mem_cons, List.mem_map] at hq
        rcases hq with hq | ⟨e, he, rfl⟩
        · subst hq
          exact ⟨hn2, fun _ => by rw [hl2n, hl2n1]⟩
        · rw [hrs2 e he]
          exact ⟨lt_trans (lt_trans hlt hn1) hn2, fun _ => by rw [hl2n, hl2leaf]⟩
      have S1 : IdxSub (setPage pagesL f.nextPid (Page.index (f.nextPid + 1) rootSlots)) pagesL :=
        IdxSub_setPage_index _ _ _ _ _ _ hLn
      generalize hP1 : setPage pagesL f.nextPid (Page.index (f.nextPid + 1) rootSlots) = P1
        at H1 S1
      have h1n1 : getPage P1 (f.nextPid + 1) = some (Page.leaf INVALID_PAGE INVALID_PAGE []) := by
        rw [← hP1, getPage_setPage_ne _ _ _ _ (ne_of_gt hn1), hLn1]
      have h1leaf : getPage P1 leafPageID = some (Page.leaf a lnext (e0 :: rest)) := by
        rw [← hP1, getPage_setPage_ne _ _ _ _ (ne_of_lt hlt), hLleaf]
      have hleafNI : ∀ l es2, getPage pagesL leafPageID ≠ some (Page.index l es2) := by
        intro l es2 hq; rw [hLleaf] at hq; cases hq
      have hn1NI : ∀ l es2, getPage pagesL (f.nextPid + 1) ≠ some (Page.index l es2) := by
        intro l es2 hq; rw [hLn1] at hq; cases hq
      have hnextNI : ∀ l es2, getPage pagesL lnext ≠ some (Page.index l es2) := by
        intro l es2 hq
        have hq2 : getPage f.pages lnext = some (Page.index l es2) := by
          rw [← hpL, getPage_setPage_ne _ _ _ _ (ne_of_lt (lt_trans hlinks.2.1 hn1)),
            hRo _ hlinks.2.1] at hq
          exact hq
        exact hlinks.2.2 l es2 hq2
      have H2 := H1.set_leaf h1n1 INVALID_PAGE leafPageID newLeaf3 (LinkOK_invalid H1)
        (LinkOK.of_not_index (lt_trans (lt_trans hlt hn1) hn2) hleafNI S1)
      have S2 : IdxSub (setPage P1 (f.nextPid + 1) (Page.leaf INVALID_PAGE leafPageID newLeaf3)) P1 :=
        IdxSub_setPage_leaf _ _ _ _ _
      apply @Leveled.set_leaf _ _ _ H2 _ a lnext (e0 :: rest)
      · rw [getPage_setPage_ne _ _ _ _ (ne_of_lt (lt_trans hlt hn1)), h1leaf]
      · exact LinkOK.of_not_index hn2 hn1NI (S2.sub_trans S1)
      · exact LinkOK.of_not_index (lt_trans (lt_trans hlinks.2.1 hn1) hn2) hnextNI (S2.sub_trans S1)

theorem Insert_leveled (c : Config) (fuel : Nat) (f f2 : BTreeFile) (lvl : PageID → Nat)
    (k : Key) (r : RecordID) (st : Option Status)
    (h : Leveled lvl f.pages f.nextPid)
    (hr : Insert c fuel f k r = Except.ok (st, f2)) :
    ∃ lvl2, Leveled lvl2 f2.pages f2.nextPid := by
  unfold Insert at hr
  split at hr
  · simp only [NewPage] at hr
    cases hr
    refine ⟨Function.update lvl f.nextPid 0, ?_⟩
    apply h.alloc 0
    · intro a b es2 heq; cases heq; exact ⟨rfl, rfl, rfl⟩
    · intro l es2 heq; cases heq
  · split at hr
    · cases hr; exact ⟨lvl, h⟩
    · rename_i lprev lnext es hp
      split at hr
      · cases hr
        have hl := h.leaf_links _ _ _ _ hp
        exact ⟨lvl, h.set_leaf hp _ _ _ hl.1 hl.2⟩
      · split at hr
        · simp at hr
        · rename_i res newRoot f1 hsp
          obtain ⟨lvl2, h2⟩ := Split1LeafNode_leveled c fuel f f1 lvl f.root lprev lnext es k r
            res newRoot h hp hsp
          split at hr
          · cases hr; exact ⟨lvl2, h2⟩
          · cases hr; exact ⟨lvl2, h2⟩
    · rename_i left es hp
      split at hr
      · simp at hr
      · rename_i res newPid newKey f1 hins
        obtain ⟨lvl1, h1, hext, hle, hpost⟩ :=
          _Insert_leveled c k r fuel f f1 lvl f.root res newPid newKey h hins
        split at hr
        · rename_i hne
          split at hr
          · simp at hr
          · rename_i nk
            simp only [NewPage] at hr
            cases hr
            obtain ⟨hn0, hnlt, hnl⟩ := hpost hne
            have hrootLt : f.root < f.nextPid := (h.pid_range _ _ hp).2
            refine ⟨Function.update lvl1 f1.nextPid (lvl1 f.root + 1), ?_⟩
            apply h1.alloc
            · intro a b es2 heq; cases heq
            · intro l es2 heq q hq
              cases heq
              simp only [children, List.mem_cons, List.mem_map] at hq
              rcases hq with hq | ⟨e, he, rfl⟩
              · subst hq
                exact ⟨lt_of_lt_of_le hrootLt hle, fun _ => rfl⟩
              · rcases mem_indexInsert _ _ _ _ _ he with h3 | h3
                · rw [h3]
                  exact ⟨hnlt, fun _ => by rw [hnl, hext _ hrootLt]⟩
                · simp at h3
        · cases hr; exact ⟨lvl1, h1⟩

theorem Leveled_empty (lvl : PageID → Nat) :
    Leveled lvl BTreeFile.empty.pages BTreeFile.empty.nextPid := by
  constructor
  · exact le_refl _
  · intro p pg hq; simp [BTreeFile.empty, getPage] at hq
  · intro p a b es hq; simp [BTreeFile.empty, getPage] at hq
  · intro p a b es hq; simp [BTreeFile.empty, getPage] at hq
  · intro p l es hq; simp [BTreeFile.empty, getPage] at hq

theorem Leveled.balanced {lvl : PageID → Nat} {f : BTreeFile}
    (h : Leveled lvl f.pages f.nextPid) : Balanced f := by
  have key : ∀ p d q, ReachAt f.pages p d q →
      (∃ a b es, getPage f.pages q = some (Page.leaf a b es)) → lvl p = d := by
    intro p d q hr
    induction hr with
    | here p =>
      intro hleaf
      obtain ⟨a, b, es, hq⟩ := hleaf
      exact h.leaf_level _ _ _ _ hq
    | step p q2 r d left es hp hq hrest ih =>
      intro hleaf
      have hd := ih hleaf
      have hex : ∃ pg, getPage f.pages q2 = some pg := by
        cases hrest with
        | here _ =>
          obtain ⟨a, b, es2, hq3⟩ := hleaf
          exact ⟨_, hq3⟩
        | step _ _ _ _ l2 es2 hp2 _ _ => exact ⟨_, hp2⟩
      obtain ⟨pg, hpg⟩ := hex
      have h0 := (h.pid_range _ _ hpg).1
      have hc := h.index_children p left es hp q2 hq
      rw [hc.2 h0, hd]
  intro p q d1 d2 h1 h2 hl1 hl2
  rw [← key _ _ _ h1 hl1, ← key _ _ _ h2 hl2]

/-! ### Levels: delete -/

theorem leafRedistLoop_leveled (c : Config) (rs : Bool) (nodePid siblingPid : PageID)
    (lvl : PageID → Nat) (bound : PageID) :
    ∀ (fuel : Nat) (pages pages2 : List (PageID × Page)) (buf buf2 : Option (Key × RecordID)),
      Leveled lvl pages bound →
      leafRedistLoop c rs nodePid siblingPid fuel pages buf = Except.ok (pages2, buf2) →
      Leveled lvl pages2 bound ∧ IdxSub pages2 pages := by
  intro fuel
  induction fuel with
  | zero => intro pages pages2 buf buf2 _ h; simp [leafRedistLoop] at h
  | succ n ih =>
    intro pages pages2 buf buf2 hl h
    unfold leafRedistLoop at h
    split at h
    · rename_i node sib hn hs
      split at h
      · simp only at h
        split at h
        · simp at h
        · rename_i e hbuf
          split at h
          · split at h
            · rename_i sib1 hs1
              obtain ⟨h1, h2⟩ := ih _ _ _ _ ((hl.setLeafSlots _ _).setLeafSlots _ _) h
              exact ⟨h1, h2.sub_trans ((IdxSub_setLeafSlots _ _ _).sub_trans (IdxSub_setLeafSlots _ _ _))⟩
            · simp at h
          · obtain ⟨h1, h2⟩ := ih _ _ _ _ (hl.setLeafSlots _ _) h
            exact ⟨h1, h2.sub_trans (IdxSub_setLeafSlots _ _ _)⟩
      · cases h
        exact ⟨hl, IdxSub.sub_refl _⟩
    · simp at h
    · simp at h

theorem leafMergeLoop_leveled (c : Config) (nodePid siblingPid : PageID)
    (lvl : PageID → Nat) (bound : PageID) :
    ∀ (fuel : Nat) (pages pages2 : List (PageID × Page)),
      Leveled lvl pages bound →
      leafMergeLoop c nodePid siblingPid fuel pages = Except.ok pages2 →
      Leveled lvl pages2 bound ∧ IdxSub pages2 pages := by
  intro fuel
  induction fuel with
  | zero => intro pages pages2 _ h; simp [leafMergeLoop] at h
  | succ n ih =>
    intro pages pages2 hl h
    unfold leafMergeLoop at h
    split at h
    · simp at h
    · cases h
      exact ⟨hl, IdxSub.sub_refl _⟩
    · split at h
      · simp at h
      · simp only at h
        split at h
        · simp at h
        · obtain ⟨h1, h2⟩ := ih _ _ ((hl.setLeafSlots _ _).setLeafSlots _ _) h
          exact ⟨h1, h2.sub_trans ((IdxSub_setLeafSlots _ _ _).sub_trans (IdxSub_setLeafSlots _ _ _))⟩

theorem leafSlots_ok {pages : List (PageID × Page)} {pid : PageID} {es : List (Key × RecordID)}
    (h : leafSlots pages pid = Except.ok es) :
    ∃ a b, getPage pages pid = some (Page.leaf a b es) := by
  unfold leafSlots at h
  split at h
  · rename_i a b es2 hp
    cases h
    exact ⟨a, b, hp⟩
  · simp at h

theorem indexSlots_ok {pages : List (PageID × Page)} {pid left : PageID} {es : List IndexEntry}
    (h : indexSlots pages pid = Except.ok (left, es)) :
    getPage pages pid = some (Page.index left es) := by
  unfold indexSlots at h
  split at h
  · rename_i l es2 hp
    cases h
    exact hp
  · simp at h

theorem getNext_ok {pages : List (PageID × Page)} {pid nb : PageID}
    (h : getNext pages pid = Except.ok nb) :
    ∃ a es, getPage pages pid = some (Page.leaf a nb es) := by
  unfold getNext at h
  split at h
  · rename_i a b es hp
    cases h
    exact ⟨a, es, hp⟩
  · simp at h

theorem Leveled.setIndexSlots_adjust {lvl : PageID → Nat} {pages : List (PageID × Page)}
    {bound : PageID} (h : Leveled lvl pages bound) (c : Config) (p left : PageID)
    (es es2 : List IndexEntry) (newKey oldKey : Key) (st : Status)
    (hp : getPage pages p = some (Page.index left es))
    (ha : AdjustKey c newKey oldKey es = Except.ok (st, es2)) :
    Leveled lvl (BTree.setIndexSlots pages p es2) bound := by
  apply h.setIndexSlots
  intro e he
  obtain ⟨e0, he0, h0⟩ := AdjustKey_mem_pid _ _ _ _ _ _ ha e he
  rw [h0]
  apply h.index_children p left es hp
  simp only [children, List.mem_cons, List.mem_map]
  exact Or.inr ⟨e0, he0, rfl⟩

theorem deleteLeaf_leveled (c : Config) (fuel : Nat) (f f2 : BTreeFile) (lvl : PageID → Nat)
    (parentPid nodePid : PageID) (key : Key) (rid : RecordID) (st : Status) (old : PageID)
    (rs : Option Bool)
    (h : Leveled lvl f.pages f.nextPid)
    (hr : deleteLeaf c fuel f parentPid nodePid key rid = Except.ok (st, old, rs, f2)) :
    Leveled lvl f2.pages f2.nextPid ∧ f2.nextPid = f.nextPid := by
  unfold deleteLeaf at hr
  split at hr
  · simp at hr
  · rename_i nslots hns
    try simp only at hr
    have H1 : Leveled lvl (if (leafDelete key rid nslots).1 = Status.OK
        then setLeafSlots f.pages nodePid (leafDelete key rid nslots).2 else f.pages)
        f.nextPid := by
      split
      · exact h.setLeafSlots _ _
      · exact h
    have S1 : IdxSub (if (leafDelete key rid nslots).1 = Status.OK
        then setLeafSlots f.pages nodePid (leafDelete key rid nslots).2 else f.pages)
        f.pages := by
      split
      · exact IdxSub_setLeafSlots _ _ _
      · exact IdxSub.sub_refl _
    generalize (if (leafDelete key rid nslots).1 = Status.OK
        then setLeafSlots f.pages nodePid (leafDelete key rid nslots).2 else f.pages) = pages1
      at hr H1 S1
    split at hr
    · cases hr; exact ⟨H1, rfl⟩
    · split at hr
      · simp at hr
      · rename_i pleft pslots hps
        split at hr
        · simp at hr
        · simp at hr
        · simp at hr
        · rename_i siblingPid rightSibling hfs
          split at hr
          · cases hr; exact ⟨H1, rfl⟩
          · simp at hr
          · rename_i sprev snext sslots hsib
            try simp only at hr
            split at hr
            · simp at hr
            · rename_i b0 hb0
              split at hr
              · simp at hr
              · rename_i pages2 buf2 hloop
                obtain ⟨H2, S2⟩ := leafRedistLoop_leveled c rightSibling nodePid siblingPid lvl
                  f.nextPid _ _ _ _ _ H1 hloop
                split at hr
                · rename_i node2 sib2 pleft2 pslots2 hn2 hs2 hp2
                  split at hr
                  · split at hr
                    · simp at hr
                    · simp at hr
                    · rename_i tk opk
                      split at hr
                      · simp at hr
                      · rename_i st3 pslots3 hadj
                        cases hr
                        exact ⟨H2.setIndexSlots_adjust c parentPid pleft2 pslots2 pslots3 _ _ _
                          (indexSlots_ok hp2) hadj, rfl⟩
                  · split at hr
                    · split at hr
                      · simp at hr
                      · rename_i pages3 hmerge
                        obtain ⟨H3, S3⟩ := leafMergeLoop_leveled c nodePid siblingPid lvl
                          f.nextPid _ _ _ H2 hmerge
                        obtain ⟨na, nb2, hnode2⟩ := leafSlots_ok hn2
                        have hnodeLt : nodePid < f.nextPid := (H2.pid_range _ _ hnode2).2
                        have hnodeNI : ∀ l es, getPage pages2 nodePid ≠ some (Page.index l es) := by
                          intro l es hq; rw [hnode2] at hq; cases hq
                        try simp only at hr
                        split at hr
                        · simp at hr
                        · rename_i nb hlink
                          have hnbLink : LinkOK pages3 f.nextPid nb := by
                            cases rightSibling with
                            | true =>
                              simp only [if_true] at hlink
                              obtain ⟨a, es, hq⟩ := getNext_ok hlink
                              exact (H3.leaf_links _ _ _ _ hq).2
                            | false =>
                              simp only [Bool.false_eq_true, if_false] at hlink
                              unfold getPrev at hlink
                              split at hlink
                              · rename_i p n es hq
                                cases hlink
                                exact (H3.leaf_links _ _ _ _ hq).1
                              · rename_i l es hq
                                obtain ⟨l0, es0, h0⟩ := (S3.sub_trans S2) _ _ _ hq
                                rw [hsib] at h0
                                cases h0
                              · simp at hlink
                          have hnodeLink : LinkOK pages3 f.nextPid nodePid :=
                            LinkOK.of_not_index hnodeLt hnodeNI S3
                          split at hr
                          · cases hr; exact ⟨H3, rfl⟩
                          · split at hr
                            · cases hr
                              refine ⟨?_, rfl⟩
                              simp only
                              have H4 : Leveled lvl (if nb ≠ INVALID_PAGE
                                  then setPrev pages3 nb nodePid else pages3) f.nextPid := by
                                split
                                · apply H3.setPrev
                                  · intro _ _ _ _; exact hnodeLink
                                  · intro l es hq
                                    exact absurd hq (hnbLink.2 l es)
                                · exact H3
                              have S4 : IdxSub (if nb ≠ INVALID_PAGE
                                  then setPrev pages3 nb nodePid else pages3) pages3 := by
                                split
                                · exact IdxSub_setPrev _ _ _
                                · exact IdxSub.sub_refl _
                              exact H4.setNext nodePid nb (fun _ _ _ _ =>
                                LinkOK.of_IdxSub hnbLink S4 (le_refl _))
                            · cases hr
                              refine ⟨?_, rfl⟩
                              simp only
                              have H4 : Leveled lvl (if nb ≠ INVALID_PAGE
                                  then setNext pages3 nb nodePid else pages3) f.nextPid := by
                                split
                                · apply H3.setNext
                                  intro _ _ _ _; exact hnodeLink
                                · exact H3
                              have S4 : IdxSub (if nb ≠ INVALID_PAGE
                                  then setNext pages3 nb nodePid else pages3) pages3 := by
                                split
                                · exact IdxSub_setNext _ _ _
                                · exact IdxSub.sub_refl _
                              apply H4.setPrev nodePid nb
                              · intro _ _ _ _
                                exact LinkOK.of_IdxSub hnbLink S4 (le_refl _)
                              · intro l es hq
                                obtain ⟨l0, es0, h0⟩ := (S4.sub_trans S3) _ _ _ hq
                                exact absurd h0 (hnodeNI l0 es0)
                    · cases hr; exact ⟨H2, rfl⟩
                · simp at hr

theorem IdxSub_fwd_setPage_index (pages : List (PageID × Page)) (p l : PageID)
    (es : List IndexEntry) : IdxSub pages (setPage pages p (Page.index l es)) := by
  intro q l2 es2 h
  rw [getPage_setPage]
  by_cases hq : q = p
  · exact ⟨l, es, by simp [hq]⟩
  · exact ⟨l2, es2, by simp [hq, h]⟩

theorem IdxSub_fwd_setPage_leaf (pages : List (PageID × Page)) (p a b a0 b0 : PageID)
    (es es0 : List (Key × RecordID)) (hp : getPage pages p = some (Page.leaf a0 b0 es0)) :
    IdxSub pages (setPage pages p (Page.leaf a b es)) := by
  intro q l2 es2 h
  rw [getPage_setPage]
  by_cases hq : q = p
  · subst hq; rw [hp] at h; cases h
  · exact ⟨l2, es2, by simp [hq, h]⟩

theorem IdxSub_fwd_setIndexSlots (pages : List (PageID × Page)) (p : PageID)
    (es : List IndexEntry) : IdxSub pages (setIndexSlots pages p es) := by
  unfold setIndexSlots
  cases hp : getPage pages p with
  | none => exact IdxSub.sub_refl _
  | some pg =>
    cases pg with
    | leaf a b es0 => exact IdxSub.sub_refl _
    | index l es0 => exact IdxSub_fwd_setPage_index _ _ _ _

theorem IdxSub_fwd_setPrev (pages : List (PageID × Page)) (p x : PageID) :
    IdxSub pages (setPrev pages p x) := by
  unfold setPrev
  cases hp : getPage pages p with
  | none => exact IdxSub.sub_refl _
  | some pg =>
    cases pg with
    | leaf a b es0 => exact IdxSub_fwd_setPage_leaf _ _ _ _ _ _ _ _ hp
    | index l es0 => exact IdxSub_fwd_setPage_index _ _ _ _

theorem ChildOK.same {lvl : PageID → Nat} {bound p p2 q : PageID} (h : ChildOK lvl bound p q)
    (hs : lvl p = lvl p2) : ChildOK lvl bound p2 q :=
  ⟨h.1, fun h0 => hs ▸ h.2 h0⟩

theorem pgIndexInsert_leveled {lvl : PageID → Nat} {pages pages1 : List (PageID × Page)}
    {bound : PageID} (h : Leveled lvl pages bound) (c : Config) (pid : PageID) (k : Key)
    (child : PageID) (hc : ChildOK lvl bound pid child)
    (hr : pgIndexInsert c pages pid k child = Except.ok pages1) :
    Leveled lvl pages1 bound ∧ IdxSub pages pages1 := by
  unfold pgIndexInsert at hr
  split at hr
  · simp at hr
  · rename_i left es hp
    cases hr
    refine ⟨?_, IdxSub_fwd_setIndexSlots _ _ _⟩
    apply h.setIndexSlots
    intro e he
    rcases mem_indexInsert _ _ _ _ _ he with h1 | h1
    · rw [h1]; exact hc
    · apply h.index_children pid left es (indexSlots_ok hp)
      simp only [children, List.mem_cons, List.mem_map]
      exact Or.inr ⟨e, h1, rfl⟩

theorem pgIndexDelete_leveled {lvl : PageID → Nat} {pages pages1 : List (PageID × Page)}
    {bound : PageID} (h : Leveled lvl pages bound) (pid : PageID) (k : Key)
    (hr : pgIndexDelete pages pid k = Except.ok pages1) :
    Leveled lvl pages1 bound ∧ IdxSub pages pages1 := by
  unfold pgIndexDelete at hr
  split at hr
  · simp at hr
  · rename_i left es hp
    split at hr
    · simp at hr
    · rename_i es2 hd
      cases hr
      refine ⟨?_, IdxSub_fwd_setIndexSlots _ _ _⟩
      apply h.setIndexSlots
      intro e he
      apply h.index_children pid left es (indexSlots_ok hp)
      simp only [children, List.mem_cons, List.mem_map]
      exact Or.inr ⟨e, mem_indexDelete _ _ _ hd e he, rfl⟩

theorem pgAdjustKey_leveled {lvl : PageID → Nat} {pages pages1 : List (PageID × Page)}
    {bound : PageID} (h : Leveled lvl pages bound) (c : Config) (pid : PageID) (nk ok : Key)
    (hr : pgAdjustKey c pages pid nk ok = Except.ok pages1) :
    Leveled lvl pages1 bound ∧ IdxSub pages pages1 := by
  unfold pgAdjustKey at hr
  split at hr
  · simp at hr
  · rename_i left es hp
    split at hr
    · simp at hr
    · rename_i st es2 ha
      cases hr
      exact ⟨h.setIndexSlots_adjust c pid left es es2 _ _ _ (indexSlots_ok hp) ha,
        IdxSub_fwd_setIndexSlots _ _ _⟩

theorem idxRotate_leveled {lvl : PageID → Nat} {bound : PageID} (c : Config) (rs : Bool)
    (parentPid nodePid siblingPid : PageID) (st st2 : IdxState) (tempPid : PageID)
    (h : Leveled lvl st.pages bound)
    (hT : ∃ l es, getPage st.pages (if rs then siblingPid else nodePid) = some (Page.index l es))
    (hc : ChildOK lvl bound (if rs then siblingPid else nodePid) tempPid)
    (hr : idxRotate c rs parentPid nodePid siblingPid st tempPid = Except.ok st2) :
    Leveled lvl st2.pages bound ∧ IdxSub st.pages st2.pages := by
  unfold idxRotate at hr
  split at hr
  · simp at hr
  · simp at hr
  · rename_i tk kta htk hkta
    split at hr
    · simp at hr
    · rename_i pages1 hadj
      obtain ⟨H1, S1⟩ := pgAdjustKey_leveled h c parentPid tk kta hadj
      simp only at hr
      split at hr
      · simp at hr
      · rename_i pages3 hdel
        cases hr
        have H2 : Leveled lvl (setPrev pages1 (if rs then siblingPid else nodePid) tempPid)
            bound := by
          apply H1.setPrev
          · intro a b es hq
            obtain ⟨l, es2, hq2⟩ := hT
            obtain ⟨l3, es3, hq3⟩ := S1 _ _ _ hq2
            rw [hq] at hq3
            cases hq3
          · intro _ _ _; exact hc
        obtain ⟨H3, S3⟩ := pgIndexDelete_leveled H2 siblingPid tk hdel
        exact ⟨H3, (S1.sub_trans (IdxSub_fwd_setPrev _ _ _)).sub_trans S3⟩

theorem Leveled.child_of_slot {lvl : PageID → Nat} {pages : List (PageID × Page)}
    {bound : PageID} (h : Leveled lvl pages bound) {p left : PageID} {es : List IndexEntry}
    (hp : getPage pages p = some (Page.index left es)) {e : IndexEntry} (he : e ∈ es) :
    ChildOK lvl bound p e.pid := by
  apply h.index_children p left es hp
  simp only [children, List.mem_cons, List.mem_map]
  exact Or.inr ⟨e, he, rfl⟩

theorem Leveled.child_of_left {lvl : PageID → Nat} {pages : List (PageID × Page)}
    {bound : PageID} (h : Leveled lvl pages bound) {p left : PageID} {es : List IndexEntry}
    (hp : getPage pages p = some (Page.index left es)) : ChildOK lvl bound p left :=
  h.index_children p left es hp left (by simp [children])

theorem idxRedistStep_leveled {lvl : PageID → Nat} {bound : PageID} (c : Config) (rs : Bool)
    (parentPid nodePid siblingPid : PageID) (st st2 : IdxState)
    (h : Leveled lvl st.pages bound) (hsame : lvl nodePid = lvl siblingPid)
    (hr : idxRedistStep c rs parentPid nodePid siblingPid st = Except.ok st2) :
    Leveled lvl st2.pages bound ∧ IdxSub st.pages st2.pages := by
  unfold idxRedistStep at hr
  split at hr
  · simp at hr
  · rename_i sleft sslots hs
    have hsp := indexSlots_ok hs
    simp only at hr
    have hmem : ∀ e, (if rs then sslots.head? else sslots.getLast?) = some e → e ∈ sslots := by
      intro e he
      cases rs with
      | true => exact List.mem_of_mem_head? he
      | false => exact List.mem_of_mem_getLast? he
    generalize (if rs then sslots.head? else sslots.getLast?) = got at hr hmem
    have key : ∀ (stA : IdxState) (tempPid : PageID), stA.pages = st.pages →
        ChildOK lvl bound (if rs then siblingPid else nodePid) tempPid →
        (match stA.keyToAdjust, indexSlots st.pages nodePid with
          | none, _ => Except.error Fault.undefined
          | _, Except.error x => Except.error x
          | some kta, Except.ok (nleft, _) =>
            match pgIndexInsert c stA.pages nodePid kta (if rs then sleft else nleft) with
            | Except.error x => Except.error x
            | Except.ok pages1 =>
              idxRotate c rs parentPid nodePid siblingPid { stA with pages := pages1 } tempPid)
          = Except.ok st2 →
        Leveled lvl st2.pages bound ∧ IdxSub st.pages st2.pages := by
      intro stA tempPid hpg hc hr2
      split at hr2
      · simp at hr2
      · simp at hr2
      · rename_i kta nleft nslots hk hn
        have hnp := indexSlots_ok hn
        split at hr2
        · simp at hr2
        · rename_i pages1 hins
          rw [hpg] at hins
          have hchild : ChildOK lvl bound nodePid (if rs then sleft else nleft) := by
            cases rs with
            | true => exact (h.child_of_left hsp).same hsame.symm
            | false => exact h.child_of_left hnp
          obtain ⟨H1, S1⟩ := pgIndexInsert_leveled h c nodePid kta _ hchild hins
          have hT : ∃ l es, getPage pages1 (if rs then siblingPid else nodePid)
              = some (Page.index l es) := by
            cases rs with
            | true => exact S1 _ _ _ hsp
            | false => exact S1 _ _ _ hnp
          obtain ⟨H2, S2⟩ := idxRotate_leveled c rs parentPid nodePid siblingPid _ st2 _ H1 hT
            hc hr2
          exact ⟨H2, S1.sub_trans S2⟩
    cases got with
    | none =>
      exact key st INVALID_PAGE rfl (ChildOK_invalid _ _ _ h.bound_nonneg) hr
    | some e =>
      have hce := h.child_of_slot hsp (hmem e rfl)
      have hc : ChildOK lvl bound (if rs then siblingPid else nodePid) e.pid := by
        cases rs with
        | true => exact hce
        | false => exact hce.same hsame.symm
      exact key { st with tempKey := some e.key } e.pid rfl hc hr

theorem idxRedistLoop_leveled {lvl : PageID → Nat} {bound : PageID} (c : Config) (rs : Bool)
    (parentPid nodePid siblingPid : PageID) (hsame : lvl nodePid = lvl siblingPid) :
    ∀ (fuel : Nat) (st st2 : IdxState), Leveled lvl st.pages bound →
      idxRedistLoop c rs parentPid nodePid siblingPid fuel st = Except.ok st2 →
      Leveled lvl st2.pages bound ∧ IdxSub st.pages st2.pages := by
  intro fuel
  induction fuel with
  | zero => intro st st2 _ h; simp [idxRedistLoop] at h
  | succ n ih =>
    intro st st2 hl h
    unfold idxRedistLoop at h
    split at h
    · simp at h
    · split at h
      · split at h
        · simp at h
        · rename_i st1 hstep
          obtain ⟨H1, S1⟩ := idxRedistStep_leveled c rs parentPid nodePid siblingPid st st1 hl
            hsame hstep
          obtain ⟨H2, S2⟩ := ih st1 st2 H1 h
          exact ⟨H2, S1.sub_trans S2⟩
      · cases h
        exact ⟨hl, IdxSub.sub_refl _⟩

theorem idxMergeLoop_leveled {lvl : PageID → Nat} {bound : PageID} (c : Config) (rs : Bool)
    (parentPid nodePid siblingPid : PageID) (hsame : lvl nodePid = lvl siblingPid) :
    ∀ (fuel : Nat) (st st2 : IdxState), Leveled lvl st.pages bound →
      (∃ l es, getPage st.pages nodePid = some (Page.index l es)) →
      idxMergeLoop c rs parentPid nodePid siblingPid fuel st = Except.ok st2 →
      Leveled lvl st2.pages bound ∧ IdxSub st.pages st2.pages := by
  intro fuel
  induction fuel with
  | zero => intro st st2 _ _ h; simp [idxMergeLoop] at h
  | succ n ih =>
    intro st st2 hl hnode h
    unfold idxMergeLoop at h
    split at h
    · -- right sibling
      split at h
      · simp at h
      · rename_i sleft sslots hs
        have hsp := indexSlots_ok hs
        simp only at h
        have hchild : ChildOK lvl bound nodePid sleft :=
          (hl.child_of_left hsp).same hsame.symm
        cases hgot : sslots.head? with
        | none =>
          simp only [hgot] at h
          split at h
          · simp at h
          · rename_i kta hk
            split at h
            · simp at h
            · rename_i pages1 hins
              cases h
              obtain ⟨H1, S1⟩ := pgIndexInsert_leveled hl c nodePid kta _ hchild hins
              exact ⟨H1, S1⟩
        | some e =>
          simp only [hgot] at h
          split at h
          · simp at h
          · rename_i kta hk
            split at h
            · simp at h
            · rename_i pages1 hins
              obtain ⟨H1, S1⟩ := pgIndexInsert_leveled hl c nodePid kta _ hchild hins
              split at h
              · simp at h
              · rename_i st3 hrot
                have hce := hl.child_of_slot hsp (List.mem_of_mem_head? hgot)
                obtain ⟨H3, S3⟩ := idxRotate_leveled c true parentPid nodePid siblingPid _ st3 _
                  H1 (S1 _ _ _ hsp) hce hrot
                obtain ⟨l, es, hnq⟩ := hnode
                obtain ⟨H4, S4⟩ := ih st3 st2 H3 ((S1.sub_trans S3) _ _ _ hnq) h
                exact ⟨H4, (S1.sub_trans S3).sub_trans S4⟩
    · -- left sibling
      split at h
      · simp at h
      · simp at h
      · rename_i kta nleft nslots hk hn
        have hnp := indexSlots_ok hn
        split at h
        · simp at h
        · rename_i pages1 hins
          obtain ⟨H1, S1⟩ := pgIndexInsert_leveled hl c nodePid kta _ (hl.child_of_left hnp) hins
          split at h
          · simp at h
          · rename_i sleft sslots hs
            have hsp := indexSlots_ok hs
            split at h
            · cases h
              refine ⟨?_, S1.sub_trans (IdxSub_fwd_setPrev _ _ _)⟩
              apply H1.setPrev
              · intro a b es hq
                obtain ⟨l3, es3, hq3⟩ := S1 _ _ _ hnp
                rw [hq] at hq3
                cases hq3
              · intro _ _ _
                exact (H1.child_of_left hsp).same hsame.symm
            · rename_i e hlast
              split at h
              · simp at h
              · rename_i st3 hrot
                have hce := (H1.child_of_slot hsp (List.mem_of_mem_getLast? hlast)).same hsame.symm
                obtain ⟨H3, S3⟩ := idxRotate_leveled c false parentPid nodePid siblingPid _ st3 _
                  H1 (S1 _ _ _ hnp) hce hrot
                obtain ⟨H4, S4⟩ := ih st3 st2 H3 ((S1.sub_trans S3) _ _ _ hnp) h
                exact ⟨H4, (S1.sub_trans S3).sub_trans S4⟩

theorem Leveled.set_after_DeletePage {lvl : PageID → Nat} {pages : List (PageID × Page)}
    {bound : PageID} (h : Leveled lvl pages bound) (c : Config) (p left left2 : PageID)
    (es es2 : List IndexEntry) (pid : PageID) (rs : Option Bool) (st : Status)
    (hp : getPage pages p = some (Page.index left es))
    (hd : DeletePage c pid rs left es = Except.ok (st, left2, es2)) :
    Leveled lvl (setPage pages p (Page.index left2 es2)) bound := by
  obtain ⟨h1, h2⟩ := DeletePage_children c pid rs left es st left2 es2 hd
  apply h.set_index hp
  intro q hq
  simp only [children, List.mem_cons, List.mem_map] at hq
  rcases hq with hq | ⟨e, he, rfl⟩
  · subst hq
    exact h.index_children p left es hp _ h1
  · obtain ⟨e0, he0, h0⟩ := h2 e he
    rw [h0]
    exact h.child_of_slot hp he0

theorem deleteIndex_leveled (c : Config) (fuel : Nat) (f f2 : BTreeFile) (lvl : PageID → Nat)
    (parentPid nodePid : PageID) (res : Status) (tempOldPid : PageID) (trs : Option Bool)
    (st : Status) (old : PageID) (rs : Option Bool)
    (h : Leveled lvl f.pages f.nextPid)
    (hr : deleteIndex c fuel f parentPid nodePid res tempOldPid trs
      = Except.ok (st, old, rs, f2)) :
    Leveled lvl f2.pages f2.nextPid ∧ f2.nextPid = f.nextPid := by
  unfold deleteIndex at hr
  split at hr
  · simp at hr
  · rename_i nleft nslots hn
    have hnp := indexSlots_ok hn
    split at hr
    · simp at hr
    · rename_i st1 nleft1 nslots1 hdp
      have HN := h.set_after_DeletePage c nodePid nleft nleft1 nslots nslots1 _ _ _ hnp hdp
      have SN : IdxSub f.pages (setPage f.pages nodePid (Page.index nleft1 nslots1)) :=
        IdxSub_fwd_setPage_index _ _ _ _
      simp only at hr
      generalize hpN : setPage f.pages nodePid (Page.index nleft1 nslots1) = pagesN at hr HN SN
      have hnodeN : getPage pagesN nodePid = some (Page.index nleft1 nslots1) := by
        rw [← hpN, getPage_setPage_same]
      split at hr
      · cases hr; exact ⟨HN, rfl⟩
      · split at hr
        · simp at hr
        · rename_i pleft pslots hps
          have hpp := indexSlots_ok hps
          split at hr
          · simp at hr
          · simp at hr
          · simp at hr
          · rename_i siblingPid rightSibling hfs
            obtain ⟨hsm, hnm⟩ := FindSiblingForChild_mem _ _ _ _ _ _ hfs
            split at hr
            · cases hr; exact ⟨HN, rfl⟩
            · simp at hr
            · rename_i sl ss hsib
              have hsame : lvl nodePid = lvl siblingPid := by
                have c1 := HN.index_children parentPid pleft pslots hpp _ hnm
                have c2 := HN.index_children parentPid pleft pslots hpp _ hsm
                have n0 := (HN.pid_range _ _ hnodeN).1
                have s0 := (HN.pid_range _ _ hsib).1
                have e1 := c1.2 n0
                have e2 := c2.2 s0
                omega
              try simp only at hr
              split at hr
              · simp at hr
              · rename_i st1x hloop
                obtain ⟨H1, S1⟩ := idxRedistLoop_leveled c rightSibling parentPid nodePid siblingPid
                  hsame fuel _ st1x HN hloop
                split at hr
                · rename_i nl2 nslots2 sl2 sslots2 hn2 hs2
                  split at hr
                  · cases hr; exact ⟨H1, rfl⟩
                  · split at hr
                    · split at hr
                      · simp at hr
                      · rename_i st2x hmerge
                        obtain ⟨H2, S2⟩ := idxMergeLoop_leveled c rightSibling parentPid nodePid
                          siblingPid hsame fuel st1x st2x H1 ⟨_, _, indexSlots_ok hn2⟩ hmerge
                        split at hr
                        · simp at hr
                        · cases hr; exact ⟨H2, rfl⟩
                        · cases hr; exact ⟨H2, rfl⟩
                    · cases hr; exact ⟨H1, rfl⟩
                · simp at hr

theorem _Delete_leveled (c : Config) (key : Key) (rid : RecordID) (lvl : PageID → Nat) :
    ∀ (fuel : Nat) (f f2 : BTreeFile) (parentPid nodePid : PageID) (st : Status) (old : PageID)
      (rs : Option Bool), Leveled lvl f.pages f.nextPid →
      _Delete c fuel f parentPid nodePid key rid = Except.ok (st, old, rs, f2) →
      Leveled lvl f2.pages f2.nextPid ∧ f2.nextPid = f.nextPid := by
  intro fuel
  induction fuel with
  | zero => intro f f2 parentPid nodePid st old rs _ h; simp [_Delete] at h
  | succ n ih =>
    intro f f2 parentPid nodePid st old rs hl h
    unfold _Delete at h
    split at h
    · cases h; exact ⟨hl, rfl⟩
    · split at h
      · cases h; exact ⟨hl, rfl⟩
      · exact deleteLeaf_leveled c n f f2 lvl parentPid nodePid key rid st old rs hl h
      · rename_i nleft nslots hnp
        simp only at h
        split at h
        · simp at h
        · rename_i res tOld tRs f1 hrec
          obtain ⟨H1, hb1⟩ := ih f f1 nodePid _ res tOld tRs hl hrec
          split at h
          · cases h; exact ⟨H1, hb1⟩
          · obtain ⟨H2, hb2⟩ := deleteIndex_leveled c n f1 f2 lvl parentPid nodePid res tOld tRs
              st old rs H1 h
            exact ⟨H2, hb2.trans hb1⟩

theorem Delete_leveled (c : Config) (fuel : Nat) (f f2 : BTreeFile) (lvl : PageID → Nat)
    (key : Key) (rid : RecordID) (st : Status)
    (h : Leveled lvl f.pages f.nextPid)
    (hr : Delete c fuel f key rid = Except.ok (st, f2)) :
    Leveled lvl f2.pages f2.nextPid := by
  unfold Delete at hr
  split at hr
  · cases hr; exact h
  · rename_i a b es hp
    simp only at hr
    have H1 : Leveled lvl (if (leafDelete key rid es).1 = Status.OK
        then setLeafSlots f.pages f.root (leafDelete key rid es).2 else f.pages) f.nextPid := by
      split
      · exact h.setLeafSlots _ _
      · exact h
    split at hr
    · cases hr; exact H1
    · cases hr; exact H1
  · rename_i left es hp
    simp only at hr
    split at hr
    · simp at hr
    · rename_i res oldPid rs f1 hrec
      obtain ⟨H1, hb1⟩ := _Delete_leveled c key rid lvl fuel f f1 f.root _ res oldPid rs h hrec
      split at hr
      · cases hr; exact H1
      · split at hr
        · split at hr
          · simp at hr
          · rename_i left1 es1 hs1
            split at hr
            · simp at hr
            · rename_i st1 left2 es2 hdp
              have H2 := H1.set_after_DeletePage c f.root left1 left2 es1 es2 _ _ _
                (indexSlots_ok hs1) hdp
              split at hr
              · cases hr; exact H2
              · cases hr; exact H2
        · cases hr; exact H1

theorem applyOps_leveled (c : Config) (fuel : Nat) :
    ∀ (ops : List Op) (f f2 : BTreeFile) (lvl : PageID → Nat),
      Leveled lvl f.pages f.nextPid → applyOps c fuel f ops = Except.ok f2 →
      ∃ lvl2, Leveled lvl2 f2.pages f2.nextPid := by
  intro ops
  induction ops with
  | nil =>
    intro f f2 lvl hl h
    simp only [applyOps] at h
    cases h
    exact ⟨lvl, hl⟩
  | cons op ops ih =>
    intro f f2 lvl hl h
    cases op with
    | Insert key rid =>
      simp only [applyOps] at h
      split at h
      · simp at h
      · rename_i st f1 hins
        obtain ⟨lvl1, H1⟩ := Insert_leveled c fuel f f1 lvl key rid st hl hins
        exact ih f1 f2 lvl1 H1 h
    | Delete key rid =>
      simp only [applyOps] at h
      split at h
      · simp at h
      · rename_i st f1 hdel
        have H1 := Delete_leveled c fuel f f1 lvl key rid st hl hdel
        exact ih f1 f2 lvl (by
          have hb : f1.nextPid = f1.nextPid := rfl
          exact H1) h

/-- Balance on the runs that have a result: every index reached from the empty
index by a sequence of `Insert` and `Delete` calls that ends in `Except.ok` is
balanced, all leaves below the root named by the header lie at the same depth.
A run in which `AdjustKey` overruns a slot, or in which `Delete` reads the
`rightSibling` that an index merge left unwritten, has no result here and is
not covered. -/
theorem balance_of_defined_run (c : Config) (fuel : Nat) (ops : List Op) (f : BTreeFile)
    (h : applyOps c fuel BTreeFile.empty ops = Except.ok f) : Balanced f := by
  obtain ⟨lvl, hl⟩ := applyOps_leveled c fuel ops BTreeFile.empty f (fun _ => 0)
    (Leveled_empty _) h
  exact hl.balanced

/-- The thirteen inserts and deletes of `dupEntryOps` yield `dupEntryTree`, which
is balanced. -/
theorem balance_of_defined_run_example :
    applyOps cfg45 20 BTreeFile.empty dupEntryOps = Except.ok dupEntryTree ∧
    Balanced dupEntryTree :=
  ⟨by rfl, balance_of_defined_run cfg45 20 dupEntryOps dupEntryTree (by rfl)⟩

/-! ### Occupancy after a delete at a leaf -/

theorem leafSlots_setLeafSlots_same (pages : List (PageID × Page)) (p : PageID)
    (es es0 : List (Key × RecordID)) (h : leafSlots pages p = Except.ok es0) :
    leafSlots (setLeafSlots pages p es) p = Except.ok es := by
  obtain ⟨a, b, hp⟩ := leafSlots_ok h
  simp [leafSlots, setLeafSlots, hp, getPage_setPage_same]

theorem leafSlots_setLeafSlots_ne (pages : List (PageID × Page)) (p q : PageID)
    (es : List (Key × RecordID)) (h : q ≠ p) :
    leafSlots (setLeafSlots pages p es) q = leafSlots pages q := by
  unfold setLeafSlots
  cases hp : getPage pages p with
  | none => rfl
  | some pg =>
    cases pg with
    | leaf a b es0 => simp [leafSlots, getPage_setPage_ne _ _ _ _ h]
    | index l es0 => rfl

theorem leafSlots_setIndexSlots (pages : List (PageID × Page)) (p q : PageID)
    (es : List IndexEntry) : leafSlots (setIndexSlots pages p es) q = leafSlots pages q := by
  unfold setIndexSlots
  cases hp : getPage pages p with
  | none => rfl
  | some pg =>
    cases pg with
    | leaf a b es0 => rfl
    | index l es0 =>
      by_cases h : q = p
      · subst h
        simp [leafSlots, getPage_setPage_same, hp]
      · simp [leafSlots, getPage_setPage_ne _ _ _ _ h]

theorem leafSlots_setPrev (pages : List (PageID × Page)) (p q x : PageID) :
    leafSlots (setPrev pages p x) q = leafSlots pages q := by
  unfold setPrev
  cases hp : getPage pages p with
  | none => rfl
  | some pg =>
    cases pg with
    | leaf a b es0 =>
      by_cases h : q = p
      · subst h
        simp [leafSlots, getPage_setPage_same, hp]
      · simp [leafSlots, getPage_setPage_ne _ _ _ _ h]
    | index l es0 =>
      by_cases h : q = p
      · subst h
        simp [leafSlots, getPage_setPage_same, hp]
      · simp [leafSlots, getPage_setPage_ne _ _ _ _ h]

theorem leafSlots_setNext (pages : List (PageID × Page)) (p q x : PageID) :
    leafSlots (setNext pages p x) q = leafSlots pages q := by
  unfold setNext
  cases hp : getPage pages p with
  | none => rfl
  | some pg =>
    cases pg with
    | leaf a b es0 =>
      by_cases h : q = p
      · subst h
        simp [leafSlots, getPage_setPage_same, hp]
      · simp [leafSlots, getPage_setPage_ne _ _ _ _ h]
    | index l es0 => rfl

theorem leafUsed_sortedInsert (c : Config) (x : Key × RecordID) (es : List (Key × RecordID)) :
    leafUsed c (sortedInsert Prod.fst x es)
      = GetKeyDataLength c x.1 NodeType.LEAF_NODE + leafUsed c es := by
  induction es with
  | nil => simp [sortedInsert, leafUsed]
  | cons e es ih =>
    unfold sortedInsert
    by_cases h : KeyCmp x.1 e.1 < 0
    · simp [h, leafUsed]
    · simp [h, leafUsed, ih]
      omega

theorem leafAvail_leafInsert_le (c : Config) (k : Key) (r : RecordID)
    (es : List (Key × RecordID)) : leafAvail c (leafInsert c k r es).2 ≤ leafAvail c es := by
  unfold leafInsert
  split
  · simp only [leafAvail, leafUsed_sortedInsert]
    omega
  · exact le_refl _

theorem leafRedistLoop_node_half (c : Config) (rs : Bool) (nodePid siblingPid : PageID) :
    ∀ (fuel : Nat) (pages pages2 : List (PageID × Page)) (buf buf2 : Option (Key × RecordID)),
      leafRedistLoop c rs nodePid siblingPid fuel pages buf = Except.ok (pages2, buf2) →
      ∃ node2, leafSlots pages2 nodePid = Except.ok node2 ∧
        leafAvail c node2 ≤ c.HEAPPAGE_DATA_SIZE / 2 := by
  intro fuel
  induction fuel with
  | zero => intro pages pages2 buf buf2 h; simp [leafRedistLoop] at h
  | succ n ih =>
    intro pages pages2 buf buf2 h
    unfold leafRedistLoop at h
    split at h
    · rename_i node sib hn hs
      split at h
      · simp only at h
        split at h
        · simp at h
        · split at h
          · split at h
            · exact ih _ _ _ _ h
            · simp at h
          · exact ih _ _ _ _ h
      · rename_i hhalf
        cases h
        exact ⟨node, hn, Nat.le_of_not_lt hhalf⟩
    · simp at h
    · simp at h

theorem leafMergeLoop_node_avail (c : Config) (nodePid siblingPid : PageID)
    (hne : siblingPid ≠ nodePid) :
    ∀ (fuel : Nat) (pages pages2 : List (PageID × Page)) (node : List (Key × RecordID)),
      leafMergeLoop c nodePid siblingPid fuel pages = Except.ok pages2 →
      leafSlots pages nodePid = Except.ok node →
      ∃ node2, leafSlots pages2 nodePid = Except.ok node2 ∧ leafAvail c node2 ≤ leafAvail c node := by
  intro fuel
  induction fuel with
  | zero => intro pages pages2 node h; simp [leafMergeLoop] at h
  | succ n ih =>
    intro pages pages2 node h hn
    unfold leafMergeLoop at h
    split at h
    · simp at h
    · cases h
      exact ⟨node, hn, le_refl _⟩
    · rename_i e rest hs
      rw [hn] at h
      simp only at h
      split at h
      · simp at h
      · rename_i sib1 hs1
        have hn1 : leafSlots (setLeafSlots (setLeafSlots pages nodePid (leafInsert c e.1 e.2 node).2)
            siblingPid (leafDelete e.1 e.2 sib1).2) nodePid
            = Except.ok (leafInsert c e.1 e.2 node).2 := by
          rw [leafSlots_setLeafSlots_ne _ _ _ _ (Ne.symm hne)]
          exact leafSlots_setLeafSlots_same _ _ _ _ hn
        obtain ⟨node2, h2, h3⟩ := ih _ _ _ h hn1
        exact ⟨node2, h2, le_trans h3 (leafAvail_leafInsert_le c _ _ _)⟩

/-- C10 (amended): occupancy is kept only where the code rebalances.  Whenever
the leaf branch of `_Delete` returns `OK`, the leaf the entry was removed from
is at least half full on return: its `AvailableSpace()` is at most
`HEAPPAGE_DATA_SIZE / 2`. -/
theorem C10_leaf_delete_leaves_node_half_full (c : Config) (fuel : Nat) (f f2 : BTreeFile)
    (parentPid nodePid : PageID) (key : Key) (rid : RecordID) (old : PageID) (rs : Option Bool)
    (hr : deleteLeaf c fuel f parentPid nodePid key rid = Except.ok (Status.OK, old, rs, f2)) :
    ∃ es, leafSlots f2.pages nodePid = Except.ok es ∧
      leafAvail c es ≤ c.HEAPPAGE_DATA_SIZE / 2 := by
  unfold deleteLeaf at hr
  split at hr
  · simp at hr
  · rename_i nslots hns
    simp only at hr
    split at hr
    · rename_i hearly
      simp only [Except.ok.injEq, Prod.mk.injEq] at hr
      obtain ⟨hst, _, _, hf⟩ := hr
      subst hf
      simp only [hst, if_true]
      refine ⟨_, leafSlots_setLeafSlots_same _ _ _ _ hns, ?_⟩
      rcases hearly with h1 | h1
      · rw [hst] at h1; cases h1
      · exact h1
    · split at hr
      · simp at hr
      · rename_i pleft pslots hps
        split at hr
        · simp at hr
        · simp at hr
        · simp at hr
        · rename_i siblingPid rightSibling hfs
          split at hr
          · simp at hr
          · simp at hr
          · rename_i sprev snext sslots hsib
            split at hr
            · simp at hr
            · rename_i b0 hb0
              split at hr
              · simp at hr
              · rename_i pages2 buf2 hloop
                obtain ⟨nodeH, hnH, hhalf⟩ := leafRedistLoop_node_half c rightSibling nodePid
                  siblingPid _ _ _ _ _ hloop
                split at hr
                · rename_i node2 sib2 pleft2 pslots2 hn2 hs2 hp2
                  have hhalf2 : leafAvail c node2 ≤ c.HEAPPAGE_DATA_SIZE / 2 := by
                    rw [hn2] at hnH
                    cases hnH
                    exact hhalf
                  clear hhalf hnH
                  have hhalf := hhalf2
                  split at hr
                  · split at hr
                    · simp at hr
                    · simp at hr
                    · split at hr
                      · simp at hr
                      · simp only [Except.ok.injEq, Prod.mk.injEq] at hr
                        obtain ⟨_, _, _, hf⟩ := hr
                        subst hf
                        exact ⟨node2, by simp only [leafSlots_setIndexSlots]; exact hn2, hhalf⟩
                  · rename_i hsibHalf
                    have hne : siblingPid ≠ nodePid := by
                      intro heq
                      rw [heq, hn2] at hs2
                      cases hs2
                      exact hsibHalf hhalf
                    split at hr
                    · split at hr
                      · simp at hr
                      · rename_i pages3 hmerge
                        obtain ⟨node3, hn3, hle3⟩ := leafMergeLoop_node_avail c nodePid siblingPid
                          hne _ _ _ node2 hmerge hn2
                        try simp only at hr
                        split at hr
                        · simp at hr
                        · split at hr
                          · simp at hr
                          · split at hr
                            · simp only [Except.ok.injEq, Prod.mk.injEq] at hr
                              obtain ⟨_, _, _, hf⟩ := hr
                              subst hf
                              refine ⟨node3, ?_, le_trans hle3 hhalf⟩
                              simp only [leafSlots_setNext]
                              split
                              · rw [leafSlots_setPrev]; exact hn3
                              · exact hn3
                            · simp only [Except.ok.injEq, Prod.mk.injEq] at hr
                              obtain ⟨_, _, _, hf⟩ := hr
                              subst hf
                              refine ⟨node3, ?_, le_trans hle3 hhalf⟩
                              simp only [leafSlots_setPrev]
                              split
                              · rw [leafSlots_setNext]; exact hn3
                              · exact hn3
                    · simp only [Except.ok.injEq, Prod.mk.injEq] at hr
                      obtain ⟨_, _, _, hf⟩ := hr
                      subst hf
                      exact ⟨node2, hn2, hhalf⟩
                · simp at hr

/-- Witness for C10 (amended): deleting ("a", (1,0)) from leaf 2 of `sixTree`
returns `OK` after a redistribution, and leaf 2 then holds two entries of ten
bytes in a page of forty. -/
theorem C10_leaf_delete_leaves_node_half_full_witness :
    deleteLeaf cfg40 20 sixTree 1 2 [97] ⟨1, 0⟩
      = Except.ok (Status.OK, INVALID_PAGE, some true, sixTreeAfter) ∧
    ∃ es, leafSlots sixTreeAfter.pages 2 = Except.ok es ∧
      leafAvail cfg40 es ≤ cfg40.HEAPPAGE_DATA_SIZE / 2 :=
  ⟨by rfl, C10_leaf_delete_leaves_node_half_full cfg40 20 sixTree sixTreeAfter 1 2 [97] ⟨1, 0⟩
    INVALID_PAGE (some true) (by rfl)⟩

/-- C10 (counterexample): after five inserts of distinct keys under `cfg45` the
non-root leaf 2 holds two entries of ten bytes: its free space of 25 bytes
exceeds half of the 45 bytes of a page. -/
theorem C10_underfull_leaf_after_insert :
    insertAll cfg45 20 BTreeFile.empty fiveDistinct = Except.ok fiveDistinctTree ∧
    fiveDistinctTree.root = 1 ∧
    leafSlots fiveDistinctTree.pages 2 = Except.ok [([97], ⟨1, 0⟩), ([98], ⟨1, 1⟩)] ∧
    ¬ (leafAvail cfg45 [([97], ⟨1, 0⟩), ([98], ⟨1, 1⟩)] ≤ cfg45.HEAPPAGE_DATA_SIZE / 2) :=
  ⟨by rfl, by rfl, by rfl, by decide⟩

/-! ### Order of keys -/

theorem KeyCmp_self (a : Key) : KeyCmp a a = 0 := by
  induction a with
  | nil => rfl
  | cons x xs ih => simp [KeyCmp, ih]

theorem KeyCmp_eq_zero : ∀ (a b : Key), KeyCmp a b = 0 → a = b
  | [], [], _ => rfl
  | [], _ :: _, h => by simp [KeyCmp] at h
  | _ :: _, [], h => by simp [KeyCmp] at h
  | x :: xs, y :: ys, h => by
    unfold KeyCmp at h
    split at h
    · simp at h
    · split at h
      · simp at h
      · have hxy : x = y := by omega
        rw [hxy, KeyCmp_eq_zero xs ys h]

theorem KeyCmp_swap : ∀ (a b : Key), KeyCmp b a = - KeyCmp a b
  | [], [] => by simp [KeyCmp]
  | [], _ :: _ => by simp [KeyCmp]
  | _ :: _, [] => by simp [KeyCmp]
  | x :: xs, y :: ys => by
    unfold KeyCmp
    by_cases h1 : x < y
    · have h2 : ¬ y < x := by omega
      simp [h1, h2]
    · by_cases h2 : y < x
      · simp [h1, h2]
      · simp [h1, h2, KeyCmp_swap xs ys]

theorem KeyCmp_lt_trans : ∀ (a b c : Key), KeyCmp a b < 0 → KeyCmp b c < 0 → KeyCmp a c < 0
  | [], [], _, h, _ => by simp [KeyCmp] at h
  | [], _ :: _, [], _, h => by simp [KeyCmp] at h
  | [], _ :: _, _ :: _, _, _ => by simp [KeyCmp]
  | _ :: _, [], _, h, _ => by simp [KeyCmp] at h
  | _ :: _, _ :: _, [], _, h => by simp [KeyCmp] at h
  | x :: xs, y :: ys, z :: zs, h1, h2 => by
    unfold KeyCmp at h1 h2 ⊢
    by_cases hxy : x < y
    · by_cases hyz : y < z
      · have : x < z := by omega
        simp [this]
      · by_cases hzy : z < y
        · simp [hyz, hzy] at h2
        · have : x < z := by omega
          simp [this]
    · by_cases hyx : y < x
      · simp [hxy, hyx] at h1
      · simp only [hxy, hyx, if_false] at h1
        by_cases hyz : y < z
        · have : x < z := by omega
          simp [this]
        · by_cases hzy : z < y
          · simp [hyz, hzy] at h2
          · simp only [hyz, hzy, if_false] at h2
            have h3 : ¬ x < z := by omega
            have h4 : ¬ z < x := by omega
            simp only [h3, h4, if_false]
            exact KeyCmp_lt_trans xs ys zs h1 h2

theorem KeyCmp_le_iff (a b : Key) : KeyCmp a b ≤ 0 ↔ KeyCmp a b < 0 ∨ a = b := by
  constructor
  · intro h
    by_cases h0 : KeyCmp a b = 0
    · exact Or.inr (KeyCmp_eq_zero a b h0)
    · left; omega
  · rintro (h | h)
    · omega
    · rw [h, KeyCmp_self]

theorem KeyCmp_le_lt_trans (a b c : Key) (h1 : KeyCmp a b ≤ 0) (h2 : KeyCmp b c < 0) :
    KeyCmp a c < 0 := by
  rcases (KeyCmp_le_iff a b).1 h1 with h | h
  · exact KeyCmp_lt_trans a b c h h2
  · rw [h]; exact h2

theorem KeyCmp_lt_le_trans (a b c : Key) (h1 : KeyCmp a b < 0) (h2 : KeyCmp b c ≤ 0) :
    KeyCmp a c < 0 := by
  rcases (KeyCmp_le_iff b c).1 h2 with h | h
  · exact KeyCmp_lt_trans a b c h1 h
  · rw [← h]; exact h1

theorem KeyCmp_le_trans (a b c : Key) (h1 : KeyCmp a b ≤ 0) (h2 : KeyCmp b c ≤ 0) :
    KeyCmp a c ≤ 0 := by
  rcases (KeyCmp_le_iff b c).1 h2 with h | h
  · exact le_of_lt (KeyCmp_le_lt_trans a b c h1 h)
  · rw [← h]; exact h1

theorem KeyCmp_ge_iff (a b : Key) : KeyCmp a b ≥ 0 ↔ KeyCmp b a ≤ 0 := by
  rw [KeyCmp_swap a b]; omega

theorem KeyCmp_not_lt (a b : Key) : ¬ KeyCmp a b < 0 ↔ KeyCmp b a ≤ 0 := by
  rw [KeyCmp_swap a b]; omega

theorem KeyCmp_lt_ne (a b : Key) (h : KeyCmp a b < 0) : a ≠ b := by
  intro e; rw [e, KeyCmp_self] at h; omega

/-! ### Bounds -/

theorem HiLe.hi_refl (b : Option Key) : HiLe b b := by
  intro y hy; exact ⟨y, hy, by rw [KeyCmp_self]⟩

theorem HiLe.hi_trans {b1 b2 b3 : Option Key} (h1 : HiLe b1 b2) (h2 : HiLe b2 b3) : HiLe b1 b3 := by
  intro z hz
  obtain ⟨y, hy, hyz⟩ := h2 z hz
  obtain ⟨x, hx, hxy⟩ := h1 y hy
  exact ⟨x, hx, KeyCmp_le_trans x y z hxy hyz⟩

theorem HiLe.none (b : Option Key) : HiLe b none := by
  intro y hy; cases hy

theorem LtHi.hi_mono {k : Key} {b1 b2 : Option Key} (h : LtHi k b1) (h2 : HiLe b1 b2) :
    LtHi k b2 := by
  intro y hy
  obtain ⟨x, hx, hxy⟩ := h2 y hy
  exact KeyCmp_lt_le_trans k x y (h x hx) hxy

theorem HiLe.of_LtHi {k : Key} {b : Option Key} (h : LtHi k b) : HiLe (some k) b := by
  intro y hy; exact ⟨k, rfl, le_of_lt (h y hy)⟩

theorem LtHi.of_lt {k y : Key} (h : KeyCmp k y < 0) : LtHi k (some y) := by
  intro z hz; cases hz; exact h

theorem LoLt.le {a : Option Key} {k : Key} (h : LoLt a k) : LoLe a k :=
  fun x hx => le_of_lt (h x hx)

theorem LoLe.le_of_le {a : Option Key} {k k2 : Key} (h : LoLe a k) (h2 : KeyCmp k k2 ≤ 0) :
    LoLe a k2 := fun x hx => KeyCmp_le_trans x k k2 (h x hx) h2

theorem LoLt.lt_of_le {a : Option Key} {k k2 : Key} (h : LoLt a k) (h2 : KeyCmp k k2 ≤ 0) :
    LoLt a k2 := fun x hx => KeyCmp_lt_le_trans x k k2 (h x hx) h2

theorem LoLe.trans_lt {a : Option Key} {k k2 : Key} (h : LoLe a k) (h2 : KeyCmp k k2 < 0) :
    LoLt a k2 := fun x hx => KeyCmp_le_lt_trans x k k2 (h x hx) h2

theorem LoLe.of_le {x k : Key} (h : KeyCmp x k ≤ 0) : LoLe (some x) k := by
  intro z hz; cases hz; exact h

theorem LoLt.of_lt_key {x k : Key} (h : KeyCmp x k < 0) : LoLt (some x) k := by
  intro z hz; cases hz; exact h

/-! ### Strictly ascending slots -/

theorem KeysStrict.tail {α : Type} {keyOf : α → Key} {e : α} {l : List α}
    (h : KeysStrict keyOf (e :: l)) : KeysStrict keyOf l :=
  (List.pairwise_cons.1 h).2

theorem KeysStrict.head_lt {α : Type} {keyOf : α → Key} {e : α} {l : List α}
    (h : KeysStrict keyOf (e :: l)) : ∀ x ∈ l, KeyCmp (keyOf e) (keyOf x) < 0 :=
  (List.pairwise_cons.1 h).1

theorem KeysStrict.append {α : Type} {keyOf : α → Key} {l1 l2 : List α}
    (h : KeysStrict keyOf (l1 ++ l2)) :
    KeysStrict keyOf l1 ∧ KeysStrict keyOf l2 ∧
      ∀ a ∈ l1, ∀ b ∈ l2, KeyCmp (keyOf a) (keyOf b) < 0 :=
  List.pairwise_append.1 h

theorem KeysStrict.of_append {α : Type} {keyOf : α → Key} {l1 l2 : List α}
    (h1 : KeysStrict keyOf l1) (h2 : KeysStrict keyOf l2)
    (h3 : ∀ a ∈ l1, ∀ b ∈ l2, KeyCmp (keyOf a) (keyOf b) < 0) :
    KeysStrict keyOf (l1 ++ l2) :=
  List.pairwise_append.2 ⟨h1, h2, h3⟩

theorem KeysStrict.sublist {α : Type} {keyOf : α → Key} {l1 l2 : List α}
    (hs : l1.Sublist l2) (h : KeysStrict keyOf l2) : KeysStrict keyOf l1 :=
  List.Pairwise.sublist hs h

theorem sortedInsert_front {α : Type} (keyOf : α → Key) (x : α) (l : List α)
    (h : ∀ e ∈ l, KeyCmp (keyOf x) (keyOf e) < 0) : sortedInsert keyOf x l = x :: l := by
  cases l with
  | nil => rfl
  | cons e es => simp [sortedInsert, h e (List.mem_cons_self _ _)]

theorem sortedInsert_back {α : Type} (keyOf : α → Key) (x : α) (l : List α)
    (h : ∀ e ∈ l, KeyCmp (keyOf e) (keyOf x) ≤ 0) : sortedInsert keyOf x l = l ++ [x] := by
  induction l with
  | nil => rfl
  | cons e es ih =>
    have h1 : ¬ KeyCmp (keyOf x) (keyOf e) < 0 :=
      (KeyCmp_not_lt _ _).2 (h e (List.mem_cons_self _ _))
    simp [sortedInsert, h1, ih (fun a ha => h a (List.mem_cons_of_mem _ ha))]

/-- A sorted insert splits the list at the first slot with a larger key. -/
theorem sortedInsert_split {α : Type} (keyOf : α → Key) (x : α) (l : List α) :
    ∃ l1 l2, l = l1 ++ l2 ∧ sortedInsert keyOf x l = l1 ++ x :: l2 ∧
      (∀ e ∈ l1, KeyCmp (keyOf e) (keyOf x) ≤ 0) ∧
      (∀ e, l2.head? = some e → KeyCmp (keyOf x) (keyOf e) < 0) := by
  induction l with
  | nil => exact ⟨[], [], rfl, rfl, by simp, by simp⟩
  | cons e es ih =>
    by_cases h : KeyCmp (keyOf x) (keyOf e) < 0
    · refine ⟨[], e :: es, rfl, by simp [sortedInsert, h], by simp, ?_⟩
      intro e2 he2
      simp at he2
      rw [← he2]; exact h
    · obtain ⟨l1, l2, h1, h2, h3, h4⟩ := ih
      refine ⟨e :: l1, l2, by simp [h1], by simp [sortedInsert, h, h2], ?_, h4⟩
      intro a ha
      rcases List.mem_cons.1 ha with ha | ha
      · rw [ha]; exact (KeyCmp_not_lt _ _).1 h
      · exact h3 a ha

theorem sortedInsert_strict {α : Type} (keyOf : α → Key) (x : α) (l : List α)
    (hs : KeysStrict keyOf l) (hne : ∀ e ∈ l, keyOf e ≠ keyOf x) :
    KeysStrict keyOf (sortedInsert keyOf x l) := by
  obtain ⟨l1, l2, h1, h2, h3, h4⟩ := sortedInsert_split keyOf x l
  rw [h2]
  rw [h1] at hs hne
  obtain ⟨hs1, hs2, hs3⟩ := hs.append
  have hx2 : ∀ b ∈ l2, KeyCmp (keyOf x) (keyOf b) < 0 := by
    intro b hb
    cases l2 with
    | nil => cases hb
    | cons e2 r2 =>
      have he2 := h4 e2 rfl
      rcases List.mem_cons.1 hb with hb | hb
      · rw [hb]; exact he2
      · exact KeyCmp_lt_trans _ _ _ he2 (hs2.head_lt b hb)
  have hx1 : ∀ a ∈ l1, KeyCmp (keyOf a) (keyOf x) < 0 := by
    intro a ha
    rcases (KeyCmp_le_iff _ _).1 (h3 a ha) with h | h
    · exact h
    · exact absurd h (hne a (List.mem_append_left _ ha))
  refine KeysStrict.of_append hs1 (List.pairwise_cons.2 ⟨hx2, hs2⟩) ?_
  intro a ha b hb
  rcases List.mem_cons.1 hb with hb | hb
  · rw [hb]; exact hx1 a ha
  · exact hs3 a ha b hb

theorem leafDelete_head (e : Key × RecordID) (l : List (Key × RecordID)) :
    leafDelete e.1 e.2 (e :: l) = (Status.OK, l) := by
  simp [leafDelete]

theorem leafDelete_last (e : Key × RecordID) (l : List (Key × RecordID))
    (hs : KeysStrict Prod.fst (l ++ [e])) :
    leafDelete e.1 e.2 (l ++ [e]) = (Status.OK, l) := by
  induction l with
  | nil => simp [leafDelete]
  | cons a l ih =>
    have hlt : KeyCmp a.1 e.1 < 0 :=
      (List.pairwise_cons.1 hs).1 e (by simp)
    have hne : ¬ (a.1 = e.1 ∧ a.2 = e.2) := fun h => KeyCmp_lt_ne _ _ hlt h.1
    have ih2 := ih (List.pairwise_cons.1 hs).2
    show leafDelete e.1 e.2 (a :: (l ++ [e])) = (Status.OK, a :: l)
    simp only [leafDelete, hne, if_false, ih2]

theorem getLast?_eq_some_append {α : Type} (l : List α) (e : α) (h : l.getLast? = some e) :
    ∃ l1, l = l1 ++ [e] := by
  induction l with
  | nil => simp at h
  | cons a l ih =>
    cases l with
    | nil =>
      simp at h
      exact ⟨[], by simp [h]⟩
    | cons b l2 =>
      rw [List.getLast?_cons_cons] at h
      obtain ⟨l1, h1⟩ := ih h
      exact ⟨a :: l1, by rw [h1]; rfl⟩

theorem leafUsed_append (c : Config) (l1 l2 : List (Key × RecordID)) :
    leafUsed c (l1 ++ l2) = leafUsed c l1 + leafUsed c l2 := by
  induction l1 with
  | nil => simp [leafUsed]
  | cons e l ih => simp [leafUsed, ih]; omega

/-! ### The split loops on strictly ascending slots -/

theorem deleteSlot_append {α : Type} (l1 : List α) (e : α) (l2 : List α) :
    deleteSlot l1.length (l1 ++ e :: l2) = l1 ++ l2 := by
  induction l1 with
  | nil => rfl
  | cons a l ih => simp [deleteSlot, ih]

theorem indexDeleteScan_strict (e : IndexEntry) (l2 : List IndexEntry) :
    ∀ (l1 : List IndexEntry) (a : IndexEntry) (n : Nat),
      KeysStrict IndexEntry.key (a :: l1 ++ e :: l2) →
      indexDeleteScan e.key n a.key (l1 ++ e :: l2) = (n + (l1.length + 1), e.key) := by
  intro l1
  induction l1 with
  | nil =>
    intro a n hs
    have hlt : KeyCmp a.key e.key < 0 := (List.pairwise_cons.1 hs).1 e (by simp)
    have hgt : KeyCmp e.key a.key > 0 := by rw [KeyCmp_swap a.key e.key]; omega
    simp only [List.nil_append, indexDeleteScan, hgt, if_true, List.length_nil]
    cases l2 with
    | nil => simp [indexDeleteScan, KeyCmp_self]
    | cons b l => simp [indexDeleteScan, KeyCmp_self]
  | cons b l ih =>
    intro a n hs
    have hlt : KeyCmp a.key e.key < 0 := (List.pairwise_cons.1 hs).1 e (by simp)
    have hgt : KeyCmp e.key a.key > 0 := by rw [KeyCmp_swap a.key e.key]; omega
    have ih2 := ih b (n + 1) (List.pairwise_cons.1 hs).2
    have harith : n + 1 + (l.length + 1) = n + (l.length + 1 + 1) := by omega
    show indexDeleteScan e.key n a.key (b :: (l ++ e :: l2)) = _
    simp only [indexDeleteScan, hgt, if_true, ih2, List.length_cons, harith]

theorem indexDelete_strict (l1 : List IndexEntry) (e : IndexEntry) (l2 : List IndexEntry)
    (hs : KeysStrict IndexEntry.key (l1 ++ e :: l2)) :
    indexDelete e.key (l1 ++ e :: l2) = Except.ok (l1 ++ l2) := by
  cases l1 with
  | nil =>
    have h0 : indexDeleteScan e.key 0 e.key l2 = (0, e.key) := by
      cases l2 with
      | nil => simp [indexDeleteScan, KeyCmp_self]
      | cons b l => simp [indexDeleteScan, KeyCmp_self]
    simp [indexDelete, h0, KeyCmp_self, deleteSlot]
  | cons a l =>
    have h1 := indexDeleteScan_strict e l2 l a 0 hs
    have h2 := deleteSlot_append (a :: l) e l2
    simp only [List.cons_append, indexDelete, h1, KeyCmp_self]
    simp only [ne_eq, not_true_eq_false, if_false]
    have h3 : ¬ (((0 + (l.length + 1) : Nat) : Int) < 0) := by omega
    simp only [h3, if_false, Int.toNat_ofNat]
    have h4 : 0 + (l.length + 1) = (a :: l).length := by simp
    rw [h4]
    exact congrArg Except.ok h2

theorem leafSplitLoop_spec (c : Config) (M : Nat) :
    ∀ (fuel : Nat) (leaf new l2 n2 : List (Key × RecordID)),
      KeysStrict Prod.fst (leaf ++ new) →
      leafUsed c (leaf ++ new) ≤ c.HEAPPAGE_DATA_SIZE →
      leafUsed c new ≤ leafUsed c leaf + 2 * M →
      (∀ e ∈ leaf, GetKeyDataLength c e.1 NodeType.LEAF_NODE ≤ M) →
      leafSplitLoop c fuel leaf new = Except.ok (l2, n2) →
      l2 ++ n2 = leaf ++ new ∧ leafUsed c n2 ≤ leafUsed c l2 + 2 * M := by
  intro fuel
  induction fuel with
  | zero => intro leaf new l2 n2 _ _ _ _ h; simp [leafSplitLoop] at h
  | succ fuel ih =>
    intro leaf new l2 n2 hs hu hinv hM h
    unfold leafSplitLoop at h
    cases hl : leaf.getLast? with
    | none =>
      simp only [hl] at h
      cases h
      exact ⟨rfl, hinv⟩
    | some e =>
      simp only [hl] at h
      by_cases hc : leafAvail c new > leafAvail c leaf
      · simp only [hc, if_true] at h
        obtain ⟨l1, hl1⟩ := getLast?_eq_some_append leaf e hl
        subst hl1
        have hs1 := hs.append
        have hdel : leafDelete e.1 e.2 (l1 ++ [e]) = (Status.OK, l1) :=
          leafDelete_last e l1 hs1.1
        have hu2 := hu
        simp only [leafUsed_append, leafUsed] at hu2 hinv
        have hfit : GetKeyDataLength c e.1 NodeType.LEAF_NODE ≤ leafAvail c new := by
          unfold leafAvail; omega
        have hfront : sortedInsert Prod.fst (e.1, e.2) new = e :: new :=
          sortedInsert_front Prod.fst e new
            (fun b hb => hs1.2.2 e (by simp) b hb)
        have hins : leafInsert c e.1 e.2 new = (Status.OK, e :: new) := by
          simp [leafInsert, hfit, hfront]
        rw [hdel, hins] at h
        have hc2 : leafUsed c new < leafUsed c (l1 ++ [e]) := by
          unfold leafAvail at hc
          simp only [leafUsed_append, leafUsed]
          simp only [leafUsed_append, leafUsed] at hc
          omega
        simp only [leafUsed_append, leafUsed] at hc2
        have hMe := hM e (by simp)
        have hres := ih l1 (e :: new) l2 n2
          (by simpa [List.append_assoc] using hs)
          (by simp only [leafUsed_append, leafUsed]; omega)
          (by simp only [leafUsed]; omega)
          (fun a ha => hM a (List.mem_append_left _ ha)) h
        refine ⟨by rw [hres.1]; simp, hres.2⟩
      · simp only [hc, if_false] at h
        cases h
        exact ⟨rfl, hinv⟩

theorem split1Loop_spec (c : Config) (M : Nat) :
    ∀ (fuel : Nat) (leaf new l2 n2 : List (Key × RecordID)) (cur cur2 : Key × RecordID)
      (done : Bool),
      KeysStrict Prod.fst (new ++ leaf) →
      leafUsed c (new ++ leaf) ≤ c.HEAPPAGE_DATA_SIZE →
      leafUsed c new ≤ leafUsed c leaf + 2 * M →
      (∀ e ∈ leaf, GetKeyDataLength c e.1 NodeType.LEAF_NODE ≤ M) →
      (done = false → leaf.head? = some cur) → (done = true → leaf = []) →
      split1Loop c fuel leaf new cur done = Except.ok (l2, n2, cur2) →
      n2 ++ l2 = new ++ leaf ∧ leafUsed c n2 ≤ leafUsed c l2 + 2 * M ∧
        (l2 ≠ [] → l2.head? = some cur2) := by
  intro fuel
  induction fuel with
  | zero => intro leaf new l2 n2 cur cur2 done _ _ _ _ _ _ h; simp [split1Loop] at h
  | succ fuel ih =>
    intro leaf new l2 n2 cur cur2 done hs hu hinv hM hcur hdn h
    unfold split1Loop at h
    by_cases hc : leafAvail c new > leafAvail c leaf ∧ done = false
    · simp only [hc, and_self, if_true] at h
      have hhead := hcur hc.2
      cases leaf with
      | nil => simp at hhead
      | cons e0 rest =>
        simp only [List.head?_cons, Option.some.injEq] at hhead
        subst hhead
        have hs1 := hs.append
        simp only [leafUsed_append, leafUsed] at hu hinv
        have hfit : GetKeyDataLength c e0.1 NodeType.LEAF_NODE ≤ leafAvail c new := by
          unfold leafAvail; omega
        have hback : sortedInsert Prod.fst (e0.1, e0.2) new = new ++ [e0] :=
          sortedInsert_back Prod.fst e0 new
            (fun b hb => le_of_lt (hs1.2.2 b hb e0 (by simp)))
        have hins : leafInsert c e0.1 e0.2 new = (Status.OK, new ++ [e0]) := by
          simp [leafInsert, hfit, hback]
        have hdel := leafDelete_head e0 rest
        rw [hins, hdel] at h
        simp only [ne_eq, not_true_eq_false, if_false, if_true] at h
        have hc2 : leafUsed c new < leafUsed c (e0 :: rest) := by
          have := hc.1
          unfold leafAvail at this
          simp only [leafUsed]
          simp only [leafUsed] at this
          omega
        simp only [leafUsed] at hc2
        have hMe := hM e0 (by simp)
        have hs2 : KeysStrict Prod.fst ((new ++ [e0]) ++ rest) := by
          simpa [List.append_assoc] using hs
        have hu2 : leafUsed c ((new ++ [e0]) ++ rest) ≤ c.HEAPPAGE_DATA_SIZE := by
          simp only [leafUsed_append, leafUsed]; omega
        have hinv2 : leafUsed c (new ++ [e0]) ≤ leafUsed c rest + 2 * M := by
          simp only [leafUsed_append, leafUsed]; omega
        have hM2 : ∀ e ∈ rest, GetKeyDataLength c e.1 NodeType.LEAF_NODE ≤ M :=
          fun a ha => hM a (List.mem_cons_of_mem _ ha)
        cases rest with
        | nil =>
          simp only at h
          have hres := ih [] (new ++ [e0]) l2 n2 e0 cur2 true hs2 hu2 hinv2 hM2
            (by simp) (by simp) h
          exact ⟨by rw [hres.1]; simp, hres.2⟩
        | cons e1 r1 =>
          simp only at h
          have hres := ih (e1 :: r1) (new ++ [e0]) l2 n2 e1 cur2 false hs2 hu2 hinv2 hM2
            (by simp) (by simp) h
          exact ⟨by rw [hres.1]; simp, hres.2⟩
    · simp only [hc, if_false] at h
      cases h
      refine ⟨rfl, hinv, ?_⟩
      intro hne
      have hdone : done = false ∨ done = true := by cases done <;> simp
      rcases hdone with hd | hd
      · exact hcur hd
      · exact absurd (hdn hd) hne

theorem indexSplitLoop_spec (c : Config) :
    ∀ (fuel : Nat) (old new X old2 new2 : List IndexEntry),
      KeysStrict IndexEntry.key (old ++ X) →
      (new.map IndexEntry.kp).Sublist (X.map IndexEntry.kp) →
      indexSplitLoop c fuel old new = Except.ok (old2, new2) →
      ∃ X2, old2 ++ X2 = old ++ X ∧
        (new2.map IndexEntry.kp).Sublist (X2.map IndexEntry.kp) := by
  intro fuel
  induction fuel with
  | zero => intro old new X old2 new2 _ _ h; simp [indexSplitLoop] at h
  | succ fuel ih =>
    intro old new X old2 new2 hs hsub h
    unfold indexSplitLoop at h
    cases hl : old.getLast? with
    | none =>
      simp only [hl] at h
      cases h
      exact ⟨X, rfl, hsub⟩
    | some e =>
      simp only [hl] at h
      by_cases hc : indexAvail c new > indexAvail c old
      · simp only [hc, if_true] at h
        obtain ⟨o1, ho1⟩ := getLast?_eq_some_append old e hl
        subst ho1
        have hs1 := hs.append
        have hdel : indexDelete e.key (o1 ++ [e]) = Except.ok o1 := by
          have := indexDelete_strict o1 e [] hs1.1
          simpa using this
        rw [hdel] at h
        simp only at h
        have hlt : ∀ b ∈ new, KeyCmp e.key b.key < 0 := by
          intro b hb
          have hb2 : b.kp ∈ X.map IndexEntry.kp := hsub.subset (List.mem_map_of_mem _ hb)
          obtain ⟨b2, hb3, hb4⟩ := List.mem_map.1 hb2
          have hk : b.key = b2.key := by
            have := congrArg Prod.fst hb4
            simpa [IndexEntry.kp] using this.symm
          rw [hk]
          exact hs1.2.2 e (by simp) b2 hb3
        have hsub2 : (((indexInsert c e.key e.pid new).2).map IndexEntry.kp).Sublist
            ((e :: X).map IndexEntry.kp) := by
          unfold indexInsert
          split
          · have hfront : sortedInsert IndexEntry.key
                ⟨e.key, e.pid, GetKeyDataLength c e.key NodeType.INDEX_NODE⟩ new
                = ⟨e.key, e.pid, GetKeyDataLength c e.key NodeType.INDEX_NODE⟩ :: new :=
              sortedInsert_front _ _ new hlt
            simp only [hfront, List.map_cons]
            exact List.Sublist.cons₂ _ hsub
          · simp only [List.map_cons]
            exact List.Sublist.cons _ hsub
        have hres := ih o1 _ (e :: X) old2 new2
          (by simpa [List.append_assoc] using hs) hsub2 h
        obtain ⟨X2, h1, h2⟩ := hres
        exact ⟨X2, by rw [h1]; simp, h2⟩
      · simp only [hc, if_false] at h
        cases h
        exact ⟨X, rfl, hsub⟩

/-! ### Pages and bookkeeping -/

theorem SameSlots.slots_refl (pg : Page) : SameSlots pg pg := by
  cases pg <;> simp [SameSlots]

theorem SameSlots.slots_trans {a b c : Page} (h1 : SameSlots a b) (h2 : SameSlots b c) :
    SameSlots a c := by
  cases a <;> cases b <;> cases c <;> simp_all [SameSlots]

theorem PageOK.sameSlots {c : Config} {K : List Key} {G : Ghost} {pid : PageID}
    {pg pg2 : Page} (hs : SameSlots pg pg2) (h : PageOK c K G pid pg) :
    PageOK c K G pid pg2 := by
  cases pg <;> cases pg2 <;> simp only [SameSlots] at hs
  · subst hs; exact h
  · obtain ⟨h1, h2⟩ := hs
    subst h1; subst h2; exact h

theorem SameStore.store_refl (pages : List (PageID × Page)) : SameStore pages pages :=
  fun _ pg h => ⟨pg, h, SameSlots.slots_refl pg⟩

theorem SameStore.store_trans {p3 p2 p1 : List (PageID × Page)} (h1 : SameStore p3 p2)
    (h2 : SameStore p2 p1) : SameStore p3 p1 := by
  intro q pg3 h
  obtain ⟨pg2, hq2, hs2⟩ := h1 q pg3 h
  obtain ⟨pg1, hq1, hs1⟩ := h2 q pg2 hq2
  exact ⟨pg1, hq1, hs1.slots_trans hs2⟩

theorem SameStore.store_not_index {p2 p1 : List (PageID × Page)} (h : SameStore p2 p1) (a : PageID)
    (hn : ∀ l es, getPage p1 a ≠ some (Page.index l es)) :
    ∀ l es, getPage p2 a ≠ some (Page.index l es) := by
  intro l es hp
  obtain ⟨pg1, hq1, hs1⟩ := h a _ hp
  cases pg1 with
  | leaf x y zs => simp [SameSlots] at hs1
  | index l1 es1 => exact hn l1 es1 hq1

theorem SameStore_setNext (pages : List (PageID × Page)) (a x : PageID) :
    SameStore (setNext pages a x) pages := by
  unfold setNext
  cases hp : getPage pages a with
  | none => exact SameStore.store_refl pages
  | some pg =>
    cases pg with
    | index l es => exact SameStore.store_refl pages
    | leaf p n es =>
      intro q pg2 h
      rw [getPage_setPage] at h
      by_cases hq : q = a
      · simp only [hq, if_true, Option.some.injEq] at h
        subst hq
        exact ⟨_, hp, by rw [← h]; simp [SameSlots]⟩
      · simp only [hq, if_false] at h
        exact ⟨pg2, h, SameSlots.slots_refl pg2⟩

theorem SameStore_setPrev (pages : List (PageID × Page)) (a x : PageID)
    (hn : ∀ l es, getPage pages a ≠ some (Page.index l es)) :
    SameStore (setPrev pages a x) pages := by
  unfold setPrev
  cases hp : getPage pages a with
  | none => exact SameStore.store_refl pages
  | some pg =>
    cases pg with
    | index l es => exact absurd hp (hn l es)
    | leaf p n es =>
      intro q pg2 h
      rw [getPage_setPage] at h
      by_cases hq : q = a
      · simp only [hq, if_true, Option.some.injEq] at h
        subst hq
        exact ⟨_, hp, by rw [← h]; simp [SameSlots]⟩
      · simp only [hq, if_false] at h
        exact ⟨pg2, h, SameSlots.slots_refl pg2⟩

theorem Ranged.sameStore {c : Config} {K : List Key} {G : Ghost}
    {p2 p1 : List (PageID × Page)} (h : Ranged c K G p1) (hs : SameStore p2 p1) :
    Ranged c K G p2 := by
  intro q pg2 hq
  obtain ⟨pg1, hq1, hs1⟩ := hs q pg2 hq
  exact (h q pg1 hq1).sameSlots hs1

/-- A page keeps agreeing with the bookkeeping when its own bounds stay, the
starts and parents of its children stay and their ends do not rise. -/
theorem PageOK.page_mono {c : Config} {K K2 : List Key} {G G2 : Ghost} {pid : PageID} {pg : Page}
    (hK : ∀ κ ∈ K, κ ∈ K2) (hlo : G2.lo pid = G.lo pid) (hhi : G2.hi pid = G.hi pid)
    (hch : ∀ l es, pg = Page.index l es → ∀ q ∈ children l es,
      G2.lo q = G.lo q ∧ G2.par q = G.par q ∧ HiLe (G2.hi q) (G.hi q))
    (h : PageOK c K G pid pg) : PageOK c K2 G2 pid pg := by
  cases pg with
  | leaf a b es =>
    obtain ⟨h1, h2, h3⟩ := h
    refine ⟨h1, h2, ?_⟩
    intro e he
    obtain ⟨h4, h5, h6⟩ := h3 e he
    rw [hlo, hhi]
    exact ⟨hK _ h4, h5, h6⟩
  | index l es =>
    obtain ⟨h1, h2, h3, h4, h5⟩ := h
    have hc := hch l es rfl
    refine ⟨h1, ?_, ?_, ?_, ?_⟩
    · intro e he; rw [hlo, hhi]; exact h2 e he
    · rw [hlo, (hc l (by simp [children])).1]; exact h3
    · intro e he
      rw [(hc e.pid (by simp [children]; exact Or.inr ⟨e, he, rfl⟩)).1]
      exact h4 e he
    · intro q hq
      obtain ⟨c1, c2, c3⟩ := hc q hq
      obtain ⟨d1, d2, d3⟩ := h5 q hq
      refine ⟨by rw [c2]; exact d1, ?_, ?_⟩
      · rw [hhi]; exact c3.hi_trans d2
      · intro e he hlt
        rw [c1] at hlt
        exact c3.hi_trans (d3 e he hlt)

/-! ### Leaves and bookkeeping -/

theorem LeafOK.leaf_mono {c : Config} {K K2 : List Key} {a b : Option Key}
    {es : List (Key × RecordID)} (hK : ∀ κ ∈ K, κ ∈ K2) (h : LeafOK c K a b es) :
    LeafOK c K2 a b es :=
  ⟨h.1, h.2.1, fun e he => ⟨hK _ (h.2.2 e he).1, (h.2.2 e he).2⟩⟩

theorem LeafOK.insert {c : Config} {K : List Key} {a b : Option Key}
    {es : List (Key × RecordID)} (key : Key) (rid : RecordID)
    (h : LeafOK c K a b es) (hfresh : key ∉ K) (hlo : LoLe a key) (hhi : LtHi key b) :
    LeafOK c (key :: K) a b (leafInsert c key rid es).2 := by
  have hm : LeafOK c (key :: K) a b es := h.leaf_mono (fun κ hκ => List.mem_cons_of_mem _ hκ)
  unfold leafInsert
  split
  · rename_i hfit
    refine ⟨?_, ?_, ?_⟩
    · apply sortedInsert_strict Prod.fst (key, rid) es h.1
      intro e he heq
      have heq2 : e.1 = key := heq
      exact hfresh (by rw [← heq2]; exact (h.2.2 e he).1)
    · rw [leafUsed_sortedInsert]
      have := h.2.1
      unfold leafAvail at hfit
      simp only at hfit ⊢
      omega
    · intro e he
      rcases (mem_sortedInsert _ _ _ _).1 he with he | he
      · subst he
        exact ⟨List.mem_cons_self _ _, hlo, hhi⟩
      · exact hm.2.2 e he
  · exact hm

theorem LeafOK.nil (c : Config) (K : List Key) (a b : Option Key) : LeafOK c K a b [] :=
  ⟨List.Pairwise.nil, by simp [leafUsed], by simp⟩

/-- A leaf cut in two at the entry `e`: the first part ends below the key of
`e`, the second part starts at it. -/
theorem LeafOK.split {c : Config} {K : List Key} {a b : Option Key}
    {l1 l2 : List (Key × RecordID)} {e : Key × RecordID}
    (h : LeafOK c K a b (l1 ++ e :: l2)) :
    LeafOK c K a (some e.1) l1 ∧ LeafOK c K (some e.1) b (e :: l2) := by
  obtain ⟨h1, h2, h3⟩ := h
  obtain ⟨s1, s2, s3⟩ := h1.append
  rw [leafUsed_append] at h2
  refine ⟨⟨s1, by omega, ?_⟩, ⟨s2, by omega, ?_⟩⟩
  · intro x hx
    obtain ⟨k1, k2, _⟩ := h3 x (List.mem_append_left _ hx)
    exact ⟨k1, k2, LtHi.of_lt (s3 x hx e (List.mem_cons_self _ _))⟩
  · intro x hx
    obtain ⟨k1, _, k3⟩ := h3 x (List.mem_append_right _ hx)
    refine ⟨k1, ?_, k3⟩
    rcases List.mem_cons.1 hx with hx | hx
    · subst hx; exact LoLe.of_le (by rw [KeyCmp_self])
    · exact LoLe.of_le (le_of_lt (s2.head_lt x hx))

theorem leafInsert_head (c : Config) (key : Key) (rid : RecordID) (e : Key × RecordID)
    (l : List (Key × RecordID)) (h : KeyCmp key e.1 ≥ 0) :
    ∃ l2, (leafInsert c key rid (e :: l)).2 = e :: l2 := by
  unfold leafInsert
  split
  · have h1 : ¬ KeyCmp key e.1 < 0 := by omega
    exact ⟨sortedInsert Prod.fst (key, rid) l, by simp [sortedInsert, h1]⟩
  · exact ⟨l, rfl⟩

/-- The leaf split keeps an entry in the old leaf when no entry takes more than
a third of the page and the new entry did not fit. -/
theorem leafSplitLoop_nonempty (c : Config) (fuel : Nat) (es l2 n2 : List (Key × RecordID))
    (key : Key)
    (hs : KeysStrict Prod.fst es) (hu : leafUsed c es ≤ c.HEAPPAGE_DATA_SIZE)
    (hM : ∀ e ∈ es, 3 * GetKeyDataLength c e.1 NodeType.LEAF_NODE ≤ c.HEAPPAGE_DATA_SIZE)
    (hk : 3 * GetKeyDataLength c key NodeType.LEAF_NODE ≤ c.HEAPPAGE_DATA_SIZE)
    (hfull : ¬ leafAvail c es ≥ GetKeyDataLength c key NodeType.LEAF_NODE)
    (h : leafSplitLoop c fuel es [] = Except.ok (l2, n2)) :
    l2 ++ n2 = es ∧ l2 ≠ [] := by
  have hspec := leafSplitLoop_spec c (c.HEAPPAGE_DATA_SIZE / 3) fuel es [] l2 n2
    (by simpa using hs) (by simpa using hu) (by simp [leafUsed])
    (fun e he => by have := hM e he; omega) h
  simp only [List.append_nil] at hspec
  refine ⟨hspec.1, ?_⟩
  intro hnil
  subst hnil
  simp only [List.nil_append] at hspec
  obtain ⟨h1, h2⟩ := hspec
  subst h1
  simp only [leafUsed] at h2
  unfold leafAvail at hfull
  omega

theorem getPage_setLeafSlots (pages : List (PageID × Page)) (p q a b : PageID)
    (es0 es : List (Key × RecordID)) (hp : getPage pages p = some (Page.leaf a b es0)) :
    getPage (setLeafSlots pages p es) q
      = if q = p then some (Page.leaf a b es) else getPage pages q := by
  simp only [setLeafSlots, hp, getPage_setPage]

theorem getPage_setNext_index (pages : List (PageID × Page)) (a x q l : PageID)
    (es : List IndexEntry) (h : getPage pages q = some (Page.index l es)) :
    getPage (setNext pages a x) q = some (Page.index l es) := by
  unfold setNext
  cases hp : getPage pages a with
  | none => exact h
  | some pg =>
    cases pg with
    | index l0 es0 => exact h
    | leaf p n es0 =>
      have hq : q ≠ a := by
        intro e; rw [e, hp] at h; cases h
      simp only [getPage_setPage_ne _ _ _ _ hq, h]

theorem getPage_setPrev_index (pages : List (PageID × Page)) (a x q l : PageID)
    (es : List IndexEntry) (hn : ∀ l0 es0, getPage pages a ≠ some (Page.index l0 es0))
    (h : getPage pages q = some (Page.index l es)) :
    getPage (setPrev pages a x) q = some (Page.index l es) := by
  unfold setPrev
  cases hp : getPage pages a with
  | none => exact h
  | some pg =>
    cases pg with
    | index l0 es0 => exact absurd hp (hn l0 es0)
    | leaf p n es0 =>
      have hq : q ≠ a := by
        intro e; rw [e, hp] at h; cases h
      simp only [getPage_setPage_ne _ _ _ _ hq, h]

theorem Ghost.splitAt_old (G : Ghost) (node n : PageID) (t : Key) (q : PageID) (hq : q ≠ n) :
    (G.splitAt node n t).lo q = G.lo q ∧ (G.splitAt node n t).par q = G.par q ∧
      (q ≠ node → (G.splitAt node n t).hi q = G.hi q) ∧
      (q = node → (G.splitAt node n t).hi q = some t) := by
  refine ⟨by simp [Ghost.splitAt, Function.update, hq], by simp [Ghost.splitAt, Function.update, hq],
    ?_, ?_⟩
  · intro h2; simp [Ghost.splitAt, Function.update, hq, h2]
  · intro h2; subst h2; simp [Ghost.splitAt, Function.update, hq]

theorem Ghost.splitAt_new (G : Ghost) (node n : PageID) (t : Key) :
    (G.splitAt node n t).lo n = some t ∧ (G.splitAt node n t).hi n = G.hi node ∧
      (G.splitAt node n t).par n = n := by
  simp [Ghost.splitAt, Function.update]

/-- The store after the two halves of a split node were written agrees with the
bookkeeping split at `t`, when both halves do. -/
theorem Ranged.splitAt {c : Config} {K K2 : List Key} {G : Ghost}
    {pages : List (PageID × Page)} {lvl : PageID → Nat} {bound : PageID}
    (hL : Leveled lvl pages bound) (hR : Ranged c K G pages) (hK : ∀ κ ∈ K, κ ∈ K2)
    (node : PageID) (t : Key) (pgOld pgNew : Page) (hnode : node < bound)
    (ht : LtHi t (G.hi node))
    (hold : PageOK c K2 (G.splitAt node bound t) node pgOld)
    (hnew : PageOK c K2 (G.splitAt node bound t) bound pgNew) :
    Ranged c K2 (G.splitAt node bound t)
      (setPage (setPage pages bound pgNew) node pgOld) := by
  intro q pg hq
  rw [getPage_setPage] at hq
  by_cases h1 : q = node
  · simp only [h1, if_true, Option.some.injEq] at hq
    subst hq; subst h1; exact hold
  · simp only [h1, if_false] at hq
    rw [getPage_setPage] at hq
    by_cases h2 : q = bound
    · simp only [h2, if_true, Option.some.injEq] at hq
      subst hq; subst h2; exact hnew
    · simp only [h2, if_false] at hq
      have hg := G.splitAt_old node bound t q h2
      refine PageOK.page_mono hK hg.1 (hg.2.2.1 h1) ?_ (hR q pg hq)
      intro l es hpg r hr
      subst hpg
      have hrb : r < bound := (hL.index_children q l es hq r hr).1
      have hr2 : r ≠ bound := ne_of_lt hrb
      have hgr := G.splitAt_old node bound t r hr2
      refine ⟨hgr.1, hgr.2.1, ?_⟩
      by_cases h3 : r = node
      · rw [hgr.2.2.2 h3, h3]; exact HiLe.of_LtHi ht
      · rw [hgr.2.2.1 h3]; exact HiLe.hi_refl _

theorem LinksOnly.links_refl (pages : List (PageID × Page)) : LinksOnly pages pages :=
  ⟨SameStore.store_refl pages, fun _ _ _ h => h⟩

theorem LinksOnly.links_trans {p3 p2 p1 : List (PageID × Page)} (h1 : LinksOnly p3 p2)
    (h2 : LinksOnly p2 p1) : LinksOnly p3 p1 :=
  ⟨h1.1.store_trans h2.1, fun q l es h => h1.2 q l es (h2.2 q l es h)⟩

theorem LinksOnly_setNext (pages : List (PageID × Page)) (a x : PageID) :
    LinksOnly (setNext pages a x) pages :=
  ⟨SameStore_setNext pages a x, fun q l es h => getPage_setNext_index pages a x q l es h⟩

theorem LinksOnly_setPrev (pages : List (PageID × Page)) (a x : PageID)
    (hn : ∀ l es, getPage pages a ≠ some (Page.index l es)) :
    LinksOnly (setPrev pages a x) pages :=
  ⟨SameStore_setPrev pages a x hn, fun q l es h => getPage_setPrev_index pages a x q l es hn h⟩

theorem LinksOnly.links_not_index {p2 p1 : List (PageID × Page)} (h : LinksOnly p2 p1) (a : PageID)
    (hn : ∀ l es, getPage p1 a ≠ some (Page.index l es)) :
    ∀ l es, getPage p2 a ≠ some (Page.index l es) :=
  h.1.store_not_index a hn

theorem insertLeaf_ranged (c : Config) (fuel : Nat) (f f2 : BTreeFile) (lvl : PageID → Nat)
    (G : Ghost) (K : List Key)
    (nodePid lprev lnext : PageID) (es : List (Key × RecordID)) (key : Key) (rid : RecordID)
    (st : Status) (newPid : PageID) (newKey : Option Key)
    (hL : Leveled lvl f.pages f.nextPid) (hR : Ranged c K G f.pages)
    (hp : getPage f.pages nodePid = some (Page.leaf lprev lnext es))
    (hsm : SmallKeys c (key :: K)) (hfresh : key ∉ K)
    (hlo : LoLe (G.lo nodePid) key) (hhi : LtHi key (G.hi nodePid))
    (hr : insertLeaf c fuel f nodePid lprev lnext es key rid
      = Except.ok (st, newPid, newKey, f2)) :
    ∃ G2, Ranged c (key :: K) G2 f2.pages ∧
      (∀ q, q < f.nextPid → G2.lo q = G.lo q ∧ G2.par q = G.par q) ∧
      (∀ q, q < f.nextPid → q ≠ nodePid → G2.hi q = G.hi q) ∧
      (∀ q l es2, getPage f.pages q = some (Page.index l es2) →
        getPage f2.pages q = some (Page.index l es2)) ∧
      (newPid = INVALID_PAGE → G2.hi nodePid = G.hi nodePid) ∧
      (newPid ≠ INVALID_PAGE → ∃ tKey, newKey = some tKey ∧ G2.hi nodePid = some tKey ∧
        LoLt (G.lo nodePid) tKey ∧ LtHi tKey (G.hi nodePid) ∧
        G2.lo newPid = some tKey ∧ G2.hi newPid = G.hi nodePid ∧ G2.par newPid = newPid ∧
        newPid = f.nextPid) := by
  have hleaf : LeafOK c K (G.lo nodePid) (G.hi nodePid) es := hR nodePid _ hp
  have hKsub : ∀ κ ∈ K, κ ∈ key :: K := fun κ hκ => List.mem_cons_of_mem _ hκ
  have hnodeLt : nodePid < f.nextPid := (hL.pid_range _ _ hp).2
  have hlinks := hL.leaf_links nodePid lprev lnext es hp
  unfold insertLeaf at hr
  split at hr
  · cases hr
    refine ⟨G, ?_, fun q _ => ⟨rfl, rfl⟩, fun q _ _ => rfl, ?_, fun _ => rfl,
      fun h => absurd rfl h⟩
    · intro q pg hq
      simp only at hq
      rw [getPage_setPage] at hq
      by_cases h1 : q = nodePid
      · simp only [h1, if_true, Option.some.injEq] at hq
        subst hq; subst h1
        exact hleaf.insert key rid hfresh hlo hhi
      · simp only [h1, if_false] at hq
        exact PageOK.page_mono hKsub rfl rfl
          (fun _ _ _ r _ => ⟨rfl, rfl, HiLe.hi_refl _⟩) (hR q pg hq)
    · intro q l es2 hq
      have h1 : q ≠ nodePid := by
        intro e; rw [e, hp] at hq; cases hq
      simp only [getPage_setPage_ne _ _ _ _ h1, hq]
  · rename_i hfull
    simp only [NewPage] at hr
    split at hr
    · simp at hr
    · rename_i leaf2 newLeaf2 hloop
      split at hr
      · simp at hr
      · rename_i e rest
        have hne := leafSplitLoop_nonempty c fuel es leaf2 (e :: rest) key hleaf.1 hleaf.2.1
          (fun x hx => hsm x.1 (hKsub _ (hleaf.2.2 x hx).1))
          (hsm key (List.mem_cons_self _ _)) hfull hloop
        obtain ⟨hcat, hl2ne⟩ := hne
        rw [← hcat] at hleaf
        obtain ⟨hA, hB⟩ := hleaf.split
        have hte : LtHi e.1 (G.hi nodePid) :=
          (hleaf.2.2 e (List.mem_append_right _ (List.mem_cons_self _ _))).2.2
        have hlt : LoLt (G.lo nodePid) e.1 := by
          cases leaf2 with
          | nil => exact absurd rfl hl2ne
          | cons x xs =>
            have hx := hA.2.2 x (List.mem_cons_self _ _)
            exact hx.2.1.trans_lt (by
              have := hx.2.2 e.1 rfl
              exact this)
        have hN3 : LeafOK c (key :: K) (some e.1) (G.hi nodePid)
            (if KeyCmp key e.1 ≥ 0 then (leafInsert c key rid (e :: rest)).2 else e :: rest) ∧
            ∃ l2, (if KeyCmp key e.1 ≥ 0 then (leafInsert c key rid (e :: rest)).2
              else e :: rest) = e :: l2 := by
          split
          · rename_i hge
            exact ⟨hB.insert key rid hfresh (LoLe.of_le ((KeyCmp_ge_iff _ _).1 hge)) hhi,
              leafInsert_head c key rid e rest hge⟩
          · exact ⟨hB.leaf_mono hKsub, rest, rfl⟩
        have hL3 : LeafOK c (key :: K) (G.lo nodePid) (some e.1)
            (if KeyCmp key e.1 ≥ 0 then leaf2 else (leafInsert c key rid leaf2).2) := by
          split
          · exact hA.leaf_mono hKsub
          · rename_i hge
            exact hA.insert key rid hfresh hlo (LtHi.of_lt (by omega))
        generalize (if KeyCmp key e.1 ≥ 0 then (leafInsert c key rid (e :: rest)).2 else e :: rest)
          = newLeaf3 at hr hN3
        generalize (if KeyCmp key e.1 ≥ 0 then leaf2 else (leafInsert c key rid leaf2).2)
          = leaf3 at hr hL3
        obtain ⟨hN3, l2, hl2⟩ := hN3
        subst hl2
        simp only at hr
        have hnb : nodePid ≠ f.nextPid := ne_of_lt hnodeLt
        have hpages2 : setLeafSlots
            (setPage f.pages f.nextPid (Page.leaf INVALID_PAGE INVALID_PAGE (e :: l2)))
            nodePid leaf3
            = setPage (setPage f.pages f.nextPid (Page.leaf INVALID_PAGE INVALID_PAGE (e :: l2)))
                nodePid (Page.leaf lprev lnext leaf3) := by
          simp only [setLeafSlots, getPage_setPage_ne _ _ _ _ hnb, hp]
        rw [hpages2] at hr
        have hgo := G.splitAt_old nodePid f.nextPid e.1
        have hgn := G.splitAt_new nodePid f.nextPid e.1
        have R2 : Ranged c (key :: K) (G.splitAt nodePid f.nextPid e.1)
            (setPage (setPage f.pages f.nextPid (Page.leaf INVALID_PAGE INVALID_PAGE (e :: l2)))
                nodePid (Page.leaf lprev lnext leaf3)) := by
          apply Ranged.splitAt hL hR hKsub nodePid e.1 _ _ hnodeLt hte
          · show LeafOK c (key :: K) _ _ leaf3
            rw [(hgo nodePid hnb).1, (hgo nodePid hnb).2.2.2 rfl]
            exact hL3
          · show LeafOK c (key :: K) _ _ (e :: l2)
            rw [hgn.1, hgn.2.1]
            exact hN3
        have Keep2 : ∀ q l es2, getPage f.pages q = some (Page.index l es2) →
            getPage (setPage (setPage f.pages f.nextPid
              (Page.leaf INVALID_PAGE INVALID_PAGE (e :: l2)))
                nodePid (Page.leaf lprev lnext leaf3)) q = some (Page.index l es2) := by
          intro q l es2 hq
          have h1 : q ≠ nodePid := by
            intro e0; rw [e0, hp] at hq; cases hq
          have h2 : q ≠ f.nextPid := ne_of_lt (hL.pid_range _ _ hq).2
          rw [getPage_setPage_ne _ _ _ _ h1, getPage_setPage_ne _ _ _ _ h2, hq]
        generalize hpg2 : setPage (setPage f.pages f.nextPid
              (Page.leaf INVALID_PAGE INVALID_PAGE (e :: l2)))
                nodePid (Page.leaf lprev lnext leaf3) = pages2 at hr R2 Keep2
        have hNIb : ∀ l es2, getPage pages2 f.nextPid ≠ some (Page.index l es2) := by
          intro l es2 hq
          rw [← hpg2, getPage_setPage_ne _ _ _ _ hnb.symm, getPage_setPage_same] at hq
          cases hq
        have hNIn : ∀ l es2, getPage pages2 lnext ≠ some (Page.index l es2) := by
          intro l es2 hq
          rw [← hpg2, getPage_setPage] at hq
          by_cases h1 : lnext = nodePid
          · simp [h1] at hq
          · simp only [h1, if_false] at hq
            rw [getPage_setPage] at hq
            by_cases h2 : lnext = f.nextPid
            · simp [h2] at hq
            · simp only [h2, if_false] at hq
              exact hlinks.2.2 l es2 hq
        have hpost : ∀ q, q < f.nextPid →
            (G.splitAt nodePid f.nextPid e.1).lo q = G.lo q ∧
            (G.splitAt nodePid f.nextPid e.1).par q = G.par q :=
          fun q hq => ⟨(hgo q (ne_of_lt hq)).1, (hgo q (ne_of_lt hq)).2.1⟩
        have hpost2 : ∀ q, q < f.nextPid → q ≠ nodePid →
            (G.splitAt nodePid f.nextPid e.1).hi q = G.hi q :=
          fun q hq hqn => (hgo q (ne_of_lt hq)).2.2.1 hqn
        have hpost3 : f.nextPid ≠ INVALID_PAGE → ∃ tKey, some e.1 = some tKey ∧
            (G.splitAt nodePid f.nextPid e.1).hi nodePid = some tKey ∧
            LoLt (G.lo nodePid) tKey ∧ LtHi tKey (G.hi nodePid) ∧
            (G.splitAt nodePid f.nextPid e.1).lo f.nextPid = some tKey ∧
            (G.splitAt nodePid f.nextPid e.1).hi f.nextPid = G.hi nodePid ∧
            (G.splitAt nodePid f.nextPid e.1).par f.nextPid = f.nextPid ∧
            f.nextPid = f.nextPid :=
          fun _ => ⟨e.1, rfl, (hgo nodePid hnb).2.2.2 rfl, hlt, hte, hgn.1, hgn.2.1, hgn.2.2, rfl⟩
        have hbinv : f.nextPid = INVALID_PAGE → False := by
          intro h0
          have := hL.bound_nonneg
          rw [h0] at this
          simp [INVALID_PAGE] at this
        split at hr
        · cases hr
          exact ⟨_, R2, hpost, hpost2, Keep2, fun h0 => absurd h0 hbinv, hpost3⟩
        · cases hr
          have L3 : LinksOnly
              (if lnext ≠ INVALID_PAGE then setPrev pages2 lnext f.nextPid else pages2) pages2 := by
            split
            · exact LinksOnly_setPrev _ _ _ hNIn
            · exact LinksOnly.links_refl _
          generalize (if lnext ≠ INVALID_PAGE then setPrev pages2 lnext f.nextPid else pages2)
            = pages3 at L3
          have L4 := (LinksOnly_setNext pages3 f.nextPid lnext).links_trans L3
          have L5 := (LinksOnly_setPrev (setNext pages3 f.nextPid lnext) f.nextPid nodePid
            (L4.links_not_index f.nextPid hNIb)).links_trans L4
          have L6 := (LinksOnly_setNext
            (setPrev (setNext pages3 f.nextPid lnext) f.nextPid nodePid) nodePid f.nextPid).links_trans L5
          exact ⟨_, R2.sameStore L6.1, hpost, hpost2,
            fun q l es2 hq => L6.2 q l es2 (Keep2 q l es2 hq),
            fun h0 => absurd h0 hbinv, hpost3⟩

/-! ### The child selected by `FindPage` -/

theorem findSlot_none_strict (key : Key) (es : List IndexEntry) (h : findSlot key es = none) :
    ∀ e ∈ es, KeyCmp key e.key < 0 := by
  unfold findSlot at h
  rw [List.find?_eq_none] at h
  intro e he
  have := h e (List.mem_reverse.2 he)
  simp only [decide_eq_true_eq] at this
  omega

theorem findSlot_some_strict (key : Key) (es : List IndexEntry) (e0 : IndexEntry)
    (hs : KeysStrict IndexEntry.key es) (h : findSlot key es = some e0) :
    e0 ∈ es ∧ KeyCmp e0.key key ≤ 0 ∧
      ∀ e ∈ es, KeyCmp e0.key e.key < 0 → KeyCmp key e.key < 0 := by
  unfold findSlot at h
  rw [List.find?_eq_some] at h
  obtain ⟨hp, as, bs, hrev, hall⟩ := h
  simp only [decide_eq_true_eq] at hp
  have hes : es = bs.reverse ++ e0 :: as.reverse := by
    have := List.reverse_eq_append_iff.1 hrev
    simpa using this
  subst hes
  refine ⟨by simp, (KeyCmp_ge_iff _ _).1 hp, ?_⟩
  intro e he hlt
  obtain ⟨s1, s2, s3⟩ := hs.append
  rcases List.mem_append.1 he with he | he
  · have := s3 e he e0 (List.mem_cons_self _ _)
    have h2 := KeyCmp_lt_trans _ _ _ this hlt
    rw [KeyCmp_self] at h2; omega
  · rcases List.mem_cons.1 he with he | he
    · rw [he, KeyCmp_self] at hlt; omega
    · have := hall e (List.mem_reverse.1 he)
      simp only [Bool.not_eq_true', decide_eq_false_iff_not] at this
      omega

/-- The child `FindPage` selects starts at or below the key, and every
separator above its start is above the key. -/
theorem FindPage_bounds {c : Config} {K : List Key} {G : Ghost} {p left : PageID}
    {es : List IndexEntry} (key : Key)
    (h : PageOK c K G p (Page.index left es)) (hlo : LoLe (G.lo p) key) :
    LoLe (G.lo (FindPage key left es).1) key ∧
      ∀ e ∈ es, LoLt (G.lo (FindPage key left es).1) e.key → KeyCmp key e.key < 0 := by
  obtain ⟨h1, h2, h3, h4, h5⟩ := h
  unfold FindPage
  cases hf : findSlot key es with
  | none =>
    simp only
    rw [h3]
    exact ⟨hlo, fun e he _ => findSlot_none_strict key es hf e he⟩
  | some e0 =>
    simp only
    obtain ⟨k1, k2, k3⟩ := findSlot_some_strict key es e0 h1 hf
    rw [h4 e0 k1]
    exact ⟨LoLe.of_le k2, fun e he hlt => k3 e he (hlt e0.key rfl)⟩

theorem HiLe.total (b1 b2 : Option Key) : HiLe b1 b2 ∨ HiLe b2 b1 := by
  cases b1 with
  | none => exact Or.inr (HiLe.none _)
  | some x =>
    cases b2 with
    | none => exact Or.inl (HiLe.none _)
    | some y =>
      by_cases h : KeyCmp x y ≤ 0
      · left; intro z hz; cases hz; exact ⟨x, rfl, h⟩
      · right; intro z hz; cases hz
        exact ⟨y, rfl, by rw [KeyCmp_swap x y]; omega⟩

/-- The least of the upper bound `b` and the separators above `a`. -/
theorem exists_raise (a b : Option Key) (es : List IndexEntry) :
    ∃ B, HiLe B b ∧ (∀ e ∈ es, LoLt a e.key → HiLe B (some e.key)) ∧
      (B = b ∨ ∃ e ∈ es, LoLt a e.key ∧ B = some e.key) := by
  induction es with
  | nil => exact ⟨b, HiLe.hi_refl b, by simp, Or.inl rfl⟩
  | cons e rest ih =>
    obtain ⟨B0, i1, i2, i3⟩ := ih
    have hmem : (B0 = b ∨ ∃ e2 ∈ e :: rest, LoLt a e2.key ∧ B0 = some e2.key) := by
      rcases i3 with i3 | ⟨e2, m1, m2, m3⟩
      · exact Or.inl i3
      · exact Or.inr ⟨e2, List.mem_cons_of_mem _ m1, m2, m3⟩
    by_cases hlt : LoLt a e.key
    · rcases HiLe.total (some e.key) B0 with ht | ht
      · refine ⟨some e.key, ht.hi_trans i1, ?_, Or.inr ⟨e, List.mem_cons_self _ _, hlt, rfl⟩⟩
        intro e2 he2 hl2
        rcases List.mem_cons.1 he2 with he2 | he2
        · rw [he2]; exact HiLe.hi_refl _
        · exact ht.hi_trans (i2 e2 he2 hl2)
      · refine ⟨B0, i1, ?_, hmem⟩
        intro e2 he2 hl2
        rcases List.mem_cons.1 he2 with he2 | he2
        · rw [he2]; exact ht
        · exact i2 e2 he2 hl2
    · refine ⟨B0, i1, ?_, hmem⟩
      intro e2 he2 hl2
      rcases List.mem_cons.1 he2 with he2 | he2
      · rw [he2] at hl2; exact absurd hl2 hlt
      · exact i2 e2 he2 hl2

theorem Ghost.setHi_same (G : Ghost) (q : PageID) (B : Option Key) :
    (G.setHi q B).hi q = B := by
  simp [Ghost.setHi, Function.update]

theorem Ghost.setHi_ne (G : Ghost) (q r : PageID) (B : Option Key) (h : r ≠ q) :
    (G.setHi q B).hi r = G.hi r := by
  simp [Ghost.setHi, Function.update, h]

theorem Leveled.not_self_child {lvl : PageID → Nat} {pages : List (PageID × Page)}
    {bound : PageID} (hL : Leveled lvl pages bound) {q l : PageID} {es : List IndexEntry}
    (hq : getPage pages q = some (Page.index l es)) : q ∉ children l es := by
  intro hmem
  have h1 := (hL.index_children q l es hq q hmem).2 (hL.pid_range _ _ hq).1
  omega

/-- The upper bound of the child `q` of the index page `p` may be raised to a
bound `B` that is below the end of `p` and below every separator above the
start of `q`. -/
theorem Ranged.raise {c : Config} {K : List Key} {G : Ghost} {pages : List (PageID × Page)}
    {lvl : PageID → Nat} {bound : PageID} (hL : Leveled lvl pages bound)
    (hR : Ranged c K G pages) {p left q : PageID} {es : List IndexEntry} {B : Option Key}
    (hp : getPage pages p = some (Page.index left es)) (hq : q ∈ children left es)
    (hB1 : HiLe (G.hi q) B) (hB2 : HiLe B (G.hi p))
    (hB3 : ∀ e ∈ es, LoLt (G.lo q) e.key → HiLe B (some e.key)) :
    Ranged c K (G.setHi q B) pages := by
  have hpar : G.par q = p := ((hR p _ hp).2.2.2.2 q hq).1
  intro r pg hr
  have hok := hR r pg hr
  cases pg with
  | leaf a b es2 =>
    show LeafOK c K (G.lo r) ((G.setHi q B).hi r) es2
    by_cases hrq : r = q
    · subst hrq
      rw [G.setHi_same]
      exact ⟨hok.1, hok.2.1, fun e he =>
        ⟨(hok.2.2 e he).1, (hok.2.2 e he).2.1, (hok.2.2 e he).2.2.hi_mono hB1⟩⟩
    · rw [G.setHi_ne q r B hrq]; exact hok
  | index l2 es2 =>
    obtain ⟨h1, h2, h3, h4, h5⟩ := hok
    by_cases hrq : r = q
    · subst hrq
      have hns := hL.not_self_child hr
      refine ⟨h1, ?_, h3, h4, ?_⟩
      · intro e he
        show LoLt (G.lo r) e.key ∧ LtHi e.key ((G.setHi r B).hi r)
        rw [G.setHi_same]
        exact ⟨(h2 e he).1, (h2 e he).2.hi_mono hB1⟩
      · intro q2 hq2
        have hne : q2 ≠ r := fun e => hns (e ▸ hq2)
        obtain ⟨d1, d2, d3⟩ := h5 q2 hq2
        show G.par q2 = r ∧ HiLe ((G.setHi r B).hi q2) ((G.setHi r B).hi r) ∧
          ∀ e ∈ es2, LoLt (G.lo q2) e.key → HiLe ((G.setHi r B).hi q2) (some e.key)
        rw [G.setHi_same, G.setHi_ne r q2 B hne]
        exact ⟨d1, d2.hi_trans hB1, d3⟩
    · refine ⟨h1, ?_, h3, h4, ?_⟩
      · intro e he
        show LoLt (G.lo r) e.key ∧ LtHi e.key ((G.setHi q B).hi r)
        rw [G.setHi_ne q r B hrq]
        exact h2 e he
      · intro q2 hq2
        obtain ⟨d1, d2, d3⟩ := h5 q2 hq2
        show G.par q2 = r ∧ HiLe ((G.setHi q B).hi q2) ((G.setHi q B).hi r) ∧
          ∀ e ∈ es2, LoLt (G.lo q2) e.key → HiLe ((G.setHi q B).hi q2) (some e.key)
        rw [G.setHi_ne q r B hrq]
        by_cases hq2q : q2 = q
        · subst hq2q
          have hrp : r = p := by rw [← d1, hpar]
          subst hrp
          rw [hp] at hr
          cases hr
          rw [G.setHi_same]
          exact ⟨d1, hB2, hB3⟩
        · rw [G.setHi_ne q q2 B hq2q]
          exact ⟨d1, d2, d3⟩

theorem KeysStrict.key_inj {α : Type} {keyOf : α → Key} {l : List α}
    (hs : KeysStrict keyOf l) {a b : α} (ha : a ∈ l) (hb : b ∈ l)
    (hk : keyOf a = keyOf b) : a = b := by
  induction l with
  | nil => cases ha
  | cons x xs ih =>
    have hx := hs.head_lt
    rcases List.mem_cons.1 ha with ha1 | ha1
    · rcases List.mem_cons.1 hb with hb1 | hb1
      · rw [ha1, hb1]
      · subst ha1
        have := hx b hb1
        rw [hk, KeyCmp_self] at this; omega
    · rcases List.mem_cons.1 hb with hb1 | hb1
      · subst hb1
        have := hx a ha1
        rw [← hk, KeyCmp_self] at this; omega
      · exact ih hs.tail ha1 hb1

theorem mem_children {left q : PageID} {es : List IndexEntry} :
    q ∈ children left es ↔ q = left ∨ ∃ e ∈ es, e.pid = q := by
  simp [children]

theorem not_LoLt {a : Option Key} {k : Key} (h : ¬ LoLt a k) :
    ∃ x, a = some x ∧ KeyCmp k x ≤ 0 := by
  unfold LoLt at h
  push_neg at h
  obtain ⟨x, hx, hk⟩ := h
  exact ⟨x, hx, (KeyCmp_not_lt _ _).1 (by omega)⟩

/-- The bookkeeping with the parent of the page `q` set to `p`. -/
theorem Ghost.setPar_eq (G : Ghost) (q p r : PageID) :
    (Function.update G.par q p) r = if r = q then p else G.par r := by
  simp [Function.update]

/-- Position of a promoted separator `tKey` among the separators of the parent:
separators above the start of the split child are above `tKey`, the others are
below it. -/
theorem pending_cmp {G : Ghost} {es : List IndexEntry} {child : PageID} {tKey : Key}
    {B : Option Key} (hlt : LoLt (G.lo child) tKey) (hB1 : LtHi tKey B)
    (hB3 : ∀ e ∈ es, LoLt (G.lo child) e.key → HiLe B (some e.key)) :
    ∀ e ∈ es, (LoLt (G.lo child) e.key → KeyCmp tKey e.key < 0) ∧
      (¬ LoLt (G.lo child) e.key → KeyCmp e.key tKey < 0) := by
  intro e he
  constructor
  · intro h
    exact (hB1.hi_mono (hB3 e he h)) e.key rfl
  · intro h
    obtain ⟨x, hx, hk⟩ := not_LoLt h
    exact KeyCmp_le_lt_trans _ _ _ hk (hlt x hx)

theorem KeyCmp_lt_asymm {a b : Key} (h1 : KeyCmp a b < 0) (h2 : KeyCmp b a < 0) : False := by
  have := KeyCmp_lt_trans a b a h1 h2
  rw [KeyCmp_self] at this; omega

/-- An old child that starts below the promoted separator ends at or below it. -/
theorem pending_old_child {c : Config} {K : List Key} {G : Ghost} {p left child q : PageID}
    {es : List IndexEntry} {tKey : Key} {B : Option Key}
    (h : PageOK c K G p (Page.index left es))
    (hc : child ∈ children left es)
    (hhc : HiLe (G.hi child) (some tKey)) (hlt : LoLt (G.lo child) tKey)
    (hB1 : LtHi tKey B)
    (hB3 : ∀ e ∈ es, LoLt (G.lo child) e.key → HiLe B (some e.key))
    (hq : q ∈ children left es) (hqlt : LoLt (G.lo q) tKey) :
    HiLe (G.hi q) (some tKey) := by
  obtain ⟨h1, h2, h3, h4, h5⟩ := h
  have hcmp := pending_cmp hlt hB1 hB3
  by_cases hqc : q = child
  · rw [hqc]; exact hhc
  rcases mem_children.1 hc with hcl | ⟨e0, he0, hce0⟩
  · rcases mem_children.1 hq with hql | ⟨ex, hex, hqx⟩
    · exact absurd (hql.trans hcl.symm) hqc
    · have hloq : G.lo q = some ex.key := by rw [← hqx]; exact h4 ex hex
      have hlc : LoLt (G.lo child) ex.key := by rw [hcl, h3]; exact (h2 ex hex).1
      exact absurd ((hcmp ex hex).1 hlc) (fun h => KeyCmp_lt_asymm h (hqlt ex.key hloq))
  · have hloc : G.lo child = some e0.key := by rw [← hce0]; exact h4 e0 he0
    have he0t : KeyCmp e0.key tKey < 0 := hlt e0.key hloc
    by_cases hq0 : LoLt (G.lo q) e0.key
    · exact ((h5 q hq).2.2 e0 he0 hq0).hi_trans (HiLe.of_LtHi (LtHi.of_lt he0t))
    · obtain ⟨y, hy, hky⟩ := not_LoLt hq0
      rcases mem_children.1 hq with hql | ⟨ex, hex, hqx⟩
      · have hlp : G.lo p = some y := by rw [← h3, ← hql]; exact hy
        have := (h2 e0 he0).1 y hlp
        have h0 := KeyCmp_lt_le_trans _ _ _ this hky
        rw [KeyCmp_self] at h0; omega
      · have hloq : G.lo q = some ex.key := by rw [← hqx]; exact h4 ex hex
        have hyx : y = ex.key := by rw [hy] at hloq; exact Option.some.inj hloq
        rw [hyx] at hky
        rcases (KeyCmp_le_iff _ _).1 hky with hk | hk
        · have hlc : LoLt (G.lo child) ex.key := by rw [hloc]; exact LoLt.of_lt_key hk
          exact absurd ((hcmp ex hex).1 hlc) (fun h => KeyCmp_lt_asymm h (hqlt ex.key hloq))
        · have hee : e0 = ex := h1.key_inj he0 hex hk
          exact absurd (by rw [← hqx, ← hce0, hee]) hqc

/-- The index page with the promoted separator `(tKey, c')` filed among its
slots agrees with the bookkeeping, when the split child ends at `tKey` and the
new child runs from `tKey` to a bound `B` below the next separator. -/
theorem PageOK.insert_pending {c : Config} {K : List Key} {G : Ghost}
    {p left child c' : PageID} {es : List IndexEntry} {tKey : Key} {B : Option Key} (len : Nat)
    (h : PageOK c K G p (Page.index left es))
    (hc : child ∈ children left es)
    (hhc : HiLe (G.hi child) (some tKey)) (hlt : LoLt (G.lo child) tKey)
    (hB1 : LtHi tKey B) (hB2 : HiLe B (G.hi p))
    (hB3 : ∀ e ∈ es, LoLt (G.lo child) e.key → HiLe B (some e.key))
    (hnlo : G.lo c' = some tKey) (hnhi : HiLe (G.hi c') B) (hnpar : G.par c' = p) :
    PageOK c K G p (Page.index left (sortedInsert IndexEntry.key ⟨tKey, c', len⟩ es)) := by
  have hold : ∀ q, q ∈ children left es → LoLt (G.lo q) tKey → HiLe (G.hi q) (some tKey) :=
    fun q hq hl => pending_old_child h hc hhc hlt hB1 hB3 hq hl
  obtain ⟨h1, h2, h3, h4, h5⟩ := h
  have hcmp := pending_cmp hlt hB1 hB3
  have hmem : ∀ e, e ∈ sortedInsert IndexEntry.key ⟨tKey, c', len⟩ es ↔
      e = ⟨tKey, c', len⟩ ∨ e ∈ es := fun e => mem_sortedInsert _ _ _ _
  have hlop : LoLt (G.lo p) tKey := by
    rcases mem_children.1 hc with hcl | ⟨e0, he0, hce0⟩
    · rw [← h3, ← hcl]; exact hlt
    · have hloc : G.lo child = some e0.key := by rw [← hce0]; exact h4 e0 he0
      exact (h2 e0 he0).1.lt_of_le (le_of_lt (hlt e0.key hloc))
  refine ⟨?_, ?_, h3, ?_, ?_⟩
  · apply sortedInsert_strict _ _ _ h1
    intro e he heq
    have heq2 : e.key = tKey := heq
    by_cases hl : LoLt (G.lo child) e.key
    · have := (hcmp e he).1 hl
      rw [heq2, KeyCmp_self] at this; omega
    · have := (hcmp e he).2 hl
      rw [heq2, KeyCmp_self] at this; omega
  · intro e he
    rcases (hmem e).1 he with he | he
    · subst he; exact ⟨hlop, hB1.hi_mono hB2⟩
    · exact h2 e he
  · intro e he
    rcases (hmem e).1 he with he | he
    · subst he; exact hnlo
    · exact h4 e he
  · intro q hq
    have hq2 : q ∈ children left es ∨ q = c' := by
      rcases mem_children.1 hq with hq | ⟨e, he, hqe⟩
      · exact Or.inl (mem_children.2 (Or.inl hq))
      · rcases (hmem e).1 he with he | he
        · subst he; exact Or.inr hqe.symm
        · exact Or.inl (mem_children.2 (Or.inr ⟨e, he, hqe⟩))
    rcases hq2 with hq2 | hq2
    · refine ⟨(h5 q hq2).1, (h5 q hq2).2.1, ?_⟩
      intro e he hl
      rcases (hmem e).1 he with he | he
      · subst he; exact hold q hq2 hl
      · exact (h5 q hq2).2.2 e he hl
    · subst hq2
      refine ⟨hnpar, hnhi.hi_trans hB2, ?_⟩
      intro e he hl
      rcases (hmem e).1 he with he | he
      · subst he
        have := hl tKey hnlo
        rw [KeyCmp_self] at this; omega
      · have hte : KeyCmp tKey e.key < 0 := hl tKey hnlo
        have hlc : LoLt (G.lo child) e.key := fun x hx =>
          KeyCmp_lt_trans _ _ _ (hlt x hx) hte
        exact hnhi.hi_trans (hB3 e he hlc)

theorem kp_eq {x y : IndexEntry} (h : y.kp = x.kp) : y.key = x.key ∧ y.pid = x.pid := by
  simp only [IndexEntry.kp, Prod.mk.injEq] at h
  exact h

/-- The two halves of an index page cut at the separator `e` agree with the
bookkeeping split at the key of `e`: `old3` keeps slots below `e`, the new page
`n` takes the child of `e` as its leftmost child and slots above `e`. -/
theorem PageOK.cut {c : Config} {K : List Key} {G : Ghost} {p left : PageID}
    {F : List IndexEntry} (n : PageID) (old3 new4 : List IndexEntry) (e : IndexEntry)
    (h : PageOK c K G p (Page.index left F))
    (hn : ∀ q ∈ children left F, q ≠ n ∧ q ≠ p) (hpn : p ≠ n)
    (he : ∃ y ∈ F, y.kp = e.kp)
    (hold : ∀ x ∈ old3, (∃ y ∈ F, y.kp = x.kp) ∧ KeyCmp x.key e.key < 0)
    (hsold : KeysStrict IndexEntry.key old3)
    (hnew : ∀ x ∈ new4, (∃ y ∈ F, y.kp = x.kp) ∧ KeyCmp e.key x.key < 0)
    (hsnew : KeysStrict IndexEntry.key new4) :
    PageOK c K ((G.splitAt p n e.key).adopt n (children e.pid new4)) p (Page.index left old3) ∧
    PageOK c K ((G.splitAt p n e.key).adopt n (children e.pid new4)) n
      (Page.index e.pid new4) := by
  obtain ⟨h1, h2, h3, h4, h5⟩ := h
  obtain ⟨ye, hye, hyek⟩ := he
  obtain ⟨hyek1, hyek2⟩ := kp_eq hyek
  have hgo := G.splitAt_old p n e.key
  have hgn := G.splitAt_new p n e.key
  -- children of both halves are children of the page
  have hch_old : ∀ q ∈ children left old3, q ∈ children left F := by
    intro q hq
    rcases mem_children.1 hq with hq | ⟨x, hx, hqx⟩
    · exact mem_children.2 (Or.inl hq)
    · obtain ⟨⟨y, hy, hyx⟩, _⟩ := hold x hx
      exact mem_children.2 (Or.inr ⟨y, hy, by rw [(kp_eq hyx).2, hqx]⟩)
  have hch_new : ∀ q ∈ children e.pid new4, q ∈ children left F := by
    intro q hq
    rcases mem_children.1 hq with hq | ⟨x, hx, hqx⟩
    · exact mem_children.2 (Or.inr ⟨ye, hye, by rw [hyek2, hq]⟩)
    · obtain ⟨⟨y, hy, hyx⟩, _⟩ := hnew x hx
      exact mem_children.2 (Or.inr ⟨y, hy, by rw [(kp_eq hyx).2, hqx]⟩)
  -- the start of a child of the new page is the key of `e` or above
  have hlo_new : ∀ q ∈ children e.pid new4, ∃ k, G.lo q = some k ∧ KeyCmp e.key k ≤ 0 := by
    intro q hq
    rcases mem_children.1 hq with hq | ⟨x, hx, hqx⟩
    · refine ⟨e.key, ?_, by rw [KeyCmp_self]⟩
      rw [hq, ← hyek2, ← hyek1]; exact h4 ye hye
    · obtain ⟨⟨y, hy, hyx⟩, hlt⟩ := hnew x hx
      refine ⟨x.key, ?_, le_of_lt hlt⟩
      rw [← hqx, ← (kp_eq hyx).2, ← (kp_eq hyx).1]; exact h4 y hy
  -- the start of a child of the old page is below the key of `e`
  have hlo_old : ∀ q ∈ children left old3, LoLt (G.lo q) e.key := by
    intro q hq
    rcases mem_children.1 hq with hq | ⟨x, hx, hqx⟩
    · rw [hq, h3, ← hyek1]; exact (h2 ye hye).1
    · obtain ⟨⟨y, hy, hyx⟩, hlt⟩ := hold x hx
      have : G.lo q = some x.key := by
        rw [← hqx, ← (kp_eq hyx).2, ← (kp_eq hyx).1]; exact h4 y hy
      rw [this]; exact LoLt.of_lt_key hlt
  have hdisj : ∀ q ∈ children left old3, q ∉ children e.pid new4 := by
    intro q hq hq2
    obtain ⟨k, hk, hke⟩ := hlo_new q hq2
    have := hlo_old q hq k hk
    have h0 := KeyCmp_lt_le_trans _ _ _ this hke
    rw [KeyCmp_self] at h0; omega
  constructor
  · refine ⟨hsold, ?_, ?_, ?_, ?_⟩
    · intro x hx
      obtain ⟨⟨y, hy, hyx⟩, hlt⟩ := hold x hx
      show LoLt ((G.splitAt p n e.key).lo p) x.key ∧ LtHi x.key ((G.splitAt p n e.key).hi p)
      rw [(hgo p hpn).1, (hgo p hpn).2.2.2 rfl, ← (kp_eq hyx).1]
      exact ⟨(h2 y hy).1, LtHi.of_lt (by rw [(kp_eq hyx).1]; exact hlt)⟩
    · show (G.splitAt p n e.key).lo left = (G.splitAt p n e.key).lo p
      rw [(hgo p hpn).1, (hgo left (hn left (mem_children.2 (Or.inl rfl))).1).1]
      exact h3
    · intro x hx
      obtain ⟨⟨y, hy, hyx⟩, hlt⟩ := hold x hx
      have hxc : x.pid ∈ children left F :=
        hch_old _ (mem_children.2 (Or.inr ⟨x, hx, rfl⟩))
      show (G.splitAt p n e.key).lo x.pid = some x.key
      rw [(hgo x.pid (hn _ hxc).1).1, ← (kp_eq hyx).2, ← (kp_eq hyx).1]
      exact h4 y hy
    · intro q hq
      have hqF := hch_old q hq
      obtain ⟨d1, d2, d3⟩ := h5 q hqF
      have hqn := (hn q hqF).1
      have hqp := (hn q hqF).2
      show (if q ∈ children e.pid new4 then n else (G.splitAt p n e.key).par q) = p ∧
        HiLe ((G.splitAt p n e.key).hi q) ((G.splitAt p n e.key).hi p) ∧
        ∀ x ∈ old3, LoLt ((G.splitAt p n e.key).lo q) x.key →
          HiLe ((G.splitAt p n e.key).hi q) (some x.key)
      rw [if_neg (hdisj q hq), (hgo q hqn).2.1, (hgo q hqn).2.2.1 hqp, (hgo q hqn).1,
        (hgo p hpn).2.2.2 rfl]
      refine ⟨d1, ?_, ?_⟩
      · have := d3 ye hye (by rw [hyek1]; exact hlo_old q hq)
        rw [hyek1] at this; exact this
      · intro x hx hl
        obtain ⟨⟨y, hy, hyx⟩, _⟩ := hold x hx
        have := d3 y hy (by rw [(kp_eq hyx).1]; exact hl)
        rw [(kp_eq hyx).1] at this; exact this
  · have hepF : e.pid ∈ children left F := hch_new _ (mem_children.2 (Or.inl rfl))
    refine ⟨hsnew, ?_, ?_, ?_, ?_⟩
    · intro x hx
      obtain ⟨⟨y, hy, hyx⟩, hlt⟩ := hnew x hx
      show LoLt ((G.splitAt p n e.key).lo n) x.key ∧ LtHi x.key ((G.splitAt p n e.key).hi n)
      rw [hgn.1, hgn.2.1, ← (kp_eq hyx).1]
      exact ⟨LoLt.of_lt_key (by rw [(kp_eq hyx).1]; exact hlt), (h2 y hy).2⟩
    · show (G.splitAt p n e.key).lo e.pid = (G.splitAt p n e.key).lo n
      rw [hgn.1, (hgo e.pid (hn _ hepF).1).1, ← hyek2, ← hyek1]
      exact h4 ye hye
    · intro x hx
      obtain ⟨⟨y, hy, hyx⟩, hlt⟩ := hnew x hx
      have hxc : x.pid ∈ children left F :=
        hch_new _ (mem_children.2 (Or.inr ⟨x, hx, rfl⟩))
      show (G.splitAt p n e.key).lo x.pid = some x.key
      rw [(hgo x.pid (hn _ hxc).1).1, ← (kp_eq hyx).2, ← (kp_eq hyx).1]
      exact h4 y hy
    · intro q hq
      have hqF := hch_new q hq
      obtain ⟨d1, d2, d3⟩ := h5 q hqF
      have hqn := (hn q hqF).1
      have hqp := (hn q hqF).2
      show (if q ∈ children e.pid new4 then n else (G.splitAt p n e.key).par q) = n ∧
        HiLe ((G.splitAt p n e.key).hi q) ((G.splitAt p n e.key).hi n) ∧
        ∀ x ∈ new4, LoLt ((G.splitAt p n e.key).lo q) x.key →
          HiLe ((G.splitAt p n e.key).hi q) (some x.key)
      rw [if_pos hq, (hgo q hqn).2.2.1 hqp, (hgo q hqn).1, hgn.2.1]
      refine ⟨rfl, d2, ?_⟩
      intro x hx hl
      obtain ⟨⟨y, hy, hyx⟩, _⟩ := hnew x hx
      have := d3 y hy (by rw [(kp_eq hyx).1]; exact hl)
      rw [(kp_eq hyx).1] at this; exact this

theorem KeysStrict_of_kp_sublist {l X : List IndexEntry}
    (hsub : (l.map IndexEntry.kp).Sublist (X.map IndexEntry.kp))
    (hs : KeysStrict IndexEntry.key X) : KeysStrict IndexEntry.key l := by
  have h1 : (X.map IndexEntry.kp).Pairwise (fun a b => KeyCmp a.1 b.1 < 0) :=
    List.pairwise_map.2 hs
  have h2 := List.Pairwise.sublist hsub h1
  exact List.pairwise_map.1 h2

theorem mem_of_kp_sublist {l X : List IndexEntry}
    (hsub : (l.map IndexEntry.kp).Sublist (X.map IndexEntry.kp)) :
    ∀ x ∈ l, ∃ y ∈ X, y.kp = x.kp := by
  intro x hx
  have := hsub.subset (List.mem_map_of_mem IndexEntry.kp hx)
  obtain ⟨y, hy, hyx⟩ := List.mem_map.1 this
  exact ⟨y, hy, hyx⟩

theorem indexInsert_strict (c : Config) (k : Key) (p : PageID) (l : List IndexEntry)
    (hs : KeysStrict IndexEntry.key l) (hne : ∀ x ∈ l, x.key ≠ k) :
    KeysStrict IndexEntry.key (indexInsert c k p l).2 := by
  unfold indexInsert
  split
  · exact sortedInsert_strict _ _ _ hs hne
  · exact hs

theorem indexInsert_mem (c : Config) (k : Key) (p : PageID) (l : List IndexEntry)
    (x : IndexEntry) (h : x ∈ (indexInsert c k p l).2) :
    x = ⟨k, p, GetKeyDataLength c k NodeType.INDEX_NODE⟩ ∨ x ∈ l := by
  unfold indexInsert at h
  split at h
  · exact (mem_sortedInsert _ _ _ _).1 h
  · exact Or.inr h

theorem indexInsert_eq (c : Config) (k : Key) (p : PageID) (l : List IndexEntry) :
    (indexInsert c k p l).2
      = sortedInsert IndexEntry.key ⟨k, p, GetKeyDataLength c k NodeType.INDEX_NODE⟩ l ∨
    (indexInsert c k p l).2 = l := by
  unfold indexInsert
  split
  · exact Or.inl rfl
  · exact Or.inr rfl

/-- A page that no index page names as a child: it carries itself as parent. -/
theorem orphan_not_child {c : Config} {K : List Key} {G : Ghost}
    {pages : List (PageID × Page)} {lvl : PageID → Nat} {bound : PageID}
    (hL : Leveled lvl pages bound) (hR : Ranged c K G pages) {n : PageID}
    (hn : G.par n = n) {r l : PageID} {es : List IndexEntry}
    (hr : getPage pages r = some (Page.index l es)) : n ∉ children l es := by
  intro hmem
  have h1 : G.par n = r := ((hR r _ hr).2.2.2.2 n hmem).1
  have h2 : r = n := by rw [← h1, hn]
  subst h2
  exact hL.not_self_child hr hmem

theorem Ghost.adopt_lo (G : Ghost) (n : PageID) (kids : List PageID) (q : PageID) :
    (G.adopt n kids).lo q = G.lo q := rfl

theorem Ghost.adopt_hi (G : Ghost) (n : PageID) (kids : List PageID) (q : PageID) :
    (G.adopt n kids).hi q = G.hi q := rfl

theorem Ghost.adopt_par_in (G : Ghost) (n : PageID) (kids : List PageID) (q : PageID)
    (h : q ∈ kids) : (G.adopt n kids).par q = n := by
  simp [Ghost.adopt, h]

theorem Ghost.adopt_par_out (G : Ghost) (n : PageID) (kids : List PageID) (q : PageID)
    (h : q ∉ kids) : (G.adopt n kids).par q = G.par q := by
  simp [Ghost.adopt, h]

/-- Naming a parent for pages that no index page names as a child keeps the
store in agreement with the bookkeeping. -/
theorem Ranged.adopt {c : Config} {K : List Key} {G : Ghost} {pages : List (PageID × Page)}
    (hR : Ranged c K G pages) (n : PageID) (kids : List PageID)
    (hk : ∀ r l es, getPage pages r = some (Page.index l es) →
      ∀ q ∈ children l es, q ∉ kids) :
    Ranged c K (G.adopt n kids) pages := by
  intro r pg hr
  refine @PageOK.page_mono c K K G (G.adopt n kids) r pg (fun _ h => h) rfl rfl ?_ (hR r pg hr)
  intro l es hpg q hq
  subst hpg
  exact ⟨rfl, G.adopt_par_out n kids q (hk r l es hr q hq), HiLe.hi_refl _⟩

theorem insertIndex_ranged (c : Config) (fuel : Nat) (f1 f2 : BTreeFile) (lvl : PageID → Nat)
    (G : Ghost) (K : List Key) (nodePid left1 : PageID) (es1 : List IndexEntry)
    (tKey : Key) (tempNewPid child : PageID) (B : Option Key)
    (st : Status) (newPid : PageID) (newKey : Option Key)
    (hL : Leveled lvl f1.pages f1.nextPid) (hR : Ranged c K G f1.pages)
    (hp : getPage f1.pages nodePid = some (Page.index left1 es1))
    (hc : child ∈ children left1 es1)
    (hhc : HiLe (G.hi child) (some tKey)) (hlt : LoLt (G.lo child) tKey)
    (hB1 : LtHi tKey B) (hB2 : HiLe B (G.hi nodePid))
    (hB3 : ∀ e ∈ es1, LoLt (G.lo child) e.key → HiLe B (some e.key))
    (hnlo : G.lo tempNewPid = some tKey) (hnhi : HiLe (G.hi tempNewPid) B)
    (hnpar : G.par tempNewPid = tempNewPid)
    (hnlt : tempNewPid < f1.nextPid) (hne : tempNewPid ≠ nodePid)
    (hr : insertIndex c fuel f1 nodePid left1 es1 tKey tempNewPid
      = Except.ok (st, newPid, newKey, f2)) :
    ∃ G3, Ranged c K G3 f2.pages ∧
      (∀ q, q < f1.nextPid → G3.lo q = G.lo q) ∧
      (∀ q, q < f1.nextPid → q ≠ nodePid → G3.hi q = G.hi q) ∧
      (∀ q, q < f1.nextPid → q ∉ children left1 es1 → q ≠ tempNewPid → G3.par q = G.par q) ∧
      (∀ q, q ≠ nodePid → q < f1.nextPid → getPage f2.pages q = getPage f1.pages q) ∧
      (newPid = INVALID_PAGE → G3.hi nodePid = G.hi nodePid) ∧
      (newPid ≠ INVALID_PAGE → ∃ k, newKey = some k ∧ G3.hi nodePid = some k ∧
        LoLt (G.lo nodePid) k ∧ LtHi k (G.hi nodePid) ∧
        G3.lo newPid = some k ∧ G3.hi newPid = G.hi nodePid ∧ G3.par newPid = newPid ∧
        newPid = f1.nextPid) ∧
      ∃ l2 es2, getPage f2.pages nodePid = some (Page.index l2 es2) := by
  have hnodeLt : nodePid < f1.nextPid := (hL.pid_range _ _ hp).2
  -- the promoted child is adopted by the node
  have horph : ∀ r l es, getPage f1.pages r = some (Page.index l es) →
      ∀ q ∈ children l es, q ∉ [tempNewPid] := by
    intro r l es hrp q hq hmem
    simp only [List.mem_singleton] at hmem
    rw [hmem] at hq
    exact orphan_not_child hL hR hnpar hrp hq
  have hR1 : Ranged c K (G.adopt nodePid [tempNewPid]) f1.pages :=
    hR.adopt nodePid [tempNewPid] horph
  have hpar1 : (G.adopt nodePid [tempNewPid]).par tempNewPid = nodePid :=
    G.adopt_par_in _ _ _ (List.mem_singleton.2 rfl)
  have hF : PageOK c K (G.adopt nodePid [tempNewPid]) nodePid (Page.index left1
      (sortedInsert IndexEntry.key
        ⟨tKey, tempNewPid, GetKeyDataLength c tKey NodeType.INDEX_NODE⟩ es1)) :=
    PageOK.insert_pending _ (hR1 nodePid _ hp) hc hhc hlt hB1 hB2 hB3 hnlo hnhi hpar1
  have hparOut : ∀ q, q ≠ tempNewPid → (G.adopt nodePid [tempNewPid]).par q = G.par q :=
    fun q hq => G.adopt_par_out _ _ _ (by simpa using hq)
  unfold insertIndex at hr
  split at hr
  · cases hr
    refine ⟨G.adopt nodePid [tempNewPid], ?_, fun _ _ => rfl, fun _ _ _ => rfl,
      fun q _ _ hq => hparOut q hq, ?_, fun _ => rfl, fun h => absurd rfl h,
      ⟨_, _, getPage_setPage_same _ _ _⟩⟩
    · intro q pg hq
      simp only at hq
      rw [getPage_setPage] at hq
      by_cases h1 : q = nodePid
      · simp only [h1, if_true, Option.some.injEq] at hq
        subst hq; subst h1
        rcases indexInsert_eq c tKey tempNewPid es1 with h2 | h2
        · rw [h2]; exact hF
        · rw [h2]; exact hR1 _ _ hp
      · simp only [h1, if_false] at hq
        exact hR1 q pg hq
    · intro q hq _
      simp only [getPage_setPage_ne _ _ _ _ hq]
  · simp only [NewPage] at hr
    split at hr
    · simp at hr
    · rename_i old2 new2 hloop
      split at hr
      · simp at hr
      · rename_i e rest
        split at hr
        · simp at hr
        · rename_i new3 hdel
          obtain ⟨h1, h2, h3, h4, h5⟩ := hR nodePid _ hp
          obtain ⟨X2, hcat, hsub⟩ := indexSplitLoop_spec c fuel es1 [] [] old2 (e :: rest)
            (by simpa using h1) (by simp) hloop
          simp only [List.append_nil] at hcat
          have hs12 : KeysStrict IndexEntry.key (old2 ++ X2) := by rw [hcat]; exact h1
          have hsnew2 : KeysStrict IndexEntry.key (e :: rest) :=
            KeysStrict_of_kp_sublist hsub hs12.append.2.1
          have hnew3 : rest = new3 := by
            have := indexDelete_strict [] e rest hsnew2
            simp only [List.nil_append] at this
            rw [this] at hdel
            cases hdel; rfl
          subst hnew3
          have hcmp := pending_cmp hlt hB1 hB3
          have hneK : ∀ y ∈ es1, y.key ≠ tKey := by
            intro y hy heq
            by_cases hl : LoLt (G.lo child) y.key
            · have := (hcmp y hy).1 hl
              rw [heq, KeyCmp_self] at this; omega
            · have := (hcmp y hy).2 hl
              rw [heq, KeyCmp_self] at this; omega
          have hmemF : ∀ y ∈ es1, y ∈ sortedInsert IndexEntry.key
              ⟨tKey, tempNewPid, GetKeyDataLength c tKey NodeType.INDEX_NODE⟩ es1 :=
            fun y hy => (mem_sortedInsert _ _ _ _).2 (Or.inr hy)
          have hpeF : (⟨tKey, tempNewPid, GetKeyDataLength c tKey NodeType.INDEX_NODE⟩ :
              IndexEntry) ∈ sortedInsert IndexEntry.key
              ⟨tKey, tempNewPid, GetKeyDataLength c tKey NodeType.INDEX_NODE⟩ es1 :=
            (mem_sortedInsert _ _ _ _).2 (Or.inl rfl)
          have hX2 : ∀ x ∈ e :: rest, ∃ y ∈ es1, y ∈ X2 ∧ y.kp = x.kp := by
            intro x hx
            obtain ⟨y, hy, hyx⟩ := mem_of_kp_sublist hsub x hx
            exact ⟨y, by rw [← hcat]; exact List.mem_append_right _ hy, hy, hyx⟩
          obtain ⟨ye, hye, hyeX, hyek⟩ := hX2 e (List.mem_cons_self _ _)
          have hold2 : ∀ x ∈ old2, (∃ y ∈ sortedInsert IndexEntry.key
              ⟨tKey, tempNewPid, GetKeyDataLength c tKey NodeType.INDEX_NODE⟩ es1,
                y.kp = x.kp) ∧ KeyCmp x.key e.key < 0 := by
            intro x hx
            refine ⟨⟨x, hmemF x (by rw [← hcat]; exact List.mem_append_left _ hx), rfl⟩, ?_⟩
            rw [← (kp_eq hyek).1]
            exact hs12.append.2.2 x hx ye hyeX
          have hrest : ∀ x ∈ rest, (∃ y ∈ sortedInsert IndexEntry.key
              ⟨tKey, tempNewPid, GetKeyDataLength c tKey NodeType.INDEX_NODE⟩ es1,
                y.kp = x.kp) ∧ KeyCmp e.key x.key < 0 := by
            intro x hx
            obtain ⟨y, hy, _, hyx⟩ := hX2 x (List.mem_cons_of_mem _ hx)
            exact ⟨⟨y, hmemF y hy, hyx⟩, hsnew2.head_lt x hx⟩
          have hrestK : ∀ x ∈ rest, x.key ≠ tKey := by
            intro x hx
            obtain ⟨y, hy, _, hyx⟩ := hX2 x (List.mem_cons_of_mem _ hx)
            rw [← (kp_eq hyx).1]; exact hneK y hy
          have heK : e.key ≠ tKey := by
            rw [← (kp_eq hyek).1]; exact hneK ye hye
          have heF : ∃ y ∈ sortedInsert IndexEntry.key
              ⟨tKey, tempNewPid, GetKeyDataLength c tKey NodeType.INDEX_NODE⟩ es1,
                y.kp = e.kp := ⟨ye, hmemF ye hye, hyek⟩
          have hFch : ∀ q ∈ children left1 (sortedInsert IndexEntry.key
              ⟨tKey, tempNewPid, GetKeyDataLength c tKey NodeType.INDEX_NODE⟩ es1),
              q ∈ children left1 es1 ∨ q = tempNewPid := by
            intro q hq
            rcases mem_children.1 hq with hq | ⟨y, hy, hqy⟩
            · exact Or.inl (mem_children.2 (Or.inl hq))
            · rcases (mem_sortedInsert _ _ _ _).1 hy with hy | hy
              · subst hy; exact Or.inr hqy.symm
              · exact Or.inl (mem_children.2 (Or.inr ⟨y, hy, hqy⟩))
          generalize sortedInsert IndexEntry.key
              ⟨tKey, tempNewPid, GetKeyDataLength c tKey NodeType.INDEX_NODE⟩ es1 = F
            at hF hmemF hpeF hold2 hrest heF hFch
          have hN4 : (∀ x ∈ (if KeyCmp tKey e.key ≥ 0 then (indexInsert c tKey tempNewPid rest).2
                else rest), (∃ y ∈ F, y.kp = x.kp) ∧ KeyCmp e.key x.key < 0) ∧
              KeysStrict IndexEntry.key (if KeyCmp tKey e.key ≥ 0
                then (indexInsert c tKey tempNewPid rest).2 else rest) := by
            split
            · rename_i hge
              refine ⟨?_, indexInsert_strict c tKey tempNewPid rest hsnew2.tail hrestK⟩
              intro x hx
              rcases indexInsert_mem c tKey tempNewPid rest x hx with hx | hx
              · subst hx
                refine ⟨⟨_, hpeF, rfl⟩, ?_⟩
                rcases (KeyCmp_le_iff _ _).1 ((KeyCmp_ge_iff _ _).1 hge) with h | h
                · exact h
                · exact absurd h heK
              · exact hrest x hx
            · exact ⟨hrest, hsnew2.tail⟩
          have hO3 : (∀ x ∈ (if KeyCmp tKey e.key ≥ 0 then old2
                else (indexInsert c tKey tempNewPid old2).2),
                (∃ y ∈ F, y.kp = x.kp) ∧ KeyCmp x.key e.key < 0) ∧
              KeysStrict IndexEntry.key (if KeyCmp tKey e.key ≥ 0 then old2
                else (indexInsert c tKey tempNewPid old2).2) := by
            split
            · exact ⟨hold2, hs12.append.1⟩
            · rename_i hge
              refine ⟨?_, indexInsert_strict c tKey tempNewPid old2 hs12.append.1
                (fun x hx => hneK x (by rw [← hcat]; exact List.mem_append_left _ hx))⟩
              intro x hx
              rcases indexInsert_mem c tKey tempNewPid old2 x hx with hx | hx
              · subst hx
                exact ⟨⟨_, hpeF, rfl⟩, by show KeyCmp tKey e.key < 0; omega⟩
              · exact hold2 x hx
          generalize (if KeyCmp tKey e.key ≥ 0 then (indexInsert c tKey tempNewPid rest).2
            else rest) = new4 at hr hN4
          generalize (if KeyCmp tKey e.key ≥ 0 then old2
            else (indexInsert c tKey tempNewPid old2).2) = old3 at hr hO3
          cases hr
          have hbn : ∀ q ∈ children left1 F, q ≠ f1.nextPid ∧ q ≠ nodePid := by
            intro q hq
            rcases hFch q hq with hq | hq
            · exact ⟨ne_of_lt (hL.index_children _ _ _ hp q hq).1,
                fun e0 => hL.not_self_child hp (e0 ▸ hq)⟩
            · rw [hq]; exact ⟨ne_of_lt hnlt, hne⟩
          have hcut := PageOK.cut f1.nextPid old3 new4 e hF hbn (ne_of_lt hnodeLt) heF
            hO3.1 hO3.2 hN4.1 hN4.2
          have hkids : ∀ q ∈ children e.pid new4, q ∈ children left1 es1 ∨ q = tempNewPid := by
            intro q hq
            apply hFch
            rcases mem_children.1 hq with hq | ⟨x, hx, hqx⟩
            · obtain ⟨y, hy, hyx⟩ := heF
              exact mem_children.2 (Or.inr ⟨y, hy, by rw [(kp_eq hyx).2, hq]⟩)
            · obtain ⟨⟨y, hy, hyx⟩, _⟩ := hN4.1 x hx
              exact mem_children.2 (Or.inr ⟨y, hy, by rw [(kp_eq hyx).2, hqx]⟩)
          have hkidsLt : ∀ q ∈ children e.pid new4, q < f1.nextPid := by
            intro q hq
            rcases hkids q hq with h | h
            · exact (hL.index_children _ _ _ hp q h).1
            · rw [h]; exact hnlt
          have hgo := (G.adopt nodePid [tempNewPid]).splitAt_old nodePid f1.nextPid e.key
          have hgn := (G.adopt nodePid [tempNewPid]).splitAt_new nodePid f1.nextPid e.key
          have hteHi : LtHi e.key (G.hi nodePid) := by
            rw [← (kp_eq hyek).1]; exact (h2 ye hye).2
          have hteLo : LoLt (G.lo nodePid) e.key := by
            rw [← (kp_eq hyek).1]; exact (h2 ye hye).1
          have hbinv : f1.nextPid = INVALID_PAGE → False := by
            intro h0
            have := hL.bound_nonneg
            rw [h0] at this
            simp [INVALID_PAGE] at this
          refine ⟨((G.adopt nodePid [tempNewPid]).splitAt nodePid f1.nextPid e.key).adopt
            f1.nextPid (children e.pid new4), ?_, ?_, ?_, ?_, ?_, fun h0 => absurd h0 hbinv, ?_,
            ⟨_, _, getPage_setPage_same _ _ _⟩⟩
          · intro r pg hrp
            simp only at hrp
            rw [getPage_setPage] at hrp
            by_cases hrn : r = nodePid
            · simp only [hrn, if_true, Option.some.injEq] at hrp
              subst hrp; subst hrn; exact hcut.1
            · simp only [hrn, if_false] at hrp
              rw [getPage_setPage] at hrp
              by_cases hrb : r = f1.nextPid
              · simp only [hrb, if_true, Option.some.injEq] at hrp
                subst hrp; subst hrb; exact hcut.2
              · simp only [hrb, if_false] at hrp
                refine @PageOK.page_mono c K K (G.adopt nodePid [tempNewPid]) _ r pg (fun _ h => h)
                  (hgo r hrb).1 ((hgo r hrb).2.2.1 hrn) ?_ (hR1 r pg hrp)
                intro l es hpg q hq
                subst hpg
                have hqb : q ≠ f1.nextPid := ne_of_lt (hL.index_children r l es hrp q hq).1
                have hqk : q ∉ children e.pid new4 := by
                  intro hk
                  rcases hkids q hk with h | h
                  · have e1 := ((hR r _ hrp).2.2.2.2 q hq).1
                    have e2 := ((hR nodePid _ hp).2.2.2.2 q h).1
                    exact hrn (by rw [← e1, e2])
                  · exact orphan_not_child hL hR hnpar hrp (h ▸ hq)
                refine ⟨(hgo q hqb).1, ?_, ?_⟩
                · show (if q ∈ children e.pid new4 then f1.nextPid else _) = _
                  rw [if_neg hqk]; exact (hgo q hqb).2.1
                · by_cases hqn : q = nodePid
                  · show HiLe (((G.adopt nodePid [tempNewPid]).splitAt nodePid f1.nextPid e.key).hi q) _
                    rw [(hgo q hqb).2.2.2 hqn, hqn]
                    exact HiLe.of_LtHi hteHi
                  · show HiLe (((G.adopt nodePid [tempNewPid]).splitAt nodePid f1.nextPid e.key).hi q) _
                    rw [(hgo q hqb).2.2.1 hqn]
                    exact HiLe.hi_refl _
          · intro q hq
            exact (hgo q (ne_of_lt hq)).1
          · intro q hq hqn
            exact (hgo q (ne_of_lt hq)).2.2.1 hqn
          · intro q hq hnc hnt
            show (if q ∈ children e.pid new4 then f1.nextPid else _) = _
            rw [if_neg (fun hk => (hkids q hk).elim hnc hnt), (hgo q (ne_of_lt hq)).2.1]
            exact hparOut q hnt
          · intro q hqn hq
            simp only [getPage_setPage_ne _ _ _ _ hqn, getPage_setPage_ne _ _ _ _ (ne_of_lt hq)]
          · intro _
            refine ⟨e.key, rfl, (hgo nodePid (ne_of_lt hnodeLt)).2.2.2 rfl, hteLo, hteHi,
              hgn.1, hgn.2.1, ?_, rfl⟩
            show (if f1.nextPid ∈ children e.pid new4 then f1.nextPid else _) = _
            rw [if_neg (fun hk => lt_irrefl _ (hkidsLt _ hk))]
            exact hgn.2.2

theorem _Insert_ranged (c : Config) (key : Key) (rid : RecordID) (K : List Key)
    (hsm : SmallKeys c (key :: K)) (hfresh : key ∉ K) :
    ∀ (fuel : Nat) (f f2 : BTreeFile) (lvl : PageID → Nat) (G : Ghost) (nodePid : PageID)
      (st : Status) (newPid : PageID) (newKey : Option Key),
      Leveled lvl f.pages f.nextPid → Ranged c K G f.pages →
      LoLe (G.lo nodePid) key → LtHi key (G.hi nodePid) →
      _Insert c fuel f nodePid key rid = Except.ok (st, newPid, newKey, f2) →
      ∃ G2, Ranged c (key :: K) G2 f2.pages ∧
        (∀ q, q < f.nextPid → G2.lo q = G.lo q) ∧
        (∀ q, 0 ≤ q → q < f.nextPid → q ≠ nodePid → lvl nodePid ≤ lvl q →
          G2.hi q = G.hi q ∧ G2.par q = G.par q) ∧
        G2.par nodePid = G.par nodePid ∧
        (∀ q l es, lvl nodePid < lvl q → getPage f.pages q = some (Page.index l es) →
          getPage f2.pages q = some (Page.index l es)) ∧
        (∀ l es, getPage f.pages nodePid = some (Page.index l es) →
          ∃ l2 es2, getPage f2.pages nodePid = some (Page.index l2 es2)) ∧
        (newPid = INVALID_PAGE → G2.hi nodePid = G.hi nodePid) ∧
        (newPid ≠ INVALID_PAGE → ∃ tKey, newKey = some tKey ∧ G2.hi nodePid = some tKey ∧
          LoLt (G.lo nodePid) tKey ∧ LtHi tKey (G.hi nodePid) ∧
          G2.lo newPid = some tKey ∧ G2.hi newPid = G.hi nodePid ∧ G2.par newPid = newPid ∧
          f.nextPid ≤ newPid) := by
  intro fuel
  induction fuel with
  | zero => intro f f2 lvl G nodePid st newPid newKey _ _ _ _ h; simp [_Insert] at h
  | succ n ih =>
    intro f f2 lvl G nodePid st newPid newKey hL hR hlo hhi h
    unfold _Insert at h
    split at h
    · simp at h
    · rename_i lprev lnext es hp
      obtain ⟨G2, r1, r2, r3, r4, r5, r6⟩ := insertLeaf_ranged c n f f2 lvl G K nodePid lprev
        lnext es key rid st newPid newKey hL hR hp hsm hfresh hlo hhi h
      have hnodeLt : nodePid < f.nextPid := (hL.pid_range _ _ hp).2
      refine ⟨G2, r1, fun q hq => (r2 q hq).1, fun q _ hq hqn _ => ⟨r3 q hq hqn, (r2 q hq).2⟩,
        (r2 nodePid hnodeLt).2, fun q l es2 _ hq => r4 q l es2 hq, ?_, r5, ?_⟩
      · intro l es2 hq
        rw [hp] at hq; cases hq
      · intro hne
        obtain ⟨tKey, t1, t2, t3, t4, t5, t6, t7, t8⟩ := r6 hne
        exact ⟨tKey, t1, t2, t3, t4, t5, t6, t7, le_of_eq t8.symm⟩
    · rename_i left es hp
      simp only at h
      split at h
      · simp at h
      · rename_i res tempNewPid tempNewKey f1 hrec
        have hcm := FindPage_mem_children key left es
        obtain ⟨pgT, hT⟩ := _Insert_page_exists c n f _ key rid _ hrec
        have hT0 : 0 ≤ (FindPage key left es).1 := (hL.pid_range _ _ hT).1
        have hTlt : (FindPage key left es).1 < f.nextPid := (hL.pid_range _ _ hT).2
        have hlvl : lvl nodePid = lvl (FindPage key left es).1 + 1 :=
          (hL.index_children nodePid left es hp _ hcm).2 hT0
        have hnode0 : 0 ≤ nodePid := (hL.pid_range _ _ hp).1
        have hnodeLt : nodePid < f.nextPid := (hL.pid_range _ _ hp).2
        have hok := hR nodePid _ hp
        obtain ⟨fb1, fb2⟩ := FindPage_bounds key hok hlo
        generalize (FindPage key left es).1 = cpid at hrec hcm hT hT0 hTlt hlvl fb1 fb2
        obtain ⟨B, b1, b2, b3⟩ := exists_raise (G.lo cpid) (G.hi nodePid) es
        have hkB : LtHi key B := by
          rcases b3 with b3 | ⟨e, he, hl, hBe⟩
          · rw [b3]; exact hhi
          · rw [hBe]; exact LtHi.of_lt (fb2 e he hl)
        have hcB : HiLe (G.hi cpid) B := by
          rcases b3 with b3 | ⟨e, he, hl, hBe⟩
          · rw [b3]; exact (hok.2.2.2.2 cpid hcm).2.1
          · rw [hBe]; exact (hok.2.2.2.2 cpid hcm).2.2 e he hl
        have hR1 : Ranged c K (G.setHi cpid B) f.pages := hR.raise hL hp hcm hcB b1 b2
        have hcn : nodePid ≠ cpid := fun e0 => hL.not_self_child hp (e0 ▸ hcm)
        obtain ⟨G2, r1, r2, r3, r4, r5, r6, r7, r8⟩ := ih f f1 lvl (G.setHi cpid B) cpid res
          tempNewPid tempNewKey hL hR1 fb1 (by rw [G.setHi_same]; exact hkB) hrec
        obtain ⟨lvl1, hL1, hext1, hle1, hpost1⟩ := _Insert_leveled c key rid n f f1 lvl cpid res
          tempNewPid tempNewKey hL hrec
        have hnodeF : G2.hi nodePid = G.hi nodePid ∧ G2.par nodePid = G.par nodePid := by
          have := r3 nodePid hnode0 hnodeLt hcn (by omega)
          rw [G.setHi_ne cpid nodePid B hcn] at this
          exact this
        have hp1 : getPage f1.pages nodePid = some (Page.index left es) :=
          r5 nodePid left es (by omega) hp
        have hlo2 : ∀ q, q < f.nextPid → G2.lo q = G.lo q := fun q hq => r2 q hq
        have hF2 : ∀ q, 0 ≤ q → q < f.nextPid → q ≠ nodePid → lvl nodePid ≤ lvl q →
            G2.hi q = G.hi q ∧ G2.par q = G.par q := by
          intro q h0 hq hqn hlq
          have hqc : q ≠ cpid := by intro e0; rw [e0] at hlq; omega
          have := r3 q h0 hq hqc (by omega)
          rw [G.setHi_ne cpid q B hqc] at this
          exact this
        have hF4 : ∀ q l es2, lvl nodePid < lvl q →
            getPage f.pages q = some (Page.index l es2) →
            getPage f1.pages q = some (Page.index l es2) :=
          fun q l es2 hlq hq => r5 q l es2 (by omega) hq
        split at h
        · cases h
          exact ⟨G2, r1, hlo2, hF2, hnodeF.2, hF4, fun _ _ _ => ⟨_, _, hp1⟩,
            fun _ => hnodeF.1, fun hne => absurd rfl hne⟩
        · rename_i hne
          obtain ⟨tK, t1, t2, t3, t4, t5, t6, t7, t8⟩ := r8 hne
          obtain ⟨hn0, hnlt, hnl⟩ := hpost1 hne
          rw [G.setHi_same] at t4 t6
          have t3b : LoLt (G2.lo cpid) tK := by rw [hlo2 cpid hTlt]; exact t3
          split at h
          · simp at h
          · simp at h
          · simp at h
          · rename_i tKey left1 es1 hp1b
            rw [hp1] at hp1b
            have hl1 : left1 = left := by
              simp only [Option.some.injEq, Page.index.injEq] at hp1b
              exact hp1b.1.symm
            have he1 : es1 = es := by
              simp only [Option.some.injEq, Page.index.injEq] at hp1b
              exact hp1b.2.symm
            rw [hl1, he1] at h
            have htk : tKey = tK := by
              simp only [Option.some.injEq] at t1
              exact t1
            rw [htk] at h
            obtain ⟨G3, s1, s2, s3, s4, s5, s6, s7, s8⟩ := insertIndex_ranged c n f1 f2 lvl1 G2
              (key :: K) nodePid left es tK tempNewPid cpid B st newPid newKey hL1 r1 hp1 hcm
              (by rw [t2]; exact HiLe.hi_refl _) t3b t4 (by rw [hnodeF.1]; exact b1)
              (fun e he hl => b2 e he (by rw [← hlo2 cpid hTlt]; exact hl))
              t5 (by rw [t6]; exact HiLe.hi_refl _) t7 hnlt
              (lt_of_lt_of_le hnodeLt t8).ne' h
            have hlt1 : ∀ q, q < f.nextPid → q < f1.nextPid :=
              fun q hq => lt_of_lt_of_le hq hle1
            refine ⟨G3, s1, fun q hq => by rw [s2 q (hlt1 q hq), hlo2 q hq], ?_, ?_, ?_,
              fun _ _ _ => s8, fun h0 => by rw [s6 h0, hnodeF.1], ?_⟩
            · intro q h0 hq hqn hlq
              have hqch : q ∉ children left es := by
                intro hmem
                have := (hL.index_children nodePid left es hp q hmem).2 h0
                omega
              have hqt : q ≠ tempNewPid := (lt_of_lt_of_le hq t8).ne
              rw [s3 q (hlt1 q hq) hqn, s4 q (hlt1 q hq) hqch hqt]
              exact hF2 q h0 hq hqn hlq
            · rw [s4 nodePid (hlt1 _ hnodeLt) (hL.not_self_child hp)
                (lt_of_lt_of_le hnodeLt t8).ne]
              exact hnodeF.2
            · intro q l es2 hlq hq
              have hqn : q ≠ nodePid := by intro e0; rw [e0] at hlq; omega
              rw [s5 q hqn (hlt1 q (hL.pid_range _ _ hq).2)]
              exact hF4 q l es2 hlq hq
            · intro hne2
              obtain ⟨k, k1, k2, k3, k4, k5, k6, k7, k8⟩ := s7 hne2
              refine ⟨k, k1, k2, ?_, ?_, k5, ?_, k7, ?_⟩
              · rw [← hlo2 nodePid hnodeLt]; exact k3
              · rw [← hnodeF.1]; exact k4
              · rw [k6, hnodeF.1]
              · rw [k8]; exact hle1

theorem Ghost.alloc_new (G : Ghost) (n : PageID) (a b : Option Key) :
    (G.alloc n a b).lo n = a ∧ (G.alloc n a b).hi n = b ∧ (G.alloc n a b).par n = n := by
  simp [Ghost.alloc, Function.update]

theorem Ghost.alloc_old (G : Ghost) (n : PageID) (a b : Option Key) (q : PageID) (hq : q ≠ n) :
    (G.alloc n a b).lo q = G.lo q ∧ (G.alloc n a b).hi q = G.hi q ∧
      (G.alloc n a b).par q = G.par q := by
  simp [Ghost.alloc, Function.update, hq]

theorem Ghost.setLo_same (G : Ghost) (q : PageID) (a : Option Key) : (G.setLo q a).lo q = a := by
  simp [Ghost.setLo, Function.update]

theorem Ghost.setLo_ne (G : Ghost) (q r : PageID) (a : Option Key) (h : r ≠ q) :
    (G.setLo q a).lo r = G.lo r := by
  simp [Ghost.setLo, Function.update, h]

/-- A new root `R` over the children `a` and `b`, separated by the key `t`:
the store agrees with the bookkeeping in which `R` has no bounds and is the
parent of both. -/
theorem Ranged.new_root {c : Config} {K : List Key} {G : Ghost}
    {pages : List (PageID × Page)} {R a b : PageID} {t : Key} {len : Nat}
    {slots : List IndexEntry}
    (hpg : ∀ q pg, getPage pages q = some pg → (q = R ∧ pg = Page.index a slots) ∨
      (q ≠ R ∧ PageOK c K G q pg ∧
        ∀ l es, pg = Page.index l es → ∀ x ∈ children l es, x ≠ R ∧ x ≠ a ∧ x ≠ b))
    (hslots : slots = [] ∨ slots = [⟨t, b, len⟩])
    (hla : G.lo a = none) (hha : HiLe (G.hi a) (some t)) (hlb : G.lo b = some t)
    (haR : a ≠ R) (hbR : b ≠ R) :
    Ranged c K ((G.alloc R none none).adopt R [a, b]) pages := by
  have hgn := G.alloc_new R none none
  have hgo := G.alloc_old R none none
  intro q pg hq
  rcases hpg q pg hq with ⟨h1, h2⟩ | ⟨h1, h2, h3⟩
  · subst h1; subst h2
    have hab : a ≠ b := by
      intro e0; rw [e0, hlb] at hla; cases hla
    have hpa : ((G.alloc q none none).adopt q [a, b]).par a = q :=
      Ghost.adopt_par_in _ _ _ _ (by simp)
    have hpb : ((G.alloc q none none).adopt q [a, b]).par b = q :=
      Ghost.adopt_par_in _ _ _ _ (by simp)
    have hloa : ((G.alloc q none none).adopt q [a, b]).lo a = none := by
      show (G.alloc q none none).lo a = none
      rw [(hgo a haR).1]; exact hla
    have hlob : ((G.alloc q none none).adopt q [a, b]).lo b = some t := by
      show (G.alloc q none none).lo b = some t
      rw [(hgo b hbR).1]; exact hlb
    have hhia : ((G.alloc q none none).adopt q [a, b]).hi a = G.hi a := (hgo a haR).2.1
    have hloq : ((G.alloc q none none).adopt q [a, b]).lo q = none := hgn.1
    have hhiq : ((G.alloc q none none).adopt q [a, b]).hi q = none := hgn.2.1
    rcases hslots with hs | hs
    · subst hs
      refine ⟨List.Pairwise.nil, by simp, by rw [hloa, hloq], by simp, ?_⟩
      intro x hx
      simp only [children, List.map_nil, List.mem_singleton] at hx
      subst hx
      exact ⟨hpa, by rw [hhiq]; exact HiLe.none _, by simp⟩
    · subst hs
      refine ⟨List.pairwise_singleton _ _, ?_, by rw [hloa, hloq], ?_, ?_⟩
      · intro e he
        simp only [List.mem_singleton] at he
        subst he
        rw [hloq, hhiq]
        exact ⟨fun x hx => (by cases hx), fun y hy => (by cases hy)⟩
      · intro e he
        simp only [List.mem_singleton] at he
        subst he
        exact hlob
      · intro x hx
        simp only [children, List.map_cons, List.map_nil, List.mem_cons, List.mem_singleton,
          List.not_mem_nil, or_false] at hx
        rcases hx with hx | hx
        · subst hx
          refine ⟨hpa, by rw [hhiq]; exact HiLe.none _, ?_⟩
          intro e he _
          simp only [List.mem_singleton] at he
          subst he
          rw [hhia]; exact hha
        · subst hx
          refine ⟨hpb, by rw [hhiq]; exact HiLe.none _, ?_⟩
          intro e he hl
          simp only [List.mem_singleton] at he
          subst he
          have := hl t hlob
          rw [KeyCmp_self] at this; omega
  · refine @PageOK.page_mono c K K G _ q pg (fun _ h => h) (hgo q h1).1 (hgo q h1).2.1 ?_ h2
    intro l es hpg2 x hx
    obtain ⟨x1, x2, x3⟩ := h3 l es hpg2 x hx
    refine ⟨(hgo x x1).1, ?_, ?_⟩
    · rw [Ghost.adopt_par_out _ _ _ _ (by simp [x2, x3])]
      exact (hgo x x1).2.2
    · show HiLe ((G.alloc R none none).hi x) (G.hi x)
      rw [(hgo x x1).2.1]; exact HiLe.hi_refl _

theorem split1_first (c : Config) (e0 : Key × RecordID) (rest : List (Key × RecordID))
    (hfit : GetKeyDataLength c e0.1 NodeType.LEAF_NODE ≤ c.HEAPPAGE_DATA_SIZE) :
    (if (leafInsert c e0.1 e0.2 []).1 = Status.OK then (leafDelete e0.1 e0.2 (e0 :: rest)).2
      else e0 :: rest) = rest ∧
    (if (leafInsert c e0.1 e0.2 []).1 ≠ Status.OK
      then (leafDelete e0.1 e0.2 (leafInsert c e0.1 e0.2 []).2).2
      else (leafInsert c e0.1 e0.2 []).2) = [e0] := by
  have hins : leafInsert c e0.1 e0.2 [] = (Status.OK, [e0]) := by
    simp [leafInsert, leafAvail, leafUsed, hfit, sortedInsert]
  rw [hins]
  simp [leafDelete]

/-- The root leaf split keeps an entry in the old leaf, and the buffer holds
the first entry that stays. -/
theorem split1Loop_nonempty (c : Config) (fuel : Nat) (e0 : Key × RecordID)
    (rest l2 n2 : List (Key × RecordID)) (cur : Key × RecordID) (key : Key)
    (hs : KeysStrict Prod.fst (e0 :: rest))
    (hu : leafUsed c (e0 :: rest) ≤ c.HEAPPAGE_DATA_SIZE)
    (hM : ∀ e ∈ e0 :: rest,
      3 * GetKeyDataLength c e.1 NodeType.LEAF_NODE ≤ c.HEAPPAGE_DATA_SIZE)
    (hk : 3 * GetKeyDataLength c key NodeType.LEAF_NODE ≤ c.HEAPPAGE_DATA_SIZE)
    (hfull : ¬ leafAvail c (e0 :: rest) ≥ GetKeyDataLength c key NodeType.LEAF_NODE)
    (h : split1Loop c fuel rest [e0]
      (match rest with
        | [] => (e0, true)
        | e :: _ => (e, false)).1
      (match rest with
        | [] => (e0, true)
        | e :: _ => (e, false)).2 = Except.ok (l2, n2, cur)) :
    ∃ r2, l2 = cur :: r2 ∧ n2 ++ cur :: r2 = e0 :: rest := by
  have hM0 := hM e0 (List.mem_cons_self _ _)
  have hspec := split1Loop_spec c (c.HEAPPAGE_DATA_SIZE / 3) fuel rest [e0] l2 n2 _ cur _
    (by simpa using hs) (by simpa using hu)
    (by simp only [leafUsed]; omega)
    (fun e he => by have := hM e (List.mem_cons_of_mem _ he); omega)
    (by cases rest <;> simp) (by cases rest <;> simp) h
  obtain ⟨h1, h2, h3⟩ := hspec
  cases l2 with
  | nil =>
    have hn2 : n2 = e0 :: rest := by simpa using h1
    rw [hn2] at h2
    unfold leafAvail at hfull
    simp only [leafUsed] at h2 hfull hu
    omega
  | cons x r2 =>
    have := h3 (by simp)
    simp only [List.head?_cons, Option.some.injEq] at this
    subst this
    exact ⟨r2, rfl, by simpa using h1⟩

theorem Split1LeafNode_ranged (c : Config) (fuel : Nat) (f f2 : BTreeFile) (lvl : PageID → Nat)
    (G : Ghost) (K : List Key)
    (leafPageID a lnext : PageID) (es : List (Key × RecordID)) (key : Key) (rid : RecordID)
    (st : Status) (newRoot : PageID)
    (hL : Leveled lvl f.pages f.nextPid) (hR : Ranged c K G f.pages)
    (hp : getPage f.pages leafPageID = some (Page.leaf a lnext es))
    (hsm : SmallKeys c (key :: K)) (hfresh : key ∉ K)
    (hfull : ¬ leafAvail c es ≥ GetKeyDataLength c key NodeType.LEAF_NODE)
    (hlo : G.lo leafPageID = none) (hhi : G.hi leafPageID = none)
    (hpar : G.par leafPageID = leafPageID)
    (hr : Split1LeafNode c fuel f leafPageID key rid = Except.ok (st, newRoot, f2)) :
    st = Status.OK ∧ ∃ G2, Ranged c (key :: K) G2 f2.pages ∧
      G2.lo newRoot = none ∧ G2.hi newRoot = none ∧ G2.par newRoot = newRoot := by
  have hlt : leafPageID < f.nextPid := (hL.pid_range _ _ hp).2
  have hn1 : f.nextPid < f.nextPid + 1 := lt_add_one _
  have hKsub : ∀ κ ∈ K, κ ∈ key :: K := fun κ hκ => List.mem_cons_of_mem _ hκ
  have hleaf : LeafOK c K none none es := by
    have h0 : LeafOK c K (G.lo leafPageID) (G.hi leafPageID) es := hR leafPageID _ hp
    rw [hlo, hhi] at h0; exact h0
  have hLleaf : getPage (setPage (setPage f.pages f.nextPid (Page.index INVALID_PAGE []))
      (f.nextPid + 1) (Page.leaf INVALID_PAGE INVALID_PAGE [])) leafPageID
      = some (Page.leaf a lnext es) := by
    rw [getPage_setPage_ne _ _ _ _ (ne_of_lt (lt_trans hlt hn1)),
      getPage_setPage_ne _ _ _ _ (ne_of_lt hlt), hp]
  unfold Split1LeafNode at hr
  simp only [NewPage, hLleaf] at hr
  split at hr
  · simp at hr
  · rename_i e0 rest
    have hfit0 : GetKeyDataLength c e0.1 NodeType.LEAF_NODE ≤ c.HEAPPAGE_DATA_SIZE := by
      have := hsm e0.1 (hKsub _ (hleaf.2.2 e0 (List.mem_cons_self _ _)).1)
      omega
    obtain ⟨q1, q2⟩ := split1_first c e0 rest hfit0
    rw [q1, q2] at hr
    split at hr
    · simp at hr
    · rename_i leaf2 newLeaf2 cur hloop
      obtain ⟨r2, hl2, hcat⟩ := split1Loop_nonempty c fuel e0 rest leaf2 newLeaf2 cur key
        hleaf.1 hleaf.2.1 (fun x hx => hsm x.1 (hKsub _ (hleaf.2.2 x hx).1))
        (hsm key (List.mem_cons_self _ _)) hfull hloop
      subst hl2
      rw [← hcat] at hleaf
      obtain ⟨hA, hB⟩ := hleaf.split
      simp only at hr
      have hL3 : LeafOK c (key :: K) (some cur.1) none
          (if KeyCmp key cur.1 ≥ 0 then (leafInsert c key rid (cur :: r2)).2 else cur :: r2) ∧
          ∃ l, (if KeyCmp key cur.1 ≥ 0 then (leafInsert c key rid (cur :: r2)).2
            else cur :: r2) = cur :: l := by
        split
        · rename_i hge
          exact ⟨hB.insert key rid hfresh (LoLe.of_le ((KeyCmp_ge_iff _ _).1 hge))
            (fun y hy => by cases hy), leafInsert_head c key rid cur r2 hge⟩
        · exact ⟨hB.leaf_mono hKsub, r2, rfl⟩
      have hN3 : LeafOK c (key :: K) none (some cur.1)
          (if KeyCmp key cur.1 ≥ 0 then newLeaf2 else (leafInsert c key rid newLeaf2).2) := by
        split
        · exact hA.leaf_mono hKsub
        · rename_i hge
          exact hA.insert key rid hfresh (fun x hx => by cases hx) (LtHi.of_lt (by omega))
      generalize (if KeyCmp key cur.1 ≥ 0 then (leafInsert c key rid (cur :: r2)).2
        else cur :: r2) = leaf3 at hr hL3
      generalize (if KeyCmp key cur.1 ≥ 0 then newLeaf2 else (leafInsert c key rid newLeaf2).2)
        = newLeaf3 at hr hN3
      obtain ⟨hL3, l3, hl3⟩ := hL3
      subst hl3
      simp only at hr
      cases hr
      refine ⟨rfl, ?_⟩
      have hLr : f.nextPid + 1 ≠ leafPageID := (lt_trans hlt hn1).ne'
      have hRr : f.nextPid ≠ leafPageID := hlt.ne'
      have hga := G.alloc_old (f.nextPid + 1) none (some cur.1)
      have hgn := G.alloc_new (f.nextPid + 1) none (some cur.1)
      have g1 : ((G.alloc (f.nextPid + 1) none (some cur.1)).setLo leafPageID (some cur.1)).lo
          leafPageID = some cur.1 := Ghost.setLo_same _ _ _
      have g2 : ((G.alloc (f.nextPid + 1) none (some cur.1)).setLo leafPageID (some cur.1)).hi
          leafPageID = none := by
        show (G.alloc (f.nextPid + 1) none (some cur.1)).hi leafPageID = none
        rw [(hga leafPageID hLr.symm).2.1]; exact hhi
      have g3 : ((G.alloc (f.nextPid + 1) none (some cur.1)).setLo leafPageID (some cur.1)).lo
          (f.nextPid + 1) = none := by
        rw [Ghost.setLo_ne _ _ _ _ hLr]; exact hgn.1
      have g4 : ((G.alloc (f.nextPid + 1) none (some cur.1)).setLo leafPageID (some cur.1)).hi
          (f.nextPid + 1) = some cur.1 := hgn.2.1
      have hslots : (indexInsert c cur.1 leafPageID []).2 = [] ∨
          (indexInsert c cur.1 leafPageID []).2
            = [⟨cur.1, leafPageID, GetKeyDataLength c cur.1 NodeType.INDEX_NODE⟩] := by
        rcases indexInsert_eq c cur.1 leafPageID [] with h | h
        · right; rw [h]; rfl
        · left; exact h
      refine ⟨(((G.alloc (f.nextPid + 1) none (some cur.1)).setLo leafPageID
        (some cur.1)).alloc f.nextPid none none).adopt f.nextPid [f.nextPid + 1, leafPageID],
        ?_, ?_, ?_, ?_⟩
      · refine Ranged.new_root ?_ hslots g3 (by rw [g4]; exact HiLe.hi_refl _) g1 hn1.ne' hRr.symm
        intro q pg hq
        simp only at hq
        rw [getPage_setPage] at hq
        by_cases hq1 : q = leafPageID
        · simp only [hq1, if_true, Option.some.injEq] at hq
          subst hq
          refine Or.inr ⟨by rw [hq1]; exact hRr.symm, ?_, fun l es0 h0 => by cases h0⟩
          show LeafOK c (key :: K) _ _ (cur :: l3)
          rw [hq1, g1, g2]; exact hL3
        · simp only [hq1, if_false] at hq
          rw [getPage_setPage] at hq
          by_cases hq2 : q = f.nextPid + 1
          · simp only [hq2, if_true, Option.some.injEq] at hq
            subst hq
            refine Or.inr ⟨by rw [hq2]; exact hn1.ne', ?_, fun l es0 h0 => by cases h0⟩
            show LeafOK c (key :: K) _ _ newLeaf3
            rw [hq2, g3, g4]; exact hN3
          · simp only [hq2, if_false] at hq
            rw [getPage_setPage] at hq
            by_cases hq3 : q = f.nextPid
            · simp only [hq3, if_true, Option.some.injEq] at hq
              exact Or.inl ⟨hq3, hq.symm⟩
            · simp only [hq3, if_false] at hq
              rw [getPage_setPage_ne _ _ _ _ hq2, getPage_setPage_ne _ _ _ _ hq3] at hq
              have hch : ∀ l es0, pg = Page.index l es0 → ∀ x ∈ children l es0,
                  x ≠ f.nextPid ∧ x ≠ f.nextPid + 1 ∧ x ≠ leafPageID := by
                intro l es0 hpg x hx
                subst hpg
                have hxlt := (hL.index_children q l es0 hq x hx).1
                exact ⟨hxlt.ne, (lt_trans hxlt hn1).ne,
                  fun e1 => orphan_not_child hL hR hpar hq (e1 ▸ hx)⟩
              refine Or.inr ⟨hq3, ?_, hch⟩
              refine @PageOK.page_mono c K (key :: K) G _ q pg hKsub ?_ ?_ ?_ (hR q pg hq)
              · rw [Ghost.setLo_ne _ _ _ _ hq1]; exact (hga q hq2).1
              · exact (hga q hq2).2.1
              · intro l es0 hpg x hx
                obtain ⟨x1, x2, x3⟩ := hch l es0 hpg x hx
                refine ⟨?_, (hga x x2).2.2, ?_⟩
                · rw [Ghost.setLo_ne _ _ _ _ x3]; exact (hga x x2).1
                · show HiLe ((G.alloc (f.nextPid + 1) none (some cur.1)).hi x) _
                  rw [(hga x x2).2.1]; exact HiLe.hi_refl _
      · exact (Ghost.alloc_new _ f.nextPid none none).1
      · exact (Ghost.alloc_new _ f.nextPid none none).2.1
      · rw [Ghost.adopt_par_out _ _ _ _ (by simp [hn1.ne, hRr])]
        exact (Ghost.alloc_new _ f.nextPid none none).2.2

theorem insertLeaf_root (c : Config) (fuel : Nat) (f f2 : BTreeFile)
    (nodePid lprev lnext : PageID) (es : List (Key × RecordID)) (k : Key) (r : RecordID)
    (st : Status) (newPid : PageID) (newKey : Option Key)
    (hr : insertLeaf c fuel f nodePid lprev lnext es k r = Except.ok (st, newPid, newKey, f2)) :
    f2.root = f.root := by
  unfold insertLeaf at hr
  split at hr
  · cases hr; rfl
  · simp only [NewPage] at hr
    split at hr
    · simp at hr
    · rename_i leaf2 newLeaf2 hloop
      split at hr
      · simp at hr
      · rename_i e rest
        generalize (if KeyCmp k e.1 ≥ 0 then (leafInsert c k r (e :: rest)).2 else e :: rest)
          = newLeaf3 at hr
        generalize (if KeyCmp k e.1 ≥ 0 then leaf2 else (leafInsert c k r leaf2).2)
          = leaf3 at hr
        split at hr
        · cases hr; rfl
        · cases hr; rfl

theorem insertIndex_root (c : Config) (fuel : Nat) (f1 f2 : BTreeFile)
    (nodePid left1 : PageID) (es1 : List IndexEntry) (tKey : Key) (tempNewPid : PageID)
    (st : Status) (newPid : PageID) (newKey : Option Key)
    (hr : insertIndex c fuel f1 nodePid left1 es1 tKey tempNewPid
      = Except.ok (st, newPid, newKey, f2)) : f2.root = f1.root := by
  unfold insertIndex at hr
  split at hr
  · cases hr; rfl
  · simp only [NewPage] at hr
    split at hr
    · simp at hr
    · split at hr
      · simp at hr
      · split at hr
        · simp at hr
        · cases hr; rfl

theorem _Insert_root (c : Config) (k : Key) (r : RecordID) :
    ∀ (fuel : Nat) (f f2 : BTreeFile) (nodePid : PageID)
      (st : Status) (newPid : PageID) (newKey : Option Key),
      _Insert c fuel f nodePid k r = Except.ok (st, newPid, newKey, f2) → f2.root = f.root := by
  intro fuel
  induction fuel with
  | zero => intro f f2 nodePid st newPid newKey h; simp [_Insert] at h
  | succ n ih =>
    intro f f2 nodePid st newPid newKey h
    unfold _Insert at h
    split at h
    · simp at h
    · exact insertLeaf_root c n f f2 nodePid _ _ _ k r st newPid newKey h
    · simp only at h
      split at h
      · simp at h
      · rename_i res tempNewPid tempNewKey f1 hrec
        have h1 := ih f f1 _ res tempNewPid tempNewKey hrec
        split at h
        · cases h; exact h1
        · split at h
          · simp at h
          · simp at h
          · simp at h
          · rw [insertIndex_root c n f1 f2 nodePid _ _ _ tempNewPid st newPid newKey h, h1]

theorem Ranged.mono_keys {c : Config} {K K2 : List Key} {G : Ghost}
    {pages : List (PageID × Page)} (hR : Ranged c K G pages) (hK : ∀ κ ∈ K, κ ∈ K2) :
    Ranged c K2 G pages :=
  fun q pg hq => PageOK.page_mono hK rfl rfl (fun _ _ _ _ _ => ⟨rfl, rfl, HiLe.hi_refl _⟩) (hR q pg hq)

theorem LoLe_none (k : Key) : LoLe none k := fun x hx => by cases hx

theorem LtHi_none (k : Key) : LtHi k none := fun x hx => by cases hx

theorem Insert_ranged (c : Config) (fuel : Nat) (f f2 : BTreeFile) (K : List Key)
    (key : Key) (rid : RecordID) (st : Option Status)
    (hT : TreeOK c K f) (hsm : SmallKeys c (key :: K)) (hfresh : key ∉ K)
    (hr : Insert c fuel f key rid = Except.ok (st, f2)) : TreeOK c (key :: K) f2 := by
  obtain ⟨lvl, G, hL, hR, hroot⟩ := hT
  obtain ⟨lvl2, hL2⟩ := Insert_leveled c fuel f f2 lvl key rid st hL hr
  have hKsub : ∀ κ ∈ K, κ ∈ key :: K := fun κ hκ => List.mem_cons_of_mem _ hκ
  unfold Insert at hr
  split at hr
  · simp only [NewPage] at hr
    cases hr
    have hgn := G.alloc_new f.nextPid none none
    have hgo := G.alloc_old f.nextPid none none
    refine ⟨lvl2, G.alloc f.nextPid none none, hL2, ?_, fun _ => hgn⟩
    intro q pg hq
    simp only at hq
    rw [getPage_setPage] at hq
    by_cases h1 : q = f.nextPid
    · simp only [h1, if_true, Option.some.injEq] at hq
      subst hq
      show LeafOK c (key :: K) _ _ _
      rw [h1, hgn.1, hgn.2.1]
      exact (LeafOK.nil c K none none).insert key rid hfresh (LoLe_none _) (LtHi_none _)
    · simp only [h1, if_false] at hq
      refine @PageOK.page_mono c K (key :: K) G _ q pg hKsub (hgo q h1).1 (hgo q h1).2.1 ?_ (hR q pg hq)
      intro l es hpg x hx
      subst hpg
      have hx1 : x ≠ f.nextPid := (hL.index_children q l es hq x hx).1.ne
      refine ⟨(hgo x hx1).1, (hgo x hx1).2.2, ?_⟩
      rw [(hgo x hx1).2.1]; exact HiLe.hi_refl _
  · rename_i hrt
    obtain ⟨hlo, hhi, hpar⟩ := hroot hrt
    split at hr
    · cases hr
      exact ⟨lvl2, G, hL2, hR.mono_keys hKsub, fun _ => ⟨hlo, hhi, hpar⟩⟩
    · rename_i lprev lnext es hp
      split at hr
      · cases hr
        refine ⟨lvl2, G, hL2, ?_, fun _ => ⟨hlo, hhi, hpar⟩⟩
        intro q pg hq
        simp only at hq
        rw [getPage_setPage] at hq
        by_cases h1 : q = f.root
        · simp only [h1, if_true, Option.some.injEq] at hq
          subst hq
          have h0 : LeafOK c K (G.lo f.root) (G.hi f.root) es := hR f.root _ hp
          show LeafOK c (key :: K) _ _ _
          rw [h1]
          exact h0.insert key rid hfresh (by rw [hlo]; exact LoLe_none _)
            (by rw [hhi]; exact LtHi_none _)
        · simp only [h1, if_false] at hq
          exact (hR.mono_keys hKsub) q pg hq
      · rename_i hfull
        split at hr
        · simp at hr
        · rename_i res newRoot f1 hsp
          obtain ⟨hres, G2, s1, s2, s3, s4⟩ := Split1LeafNode_ranged c fuel f f1 lvl G K f.root
            lprev lnext es key rid res newRoot hL hR hp hsm hfresh hfull hlo hhi hpar hsp
          simp only [hres, if_true] at hr
          cases hr
          exact ⟨lvl2, G2, hL2, s1, fun _ => ⟨s2, s3, s4⟩⟩
    · rename_i left es hp
      split at hr
      · simp at hr
      · rename_i res newPid newKey f1 hins
        have hrootLt : f.root < f.nextPid := (hL.pid_range _ _ hp).2
        obtain ⟨G2, r1, r2, r3, r4, r5, r6, r7, r8⟩ := _Insert_ranged c key rid K hsm hfresh
          fuel f f1 lvl G f.root res newPid newKey hL hR (by rw [hlo]; exact LoLe_none _)
          (by rw [hhi]; exact LtHi_none _) hins
        obtain ⟨lvl1, hL1, hext, hle, hpost⟩ :=
          _Insert_leveled c key rid fuel f f1 lvl f.root res newPid newKey hL hins
        have hlo2 : G2.lo f.root = none := by rw [r2 f.root hrootLt]; exact hlo
        have hpar2 : G2.par f.root = f.root := by rw [r4]; exact hpar
        split at hr
        · rename_i hne
          obtain ⟨tKey, t1, t2, t3, t4, t5, t6, t7, t8⟩ := r8 hne
          obtain ⟨hn0, hnlt, hnl⟩ := hpost hne
          split at hr
          · simp at hr
          · rename_i nk
            have hnk : nk = tKey := by
              simp only [Option.some.injEq] at t1
              exact t1
            rw [hnk] at hr
            simp only [NewPage] at hr
            cases hr
            have hslots : (indexInsert c tKey newPid []).2 = [] ∨
                (indexInsert c tKey newPid []).2
                  = [⟨tKey, newPid, GetKeyDataLength c tKey NodeType.INDEX_NODE⟩] := by
              rcases indexInsert_eq c tKey newPid [] with h | h
              · right; rw [h]; rfl
              · left; exact h
            have hrootR : f.root ≠ f1.nextPid := (lt_of_lt_of_le hrootLt hle).ne
            refine ⟨lvl2, (G2.alloc f1.nextPid none none).adopt f1.nextPid [f.root, newPid],
              hL2, ?_, fun _ => ⟨(Ghost.alloc_new _ f1.nextPid none none).1,
                (Ghost.alloc_new _ f1.nextPid none none).2.1, ?_⟩⟩
            · refine Ranged.new_root ?_ hslots hlo2 (by rw [t2]; exact HiLe.hi_refl _) t5
                hrootR hnlt.ne
              intro q pg hq
              simp only at hq
              rw [getPage_setPage] at hq
              by_cases h1 : q = f1.nextPid
              · simp only [h1, if_true, Option.some.injEq] at hq
                exact Or.inl ⟨h1, hq.symm⟩
              · simp only [h1, if_false] at hq
                refine Or.inr ⟨h1, r1 q pg hq, ?_⟩
                intro l es0 hpg x hx
                subst hpg
                exact ⟨(hL1.index_children q l es0 hq x hx).1.ne,
                  fun e1 => orphan_not_child hL1 r1 hpar2 hq (e1 ▸ hx),
                  fun e1 => orphan_not_child hL1 r1 t7 hq (e1 ▸ hx)⟩
            · rw [Ghost.adopt_par_out _ _ _ _ (by simp [hrootR.symm, hnlt.ne'])]
              exact (Ghost.alloc_new _ f1.nextPid none none).2.2
        · rename_i hne
          have hinv : newPid = INVALID_PAGE := by
            by_contra h0; exact hne h0
          have hrt1 : f1.root = f.root :=
            _Insert_root c key rid fuel f f1 f.root res newPid newKey hins
          cases hr
          refine ⟨lvl2, G2, hL2, r1, fun _ => ?_⟩
          rw [hrt1]
          exact ⟨hlo2, by rw [r7 hinv]; exact hhi, hpar2⟩

/-! ### From the bookkeeping to the key ranges -/

theorem TreeOK_empty (c : Config) : TreeOK c [] BTreeFile.empty := by
  refine ⟨fun _ => 0, ⟨fun _ => none, fun _ => none, fun q => q⟩, Leveled_empty _, ?_, ?_⟩
  · intro q pg hq
    simp [BTreeFile.empty, getPage] at hq
  · intro h
    exact absurd rfl h

theorem insertAll_treeOK (c : Config) (fuel : Nat) :
    ∀ (entries : List (Key × RecordID)) (f f2 : BTreeFile) (K : List Key),
      TreeOK c K f → SmallKeys c K →
      (∀ e ∈ entries, 3 * GetKeyDataLength c e.1 NodeType.LEAF_NODE ≤ c.HEAPPAGE_DATA_SIZE) →
      (entries.map Prod.fst).Nodup → (∀ e ∈ entries, e.1 ∉ K) →
      insertAll c fuel f entries = Except.ok f2 → ∃ K2, TreeOK c K2 f2 := by
  intro entries
  induction entries with
  | nil =>
    intro f f2 K hT _ _ _ _ h
    simp only [insertAll] at h
    cases h
    exact ⟨K, hT⟩
  | cons e es ih =>
    intro f f2 K hT hsm hsz hnd hfr h
    simp only [insertAll] at h
    split at h
    · simp at h
    · rename_i st f1 hins
      have hsm2 : SmallKeys c (e.1 :: K) := by
        intro κ hκ
        rcases List.mem_cons.1 hκ with hκ | hκ
        · rw [hκ]; exact hsz e (List.mem_cons_self _ _)
        · exact hsm κ hκ
      have hT1 := Insert_ranged c fuel f f1 K e.1 e.2 st hT hsm2
        (hfr e (List.mem_cons_self _ _)) hins
      simp only [List.map_cons, List.nodup_cons] at hnd
      refine ih f1 f2 (e.1 :: K) hT1 hsm2 (fun x hx => hsz x (List.mem_cons_of_mem _ hx))
        hnd.2 ?_ h
      intro x hx hmem
      rcases List.mem_cons.1 hmem with h1 | h1
      · exact hnd.1 (by rw [← h1]; exact List.mem_map_of_mem Prod.fst hx)
      · exact hfr x (List.mem_cons_of_mem _ hx) h1

/-- Every key stored below a page lies within the bounds of the page. -/
theorem subtree_bounds {c : Config} {K : List Key} {G : Ghost} {pages : List (PageID × Page)}
    (hR : Ranged c K G pages) {p q : PageID} {d : Nat} (hreach : ReachAt pages p d q) :
    ∀ a b es κ, getPage pages q = some (Page.leaf a b es) → κ ∈ es.map Prod.fst →
      LoLe (G.lo p) κ ∧ LtHi κ (G.hi p) := by
  induction hreach with
  | here p =>
    intro a b es κ hq hκ
    obtain ⟨e, he, hek⟩ := List.mem_map.1 hκ
    have h0 : LeafOK c K (G.lo p) (G.hi p) es := hR p _ hq
    rw [← hek]
    exact (h0.2.2 e he).2
  | step p q r d left es0 hp hq _ ih =>
    intro a b es κ hr hκ
    obtain ⟨i1, i2⟩ := ih a b es κ hr hκ
    obtain ⟨h1, h2, h3, h4, h5⟩ := hR p _ hp
    refine ⟨?_, i2.hi_mono (h5 q hq).2.1⟩
    rcases mem_children.1 hq with hql | ⟨e, he, hqe⟩
    · rw [← h3, ← hql]; exact i1
    · have hloq : G.lo q = some e.key := by rw [← hqe]; exact h4 e he
      have := i1 e.key hloq
      exact (h2 e he).1.le.le_of_le this

theorem slotsInRange_of_ranged {c : Config} {K : List Key} {G : Ghost}
    {pages : List (PageID × Page)} (hR : Ranged c K G pages) {p left : PageID}
    {es0 : List IndexEntry} (hp : getPage pages p = some (Page.index left es0)) :
    ∀ (es : List IndexEntry) (q : PageID) (lo : Option Key),
      (∀ e ∈ es, e ∈ es0) → KeysStrict IndexEntry.key es → q ∈ children left es0 →
      (∀ l, lo = some l → G.lo q = some l) → (∀ e ∈ es, LoLt (G.lo q) e.key) →
      SlotsInRange pages lo q es := by
  obtain ⟨h1, h2, h3, h4, h5⟩ := hR p _ hp
  have hlow : ∀ (q : PageID) (lo : Option Key) (κ : Key),
      (∀ l, lo = some l → G.lo q = some l) → InSubtree pages q κ →
      ∀ l, lo = some l → KeyCmp κ l ≥ 0 := by
    intro q lo κ hlo hin l hl
    obtain ⟨d, r, a, b, es1, hreach, hr, hκ⟩ := hin
    have := (subtree_bounds hR hreach a b es1 κ hr hκ).1 l (hlo l hl)
    exact (KeyCmp_ge_iff _ _).2 this
  intro es
  induction es with
  | nil =>
    intro q lo _ _ _ hlo _
    exact fun κ hin => hlow q lo κ hlo hin
  | cons e rest ih =>
    intro q lo hsub hs hq hlo hlt
    refine ⟨?_, ?_⟩
    · intro κ hin
      refine ⟨hlow q lo κ hlo hin, ?_⟩
      obtain ⟨d, r, a, b, es1, hreach, hr, hκ⟩ := hin
      have hb := (subtree_bounds hR hreach a b es1 κ hr hκ).2
      have hle := (h5 q hq).2.2 e (hsub e (List.mem_cons_self _ _))
        (hlt e (List.mem_cons_self _ _))
      exact (hb.hi_mono hle) e.key rfl
    · have he0 : e ∈ es0 := hsub e (List.mem_cons_self _ _)
      apply ih e.pid (some e.key) (fun x hx => hsub x (List.mem_cons_of_mem _ hx)) hs.tail
        (mem_children.2 (Or.inr ⟨e, he0, rfl⟩))
      · intro l hl
        cases hl
        exact h4 e he0
      · intro x hx
        rw [h4 e he0]
        exact LoLt.of_lt_key (hs.head_lt x hx)

theorem TreeOK.keyRange {c : Config} {K : List Key} {f : BTreeFile} (hT : TreeOK c K f) :
    KeyRangeInv f := by
  obtain ⟨lvl, G, hL, hR, _⟩ := hT
  intro d p left es _ hp
  obtain ⟨h1, h2, h3, h4, h5⟩ := hR p _ hp
  refine ⟨h1, ?_⟩
  apply slotsInRange_of_ranged hR hp es left none (fun e he => he) h1
    (mem_children.2 (Or.inl rfl)) (fun l hl => by cases hl)
  intro e he
  rw [h3]
  exact (h2 e he).1

/-! ### The key-range invariant -/

/-- C8 (amended): in every tree reached from the empty index by Insert calls
with pairwise distinct keys, each entry taking at most a third of
`HEAPPAGE_DATA_SIZE`, every index node below the root has strictly ascending
separators, every key in the subtree of the child of a slot is at least the
separator of the slot and below the next separator, and every key in the
subtree of the leftmost child is below the first separator. -/
theorem C8_key_range_after_distinct_inserts (c : Config) (fuel : Nat)
    (entries : List (Key × RecordID)) (f : BTreeFile)
    (hd : (entries.map Prod.fst).Nodup)
    (hs : ∀ e ∈ entries,
      3 * GetKeyDataLength c e.1 NodeType.LEAF_NODE ≤ c.HEAPPAGE_DATA_SIZE)
    (h : insertAll c fuel BTreeFile.empty entries = Except.ok f) : KeyRangeInv f := by
  obtain ⟨K2, hT⟩ := insertAll_treeOK c fuel entries BTreeFile.empty f [] (TreeOK_empty c)
    (fun κ hκ => by cases hκ) hs hd (fun e _ hmem => by cases hmem) h
  exact hT.keyRange

/-- Witness for C8 (amended): the five distinct keys "a" to "e" under `cfg45`,
which split the root leaf. -/
theorem C8_key_range_after_distinct_inserts_witness :
    (fiveDistinct.map Prod.fst).Nodup ∧
    (∀ e ∈ fiveDistinct,
      3 * GetKeyDataLength cfg45 e.1 NodeType.LEAF_NODE ≤ cfg45.HEAPPAGE_DATA_SIZE) ∧
    insertAll cfg45 20 BTreeFile.empty fiveDistinct = Except.ok fiveDistinctTree ∧
    KeyRangeInv fiveDistinctTree :=
  ⟨by decide, by decide, by rfl,
    C8_key_range_after_distinct_inserts cfg45 20 fiveDistinct fiveDistinctTree
      (by decide) (by decide) (by rfl)⟩

/-- C8 (counterexample): nine inserts with duplicate keys lead to a root whose
two separators are both "b", so the separators do not ascend strictly. -/
theorem C8_duplicate_keys_break_key_range :
    insertAll cfg40 20 BTreeFile.empty dupInserts = Except.ok dupTree ∧
    ¬ KeyRangeInv dupTree := by
  refine ⟨by rfl, ?_⟩
  intro h
  have h1 := (h 0 1 2 [⟨[98], 0, 6⟩, ⟨[98], 3, 6⟩] (ReachAt.here 1) rfl).1
  have h2 := (List.pairwise_cons.1 h1).1 ⟨[98], 3, 6⟩ (by simp)
  revert h2
  decide

/-- The key ranges also fail for pairwise distinct keys once a Delete takes the
branch that moves entries without adjusting the separator: after `chainOps`
the root holds the separator "e" twice. -/
theorem key_range_fails_after_delete :
    applyOps cfg45 20 BTreeFile.empty chainOps = Except.ok chainTree ∧
    ¬ KeyRangeInv chainTree := by
  refine ⟨by rfl, ?_⟩
  intro h
  have h1 := (h 0 1 2 [⟨[101], 0, 6⟩, ⟨[101], 3, 6⟩] (ReachAt.here 1) rfl).1
  have h2 := (List.pairwise_cons.1 h1).1 ⟨[101], 3, 6⟩ (by simp)
  revert h2
  decide

/-- The key ranges also fail for pairwise distinct keys when entries take more
than a third of a page: the split of the root leaf drains the old leaf, and the
leftmost child of the new root holds the key that is the first separator. -/
theorem key_range_fails_with_large_entries :
    insertAll cfg40 20 BTreeFile.empty bigEntryInserts = Except.ok bigEntryTree ∧
    (bigEntryInserts.map Prod.fst).Nodup ∧ ¬ KeyRangeInv bigEntryTree := by
  refine ⟨by rfl, by decide, ?_⟩
  intro h
  have h1 := (h 0 1 2 [⟨[98, 1, 1, 1, 1, 1], 0, 11⟩] (ReachAt.here 1) rfl).2
  have h2 := (h1.1 [98, 1, 1, 1, 1, 1]
    ⟨0, 2, -1, 0, _, ReachAt.here 2, rfl, by simp⟩).2
  revert h2
  decide


/-! ### C11: the child selected by `FindPage` on an arbitrary page -/

theorem findSlot_last (key : Key) (l1 : List IndexEntry) (e : IndexEntry) (l2 : List IndexEntry)
    (he : KeyCmp e.key key ≤ 0) (h2 : ∀ e2 ∈ l2, KeyCmp key e2.key < 0) :
    findSlot key (l1 ++ e :: l2) = some e := by
  unfold findSlot
  rw [List.find?_eq_some]
  refine ⟨?_, l2.reverse, l1.reverse, by simp, ?_⟩
  · simp only [decide_eq_true_eq]
    exact (KeyCmp_ge_iff _ _).2 he
  · intro a ha
    have := h2 a (List.mem_reverse.1 ha)
    simp only [ge_iff_le, decide_eq_true_eq, Bool.not_eq_true', decide_eq_false_iff_not, not_le]
    exact this

theorem findSlot_none_of_all (key : Key) (es : List IndexEntry)
    (h : ∀ e ∈ es, KeyCmp key e.key < 0) : findSlot key es = none := by
  unfold findSlot
  rw [List.find?_eq_none]
  intro e he
  have := h e (List.mem_reverse.1 he)
  simp only [decide_eq_true_eq]
  omega

theorem findSlot_split (key : Key) (es : List IndexEntry) (e0 : IndexEntry)
    (h : findSlot key es = some e0) :
    ∃ l1 l2, es = l1 ++ e0 :: l2 ∧ KeyCmp e0.key key ≤ 0 ∧ ∀ e2 ∈ l2, KeyCmp key e2.key < 0 := by
  unfold findSlot at h
  rw [List.find?_eq_some] at h
  obtain ⟨hp, as, bs, hrev, hall⟩ := h
  simp only [decide_eq_true_eq] at hp
  have hes : es = bs.reverse ++ e0 :: as.reverse := by
    have := List.reverse_eq_append_iff.1 hrev
    simpa using this
  refine ⟨bs.reverse, as.reverse, hes, (KeyCmp_ge_iff _ _).1 hp, ?_⟩
  intro e2 he2
  have := hall e2 (List.mem_reverse.1 he2)
  simp only [ge_iff_le, decide_eq_true_eq, Bool.not_eq_true', decide_eq_false_iff_not, not_le] at this
  exact this

/-- C11 (as amended): on every index page and for every key, `FindPage` returns
the child pointer of the highest-numbered slot whose separator is `<= key`, with
`leftMost = false`, and the leftmost child with `leftMost = true` when no
separator is `<= key`; a key equal to the separator of a slot is never sent to
the leftmost child or to the child of a lower-numbered slot, and it is sent to
that slot's own child when the separators of the page are strictly ascending. -/
theorem C11_FindPage_selects_highest_slot (key : Key) (left : PageID) (es : List IndexEntry) :
    (∀ (l1 : List IndexEntry) (e : IndexEntry) (l2 : List IndexEntry),
        es = l1 ++ e :: l2 → KeyCmp e.key key ≤ 0 → (∀ e2 ∈ l2, KeyCmp key e2.key < 0) →
        FindPage key left es = (e.pid, false)) ∧
    ((∀ e ∈ es, KeyCmp key e.key < 0) → FindPage key left es = (left, true)) ∧
    (∀ (l1 : List IndexEntry) (e : IndexEntry) (l2 : List IndexEntry),
        es = l1 ++ e :: l2 → e.key = key →
        ∃ e3 ∈ e :: l2, KeyCmp e3.key key ≤ 0 ∧ FindPage key left es = (e3.pid, false)) ∧
    (KeysStrict IndexEntry.key es → ∀ e ∈ es, e.key = key →
        FindPage key left es = (e.pid, false)) := by
  have hA : ∀ (l1 : List IndexEntry) (e : IndexEntry) (l2 : List IndexEntry),
        es = l1 ++ e :: l2 → KeyCmp e.key key ≤ 0 → (∀ e2 ∈ l2, KeyCmp key e2.key < 0) →
        FindPage key left es = (e.pid, false) := by
    intro l1 e l2 hes he h2
    unfold FindPage
    rw [hes, findSlot_last key l1 e l2 he h2]
  refine ⟨hA, ?_, ?_, ?_⟩
  · intro h
    unfold FindPage
    rw [findSlot_none_of_all key es h]
  · intro l1 e l2 hes hk
    cases hf : findSlot key es with
    | none =>
      have := findSlot_none_strict key es hf e (by rw [hes]; simp)
      rw [hk, KeyCmp_self] at this
      omega
    | some e0 =>
      obtain ⟨m1, m2, hm, hle, hall⟩ := findSlot_split key es e0 hf
      refine ⟨e0, ?_, hle, by unfold FindPage; rw [hf]⟩
      -- `e0` cannot stand before `e`: everything after `e0` is above the key
      rw [hes] at hm
      rcases List.append_eq_append_iff.1 hm with ⟨a, h1, h2⟩ | ⟨a, h1, h2⟩
      · -- m1 = l1 ++ a, e :: l2 = a ++ e0 :: m2
        cases a with
        | nil =>
          simp only [List.nil_append, List.cons.injEq] at h2
          rw [h2.1]; simp
        | cons x a =>
          simp only [List.cons_append, List.cons.injEq] at h2
          rw [h2.2]; simp
      · -- l1 = m1 ++ a, e0 :: m2 = a ++ e :: l2
        cases a with
        | nil =>
          simp only [List.nil_append, List.cons.injEq] at h2
          rw [h2.1]; simp
        | cons x a =>
          simp only [List.cons_append, List.cons.injEq] at h2
          have : e ∈ m2 := by rw [h2.2]; simp
          have := hall e this
          rw [hk, KeyCmp_self] at this
          omega
  · intro hs e he hk
    obtain ⟨l1, l2, hes⟩ := List.append_of_mem he
    apply hA l1 e l2 hes
    · rw [hk, KeyCmp_self]
    · intro e2 he2
      rw [hes] at hs
      obtain ⟨_, s2, _⟩ := hs.append
      have := KeysStrict.head_lt s2 e2 he2
      rw [hk] at this
      exact this

theorem C11_FindPage_selects_highest_slot_witness :
    FindPage [98] 2 [⟨[97], 0, 6⟩, ⟨[98], 3, 6⟩, ⟨[99], 4, 6⟩] = (3, false) :=
  (C11_FindPage_selects_highest_slot [98] 2 [⟨[97], 0, 6⟩, ⟨[98], 3, 6⟩, ⟨[99], 4, 6⟩]).1
    [⟨[97], 0, 6⟩] ⟨[98], 3, 6⟩ [⟨[99], 4, 6⟩] rfl (by decide) (by decide)

/-- C11 (counterexample): the root page of `dupTree`, built by `Insert` alone,
holds the separator `[98]` in slots 0 and 1; the key `[98]` equals the separator
of slot 0, whose child is page 0, and `FindPage` sends it to page 3. -/
theorem C11_equal_separator_not_sent_to_its_child :
    insertAll cfg40 20 BTreeFile.empty dupInserts = Except.ok dupTree ∧
    getPage dupTree.pages dupTree.root = some (Page.index 2 [⟨[98], 0, 6⟩, ⟨[98], 3, 6⟩]) ∧
    FindPage [98] 2 [⟨[98], 0, 6⟩, ⟨[98], 3, 6⟩] = (3, false) ∧
    FindPage [98] 2 [⟨[98], 0, 6⟩, ⟨[98], 3, 6⟩] ≠ (0, false) := by
  refine ⟨by rfl, by rfl, by rfl, by decide⟩

/-! ### C16: the status of `Insert` -/

/-- On a file that has a root, `Insert` never returns `OK`: it returns `FAIL`
when the root cannot be read and reaches the end of the function without a
return statement on every other path. -/
theorem Insert_status_of_root (c : Config) (fuel : Nat) (f f2 : BTreeFile) (key : Key)
    (rid : RecordID) (st : Option Status) (hroot : f.root ≠ INVALID_PAGE)
    (h : Insert c fuel f key rid = Except.ok (st, f2)) :
    st = none ∨ (st = some Status.FAIL ∧ getPage f.pages f.root = none) := by
  unfold Insert at h
  rw [if_neg hroot] at h
  split at h
  · simp only [Except.ok.injEq, Prod.mk.injEq] at h
    rename_i hg
    exact Or.inr ⟨h.1.symm, hg⟩
  · split at h
    · simp only [Except.ok.injEq, Prod.mk.injEq] at h
      exact Or.inl h.1.symm
    · split at h
      · cases h
      · split at h <;>
        · simp only [Except.ok.injEq, Prod.mk.injEq] at h
          exact Or.inl h.1.symm
  · split at h
    · cases h
    · split at h
      · split at h
        · cases h
        · simp only [Except.ok.injEq, Prod.mk.injEq] at h
          exact Or.inl h.1.symm
      · simp only [Except.ok.injEq, Prod.mk.injEq] at h
        exact Or.inl h.1.symm

/-- C16 (fails on the code): `Insert` stores the entry and returns no status on
the three paths through a file that has a root.  Under `cfg40`, inserting "a"
into the root leaf of `oneBTree` (room), "e" into the full root leaf
`fourTree` (root-leaf split) and "f" into `fiveDistinctTree` (index root) each
end without a return statement, where the entry was inserted and `OK` is due. -/
theorem C16_insert_returns_no_status :
    Insert cfg40 20 oneBTree [97] ⟨1, 1⟩
      = Except.ok (none, ⟨0, [(0, Page.leaf (-1) (-1) [([97], ⟨1, 1⟩), ([98], ⟨1, 0⟩)])], 1⟩) ∧
    insertAll cfg40 20 BTreeFile.empty (fiveDistinct.take 4) = Except.ok fourTree ∧
    Insert cfg40 20 fourTree [101] ⟨1, 4⟩ = Except.ok (none, fiveDistinctTree) ∧
    Insert cfg40 20 fiveDistinctTree [102] ⟨1, 5⟩ = Except.ok (none, sixTree) ∧
    Insert cfg40 20 BTreeFile.empty [98] ⟨1, 0⟩ = Except.ok (some Status.OK, oneBTree) := by
  refine ⟨by rfl, by rfl, by rfl, by rfl, by rfl⟩

/-! ### C15: root growth -/

theorem sixteenTree_built :
    insertAll cfg40 20 BTreeFile.empty sixteenInserts = Except.ok sixteenTree := by rfl

/-- C15: with an index node as root, when the recursive insert returns a
promotion `(newKey, newPid)` with `newPid != INVALID_PAGE` (the separator being
one that fits an empty page, as every legal key does), `Insert` allocates a
page, stores in it the index node whose leftmost child is the old root and
whose only separator is `(newKey, newPid)`, and makes it the root, every other
page being as the recursive insert left it; when the recursive insert returns
`newPid = INVALID_PAGE` the file is as the recursive insert left it and the
root is unchanged. -/
theorem C15_root_growth (c : Config) (fuel : Nat) (f f1 : BTreeFile) (key : Key)
    (rid : RecordID) (left : PageID) (es : List IndexEntry) (res : Status) (newPid : PageID)
    (newKey : Option Key)
    (hroot : f.root ≠ INVALID_PAGE)
    (hpage : getPage f.pages f.root = some (Page.index left es))
    (hins : _Insert c fuel f f.root key rid = Except.ok (res, newPid, newKey, f1)) :
    (newPid ≠ INVALID_PAGE → ∀ nk, newKey = some nk →
      GetKeyDataLength c nk NodeType.INDEX_NODE ≤ c.HEAPPAGE_DATA_SIZE →
      ∃ f2, Insert c fuel f key rid = Except.ok (none, f2) ∧
        f2.root = (NewPage f1).1 ∧ f2.nextPid = f1.nextPid + 1 ∧
        getPage f2.pages f2.root
          = some (Page.index f.root
              [⟨nk, newPid, GetKeyDataLength c nk NodeType.INDEX_NODE⟩]) ∧
        ∀ p, p ≠ f2.root → getPage f2.pages p = getPage f1.pages p) ∧
    (newPid = INVALID_PAGE →
      Insert c fuel f key rid = Except.ok (none, f1) ∧ f1.root = f.root) := by
  constructor
  · intro hne nk hk hfit
    subst hk
    refine ⟨{ (NewPage f1).2 with
        root := (NewPage f1).1,
        pages := setPage (NewPage f1).2.pages (NewPage f1).1
          (Page.index f.root (indexInsert c nk newPid []).2) }, ?_, rfl, rfl, ?_, ?_⟩
    · unfold Insert
      rw [if_neg hroot]
      simp only [hpage, hins, hne, ne_eq, not_false_eq_true, if_true]
    · simp only [NewPage, indexInsert, indexAvail, indexUsed, Nat.sub_zero, hfit, if_true,
        sortedInsert, getPage_setPage_same]
    · intro p hp
      simp only [NewPage] at hp ⊢
      exact getPage_setPage_ne _ _ _ _ hp
  · intro he
    subst he
    refine ⟨?_, _Insert_root c key rid fuel f f1 f.root _ _ _ hins⟩
    unfold Insert
    rw [if_neg hroot]
    simp only [hpage, hins, ne_eq, not_true_eq_false, if_false]

theorem C15_root_growth_witness :
    ∃ f2, Insert cfg40 20 sixteenTree [113] ⟨1, 16⟩ = Except.ok (none, f2) ∧
        f2.root = (NewPage sixteenTreeSplit).1 ∧ f2.nextPid = sixteenTreeSplit.nextPid + 1 ∧
        getPage f2.pages f2.root
          = some (Page.index sixteenTree.root
              [⟨[105], 9, GetKeyDataLength cfg40 [105] NodeType.INDEX_NODE⟩]) ∧
        ∀ p, p ≠ f2.root → getPage f2.pages p = getPage sixteenTreeSplit.pages p :=
  (C15_root_growth cfg40 20 sixteenTree sixteenTreeSplit [113] ⟨1, 16⟩ 2
    [⟨[99], 0, 6⟩, ⟨[101], 3, 6⟩, ⟨[103], 4, 6⟩, ⟨[105], 5, 6⟩, ⟨[107], 6, 6⟩, ⟨[109], 7, 6⟩]
    Status.OK 9 (some [105]) (by decide) (by rfl) (by rfl)).1 (by decide) [105] rfl (by decide)

/-! ### Weakly ascending slots -/

theorem KeysWeak.weak_append {α : Type} {keyOf : α → Key} {l1 l2 : List α}
    (h : KeysWeak keyOf (l1 ++ l2)) :
    KeysWeak keyOf l1 ∧ KeysWeak keyOf l2 ∧
      ∀ a ∈ l1, ∀ b ∈ l2, KeyCmp (keyOf a) (keyOf b) ≤ 0 :=
  List.pairwise_append.1 h

theorem KeysWeak.weak_of_append {α : Type} {keyOf : α → Key} {l1 l2 : List α}
    (h1 : KeysWeak keyOf l1) (h2 : KeysWeak keyOf l2)
    (h3 : ∀ a ∈ l1, ∀ b ∈ l2, KeyCmp (keyOf a) (keyOf b) ≤ 0) :
    KeysWeak keyOf (l1 ++ l2) :=
  List.pairwise_append.2 ⟨h1, h2, h3⟩

theorem sortedInsert_perm {α : Type} (keyOf : α → Key) (x : α) (l : List α) :
    (sortedInsert keyOf x l).Perm (x :: l) := by
  induction l with
  | nil => exact List.Perm.refl _
  | cons e es ih =>
    unfold sortedInsert
    by_cases h : KeyCmp (keyOf x) (keyOf e) < 0
    · simp only [h, if_true]
      exact List.Perm.refl _
    · simp only [h, if_false]
      exact (List.Perm.cons e ih).trans (List.Perm.swap x e es)

theorem sortedInsert_weak {α : Type} (keyOf : α → Key) (x : α) (l : List α)
    (hs : KeysWeak keyOf l) : KeysWeak keyOf (sortedInsert keyOf x l) := by
  obtain ⟨l1, l2, h1, h2, h3, h4⟩ := sortedInsert_split keyOf x l
  rw [h2]
  rw [h1] at hs
  obtain ⟨hs1, hs2, hs3⟩ := hs.weak_append
  have hx2 : ∀ b ∈ l2, KeyCmp (keyOf x) (keyOf b) ≤ 0 := by
    intro b hb
    cases l2 with
    | nil => cases hb
    | cons e2 r2 =>
      have he2 := h4 e2 rfl
      rcases List.mem_cons.1 hb with hb | hb
      · rw [hb]; exact le_of_lt he2
      · exact le_of_lt (KeyCmp_lt_le_trans _ _ _ he2 ((List.pairwise_cons.1 hs2).1 b hb))
  apply KeysWeak.weak_of_append hs1
  · exact List.pairwise_cons.2 ⟨hx2, hs2⟩
  · intro a ha b hb
    rcases List.mem_cons.1 hb with hb | hb
    · rw [hb]; exact h3 a ha
    · exact hs3 a ha b hb

/-- The head of a sorted insert of a key not below the head. -/
theorem sortedInsert_head_ge {α : Type} (keyOf : α → Key) (x e : α) (l : List α)
    (h : KeyCmp (keyOf x) (keyOf e) ≥ 0) :
    sortedInsert keyOf x (e :: l) = e :: sortedInsert keyOf x l := by
  have : ¬ KeyCmp (keyOf x) (keyOf e) < 0 := by omega
  simp [sortedInsert, this]

/-! ### The moving loop of the root-leaf split on weakly ascending slots -/

theorem split1Loop_total (c : Config) (M : Nat) :
    ∀ (fuel : Nat) (leaf new : List (Key × RecordID)) (cur : Key × RecordID) (done : Bool),
      leaf.length < fuel →
      KeysWeak Prod.fst (new ++ leaf) →
      leafUsed c (new ++ leaf) ≤ c.HEAPPAGE_DATA_SIZE →
      leafUsed c new ≤ leafUsed c leaf + 2 * M →
      (∀ e ∈ leaf, GetKeyDataLength c e.1 NodeType.LEAF_NODE ≤ M) →
      (done = false → leaf.head? = some cur) → (done = true → leaf = []) →
      ∃ pre l2 cur2, leaf = pre ++ l2 ∧
        split1Loop c fuel leaf new cur done = Except.ok (l2, new ++ pre, cur2) ∧
        leafUsed c (new ++ pre) ≤ leafUsed c l2 + 2 * M ∧
        (l2 ≠ [] → l2.head? = some cur2 ∧ leafAvail c (new ++ pre) ≤ leafAvail c l2) := by
  intro fuel
  induction fuel with
  | zero => intro leaf new cur done hlen; omega
  | succ fuel ih =>
    intro leaf new cur done hlen hs hu hinv hM hcur hdn
    unfold split1Loop
    by_cases hc : leafAvail c new > leafAvail c leaf ∧ done = false
    · simp only [hc, and_self, if_true]
      have hhead := hcur hc.2
      cases leaf with
      | nil => simp at hhead
      | cons e0 rest =>
        simp only [List.head?_cons, Option.some.injEq] at hhead
        subst hhead
        have hs1 := hs.weak_append
        simp only [leafUsed_append, leafUsed] at hu hinv
        have hfit : GetKeyDataLength c e0.1 NodeType.LEAF_NODE ≤ leafAvail c new := by
          unfold leafAvail; omega
        have hback : sortedInsert Prod.fst (e0.1, e0.2) new = new ++ [e0] :=
          sortedInsert_back Prod.fst e0 new (fun b hb => hs1.2.2 b hb e0 (by simp))
        have hins : leafInsert c e0.1 e0.2 new = (Status.OK, new ++ [e0]) := by
          simp [leafInsert, hfit, hback]
        have hdel := leafDelete_head e0 rest
        rw [hins, hdel]
        simp only [ne_eq, not_true_eq_false, if_false, if_true]
        have hc2 : leafUsed c new < leafUsed c (e0 :: rest) := by
          have := hc.1
          unfold leafAvail at this
          simp only [leafUsed]
          simp only [leafUsed] at this
          omega
        simp only [leafUsed] at hc2
        have hMe := hM e0 (by simp)
        have hs2 : KeysWeak Prod.fst ((new ++ [e0]) ++ rest) := by
          simpa [List.append_assoc] using hs
        have hu2 : leafUsed c ((new ++ [e0]) ++ rest) ≤ c.HEAPPAGE_DATA_SIZE := by
          simp only [leafUsed_append, leafUsed]; omega
        have hinv2 : leafUsed c (new ++ [e0]) ≤ leafUsed c rest + 2 * M := by
          simp only [leafUsed_append, leafUsed]; omega
        have hM2 : ∀ e ∈ rest, GetKeyDataLength c e.1 NodeType.LEAF_NODE ≤ M :=
          fun a ha => hM a (List.mem_cons_of_mem _ ha)
        have hlen2 : rest.length < fuel := by simp at hlen; omega
        cases rest with
        | nil =>
          simp only
          obtain ⟨pre, l2, cur2, h1, h2, h3, h4⟩ :=
            ih [] (new ++ [e0]) e0 true hlen2 hs2 hu2 hinv2 hM2 (by simp) (by simp)
          refine ⟨e0 :: pre, l2, cur2, by rw [List.cons_append, ← h1], ?_, ?_, ?_⟩
          · rw [h2]; simp
          · simpa using h3
          · simpa using h4
        | cons e1 r1 =>
          simp only
          obtain ⟨pre, l2, cur2, h1, h2, h3, h4⟩ :=
            ih (e1 :: r1) (new ++ [e0]) e1 false hlen2 hs2 hu2 hinv2 hM2 (by simp) (by simp)
          refine ⟨e0 :: pre, l2, cur2, by rw [List.cons_append, ← h1], ?_, ?_, ?_⟩
          · rw [h2]; simp
          · simpa using h3
          · simpa using h4
    · simp only [hc, if_false]
      refine ⟨[], leaf, cur, rfl, by simp, by simpa using hinv, ?_⟩
      intro hne
      have hdone : done = false ∨ done = true := by cases done <;> simp
      rcases hdone with hd | hd
      · refine ⟨hcur hd, ?_⟩
        simp only [List.append_nil]
        by_contra hgt
        exact hc ⟨by omega, hd⟩
      · exact absurd (hdn hd) hne


/-- The moving loop of `Split1LeafNode` on a full leaf whose entries take at
most a quarter of the page each: it returns, an entry stays in the old leaf,
the buffer holds the first entry that stays, and both leaves have room for the
new entry. -/
theorem split1Loop_quarter (c : Config) (fuel : Nat) (e0 : Key × RecordID)
    (rest : List (Key × RecordID)) (key : Key)
    (hs : KeysWeak Prod.fst (e0 :: rest))
    (hu : leafUsed c (e0 :: rest) ≤ c.HEAPPAGE_DATA_SIZE)
    (hM : ∀ e ∈ e0 :: rest,
      4 * GetKeyDataLength c e.1 NodeType.LEAF_NODE ≤ c.HEAPPAGE_DATA_SIZE)
    (hk : 4 * GetKeyDataLength c key NodeType.LEAF_NODE ≤ c.HEAPPAGE_DATA_SIZE)
    (hfull : ¬ leafAvail c (e0 :: rest) ≥ GetKeyDataLength c key NodeType.LEAF_NODE)
    (hfuel : rest.length < fuel) :
    ∃ pre e r2, rest = pre ++ e :: r2 ∧
      split1Loop c fuel rest [e0]
        (match rest with
          | [] => (e0, true)
          | e :: _ => (e, false)).1
        (match rest with
          | [] => (e0, true)
          | e :: _ => (e, false)).2 = Except.ok (e :: r2, e0 :: pre, e) ∧
      GetKeyDataLength c key NodeType.LEAF_NODE ≤ leafAvail c (e0 :: pre) ∧
      GetKeyDataLength c key NodeType.LEAF_NODE ≤ leafAvail c (e :: r2) := by
  have hM0 := hM e0 (List.mem_cons_self _ _)
  obtain ⟨pre, l2, cur2, h1, h2, h3, h4⟩ :=
    split1Loop_total c (c.HEAPPAGE_DATA_SIZE / 4) fuel rest [e0]
      (match rest with
        | [] => (e0, true)
        | e :: _ => (e, false)).1
      (match rest with
        | [] => (e0, true)
        | e :: _ => (e, false)).2 hfuel
      (by simpa using hs) (by simpa using hu)
      (by simp only [leafUsed]; omega)
      (fun e he => by have := hM e (List.mem_cons_of_mem _ he); omega)
      (by cases rest <;> simp) (by cases rest <;> simp)
  have hsum : leafUsed c (e0 :: pre) + leafUsed c l2 = leafUsed c (e0 :: rest) := by
    rw [h1]; simp only [leafUsed, leafUsed_append]; omega
  simp only [List.singleton_append] at h2 h3 h4
  cases l2 with
  | nil =>
    exfalso
    unfold leafAvail at hfull
    simp only [leafUsed] at h3 hsum hfull hu
    omega
  | cons e r2 =>
    obtain ⟨h5, h6⟩ := h4 (by simp)
    simp only [List.head?_cons, Option.some.injEq] at h5
    subst h5
    refine ⟨pre, e, r2, h1, h2, ?_, ?_⟩
    · unfold leafAvail
      omega
    · unfold leafAvail at h6 ⊢
      omega


/-- The root-leaf split returns `OK` on a full leaf with small entries, and
the three pages it leaves are determined by the first entry `e` that stays in
the old leaf. -/
theorem Split1LeafNode_total (c : Config) (fuel : Nat) (f : BTreeFile)
    (leafPageID lprev lnext : PageID) (es : List (Key × RecordID)) (key : Key) (rid : RecordID)
    (hp : getPage f.pages leafPageID = some (Page.leaf lprev lnext es))
    (hfresh : leafPageID < f.nextPid)
    (hs : KeysWeak Prod.fst es)
    (hu : leafUsed c es ≤ c.HEAPPAGE_DATA_SIZE)
    (hM : ∀ e ∈ es, 4 * GetKeyDataLength c e.1 NodeType.LEAF_NODE ≤ c.HEAPPAGE_DATA_SIZE)
    (hk : 4 * GetKeyDataLength c key NodeType.LEAF_NODE ≤ c.HEAPPAGE_DATA_SIZE)
    (hidx : ∀ e ∈ es, GetKeyDataLength c e.1 NodeType.INDEX_NODE ≤ c.HEAPPAGE_DATA_SIZE)
    (hfull : ¬ leafAvail c es ≥ GetKeyDataLength c key NodeType.LEAF_NODE)
    (hfuel : es.length ≤ fuel) :
    ∃ n2 e r2 f2, es = n2 ++ e :: r2 ∧ n2 ≠ [] ∧
      Split1LeafNode c fuel f leafPageID key rid = Except.ok (Status.OK, f.nextPid, f2) ∧
      f2.root = f.root ∧ f2.nextPid = f.nextPid + 1 + 1 ∧
      getPage f2.pages f.nextPid
        = some (Page.index (f.nextPid + 1)
            [⟨e.1, leafPageID, GetKeyDataLength c e.1 NodeType.INDEX_NODE⟩]) ∧
      getPage f2.pages (f.nextPid + 1)
        = some (Page.leaf INVALID_PAGE leafPageID
            (if KeyCmp key e.1 ≥ 0 then n2 else sortedInsert Prod.fst (key, rid) n2)) ∧
      getPage f2.pages leafPageID
        = some (Page.leaf (f.nextPid + 1) lnext
            (if KeyCmp key e.1 ≥ 0 then e :: sortedInsert Prod.fst (key, rid) r2
              else e :: r2)) ∧
      ∀ p, p ≠ f.nextPid → p ≠ f.nextPid + 1 → p ≠ leafPageID →
        getPage f2.pages p = getPage f.pages p := by
  have hn1 : leafPageID ≠ f.nextPid := hfresh.ne
  have hn2 : leafPageID ≠ f.nextPid + 1 := (lt_trans hfresh (lt_add_one _)).ne
  have hn3 : f.nextPid ≠ f.nextPid + 1 := (lt_add_one _).ne
  cases es with
  | nil =>
    exfalso
    apply hfull
    simp only [leafAvail, leafUsed, Nat.sub_zero]
    omega
  | cons e0 rest =>
    have hM0 := hM e0 (List.mem_cons_self _ _)
    obtain ⟨pre, e, r2, h1, h2, h3, h4⟩ :=
      split1Loop_quarter c fuel e0 rest key hs hu hM hk hfull (by simpa using hfuel)
    have hfirst := split1_first c e0 rest (by omega)
    have hidxe : GetKeyDataLength c e.1 NodeType.INDEX_NODE ≤ c.HEAPPAGE_DATA_SIZE :=
      hidx e (by rw [h1]; simp)
    have hroot : indexInsert c e.1 leafPageID []
        = (Status.OK, [⟨e.1, leafPageID, GetKeyDataLength c e.1 NodeType.INDEX_NODE⟩]) := by
      simp [indexInsert, indexAvail, indexUsed, hidxe, sortedInsert]
    have hpL : getPage (setPage (setPage f.pages f.nextPid (Page.index INVALID_PAGE []))
        (f.nextPid + 1) (Page.leaf INVALID_PAGE INVALID_PAGE [])) leafPageID
        = some (Page.leaf lprev lnext (e0 :: rest)) := by
      rw [getPage_setPage_ne _ _ _ _ hn2, getPage_setPage_ne _ _ _ _ hn1, hp]
    refine ⟨e0 :: pre, e, r2,
      ⟨f.root,
        setPage (setPage (setPage
          (setPage (setPage f.pages f.nextPid (Page.index INVALID_PAGE []))
            (f.nextPid + 1) (Page.leaf INVALID_PAGE INVALID_PAGE []))
          f.nextPid (Page.index (f.nextPid + 1)
            [⟨e.1, leafPageID, GetKeyDataLength c e.1 NodeType.INDEX_NODE⟩]))
          (f.nextPid + 1) (Page.leaf INVALID_PAGE leafPageID
            (if KeyCmp key e.1 ≥ 0 then e0 :: pre
              else sortedInsert Prod.fst (key, rid) (e0 :: pre))))
          leafPageID (Page.leaf (f.nextPid + 1) lnext
            (if KeyCmp key e.1 ≥ 0 then e :: sortedInsert Prod.fst (key, rid) r2
              else e :: r2)),
        f.nextPid + 1 + 1⟩, by rw [h1]; simp, by simp, ?_, rfl, rfl, ?_, ?_, ?_, ?_⟩
    · unfold Split1LeafNode
      simp only [NewPage, hpL, hfirst.1, hfirst.2]
      have hloop : ∀ (r : List (Key × RecordID)), r = rest →
          split1Loop c fuel r [e0]
            (match r with
              | [] => (e0, true)
              | e :: _ => (e, false)).1
            (match r with
              | [] => (e0, true)
              | e :: _ => (e, false)).2 = Except.ok (e :: r2, e0 :: pre, e) := by
        intro r hr
        rw [hr]
        exact h2
      cases rest with
      | nil => simp at h1
      | cons a r =>
      have h2c := hloop (a :: r) rfl
      simp only at h2c ⊢
      rw [h2c]
      simp only
      by_cases hge : KeyCmp key e.1 ≥ 0
      · have hinsL : leafInsert c key rid (e :: r2)
            = (Status.OK, e :: sortedInsert Prod.fst (key, rid) r2) := by
          simp only [leafInsert, h4, if_true]
          rw [sortedInsert_head_ge Prod.fst (key, rid) e r2 hge]
        simp only [hge, if_true, hinsL, hroot]
      · have hinsN : leafInsert c key rid (e0 :: pre)
            = (Status.OK, sortedInsert Prod.fst (key, rid) (e0 :: pre)) := by
          simp only [leafInsert, h3, if_true]
        simp only [hge, if_false, hinsN, hroot]
    · simp only
      rw [getPage_setPage_ne _ _ _ _ hn1.symm, getPage_setPage_ne _ _ _ _ hn3,
        getPage_setPage_same]
    · simp only
      rw [getPage_setPage_ne _ _ _ _ hn2.symm, getPage_setPage_same]
    · simp only
      rw [getPage_setPage_same]
    · intro p h1p h2p h3p
      simp only
      rw [getPage_setPage_ne _ _ _ _ h3p, getPage_setPage_ne _ _ _ _ h2p,
        getPage_setPage_ne _ _ _ _ h1p, getPage_setPage_ne _ _ _ _ h2p,
        getPage_setPage_ne _ _ _ _ h1p]

/-! ### C12: the root-leaf split -/

/-- C12 (counterexample): under `cfg60` the four inserts `wideInserts`, whose
entries take at most a third of the page each, fill the root leaf; `Insert` of
the key "ddddddddddd" (an entry of 20 bytes) then splits the root leaf, moves
three entries of 45 bytes to the new leaf, and drops the new entry, which
belongs to the new leaf and does not fit there: the two leaves hold the four
old entries only. -/
theorem C12_root_leaf_split_drops_entry :
    insertAll cfg60 20 BTreeFile.empty wideInserts = Except.ok wideLeafTree ∧
    (∀ e ∈ ([100, 100, 100, 100, 100, 100, 100, 100, 100, 100, 100], (⟨1, 4⟩ : RecordID))
        :: wideInserts,
      3 * GetKeyDataLength cfg60 e.1 NodeType.LEAF_NODE ≤ cfg60.HEAPPAGE_DATA_SIZE) ∧
    leafAvail cfg60 wideInserts
      < GetKeyDataLength cfg60 [100, 100, 100, 100, 100, 100, 100, 100, 100, 100, 100]
          NodeType.LEAF_NODE ∧
    Insert cfg60 20 wideLeafTree [100, 100, 100, 100, 100, 100, 100, 100, 100, 100, 100] ⟨1, 4⟩
      = Except.ok (none, wideLeafTreeAfter) ∧
    allLeafEntries wideLeafTreeAfter.pages
      = [([101, 101, 101, 101, 101, 101], ⟨1, 3⟩), ([97, 97, 97], ⟨1, 0⟩),
         ([98, 98, 98, 98], ⟨1, 1⟩), ([99, 99, 99, 99, 99, 99, 99, 99, 99, 99, 99], ⟨1, 2⟩)] := by
  refine ⟨by rfl, by decide, by decide, by rfl, by rfl⟩

/-- C12 (as amended): when `Insert` finds that the root is a leaf without room
for the new entry, the leaf's slots being in key order and within the page,
every entry (old and new) taking at most a quarter of `HEAPPAGE_DATA_SIZE`, the
index entry of every old key fitting a page and the two allocations returning
fresh page ids, then afterwards the header's root is the first allocated page,
an index node with exactly one separator; its leftmost child is the second
allocated page, a non-empty leaf whose keys are all `<=` the keys of the old
leaf; the separator is (first key of the old leaf after the split and
insertion, old leaf's page id); the two leaves together hold exactly the old
entries plus the new one; the new leaf's next is the old leaf and the old
leaf's prev is the new leaf. -/
theorem C12_root_leaf_split (c : Config) (fuel : Nat) (f : BTreeFile)
    (lprev lnext : PageID) (es : List (Key × RecordID)) (key : Key) (rid : RecordID)
    (hroot : f.root ≠ INVALID_PAGE)
    (hp : getPage f.pages f.root = some (Page.leaf lprev lnext es))
    (hfresh : f.root < f.nextPid)
    (hs : KeysWeak Prod.fst es)
    (hu : leafUsed c es ≤ c.HEAPPAGE_DATA_SIZE)
    (hM : ∀ e ∈ es, 4 * GetKeyDataLength c e.1 NodeType.LEAF_NODE ≤ c.HEAPPAGE_DATA_SIZE)
    (hk : 4 * GetKeyDataLength c key NodeType.LEAF_NODE ≤ c.HEAPPAGE_DATA_SIZE)
    (hidx : ∀ e ∈ es, GetKeyDataLength c e.1 NodeType.INDEX_NODE ≤ c.HEAPPAGE_DATA_SIZE)
    (hfull : leafAvail c es < GetKeyDataLength c key NodeType.LEAF_NODE)
    (hfuel : es.length ≤ fuel) :
    ∃ (f2 : BTreeFile) (newLeaf : PageID) (leaf3 newLeaf3 : List (Key × RecordID)) (sep : Key),
      Insert c fuel f key rid = Except.ok (none, f2) ∧
      f2.root = (NewPage f).1 ∧ newLeaf = (NewPage (NewPage f).2).1 ∧
      getPage f2.pages f2.root
        = some (Page.index newLeaf
            [⟨sep, f.root, GetKeyDataLength c sep NodeType.INDEX_NODE⟩]) ∧
      getPage f2.pages newLeaf = some (Page.leaf INVALID_PAGE f.root newLeaf3) ∧
      getPage f2.pages f.root = some (Page.leaf newLeaf lnext leaf3) ∧
      (newLeaf3 ++ leaf3).Perm ((key, rid) :: es) ∧
      (∀ a ∈ newLeaf3, ∀ b ∈ leaf3, KeyCmp a.1 b.1 ≤ 0) ∧
      newLeaf3 ≠ [] ∧ (leaf3.head?).map Prod.fst = some sep := by
  have hfull2 : ¬ leafAvail c es ≥ GetKeyDataLength c key NodeType.LEAF_NODE := by omega
  obtain ⟨n2, e, r2, f2, h1, hne, hsplit, hr, _, g1, g2, g3, _⟩ :=
    Split1LeafNode_total c fuel f f.root lprev lnext es key rid hp hfresh hs hu hM hk hidx
      hfull2 hfuel
  have hIns : Insert c fuel f key rid = Except.ok (none, { f2 with root := f.nextPid }) := by
    unfold Insert
    rw [if_neg hroot]
    simp only [hp, hfull2, if_false, hsplit, if_true]
  rw [h1] at hs
  obtain ⟨hs1, hs2, hs3⟩ := hs.weak_append
  have hhead : ∀ b ∈ r2, KeyCmp e.1 b.1 ≤ 0 := (List.pairwise_cons.1 hs2).1
  refine ⟨{ f2 with root := f.nextPid }, f.nextPid + 1, _, _, e.1, hIns, rfl, rfl, g1, g2, g3,
    ?_, ?_, ?_, ?_⟩
  · rw [h1]
    by_cases hge : KeyCmp key e.1 ≥ 0
    · simp only [if_pos hge]
      have hp1 : (e :: sortedInsert Prod.fst (key, rid) r2).Perm ((key, rid) :: e :: r2) :=
        (List.Perm.cons e (sortedInsert_perm Prod.fst (key, rid) r2)).trans
          (List.Perm.swap (key, rid) e r2)
      exact (List.Perm.append_left n2 hp1).trans List.perm_middle
    · simp only [if_neg hge]
      exact List.Perm.append_right (e :: r2) (sortedInsert_perm Prod.fst (key, rid) n2)
  · intro a ha b hb
    by_cases hge : KeyCmp key e.1 ≥ 0
    · simp only [if_pos hge] at ha hb
      have hek : KeyCmp e.1 key ≤ 0 := (KeyCmp_ge_iff _ _).1 hge
      have hae : KeyCmp a.1 e.1 ≤ 0 := hs3 a ha e (List.mem_cons_self _ _)
      rcases List.mem_cons.1 hb with hb | hb
      · rw [hb]; exact hae
      · rcases (mem_sortedInsert Prod.fst (key, rid) b r2).1 hb with hb | hb
        · rw [hb]; exact KeyCmp_le_trans _ _ _ hae hek
        · exact hs3 a ha b (List.mem_cons_of_mem _ hb)
    · simp only [if_neg hge] at ha hb
      have hke : KeyCmp key e.1 < 0 := by omega
      rcases (mem_sortedInsert Prod.fst (key, rid) a n2).1 ha with ha | ha
      · rw [ha]
        rcases List.mem_cons.1 hb with hb | hb
        · rw [hb]; exact le_of_lt hke
        · exact le_of_lt (KeyCmp_lt_le_trans _ _ _ hke (hhead b hb))
      · exact hs3 a ha b hb
  · by_cases hge : KeyCmp key e.1 ≥ 0
    · simp only [if_pos hge]; exact hne
    · simp only [if_neg hge]
      intro h0
      have : (key, rid) ∈ sortedInsert Prod.fst (key, rid) n2 :=
        (mem_sortedInsert Prod.fst (key, rid) (key, rid) n2).2 (Or.inl rfl)
      rw [h0] at this
      cases this
  · by_cases hge : KeyCmp key e.1 ≥ 0
    · simp only [if_pos hge, List.head?_cons, Option.map_some']
    · simp only [if_neg hge, List.head?_cons, Option.map_some']

theorem C12_root_leaf_split_witness :
    ∃ (f2 : BTreeFile) (newLeaf : PageID) (leaf3 newLeaf3 : List (Key × RecordID)) (sep : Key),
      Insert cfg40 20 fourTree [101] ⟨1, 4⟩ = Except.ok (none, f2) ∧
      f2.root = (NewPage fourTree).1 ∧ newLeaf = (NewPage (NewPage fourTree).2).1 ∧
      getPage f2.pages f2.root
        = some (Page.index newLeaf
            [⟨sep, fourTree.root, GetKeyDataLength cfg40 sep NodeType.INDEX_NODE⟩]) ∧
      getPage f2.pages newLeaf = some (Page.leaf INVALID_PAGE fourTree.root newLeaf3) ∧
      getPage f2.pages fourTree.root = some (Page.leaf newLeaf (-1) leaf3) ∧
      (newLeaf3 ++ leaf3).Perm
        (([101], ⟨1, 4⟩) ::
          [([97], ⟨1, 0⟩), ([98], ⟨1, 1⟩), ([99], ⟨1, 2⟩), ([100], ⟨1, 3⟩)]) ∧
      (∀ a ∈ newLeaf3, ∀ b ∈ leaf3, KeyCmp a.1 b.1 ≤ 0) ∧
      newLeaf3 ≠ [] ∧ (leaf3.head?).map Prod.fst = some sep :=
  C12_root_leaf_split cfg40 20 fourTree (-1) (-1)
    [([97], ⟨1, 0⟩), ([98], ⟨1, 1⟩), ([99], ⟨1, 2⟩), ([100], ⟨1, 3⟩)] [101] ⟨1, 4⟩
    (by decide) (by rfl) (by decide) (by unfold KeysWeak; decide) (by decide) (by decide)
    (by decide) (by decide) (by decide) (by decide)


/-! ### The recursive leaf split on weakly ascending slots -/

theorem leafUsed_perm (c : Config) {l1 l2 : List (Key × RecordID)} (h : l1.Perm l2) :
    leafUsed c l1 = leafUsed c l2 := by
  induction h with
  | nil => rfl
  | cons x _ ih => simp only [leafUsed, ih]
  | swap x y l => simp only [leafUsed]; omega
  | trans _ _ ih1 ih2 => rw [ih1, ih2]

theorem leafDelete_mem (e : Key × RecordID) (l : List (Key × RecordID)) (h : e ∈ l) :
    (leafDelete e.1 e.2 l).1 = Status.OK ∧ l.Perm (e :: (leafDelete e.1 e.2 l).2) ∧
      (leafDelete e.1 e.2 l).2.Sublist l := by
  induction l with
  | nil => cases h
  | cons a l ih =>
    unfold leafDelete
    by_cases ha : a.1 = e.1 ∧ a.2 = e.2
    · have hae : a = e := Prod.ext ha.1 ha.2
      simp only [ha, and_self, if_true]
      exact ⟨trivial, by rw [hae], List.sublist_cons_self _ _⟩
    · simp only [ha, if_false]
      have hne : e ≠ a := fun h0 => ha ⟨by rw [h0], by rw [h0]⟩
      have hm : e ∈ l := by
        rcases List.mem_cons.1 h with h | h
        · exact absurd h hne
        · exact h
      obtain ⟨i1, i2, i3⟩ := ih hm
      exact ⟨i1, (List.Perm.cons a i2).trans (List.Perm.swap e a _), i3.cons₂ a⟩

theorem KeysWeak.last_max {α : Type} {keyOf : α → Key} {l : List α} {e : α}
    (h : KeysWeak keyOf (l ++ [e])) : ∀ a ∈ l ++ [e], KeyCmp (keyOf a) (keyOf e) ≤ 0 := by
  intro a ha
  rcases List.mem_append.1 ha with ha | ha
  · exact h.weak_append.2.2 a ha e (by simp)
  · simp only [List.mem_singleton] at ha
    rw [ha, KeyCmp_self]

theorem leafSplitLoop_total (c : Config) (M : Nat) :
    ∀ (fuel : Nat) (leaf new : List (Key × RecordID)),
      leaf.length < fuel →
      KeysWeak Prod.fst leaf → KeysWeak Prod.fst new →
      (∀ a ∈ leaf, ∀ b ∈ new, KeyCmp a.1 b.1 ≤ 0) →
      leafUsed c leaf + leafUsed c new ≤ c.HEAPPAGE_DATA_SIZE →
      leafUsed c new ≤ leafUsed c leaf + 2 * M →
      (∀ e ∈ leaf, GetKeyDataLength c e.1 NodeType.LEAF_NODE ≤ M) →
      ∃ l2 n2, leafSplitLoop c fuel leaf new = Except.ok (l2, n2) ∧
        (l2 ++ n2).Perm (leaf ++ new) ∧
        KeysWeak Prod.fst l2 ∧ KeysWeak Prod.fst n2 ∧
        (∀ a ∈ l2, ∀ b ∈ n2, KeyCmp a.1 b.1 ≤ 0) ∧
        leafUsed c n2 ≤ leafUsed c l2 + 2 * M ∧
        (l2 = [] ∨ leafAvail c n2 ≤ leafAvail c l2) ∧
        (∀ b ∈ new, b ∈ n2) ∧
        (leafAvail c new > leafAvail c leaf → leaf ≠ [] → n2 ≠ []) := by
  intro fuel
  induction fuel with
  | zero => intro leaf new hlen; omega
  | succ fuel ih =>
    intro leaf new hlen hs hn hx hu hinv hM
    unfold leafSplitLoop
    cases hl : leaf.getLast? with
    | none =>
      have hnil : leaf = [] := List.getLast?_eq_none_iff.1 hl
      simp only
      exact ⟨leaf, new, rfl, List.Perm.refl _, hs, hn, hx, hinv, Or.inl hnil,
        fun b hb => hb, fun _ h0 => absurd hnil h0⟩
    | some e =>
      simp only
      by_cases hc : leafAvail c new > leafAvail c leaf
      · simp only [hc, if_true]
        obtain ⟨l1, hl1⟩ := getLast?_eq_some_append leaf e hl
        have hmem : e ∈ leaf := by rw [hl1]; simp
        obtain ⟨d1, d2, d3⟩ := leafDelete_mem e leaf hmem
        have hue := leafUsed_perm c d2
        simp only [leafUsed] at hue
        have hMe := hM e hmem
        have hfit : GetKeyDataLength c e.1 NodeType.LEAF_NODE ≤ leafAvail c new := by
          unfold leafAvail; omega
        have hins : leafInsert c e.1 e.2 new = (Status.OK, sortedInsert Prod.fst e new) := by
          simp [leafInsert, hfit]
        rw [hins]
        simp only
        have hc2 : leafUsed c new < leafUsed c leaf := by
          unfold leafAvail at hc; omega
        have hun := leafUsed_sortedInsert c e new
        have hlast : ∀ a ∈ leaf, KeyCmp a.1 e.1 ≤ 0 := by
          rw [hl1] at hs ⊢
          exact hs.last_max
        have hlen2 : (leafDelete e.1 e.2 leaf).2.length < fuel := by
          have := d2.length_eq
          simp only [List.length_cons] at this
          omega
        obtain ⟨l2, n2, r1, r2, r3, r4, r5, r6, r7, r8, _⟩ :=
          ih (leafDelete e.1 e.2 leaf).2 (sortedInsert Prod.fst e new) hlen2
            (List.Pairwise.sublist d3 hs) (sortedInsert_weak Prod.fst e new hn)
            (by
              intro a ha b hb
              have ha2 := d3.subset ha
              rcases (mem_sortedInsert Prod.fst e b new).1 hb with hb | hb
              · rw [hb]; exact hlast a ha2
              · exact hx a ha2 b hb)
            (by omega) (by omega)
            (fun a ha => hM a (d3.subset ha))
        have hin : e ∈ n2 := r8 e ((mem_sortedInsert Prod.fst e e new).2 (Or.inl rfl))
        refine ⟨l2, n2, r1, ?_, r3, r4, r5, r6, r7, ?_, ?_⟩
        · refine r2.trans ?_
          have p1 := sortedInsert_perm Prod.fst e new
          have p2 : ((leafDelete e.1 e.2 leaf).2 ++ sortedInsert Prod.fst e new).Perm
              ((leafDelete e.1 e.2 leaf).2 ++ e :: new) := List.Perm.append_left _ p1
          refine p2.trans ?_
          refine List.perm_middle.trans ?_
          exact List.Perm.append_right new d2.symm
        · intro b hb
          exact r8 b ((mem_sortedInsert Prod.fst e b new).2 (Or.inr hb))
        · intro _ _ h0
          rw [h0] at hin
          cases hin
      · simp only [hc, if_false]
        refine ⟨leaf, new, rfl, List.Perm.refl _, hs, hn, hx, hinv, Or.inr (by omega),
          fun b hb => hb, fun h0 => False.elim h0⟩

theorem HasSlots.setPage_ne {pages : List (PageID × Page)} {q : PageID}
    {es : List (Key × RecordID)} (h : HasSlots pages q es) (p : PageID) (pg : Page)
    (hne : q ≠ p) : HasSlots (setPage pages p pg) q es := by
  obtain ⟨a, b, h⟩ := h
  exact ⟨a, b, by rw [getPage_setPage_ne _ _ _ _ hne, h]⟩

theorem HasSlots.links_setPrev {pages : List (PageID × Page)} {q : PageID}
    {es : List (Key × RecordID)} (h : HasSlots pages q es) (p x : PageID) :
    HasSlots (setPrev pages p x) q es := by
  obtain ⟨a, b, h⟩ := h
  unfold setPrev
  by_cases hq : q = p
  · subst hq
    simp only [h]
    exact ⟨x, b, getPage_setPage_same _ _ _⟩
  · split
    · exact ⟨a, b, by rw [getPage_setPage_ne _ _ _ _ hq, h]⟩
    · exact ⟨a, b, by rw [getPage_setPage_ne _ _ _ _ hq, h]⟩
    · exact ⟨a, b, h⟩

theorem HasSlots.links_setNext {pages : List (PageID × Page)} {q : PageID}
    {es : List (Key × RecordID)} (h : HasSlots pages q es) (p x : PageID) :
    HasSlots (setNext pages p x) q es := by
  obtain ⟨a, b, h⟩ := h
  unfold setNext
  by_cases hq : q = p
  · subst hq
    simp only [h]
    exact ⟨a, x, getPage_setPage_same _ _ _⟩
  · split
    · exact ⟨a, b, by rw [getPage_setPage_ne _ _ _ _ hq, h]⟩
    · exact ⟨a, b, h⟩

/-- Writing a page keeps every page that is present. -/
theorem getPage_setPage_isSome (pages : List (PageID × Page)) (p q : PageID) (pg : Page)
    (h : getPage pages q ≠ none) : getPage (setPage pages p pg) q ≠ none := by
  rw [getPage_setPage]
  split
  · simp
  · exact h

theorem getPage_setLeafSlots_isSome (pages : List (PageID × Page)) (p q : PageID)
    (es : List (Key × RecordID)) (h : getPage pages q ≠ none) :
    getPage (setLeafSlots pages p es) q ≠ none := by
  unfold setLeafSlots
  split
  · exact getPage_setPage_isSome _ _ _ _ h
  · exact h

/-- The leaf branch of `_Insert` on a full leaf with small entries: the call
returns `OK`, and the two leaves are determined by the outcome `(l2, n2)` of the
moving loop and the first entry `e` of `n2`. -/
theorem insertLeaf_total (c : Config) (fuel : Nat) (f : BTreeFile)
    (nodePid lprev lnext : PageID) (es : List (Key × RecordID)) (tKey : Key) (tId : RecordID)
    (hp : getPage f.pages nodePid = some (Page.leaf lprev lnext es))
    (hfresh : nodePid < f.nextPid)
    (hnext : lnext = INVALID_PAGE ∨ getPage f.pages lnext ≠ none)
    (hs : KeysWeak Prod.fst es)
    (hu : leafUsed c es ≤ c.HEAPPAGE_DATA_SIZE)
    (hM : ∀ e ∈ es, 4 * GetKeyDataLength c e.1 NodeType.LEAF_NODE ≤ c.HEAPPAGE_DATA_SIZE)
    (hk : 4 * GetKeyDataLength c tKey NodeType.LEAF_NODE ≤ c.HEAPPAGE_DATA_SIZE)
    (hfull : ¬ leafAvail c es ≥ GetKeyDataLength c tKey NodeType.LEAF_NODE)
    (hfuel : es.length < fuel) :
    ∃ (l2 n2 : List (Key × RecordID)) (e : Key × RecordID),
      (l2 ++ n2).Perm es ∧ n2.head? = some e ∧
      KeysWeak Prod.fst l2 ∧ KeysWeak Prod.fst n2 ∧
      (∀ a ∈ l2, ∀ b ∈ n2, KeyCmp a.1 b.1 ≤ 0) ∧
      ∃ f2 : BTreeFile,
        insertLeaf c fuel f nodePid lprev lnext es tKey tId
          = Except.ok (Status.OK, f.nextPid, some e.1, f2) ∧
        HasSlots f2.pages nodePid
          (if KeyCmp tKey e.1 ≥ 0 then l2 else sortedInsert Prod.fst (tKey, tId) l2) ∧
        HasSlots f2.pages f.nextPid
          (if KeyCmp tKey e.1 ≥ 0 then sortedInsert Prod.fst (tKey, tId) n2 else n2) := by
  have hes : es ≠ [] := by
    intro h0
    apply hfull
    rw [h0]
    simp only [leafAvail, leafUsed, Nat.sub_zero]
    omega
  have hpos : 0 < leafUsed c es := by
    cases es with
    | nil => exact absurd rfl hes
    | cons a r => simp only [leafUsed, GetKeyDataLength]; omega
  obtain ⟨l2, n2, r1, r2, r3, r4, r5, r6, r7, _, r9⟩ :=
    leafSplitLoop_total c (c.HEAPPAGE_DATA_SIZE / 4) fuel es [] hfuel hs
      (List.Pairwise.nil) (fun a _ b hb => by cases hb)
      (by simp only [leafUsed]; omega) (by simp only [leafUsed]; omega)
      (fun e he => by have := hM e he; omega)
  simp only [List.append_nil] at r2
  have hn2 : n2 ≠ [] := r9 (by simp only [leafAvail, leafUsed]; omega) hes
  have hsum := leafUsed_perm c r2
  rw [leafUsed_append] at hsum
  cases n2 with
  | nil => exact absurd rfl hn2
  | cons e rest =>
    have hfitN : GetKeyDataLength c tKey NodeType.LEAF_NODE ≤ leafAvail c (e :: rest) := by
      unfold leafAvail; omega
    have hfitL : GetKeyDataLength c tKey NodeType.LEAF_NODE ≤ leafAvail c l2 := by
      rcases r7 with h0 | h0
      · rw [h0]; simp only [leafAvail, leafUsed]; omega
      · unfold leafAvail at h0 ⊢; omega
    have hinsN : leafInsert c tKey tId (e :: rest)
        = (Status.OK, sortedInsert Prod.fst (tKey, tId) (e :: rest)) := by
      simp only [leafInsert, hfitN, if_true]
    have hinsL : leafInsert c tKey tId l2
        = (Status.OK, sortedInsert Prod.fst (tKey, tId) l2) := by
      simp only [leafInsert, hfitL, if_true]
    have hne : nodePid ≠ f.nextPid := hfresh.ne
    -- the two pages before the chain is repaired
    have hNode : ∀ leaf3 new3, HasSlots (setLeafSlots (setPage f.pages f.nextPid
        (Page.leaf INVALID_PAGE INVALID_PAGE new3)) nodePid leaf3) nodePid leaf3 := by
      intro leaf3 new3
      refine ⟨lprev, lnext, ?_⟩
      rw [getPage_setLeafSlots _ _ _ lprev lnext es leaf3
        (by rw [getPage_setPage_ne _ _ _ _ hne, hp])]
      simp
    have hNew : ∀ leaf3 new3, HasSlots (setLeafSlots (setPage f.pages f.nextPid
        (Page.leaf INVALID_PAGE INVALID_PAGE new3)) nodePid leaf3) f.nextPid new3 := by
      intro leaf3 new3
      refine ⟨INVALID_PAGE, INVALID_PAGE, ?_⟩
      rw [getPage_setLeafSlots _ _ _ lprev lnext es leaf3
        (by rw [getPage_setPage_ne _ _ _ _ hne, hp])]
      simp only [hne.symm, if_false]
      exact getPage_setPage_same _ _ _
    have hpin : ∀ leaf3 new3, ¬ (lnext ≠ INVALID_PAGE ∧ getPage (setLeafSlots (setPage f.pages
        f.nextPid (Page.leaf INVALID_PAGE INVALID_PAGE new3)) nodePid leaf3) lnext = none) := by
      intro leaf3 new3 h0
      rcases hnext with h1 | h1
      · exact h0.1 h1
      · exact getPage_setLeafSlots_isSome _ _ _ _ (getPage_setPage_isSome _ _ _ _ h1) h0.2
    have hlinks : ∀ (P : List (PageID × Page)) (q : PageID) (sl : List (Key × RecordID)),
        HasSlots P q sl →
        HasSlots (setNext (setPrev (setNext
          (if lnext ≠ INVALID_PAGE then setPrev P lnext f.nextPid else P)
          f.nextPid lnext) f.nextPid nodePid) nodePid f.nextPid) q sl := by
      intro P q sl h0
      have h1 : HasSlots (if lnext ≠ INVALID_PAGE then setPrev P lnext f.nextPid else P) q sl := by
        split
        · exact h0.links_setPrev _ _
        · exact h0
      exact ((h1.links_setNext _ _).links_setPrev _ _).links_setNext _ _
    refine ⟨l2, e :: rest, e, r2, rfl, r3, r4, r5, ?_⟩
    unfold insertLeaf
    by_cases hge : KeyCmp tKey e.1 ≥ 0
    · simp only [hfull, if_false, NewPage, r1, hinsN, hinsL, hpin, hge, if_true,
        sortedInsert_head_ge Prod.fst (tKey, tId) e rest hge]
      exact ⟨_, rfl, hlinks _ _ _ (hNode _ _), hlinks _ _ _ (hNew _ _)⟩
    · simp only [hfull, if_false, NewPage, r1, hinsN, hinsL, hpin, hge]
      exact ⟨_, rfl, hlinks _ _ _ (hNode _ _), hlinks _ _ _ (hNew _ _)⟩


/-! ### C13: the recursive leaf split -/

/-- C13 (counterexample): under `cfg60` the five inserts `mixedInserts`, whose
entries take at most a third of the page each, leave the non-root leaf 2 with
one free byte; `_Insert` of the key "fffffff" (an entry of 16 bytes) at that
leaf moves three entries of 45 bytes to the new leaf 3 and then fails to insert
the new entry there: the call returns `FAIL` and the two leaves hold the old
entries only. -/
theorem C13_recursive_leaf_split_drops_entry :
    insertAll cfg60 20 BTreeFile.empty mixedInserts = Except.ok mixedTree ∧
    (∀ e ∈ ([102, 102, 102, 102, 102, 102, 102], (⟨1, 5⟩ : RecordID)) :: mixedInserts,
      3 * GetKeyDataLength cfg60 e.1 NodeType.LEAF_NODE ≤ cfg60.HEAPPAGE_DATA_SIZE) ∧
    getPage mixedTree.pages 2
      = some (Page.leaf (-1) 0 [([98, 98, 98, 98, 98], ⟨1, 1⟩),
          ([99, 99, 99, 99, 99, 99, 99, 99, 99, 99, 99], ⟨1, 2⟩),
          ([100, 100, 100, 100, 100, 100], ⟨1, 3⟩), ([101], ⟨1, 4⟩)]) ∧
    _Insert cfg60 20 mixedTree 2 [102, 102, 102, 102, 102, 102, 102] ⟨1, 5⟩
      = Except.ok (Status.FAIL, 3, some [99, 99, 99, 99, 99, 99, 99, 99, 99, 99, 99],
          mixedTreeSplit) ∧
    getPage mixedTreeSplit.pages 2 = some (Page.leaf (-1) 3 [([98, 98, 98, 98, 98], ⟨1, 1⟩)]) ∧
    getPage mixedTreeSplit.pages 3
      = some (Page.leaf 2 0 [([99, 99, 99, 99, 99, 99, 99, 99, 99, 99, 99], ⟨1, 2⟩),
          ([100, 100, 100, 100, 100, 100], ⟨1, 3⟩), ([101], ⟨1, 4⟩)]) := by
  refine ⟨by rfl, by decide, by rfl, by rfl, by rfl, by rfl⟩

/-- C13 (as amended): when `_Insert` reaches a leaf without room for
`(targetKey, targetId)`, the leaf's slots being in key order and within the
page, every entry (old and new) taking at most a quarter of
`HEAPPAGE_DATA_SIZE`, the allocation returning a fresh page id and the next
leaf, if any, being present, then the call returns `OK`; the moving loop leaves
the old entries in `l2` (old leaf) and `n2` (new leaf, first entry `e`); the new
entry is inserted into the new leaf iff `targetKey >= e.key`, into the old leaf
otherwise; afterwards the two leaves together hold exactly the old entries plus
the new entry, every key in the old leaf is `<=` every key in the new leaf, and
the promoted pair is (first key of the new leaf, new leaf's page id). -/
theorem C13_recursive_leaf_split (c : Config) (fuel : Nat) (f : BTreeFile)
    (nodePid lprev lnext : PageID) (es : List (Key × RecordID)) (tKey : Key) (tId : RecordID)
    (hp : getPage f.pages nodePid = some (Page.leaf lprev lnext es))
    (hfresh : nodePid < f.nextPid)
    (hnext : lnext = INVALID_PAGE ∨ getPage f.pages lnext ≠ none)
    (hs : KeysWeak Prod.fst es)
    (hu : leafUsed c es ≤ c.HEAPPAGE_DATA_SIZE)
    (hM : ∀ e ∈ es, 4 * GetKeyDataLength c e.1 NodeType.LEAF_NODE ≤ c.HEAPPAGE_DATA_SIZE)
    (hk : 4 * GetKeyDataLength c tKey NodeType.LEAF_NODE ≤ c.HEAPPAGE_DATA_SIZE)
    (hfull : leafAvail c es < GetKeyDataLength c tKey NodeType.LEAF_NODE)
    (hfuel : es.length < fuel) :
    ∃ (l2 n2 leaf3 new3 : List (Key × RecordID)) (e : Key × RecordID) (f2 : BTreeFile),
      (l2 ++ n2).Perm es ∧ n2.head? = some e ∧
      leaf3 = (if KeyCmp tKey e.1 ≥ 0 then l2 else sortedInsert Prod.fst (tKey, tId) l2) ∧
      new3 = (if KeyCmp tKey e.1 ≥ 0 then sortedInsert Prod.fst (tKey, tId) n2 else n2) ∧
      _Insert c (fuel + 1) f nodePid tKey tId
        = Except.ok (Status.OK, (NewPage f).1, (new3.head?).map Prod.fst, f2) ∧
      HasSlots f2.pages nodePid leaf3 ∧ HasSlots f2.pages (NewPage f).1 new3 ∧
      (leaf3 ++ new3).Perm ((tKey, tId) :: es) ∧
      (∀ a ∈ leaf3, ∀ b ∈ new3, KeyCmp a.1 b.1 ≤ 0) ∧ new3 ≠ [] := by
  have hfull2 : ¬ leafAvail c es ≥ GetKeyDataLength c tKey NodeType.LEAF_NODE := by omega
  obtain ⟨l2, n2, e, r2, rh, r3, r4, r5, f2, hres, g1, g2⟩ :=
    insertLeaf_total c fuel f nodePid lprev lnext es tKey tId hp hfresh hnext hs hu hM hk
      hfull2 hfuel
  cases n2 with
  | nil => simp at rh
  | cons e0 rest =>
  simp only [List.head?_cons, Option.some.injEq] at rh
  subst rh
  have hhead : ∀ b ∈ rest, KeyCmp e0.1 b.1 ≤ 0 := (List.pairwise_cons.1 r4).1
  refine ⟨l2, e0 :: rest, _, _, e0, f2, r2, rfl, rfl, rfl, ?_, g1, g2, ?_, ?_, ?_⟩
  · unfold _Insert
    simp only [hp, hres, NewPage]
    by_cases hge : KeyCmp tKey e0.1 ≥ 0
    · simp only [if_pos hge, sortedInsert_head_ge Prod.fst (tKey, tId) e0 rest hge,
        List.head?_cons, Option.map_some']
    · simp only [if_neg hge, List.head?_cons, Option.map_some']
  · by_cases hge : KeyCmp tKey e0.1 ≥ 0
    · simp only [if_pos hge]
      have p1 := sortedInsert_perm Prod.fst (tKey, tId) (e0 :: rest)
      exact ((List.Perm.append_left l2 p1).trans List.perm_middle).trans
        (List.Perm.cons _ r2)
    · simp only [if_neg hge]
      have p1 := sortedInsert_perm Prod.fst (tKey, tId) l2
      exact (List.Perm.append_right (e0 :: rest) p1).trans (List.Perm.cons _ r2)
  · intro a ha b hb
    by_cases hge : KeyCmp tKey e0.1 ≥ 0
    · simp only [if_pos hge] at ha hb
      have hek : KeyCmp e0.1 tKey ≤ 0 := (KeyCmp_ge_iff _ _).1 hge
      rcases (mem_sortedInsert Prod.fst (tKey, tId) b (e0 :: rest)).1 hb with hb | hb
      · rw [hb]
        exact KeyCmp_le_trans _ _ _ (r5 a ha e0 (List.mem_cons_self _ _)) hek
      · exact r5 a ha b hb
    · simp only [if_neg hge] at ha hb
      have hke : KeyCmp tKey e0.1 < 0 := by omega
      rcases (mem_sortedInsert Prod.fst (tKey, tId) a l2).1 ha with ha | ha
      · rw [ha]
        rcases List.mem_cons.1 hb with hb | hb
        · rw [hb]; exact le_of_lt hke
        · exact le_of_lt (KeyCmp_lt_le_trans _ _ _ hke (hhead b hb))
      · exact r5 a ha b hb
  · by_cases hge : KeyCmp tKey e0.1 ≥ 0
    · simp only [if_pos hge, sortedInsert_head_ge Prod.fst (tKey, tId) e0 rest hge]
      simp
    · simp only [if_neg hge]
      simp

theorem C13_recursive_leaf_split_witness :
    ∃ (l2 n2 leaf3 new3 : List (Key × RecordID)) (e : Key × RecordID) (f2 : BTreeFile),
      (l2 ++ n2).Perm [([99], ⟨1, 2⟩), ([100], ⟨1, 3⟩), ([101], ⟨1, 4⟩), ([102], ⟨1, 5⟩)] ∧
      n2.head? = some e ∧
      leaf3 = (if KeyCmp [103] e.1 ≥ 0 then l2
        else sortedInsert Prod.fst ([103], ⟨1, 6⟩) l2) ∧
      new3 = (if KeyCmp [103] e.1 ≥ 0 then sortedInsert Prod.fst ([103], ⟨1, 6⟩) n2 else n2) ∧
      _Insert cfg40 (19 + 1) sixTree 0 [103] ⟨1, 6⟩
        = Except.ok (Status.OK, (NewPage sixTree).1, (new3.head?).map Prod.fst, f2) ∧
      HasSlots f2.pages 0 leaf3 ∧ HasSlots f2.pages (NewPage sixTree).1 new3 ∧
      (leaf3 ++ new3).Perm
        (([103], ⟨1, 6⟩) ::
          [([99], ⟨1, 2⟩), ([100], ⟨1, 3⟩), ([101], ⟨1, 4⟩), ([102], ⟨1, 5⟩)]) ∧
      (∀ a ∈ leaf3, ∀ b ∈ new3, KeyCmp a.1 b.1 ≤ 0) ∧ new3 ≠ [] :=
  C13_recursive_leaf_split cfg40 19 sixTree 0 2 (-1)
    [([99], ⟨1, 2⟩), ([100], ⟨1, 3⟩), ([101], ⟨1, 4⟩), ([102], ⟨1, 5⟩)] [103] ⟨1, 6⟩
    (by rfl) (by decide) (Or.inl rfl) (by unfold KeysWeak; decide) (by decide) (by decide)
    (by decide) (by decide) (by decide)

/-! ### The index split on strictly ascending separators -/

theorem indexUsed_append (l1 l2 : List IndexEntry) :
    indexUsed (l1 ++ l2) = indexUsed l1 + indexUsed l2 := by
  induction l1 with
  | nil => simp [indexUsed]
  | cons e l ih => simp [indexUsed, ih]; omega

theorem indexUsed_fresh_le (c : Config) (l : List IndexEntry)
    (h : ∀ e ∈ l, GetKeyDataLength c e.key NodeType.INDEX_NODE ≤ e.len) :
    indexUsed (l.map (IndexEntry.fresh c)) ≤ indexUsed l := by
  induction l with
  | nil => simp [indexUsed]
  | cons e l ih =>
    have h1 := h e (List.mem_cons_self _ _)
    have h2 := ih (fun a ha => h a (List.mem_cons_of_mem _ ha))
    simp only [List.map_cons, indexUsed, IndexEntry.fresh]
    omega

theorem keysStrict_map_fresh (c : Config) (l : List IndexEntry) :
    KeysStrict IndexEntry.key (l.map (IndexEntry.fresh c)) ↔ KeysStrict IndexEntry.key l := by
  unfold KeysStrict
  rw [List.pairwise_map]
  rfl

theorem keysStrict_of_kp {l1 l2 : List IndexEntry}
    (h : l1.map IndexEntry.kp = l2.map IndexEntry.kp) (hs : KeysStrict IndexEntry.key l2) :
    KeysStrict IndexEntry.key l1 := by
  have hk : l1.map IndexEntry.key = l2.map IndexEntry.key := by
    have := congrArg (List.map Prod.fst) h
    simpa [List.map_map, Function.comp_def, IndexEntry.kp] using this
  unfold KeysStrict at hs ⊢
  have h1 : (l1.map IndexEntry.key).Pairwise (fun a b => KeyCmp a b < 0) := by
    rw [hk]; exact List.pairwise_map.2 hs
  exact List.pairwise_map.1 h1

theorem map_kp_fresh (c : Config) (l : List IndexEntry) :
    (l.map (IndexEntry.fresh c)).map IndexEntry.kp = l.map IndexEntry.kp := by
  induction l with
  | nil => rfl
  | cons e l ih => simp only [List.map_cons, ih]; rfl

theorem sortedInsert_kp_fresh (c : Config) (x : IndexEntry) (l : List IndexEntry) :
    (sortedInsert IndexEntry.key x (l.map (IndexEntry.fresh c))).map IndexEntry.kp
      = (sortedInsert IndexEntry.key x l).map IndexEntry.kp := by
  induction l with
  | nil => rfl
  | cons e l ih =>
    simp only [List.map_cons, sortedInsert]
    have hk : (IndexEntry.fresh c e).key = e.key := rfl
    rw [hk]
    by_cases h : KeyCmp x.key e.key < 0
    · simp only [h, if_true, List.map_cons, map_kp_fresh]
      rfl
    · simp only [h, if_false, List.map_cons, ih]
      rfl

theorem sortedInsert_append_ge {α : Type} (keyOf : α → Key) (x : α) (l1 l2 : List α)
    (h : ∀ a ∈ l1, ¬ KeyCmp (keyOf x) (keyOf a) < 0) :
    sortedInsert keyOf x (l1 ++ l2) = l1 ++ sortedInsert keyOf x l2 := by
  induction l1 with
  | nil => rfl
  | cons a l ih =>
    have h1 := h a (List.mem_cons_self _ _)
    have h2 := ih (fun b hb => h b (List.mem_cons_of_mem _ hb))
    show sortedInsert keyOf x (a :: (l ++ l2)) = a :: (l ++ sortedInsert keyOf x l2)
    simp only [sortedInsert, h1, if_false, h2]

theorem sortedInsert_append_lt {α : Type} (keyOf : α → Key) (x m : α) (l1 l2 : List α)
    (h : KeyCmp (keyOf x) (keyOf m) < 0) :
    sortedInsert keyOf x (l1 ++ m :: l2) = sortedInsert keyOf x l1 ++ m :: l2 := by
  induction l1 with
  | nil => simp [sortedInsert, h]
  | cons a l ih =>
    show sortedInsert keyOf x (a :: (l ++ m :: l2)) = sortedInsert keyOf x (a :: l) ++ m :: l2
    by_cases ha : KeyCmp (keyOf x) (keyOf a) < 0
    · simp only [sortedInsert, ha, if_true, List.cons_append]
    · simp only [sortedInsert, ha, if_false, List.cons_append, ih]

theorem indexSplitLoop_total (c : Config) :
    ∀ (fuel : Nat) (old post : List IndexEntry),
      old.length < fuel →
      KeysStrict IndexEntry.key (old ++ post) →
      (∀ e ∈ old ++ post, GetKeyDataLength c e.key NodeType.INDEX_NODE ≤ e.len) →
      indexUsed (old ++ post) ≤ c.HEAPPAGE_DATA_SIZE →
      ∃ pre moved, old = pre ++ moved ∧
        indexSplitLoop c fuel old (post.map (IndexEntry.fresh c))
          = Except.ok (pre, (moved ++ post).map (IndexEntry.fresh c)) ∧
        (pre = [] ∨
          indexAvail c ((moved ++ post).map (IndexEntry.fresh c)) ≤ indexAvail c pre) ∧
        (moved = [] ∨ ∃ m0 mrest, moved = m0 :: mrest ∧
          indexUsed ((mrest ++ post).map (IndexEntry.fresh c)) < indexUsed (pre ++ [m0])) ∧
        (old ≠ [] → indexAvail c (post.map (IndexEntry.fresh c)) > indexAvail c old →
          moved ≠ []) := by
  intro fuel
  induction fuel with
  | zero => intro old post hlen; omega
  | succ fuel ih =>
    intro old post hlen hs hlenOK hu
    unfold indexSplitLoop
    cases hl : old.getLast? with
    | none =>
      have hnil : old = [] := List.getLast?_eq_none_iff.1 hl
      simp only
      exact ⟨old, [], by simp, by simp, Or.inl hnil, Or.inl rfl, fun h0 => absurd hnil h0⟩
    | some e =>
      simp only
      by_cases hc : indexAvail c (post.map (IndexEntry.fresh c)) > indexAvail c old
      · simp only [hc, if_true]
        obtain ⟨o1, ho1⟩ := getLast?_eq_some_append old e hl
        subst ho1
        have hs1 := hs.append
        have hdel : indexDelete e.key (o1 ++ [e]) = Except.ok o1 := by
          have := indexDelete_strict o1 e [] hs1.1
          simpa using this
        rw [hdel]
        simp only
        have hpost := indexUsed_fresh_le c post
          (fun a ha => hlenOK a (List.mem_append_right _ ha))
        have hle := hlenOK e (by simp)
        simp only [indexUsed_append, indexUsed] at hu
        have hfit : GetKeyDataLength c e.key NodeType.INDEX_NODE
            ≤ indexAvail c (post.map (IndexEntry.fresh c)) := by
          unfold indexAvail; omega
        have hlt : ∀ b ∈ post.map (IndexEntry.fresh c),
            KeyCmp (IndexEntry.key ⟨e.key, e.pid, GetKeyDataLength c e.key NodeType.INDEX_NODE⟩)
              b.key < 0 := by
          intro b hb
          obtain ⟨b2, hb2, hb3⟩ := List.mem_map.1 hb
          rw [← hb3]
          exact hs1.2.2 e (by simp) b2 hb2
        have hins : (indexInsert c e.key e.pid (post.map (IndexEntry.fresh c))).2
            = (e :: post).map (IndexEntry.fresh c) := by
          simp only [indexInsert, hfit, if_true]
          rw [sortedInsert_front _ _ _ hlt]
          rfl
        rw [hins]
        have hc2 : indexUsed (post.map (IndexEntry.fresh c)) < indexUsed (o1 ++ [e]) := by
          unfold indexAvail at hc
          simp only [indexUsed_append, indexUsed] at hc ⊢
          omega
        obtain ⟨pre, moved, h1, h2, h3, h4, _⟩ := ih o1 (e :: post)
          (by simp at hlen; omega)
          (by simpa [List.append_assoc] using hs)
          (by
            intro a ha
            apply hlenOK a
            simp only [List.mem_append, List.mem_cons, List.mem_singleton] at ha ⊢
            tauto)
          (by simp only [indexUsed_append, indexUsed]; omega)
        refine ⟨pre, moved ++ [e], by rw [h1, List.append_assoc], ?_, ?_, ?_, ?_⟩
        · rw [h2]; simp
        · simpa using h3
        · right
          rcases h4 with h4 | ⟨m0, mrest, h5, h6⟩
          · subst h4
            simp only [List.append_nil] at h1
            subst h1
            exact ⟨e, [], rfl, by simpa using hc2⟩
          · subst h5
            exact ⟨m0, mrest ++ [e], rfl, by simpa using h6⟩
        · intro _ _ h0
          simp at h0
      · simp only [hc, if_false]
        refine ⟨old, [], by simp, by simp, Or.inr (by simpa using (by omega :
          indexAvail c (post.map (IndexEntry.fresh c)) ≤ indexAvail c old)), Or.inl rfl, ?_⟩
        intro _ h0
        exact False.elim h0


/-- The index branch of `_Insert` on a full node with strictly ascending
separators and a pending separator of at most half a page: the call returns
`OK`, the last separator moved (`m0`) is promoted, and the two nodes are
determined by the separators `pre` left in the old node and `mrest` moved
behind `m0`. -/
theorem insertIndex_total (c : Config) (fuel : Nat) (f1 : BTreeFile)
    (nodePid left1 : PageID) (es1 : List IndexEntry) (tKey : Key) (tPid : PageID)
    (hfresh : nodePid ≠ f1.nextPid)
    (hs : KeysStrict IndexEntry.key es1)
    (hlen : ∀ e ∈ es1, GetKeyDataLength c e.key NodeType.INDEX_NODE ≤ e.len)
    (hu : indexUsed es1 ≤ c.HEAPPAGE_DATA_SIZE)
    (hk : 2 * GetKeyDataLength c tKey NodeType.INDEX_NODE ≤ c.HEAPPAGE_DATA_SIZE)
    (hfull : ¬ indexAvail c es1 ≥ GetKeyDataLength c tKey NodeType.INDEX_NODE)
    (hfuel : es1.length < fuel) :
    ∃ (pre : List IndexEntry) (m0 : IndexEntry) (mrest : List IndexEntry),
      es1 = pre ++ m0 :: mrest ∧
      ∃ f2 : BTreeFile,
        insertIndex c fuel f1 nodePid left1 es1 tKey tPid
          = Except.ok (Status.OK, f1.nextPid, some m0.key, f2) ∧
        getPage f2.pages nodePid
          = some (Page.index left1
              (if KeyCmp tKey m0.key ≥ 0 then pre
                else sortedInsert IndexEntry.key
                  ⟨tKey, tPid, GetKeyDataLength c tKey NodeType.INDEX_NODE⟩ pre)) ∧
        getPage f2.pages f1.nextPid
          = some (Page.index m0.pid
              (if KeyCmp tKey m0.key ≥ 0 then
                sortedInsert IndexEntry.key
                  ⟨tKey, tPid, GetKeyDataLength c tKey NodeType.INDEX_NODE⟩
                  (mrest.map (IndexEntry.fresh c))
                else mrest.map (IndexEntry.fresh c))) := by
  have hes : es1 ≠ [] := by
    intro h0
    apply hfull
    rw [h0]
    simp only [indexAvail, indexUsed, Nat.sub_zero]
    omega
  have hpos : 0 < indexUsed es1 := by
    cases es1 with
    | nil => exact absurd rfl hes
    | cons a r =>
      have := hlen a (List.mem_cons_self _ _)
      simp only [indexUsed, GetKeyDataLength] at this ⊢
      omega
  obtain ⟨pre, moved, h1, h2, h3, h4, h5⟩ := indexSplitLoop_total c fuel es1 [] hfuel
    (by simpa using hs) (by simpa using hlen) (by simpa using hu)
  simp only [List.map_nil, List.append_nil] at h2 h3 h4 h5
  have hmoved : moved ≠ [] := h5 hes (by simp only [indexAvail, indexUsed]; omega)
  rcases h4 with h4 | ⟨m0, mrest, h6, h7⟩
  · exact absurd h4 hmoved
  subst h6
  rw [h1] at hs hlen hu
  obtain ⟨hs1, hs2, hs3⟩ := hs.append
  have hlenM : ∀ e ∈ mrest, GetKeyDataLength c e.key NodeType.INDEX_NODE ≤ e.len :=
    fun e he => hlen e (by simp [he])
  have hfr := indexUsed_fresh_le c mrest hlenM
  have hfr2 := indexUsed_fresh_le c (m0 :: mrest) (fun e he => hlen e (by
    simp only [List.mem_append]; exact Or.inr he))
  simp only [indexUsed_append, indexUsed] at hu h7
  have hsN : KeysStrict IndexEntry.key ((m0 :: mrest).map (IndexEntry.fresh c)) :=
    (keysStrict_map_fresh c _).2 hs2
  have hdel : indexDelete m0.key (IndexEntry.fresh c m0 :: mrest.map (IndexEntry.fresh c))
      = Except.ok (mrest.map (IndexEntry.fresh c)) := by
    have := indexDelete_strict [] (IndexEntry.fresh c m0) (mrest.map (IndexEntry.fresh c))
      (by simpa using hsN)
    simpa using this
  have hfitN : GetKeyDataLength c tKey NodeType.INDEX_NODE
      ≤ indexAvail c (mrest.map (IndexEntry.fresh c)) := by
    unfold indexAvail; omega
  have hfitO : GetKeyDataLength c tKey NodeType.INDEX_NODE ≤ indexAvail c pre := by
    rcases h3 with h0 | h0
    · rw [h0]; simp only [indexAvail, indexUsed]; omega
    · unfold indexAvail at h0 ⊢
      simp only [List.map_cons, indexUsed] at hfr2 h0
      omega
  have hinsN : indexInsert c tKey tPid (mrest.map (IndexEntry.fresh c))
      = (Status.OK, sortedInsert IndexEntry.key
          ⟨tKey, tPid, GetKeyDataLength c tKey NodeType.INDEX_NODE⟩
          (mrest.map (IndexEntry.fresh c))) := by
    simp only [indexInsert, hfitN, if_true]
  have hinsO : indexInsert c tKey tPid pre
      = (Status.OK, sortedInsert IndexEntry.key
          ⟨tKey, tPid, GetKeyDataLength c tKey NodeType.INDEX_NODE⟩ pre) := by
    simp only [indexInsert, hfitO, if_true]
  have hkey : (IndexEntry.fresh c m0).key = m0.key := rfl
  have hpid : (IndexEntry.fresh c m0).pid = m0.pid := rfl
  refine ⟨pre, m0, mrest, h1, ?_⟩
  unfold insertIndex
  simp only [hfull, if_false, NewPage, h2, List.map_cons, hdel, hkey, hpid, hinsN, hinsO]
  by_cases hge : KeyCmp tKey m0.key ≥ 0
  · simp only [hge, if_true]
    refine ⟨_, rfl, ?_, ?_⟩
    · exact getPage_setPage_same _ _ _
    · simp only
      rw [getPage_setPage_ne _ _ _ _ hfresh.symm, getPage_setPage_same]
  · simp only [hge, if_false]
    refine ⟨_, rfl, ?_, ?_⟩
    · exact getPage_setPage_same _ _ _
    · simp only
      rw [getPage_setPage_ne _ _ _ _ hfresh.symm, getPage_setPage_same]

/-! ### C14: the index split -/

theorem sixteenTreeLeafSplit_built :
    _Insert cfg40 19 sixteenTree 7 [113] ⟨1, 16⟩
      = Except.ok (Status.OK, 8, some [111], sixteenTreeLeafSplit) ∧
    getPage sixteenTreeLeafSplit.pages 1
      = some (Page.index 2 [⟨[99], 0, 6⟩, ⟨[101], 3, 6⟩, ⟨[103], 4, 6⟩, ⟨[105], 5, 6⟩,
          ⟨[107], 6, 6⟩, ⟨[109], 7, 6⟩]) := by
  exact ⟨by rfl, by rfl⟩

/-- C14 (counterexample): under `cfg60`, after the five inserts
`wideSepInserts` the insert of the 47-byte key "a...a" splits leaf 2 and hands
the separator `("m...m", 4)`, an index entry of 55 bytes, to the root, whose two
separators are strictly ascending and leave 40 bytes.  The index split moves
the last separator to the new node 5, promotes it, and then fails to insert the
pending separator into the old node, where it belongs: afterwards the old node
holds one separator, the new node none, and the child 4 is in neither. -/
theorem C14_index_split_drops_separator :
    insertAll cfg60 20 BTreeFile.empty wideSepInserts = Except.ok wideSepTree ∧
    _Insert cfg60 19 wideSepTree 2 (List.replicate 47 97) ⟨1, 5⟩
      = Except.ok (Status.OK, 4, some (List.replicate 50 109), wideSepLeafSplit) ∧
    getPage wideSepLeafSplit.pages 1
      = some (Page.index 2 [⟨List.replicate 3 110, 0, 8⟩, ⟨List.replicate 7 111, 3, 12⟩]) ∧
    KeysStrict IndexEntry.key
      [⟨List.replicate 3 110, 0, 8⟩, (⟨List.replicate 7 111, 3, 12⟩ : IndexEntry)] ∧
    indexAvail cfg60 [⟨List.replicate 3 110, 0, 8⟩, ⟨List.replicate 7 111, 3, 12⟩]
      < GetKeyDataLength cfg60 (List.replicate 50 109) NodeType.INDEX_NODE ∧
    insertIndex cfg60 19 wideSepLeafSplit 1 2
        [⟨List.replicate 3 110, 0, 8⟩, ⟨List.replicate 7 111, 3, 12⟩] (List.replicate 50 109) 4
      = Except.ok (Status.FAIL, 5, some (List.replicate 7 111), wideSepAfter) ∧
    _Insert cfg60 20 wideSepTree 1 (List.replicate 47 97) ⟨1, 5⟩
      = Except.ok (Status.FAIL, 5, some (List.replicate 7 111), wideSepAfter) ∧
    getPage wideSepAfter.pages 1 = some (Page.index 2 [⟨List.replicate 3 110, 0, 8⟩]) ∧
    getPage wideSepAfter.pages 5 = some (Page.index 3 []) ∧
    (4 : PageID) ∉ children 2 [⟨List.replicate 3 110, 0, 8⟩] ++ children 3 [] := by
  refine ⟨by rfl, by rfl, by rfl, by unfold KeysStrict; decide, by decide, by rfl, by rfl,
    by rfl, by rfl, by decide⟩

/-- C14 (as amended): when `_Insert` must add a promoted separator `(k', p')`
to an index node with strictly ascending separators that do not hold `k'` and
without room for it, the pending separator taking at most half of
`HEAPPAGE_DATA_SIZE`, every slot being at least as long as its encoded entry,
the page not over-full and the allocation returning a fresh page id, then the
call returns `OK` with the promotion `(e.key, new node)` for a separator `e` of
the old node, and afterwards the old node's separators, then `e`, then the new
node's separators are, key by key and child by child, the strictly ascending
sequence of the old separators plus `(k', p')`; the promoted key is stored in
neither node; the new node's leftmost child is the child paired with the
promoted key; and the child pointers of the two nodes are, in order, those of
the old node with `p'` filed at its key. -/
theorem C14_index_split (c : Config) (fuel : Nat) (f1 : BTreeFile)
    (nodePid left1 : PageID) (es1 : List IndexEntry) (tKey : Key) (tPid : PageID)
    (hfresh : nodePid < f1.nextPid)
    (hs : KeysStrict IndexEntry.key es1)
    (hne : ∀ e ∈ es1, e.key ≠ tKey)
    (hlen : ∀ e ∈ es1, GetKeyDataLength c e.key NodeType.INDEX_NODE ≤ e.len)
    (hu : indexUsed es1 ≤ c.HEAPPAGE_DATA_SIZE)
    (hk : 2 * GetKeyDataLength c tKey NodeType.INDEX_NODE ≤ c.HEAPPAGE_DATA_SIZE)
    (hfull : indexAvail c es1 < GetKeyDataLength c tKey NodeType.INDEX_NODE)
    (hfuel : es1.length < fuel) :
    ∃ (old3 new4 : List IndexEntry) (e : IndexEntry) (f2 : BTreeFile),
      e ∈ es1 ∧
      insertIndex c fuel f1 nodePid left1 es1 tKey tPid
        = Except.ok (Status.OK, (NewPage f1).1, some e.key, f2) ∧
      getPage f2.pages nodePid = some (Page.index left1 old3) ∧
      getPage f2.pages (NewPage f1).1 = some (Page.index e.pid new4) ∧
      (old3 ++ e :: new4).map IndexEntry.kp
        = (sortedInsert IndexEntry.key
            ⟨tKey, tPid, GetKeyDataLength c tKey NodeType.INDEX_NODE⟩ es1).map IndexEntry.kp ∧
      KeysStrict IndexEntry.key (old3 ++ e :: new4) ∧
      (∀ x ∈ old3 ++ new4, x.key ≠ e.key) ∧
      children left1 old3 ++ children e.pid new4
        = children left1 (sortedInsert IndexEntry.key
            ⟨tKey, tPid, GetKeyDataLength c tKey NodeType.INDEX_NODE⟩ es1) := by
  have hfull2 : ¬ indexAvail c es1 ≥ GetKeyDataLength c tKey NodeType.INDEX_NODE := by omega
  obtain ⟨pre, m0, mrest, h1, f2, hres, g1, g2⟩ :=
    insertIndex_total c fuel f1 nodePid left1 es1 tKey tPid hfresh.ne hs hlen hu hk hfull2 hfuel
  have hF := sortedInsert_strict IndexEntry.key
    ⟨tKey, tPid, GetKeyDataLength c tKey NodeType.INDEX_NODE⟩ es1 hs hne
  have hs0 := hs
  rw [h1] at hs0
  obtain ⟨hs1, hs2, hs3⟩ := hs0.append
  have hkp : ((if KeyCmp tKey m0.key ≥ 0 then pre
        else sortedInsert IndexEntry.key
          ⟨tKey, tPid, GetKeyDataLength c tKey NodeType.INDEX_NODE⟩ pre) ++
      m0 :: (if KeyCmp tKey m0.key ≥ 0 then
        sortedInsert IndexEntry.key
          ⟨tKey, tPid, GetKeyDataLength c tKey NodeType.INDEX_NODE⟩
          (mrest.map (IndexEntry.fresh c))
        else mrest.map (IndexEntry.fresh c))).map IndexEntry.kp
      = (sortedInsert IndexEntry.key
          ⟨tKey, tPid, GetKeyDataLength c tKey NodeType.INDEX_NODE⟩ es1).map IndexEntry.kp := by
    by_cases hge : KeyCmp tKey m0.key ≥ 0
    · simp only [if_pos hge]
      have hsplit : sortedInsert IndexEntry.key
          ⟨tKey, tPid, GetKeyDataLength c tKey NodeType.INDEX_NODE⟩ es1
          = (pre ++ [m0]) ++ sortedInsert IndexEntry.key
              ⟨tKey, tPid, GetKeyDataLength c tKey NodeType.INDEX_NODE⟩ mrest := by
        rw [h1]
        have : pre ++ m0 :: mrest = (pre ++ [m0]) ++ mrest := by simp
        rw [this]
        apply sortedInsert_append_ge
        intro a ha
        rcases List.mem_append.1 ha with ha | ha
        · have hlt := hs3 a ha m0 (List.mem_cons_self _ _)
          have hle : KeyCmp m0.key tKey ≤ 0 := (KeyCmp_ge_iff _ _).1 hge
          have := KeyCmp_lt_le_trans _ _ _ hlt hle
          exact (KeyCmp_not_lt _ _).2 (le_of_lt this)
        · simp only [List.mem_singleton] at ha
          rw [ha]
          show ¬ KeyCmp tKey m0.key < 0
          omega
      rw [hsplit]
      simp only [List.map_append, List.map_cons, List.map_nil, sortedInsert_kp_fresh,
        List.append_assoc, List.singleton_append]
    · simp only [if_neg hge]
      have hsplit : sortedInsert IndexEntry.key
          ⟨tKey, tPid, GetKeyDataLength c tKey NodeType.INDEX_NODE⟩ es1
          = sortedInsert IndexEntry.key
              ⟨tKey, tPid, GetKeyDataLength c tKey NodeType.INDEX_NODE⟩ pre ++ m0 :: mrest := by
        rw [h1]
        apply sortedInsert_append_lt
        show KeyCmp tKey m0.key < 0
        omega
      rw [hsplit]
      simp only [List.map_append, List.map_cons, map_kp_fresh]
  have hstrict := keysStrict_of_kp hkp hF
  refine ⟨_, _, m0, f2, by rw [h1]; simp, hres, g1, g2, hkp, hstrict, ?_, ?_⟩
  · intro x hx
    obtain ⟨_, t2, t3⟩ := hstrict.append
    rcases List.mem_append.1 hx with hx | hx
    · exact KeyCmp_lt_ne _ _ (t3 x hx m0 (List.mem_cons_self _ _))
    · exact (KeyCmp_lt_ne _ _ (t2.head_lt x hx)).symm
  · have := congrArg (List.map Prod.snd) hkp
    simp only [List.map_map] at this
    have hcomp : (Prod.snd ∘ IndexEntry.kp) = IndexEntry.pid := rfl
    rw [hcomp] at this
    simp only [children]
    rw [← this]
    simp

theorem C14_index_split_witness :
    ∃ (old3 new4 : List IndexEntry) (e : IndexEntry) (f2 : BTreeFile),
      e ∈ [⟨[99], 0, 6⟩, ⟨[101], 3, 6⟩, ⟨[103], 4, 6⟩, ⟨[105], 5, 6⟩, ⟨[107], 6, 6⟩,
        (⟨[109], 7, 6⟩ : IndexEntry)] ∧
      insertIndex cfg40 19 sixteenTreeLeafSplit 1 2
          [⟨[99], 0, 6⟩, ⟨[101], 3, 6⟩, ⟨[103], 4, 6⟩, ⟨[105], 5, 6⟩, ⟨[107], 6, 6⟩,
            ⟨[109], 7, 6⟩] [111] 8
        = Except.ok (Status.OK, (NewPage sixteenTreeLeafSplit).1, some e.key, f2) ∧
      getPage f2.pages 1 = some (Page.index 2 old3) ∧
      getPage f2.pages (NewPage sixteenTreeLeafSplit).1 = some (Page.index e.pid new4) ∧
      (old3 ++ e :: new4).map IndexEntry.kp
        = (sortedInsert IndexEntry.key
            ⟨[111], 8, GetKeyDataLength cfg40 [111] NodeType.INDEX_NODE⟩
            [⟨[99], 0, 6⟩, ⟨[101], 3, 6⟩, ⟨[103], 4, 6⟩, ⟨[105], 5, 6⟩, ⟨[107], 6, 6⟩,
              ⟨[109], 7, 6⟩]).map IndexEntry.kp ∧
      KeysStrict IndexEntry.key (old3 ++ e :: new4) ∧
      (∀ x ∈ old3 ++ new4, x.key ≠ e.key) ∧
      children 2 old3 ++ children e.pid new4
        = children 2 (sortedInsert IndexEntry.key
            ⟨[111], 8, GetKeyDataLength cfg40 [111] NodeType.INDEX_NODE⟩
            [⟨[99], 0, 6⟩, ⟨[101], 3, 6⟩, ⟨[103], 4, 6⟩, ⟨[105], 5, 6⟩, ⟨[107], 6, 6⟩,
              ⟨[109], 7, 6⟩]) :=
  C14_index_split cfg40 19 sixteenTreeLeafSplit 1 2
    [⟨[99], 0, 6⟩, ⟨[101], 3, 6⟩, ⟨[103], 4, 6⟩, ⟨[105], 5, 6⟩, ⟨[107], 6, 6⟩, ⟨[109], 7, 6⟩]
    [111] 8 (by decide) (by unfold KeysStrict; decide) (by decide) (by decide) (by decide)
    (by decide) (by decide) (by decide)

/-! ### C17: leaf redistribution -/

/-- C17 (fails on the code): under `cfg45`, deleting ("bbb", (1,0)) from leaf 2
of `redistTree` leaves the leaf underfull; the redistribution loop moves "d"
over from the right sibling 0, which stays half full, and `FindKey` reads the
old separator "d".  `AdjustKey` then copies the new first key "eeee" with its
terminator, 5 bytes, into the 6-byte slot that holds "d", its terminator and
the 4-byte child pointer: three bytes of the child pointer of the right-hand
leaf are overwritten, so the call has no defined result, where the claim
requires every child pointer of the parent to be unchanged. -/
theorem C17_adjust_key_overwrites_child_pointer :
    insertAll cfg45 20 BTreeFile.empty redistInserts = Except.ok redistTree ∧
    leafRedistLoop cfg45 true 2 0 20
        (setLeafSlots redistTree.pages 2 [([97], ⟨1, 5⟩), ([99, 99], ⟨1, 1⟩)])
        (some ([100], ⟨1, 2⟩))
      = Except.ok (redistTreeMoved.pages, some ([100], ⟨1, 2⟩)) ∧
    leafAvail cfg45 [([101, 101, 101, 101], ⟨1, 3⟩), ([102, 102, 102], ⟨1, 4⟩)]
      ≤ cfg45.HEAPPAGE_DATA_SIZE / 2 ∧
    FindKey [100] [⟨[100], 0, 6⟩] = (Status.OK, some [100]) ∧
    AdjustKey cfg45 [101, 101, 101, 101] [100] [⟨[100], 0, 6⟩]
      = Except.error Fault.undefined ∧
    deleteLeaf cfg45 20 redistTree 1 2 [98, 98, 98] ⟨1, 0⟩ = Except.error Fault.undefined ∧
    Delete cfg45 20 redistTree [98, 98, 98] ⟨1, 0⟩ = Except.error Fault.undefined := by
  refine ⟨by rfl, by rfl, by decide, by rfl, by rfl, by rfl, by rfl⟩

/-! ### C19: neither redistribution nor merge -/

/-- C19 (fails on the code): under `cfg45`, deleting ("a", (1,0)) from leaf 2 of
`sixTree` leaves the leaf underfull; the redistribution loop moves "c" and "d"
over from the right sibling 0 before the outcome is tested; the sibling is then
underfull and the two leaves do not fit one page, so the call returns with
`oldPid = INVALID_PAGE`, but the sibling has lost two entries, the node holds
them, and the parent still has the separator "c". -/
theorem C19_neither_branch_moves_entries :
    insertAll cfg45 20 BTreeFile.empty (fiveDistinct ++ [([102], ⟨1, 5⟩)])
      = Except.ok sixTree ∧
    deleteLeaf cfg45 20 sixTree 1 2 [97] ⟨1, 0⟩
      = Except.ok (Status.OK, INVALID_PAGE, some true, sixTreeMoved) ∧
    Delete cfg45 20 sixTree [97] ⟨1, 0⟩ = Except.ok (Status.OK, sixTreeMoved) ∧
    ¬ leafAvail cfg45 [([101], ⟨1, 4⟩), ([102], ⟨1, 5⟩)] ≤ cfg45.HEAPPAGE_DATA_SIZE / 2 ∧
    leafAvail cfg45 [([101], ⟨1, 4⟩), ([102], ⟨1, 5⟩)]
      + leafAvail cfg45 [([98], ⟨1, 1⟩), ([99], ⟨1, 2⟩), ([100], ⟨1, 3⟩)]
      < cfg45.HEAPPAGE_DATA_SIZE ∧
    getPage sixTree.pages 0
      = some (Page.leaf 2 (-1)
          [([99], ⟨1, 2⟩), ([100], ⟨1, 3⟩), ([101], ⟨1, 4⟩), ([102], ⟨1, 5⟩)]) ∧
    getPage sixTreeMoved.pages 0
      = some (Page.leaf 2 (-1) [([101], ⟨1, 4⟩), ([102], ⟨1, 5⟩)]) ∧
    getPage sixTreeMoved.pages 2
      = some (Page.leaf (-1) 0 [([98], ⟨1, 1⟩), ([99], ⟨1, 2⟩), ([100], ⟨1, 3⟩)]) ∧
    getPage sixTreeMoved.pages 1 = some (Page.index 2 [⟨[99], 0, 6⟩]) := by
  refine ⟨by rfl, by rfl, by rfl, by decide, by decide, by rfl, by rfl, by rfl, by rfl⟩


/-! ### The loops of `_Delete` at a leaf -/

theorem leafDelete_sublist (k : Key) (r : RecordID) (l : List (Key × RecordID)) :
    (leafDelete k r l).2.Sublist l := by
  induction l with
  | nil => simp [leafDelete]
  | cons a l ih =>
    unfold leafDelete
    by_cases ha : a.1 = k ∧ a.2 = r
    · simp only [ha, and_self, if_true]
      exact List.sublist_cons_self _ _
    · simp only [ha, if_false]
      exact ih.cons₂ a

theorem leafDelete_cover (k : Key) (r : RecordID) (l : List (Key × RecordID))
    (x : Key × RecordID) (hx : x ∈ l) : x = (k, r) ∨ x ∈ (leafDelete k r l).2 := by
  induction l with
  | nil => cases hx
  | cons a l ih =>
    unfold leafDelete
    by_cases ha : a.1 = k ∧ a.2 = r
    · simp only [ha, and_self, if_true]
      rcases List.mem_cons.1 hx with hx | hx
      · left; rw [hx]; exact Prod.ext ha.1 ha.2
      · right; exact hx
    · simp only [ha, if_false]
      rcases List.mem_cons.1 hx with hx | hx
      · right; rw [hx]; exact List.mem_cons_self _ _
      · rcases ih hx with h | h
        · left; exact h
        · right; exact List.mem_cons_of_mem _ h

theorem leafUsed_sublist (c : Config) {l1 l2 : List (Key × RecordID)} (h : l1.Sublist l2) :
    leafUsed c l1 ≤ leafUsed c l2 := by
  induction h with
  | slnil => exact Nat.le_refl _
  | cons a _ ih => simp only [leafUsed]; omega
  | cons₂ a _ ih => simp only [leafUsed]; omega

theorem leafSlots_of_getPage {pages : List (PageID × Page)} {q a b : PageID}
    {es : List (Key × RecordID)} (h : getPage pages q = some (Page.leaf a b es)) :
    leafSlots pages q = Except.ok es := by
  simp only [leafSlots, h]

theorem getPage_setLeafSlots_same (pages : List (PageID × Page)) (p a b : PageID)
    (es0 es : List (Key × RecordID)) (hp : getPage pages p = some (Page.leaf a b es0)) :
    getPage (setLeafSlots pages p es) p = some (Page.leaf a b es) := by
  rw [getPage_setLeafSlots pages p p a b es0 es hp]
  simp

theorem getPage_setLeafSlots_ne (pages : List (PageID × Page)) (p q : PageID)
    (es : List (Key × RecordID)) (hq : q ≠ p) :
    getPage (setLeafSlots pages p es) q = getPage pages q := by
  unfold setLeafSlots
  split
  · exact getPage_setPage_ne _ _ _ _ hq
  · rfl

/-- The redistribution loop of `_Delete` at a leaf, when it returns: the two
leaves keep their links, every other page is untouched, the two leaves together
hold the same entries as a set, the node stays within the page and the sibling
only loses entries. -/
theorem leafRedistLoop_spec (c : Config) ( rightSibling : Bool) (nodePid siblingPid : PageID)
    (np nn sp sn : PageID) (hne : nodePid ≠ siblingPid) :
    ∀ (fuel : Nat) (pages pages2 : List (PageID × Page)) (buf buf2 : Option (Key × RecordID))
      (node sib : List (Key × RecordID)),
      leafRedistLoop c rightSibling nodePid siblingPid fuel pages buf
        = Except.ok (pages2, buf2) →
      getPage pages nodePid = some (Page.leaf np nn node) →
      getPage pages siblingPid = some (Page.leaf sp sn sib) →
      (∀ e, buf = some e → e ∈ node ++ sib) →
      leafUsed c node ≤ c.HEAPPAGE_DATA_SIZE →
      ∃ node2 sib2, getPage pages2 nodePid = some (Page.leaf np nn node2) ∧
        getPage pages2 siblingPid = some (Page.leaf sp sn sib2) ∧
        (∀ q, q ≠ nodePid → q ≠ siblingPid → getPage pages2 q = getPage pages q) ∧
        (∀ e, e ∈ node2 ++ sib2 ↔ e ∈ node ++ sib) ∧
        leafUsed c node2 ≤ c.HEAPPAGE_DATA_SIZE ∧ sib2.Sublist sib := by
  intro fuel
  induction fuel with
  | zero => intro pages pages2 buf buf2 node sib h; simp [leafRedistLoop] at h
  | succ fuel ih =>
    intro pages pages2 buf buf2 node sib h hN hS hbuf hu
    unfold leafRedistLoop at h
    simp only [leafSlots_of_getPage hN, leafSlots_of_getPage hS] at h
    by_cases hc : leafAvail c node > c.HEAPPAGE_DATA_SIZE / 2
    · simp only [hc, if_true] at h
      -- the buffer after `GetFirst` / `GetLast`
      have hgot : ∀ e, (if rightSibling = true then sib.head? else sib.getLast?) = some e →
          e ∈ sib := by
        intro e he
        by_cases hr : rightSibling = true
        · simp only [hr, if_true] at he
          exact List.mem_of_mem_head? he
        · simp only [hr, if_false] at he
          exact List.mem_of_mem_getLast? he
      generalize hg : (if rightSibling = true then sib.head? else sib.getLast?) = got at h hgot
      have tail : ∀ e : Key × RecordID, e ∈ node ++ sib →
          (if (leafInsert c e.1 e.2 node).1 = Status.OK then
            match leafSlots (setLeafSlots pages nodePid (leafInsert c e.1 e.2 node).2)
                siblingPid with
            | Except.ok sib1 =>
              leafRedistLoop c rightSibling nodePid siblingPid fuel
                (setLeafSlots (setLeafSlots pages nodePid (leafInsert c e.1 e.2 node).2)
                  siblingPid (leafDelete e.1 e.2 sib1).2) (some e)
            | Except.error x => Except.error x
          else
            leafRedistLoop c rightSibling nodePid siblingPid fuel
              (setLeafSlots pages nodePid (leafInsert c e.1 e.2 node).2) (some e))
            = Except.ok (pages2, buf2) →
          ∃ node2 sib2, getPage pages2 nodePid = some (Page.leaf np nn node2) ∧
            getPage pages2 siblingPid = some (Page.leaf sp sn sib2) ∧
            (∀ q, q ≠ nodePid → q ≠ siblingPid → getPage pages2 q = getPage pages q) ∧
            (∀ e, e ∈ node2 ++ sib2 ↔ e ∈ node ++ sib) ∧
            leafUsed c node2 ≤ c.HEAPPAGE_DATA_SIZE ∧ sib2.Sublist sib := by
        intro e he h
        by_cases hins : (leafInsert c e.1 e.2 node).1 = Status.OK
        · simp only [hins, if_true] at h
          have hfit : GetKeyDataLength c e.1 NodeType.LEAF_NODE ≤ leafAvail c node := by
            by_contra hnf
            simp [leafInsert, hnf] at hins
          have hins2 : (leafInsert c e.1 e.2 node).2 = sortedInsert Prod.fst e node := by
            simp [leafInsert, hfit]
          rw [hins2] at h
          have hN1 := getPage_setLeafSlots_same pages nodePid np nn node
            (sortedInsert Prod.fst e node) hN
          have hS1 : getPage (setLeafSlots pages nodePid (sortedInsert Prod.fst e node))
              siblingPid = some (Page.leaf sp sn sib) := by
            rw [getPage_setLeafSlots_ne _ _ _ _ hne.symm, hS]
          simp only [leafSlots_of_getPage hS1] at h
          have hS2 := getPage_setLeafSlots_same _ siblingPid sp sn sib
            (leafDelete e.1 e.2 sib).2 hS1
          have hN2 : getPage (setLeafSlots (setLeafSlots pages nodePid
              (sortedInsert Prod.fst e node)) siblingPid (leafDelete e.1 e.2 sib).2) nodePid
              = some (Page.leaf np nn (sortedInsert Prod.fst e node)) := by
            rw [getPage_setLeafSlots_ne _ _ _ _ hne, hN1]
          have hu2 : leafUsed c (sortedInsert Prod.fst e node) ≤ c.HEAPPAGE_DATA_SIZE := by
            rw [leafUsed_sortedInsert]
            unfold leafAvail at hfit hc
            omega
          obtain ⟨node2, sib2, r1, r2, r3, r4, r5, r6⟩ := ih _ pages2 _ buf2 _ _ h hN2 hS2
            (by
              intro x hx
              simp only [Option.some.injEq] at hx
              rw [← hx]
              exact List.mem_append_left _ ((mem_sortedInsert Prod.fst e e node).2 (Or.inl rfl)))
            hu2
          refine ⟨node2, sib2, r1, r2, ?_, ?_, r5, r6.trans (leafDelete_sublist _ _ _)⟩
          · intro q hq1 hq2
            rw [r3 q hq1 hq2, getPage_setLeafSlots_ne _ _ _ _ hq2,
              getPage_setLeafSlots_ne _ _ _ _ hq1]
          · intro x
            rw [r4 x]
            simp only [List.mem_append, mem_sortedInsert]
            constructor
            · rintro ((h0 | h0) | h0)
              · rw [h0]; exact List.mem_append.1 he
              · exact Or.inl h0
              · exact Or.inr ((leafDelete_sublist _ _ _).subset h0)
            · rintro (h0 | h0)
              · exact Or.inl (Or.inr h0)
              · rcases leafDelete_cover e.1 e.2 sib x h0 with h1 | h1
                · exact Or.inl (Or.inl h1)
                · exact Or.inr h1
        · simp only [hins, if_false] at h
          have hins2 : (leafInsert c e.1 e.2 node).2 = node := by
            unfold leafInsert at hins ⊢
            split
            · rename_i hfit
              simp [hfit] at hins
            · rfl
          rw [hins2] at h
          have hN1 := getPage_setLeafSlots_same pages nodePid np nn node node hN
          have hS1 : getPage (setLeafSlots pages nodePid node) siblingPid
              = some (Page.leaf sp sn sib) := by
            rw [getPage_setLeafSlots_ne _ _ _ _ hne.symm, hS]
          obtain ⟨node2, sib2, r1, r2, r3, r4, r5, r6⟩ := ih _ pages2 _ buf2 _ _ h hN1 hS1
            (by
              intro x hx
              simp only [Option.some.injEq] at hx
              rw [← hx]; exact he)
            hu
          refine ⟨node2, sib2, r1, r2, ?_, r4, r5, r6⟩
          intro q hq1 hq2
          rw [r3 q hq1 hq2, getPage_setLeafSlots_ne _ _ _ _ hq1]
      cases got with
      | some g =>
        exact tail g (List.mem_append_right _ (hgot g rfl)) h
      | none =>
        cases buf with
        | none => cases h
        | some b => exact tail b (hbuf b rfl) h
    · simp only [hc, if_false, Except.ok.injEq, Prod.mk.injEq] at h
      obtain ⟨h1, _⟩ := h
      subst h1
      exact ⟨node, sib, hN, hS, fun q _ _ => rfl, fun e => Iff.rfl, hu, List.Sublist.refl _⟩

/-- The merge loop of `_Delete` at a leaf returns when the two leaves fit one
page: the sibling is drained into the node, links and other pages are as they
were. -/
theorem leafMergeLoop_total (c : Config) (nodePid siblingPid : PageID)
    (np nn sp sn : PageID) (hne : nodePid ≠ siblingPid) :
    ∀ (fuel : Nat) (pages : List (PageID × Page)) (node sib : List (Key × RecordID)),
      sib.length < fuel →
      getPage pages nodePid = some (Page.leaf np nn node) →
      getPage pages siblingPid = some (Page.leaf sp sn sib) →
      leafUsed c node + leafUsed c sib ≤ c.HEAPPAGE_DATA_SIZE →
      ∃ pages3 node3, leafMergeLoop c nodePid siblingPid fuel pages = Except.ok pages3 ∧
        getPage pages3 nodePid = some (Page.leaf np nn node3) ∧
        getPage pages3 siblingPid = some (Page.leaf sp sn []) ∧
        (∀ q, q ≠ nodePid → q ≠ siblingPid → getPage pages3 q = getPage pages q) ∧
        node3.Perm (node ++ sib) := by
  intro fuel
  induction fuel with
  | zero => intro pages node sib hlen; omega
  | succ fuel ih =>
    intro pages node sib hlen hN hS hu
    unfold leafMergeLoop
    simp only [leafSlots_of_getPage hS]
    cases sib with
    | nil =>
      simp only
      exact ⟨pages, node, rfl, hN, hS, fun q _ _ => rfl, by simp⟩
    | cons e rest =>
      simp only [leafSlots_of_getPage hN]
      simp only [leafUsed] at hu
      have hfit : GetKeyDataLength c e.1 NodeType.LEAF_NODE ≤ leafAvail c node := by
        unfold leafAvail; omega
      have hins2 : (leafInsert c e.1 e.2 node).2 = sortedInsert Prod.fst e node := by
        simp [leafInsert, hfit]
      rw [hins2]
      have hN1 := getPage_setLeafSlots_same pages nodePid np nn node
        (sortedInsert Prod.fst e node) hN
      have hS1 : getPage (setLeafSlots pages nodePid (sortedInsert Prod.fst e node))
          siblingPid = some (Page.leaf sp sn (e :: rest)) := by
        rw [getPage_setLeafSlots_ne _ _ _ _ hne.symm, hS]
      simp only [leafSlots_of_getPage hS1]
      have hdel : (leafDelete e.1 e.2 (e :: rest)).2 = rest := by
        rw [leafDelete_head]
      rw [hdel]
      have hS2 := getPage_setLeafSlots_same _ siblingPid sp sn (e :: rest) rest hS1
      have hN2 : getPage (setLeafSlots (setLeafSlots pages nodePid
          (sortedInsert Prod.fst e node)) siblingPid rest) nodePid
          = some (Page.leaf np nn (sortedInsert Prod.fst e node)) := by
        rw [getPage_setLeafSlots_ne _ _ _ _ hne, hN1]
      obtain ⟨pages3, node3, r1, r2, r3, r4, r5⟩ := ih _ _ rest
        (by simp at hlen; omega) hN2 hS2
        (by rw [leafUsed_sortedInsert]; omega)
      refine ⟨pages3, node3, r1, r2, r3, ?_, ?_⟩
      · intro q hq1 hq2
        rw [r4 q hq1 hq2, getPage_setLeafSlots_ne _ _ _ _ hq2,
          getPage_setLeafSlots_ne _ _ _ _ hq1]
      · refine r5.trans ?_
        have p1 := sortedInsert_perm Prod.fst e node
        exact (List.Perm.append_right rest p1).trans List.perm_middle.symm


theorem getNext_setNext_same (pages : List (PageID × Page)) (p x : PageID)
    (es : List (Key × RecordID)) (h : HasSlots pages p es) :
    getNext (setNext pages p x) p = Except.ok x := by
  obtain ⟨a, b, h⟩ := h
  simp only [getNext, setNext, h, getPage_setPage_same]

theorem getPrev_setPrev_same (pages : List (PageID × Page)) (p x : PageID)
    (h : getPage pages p ≠ none) : getPrev (setPrev pages p x) p = Except.ok x := by
  cases hp : getPage pages p with
  | none => exact absurd hp h
  | some pg =>
    cases pg with
    | leaf a b es => simp only [getPrev, setPrev, hp, getPage_setPage_same]
    | index l es => simp only [getPrev, setPrev, hp, getPage_setPage_same]

theorem getPrev_setNext (pages : List (PageID × Page)) (p x q : PageID) :
    getPrev (setNext pages p x) q = getPrev pages q := by
  unfold setNext
  cases hp : getPage pages p with
  | none => rfl
  | some pg =>
    cases pg with
    | index l es => rfl
    | leaf a b es =>
      simp only
      unfold getPrev
      rw [getPage_setPage]
      by_cases hq : q = p
      · subst hq
        simp only [if_true, hp]
      · simp only [hq, if_false]

theorem getNext_setPrev (pages : List (PageID × Page)) (p x q : PageID) :
    getNext (setPrev pages p x) q = getNext pages q := by
  unfold setPrev
  cases hp : getPage pages p with
  | none => rfl
  | some pg =>
    cases pg with
    | index l es =>
      simp only
      unfold getNext
      rw [getPage_setPage]
      by_cases hq : q = p
      · subst hq
        simp only [if_true, hp]
      · simp only [hq, if_false]
    | leaf a b es =>
      simp only
      unfold getNext
      rw [getPage_setPage]
      by_cases hq : q = p
      · subst hq
        simp only [if_true, hp]
      · simp only [hq, if_false]

theorem getPage_setPrev_of_leaf (pages : List (PageID × Page)) (p x q : PageID)
    (h : ∃ a b es, getPage pages p = some (Page.leaf a b es))
    (l : PageID) (is : List IndexEntry) (hq : getPage pages q = some (Page.index l is)) :
    getPage (setPrev pages p x) q = some (Page.index l is) := by
  obtain ⟨a, b, es, h⟩ := h
  have hne : q ≠ p := by
    intro h0
    rw [h0, h] at hq
    cases hq
  simp only [setPrev, h]
  rw [getPage_setPage_ne _ _ _ _ hne, hq]

theorem getPage_setNext_of_leaf (pages : List (PageID × Page)) (p x q : PageID)
    (l : PageID) (is : List IndexEntry) (hq : getPage pages q = some (Page.index l is)) :
    getPage (setNext pages p x) q = some (Page.index l is) := by
  unfold setNext
  cases hp : getPage pages p with
  | none => exact hq
  | some pg =>
    cases pg with
    | index l2 es2 => exact hq
    | leaf a b es =>
      simp only
      have hne : q ≠ p := by
        intro h0
        rw [h0, hp] at hq
        cases hq
      rw [getPage_setPage_ne _ _ _ _ hne, hq]

/-! ### The merge branch of `_Delete` at a leaf (C18) -/

/-- The merge branch of `_Delete` at a leaf: when the deletion leaves the node
underfull,
the redistribution loop has returned the store `pages2`, the sibling is then
underfull and `AvailableSpace(sibling) + AvailableSpace(node) >=
HEAPPAGE_DATA_SIZE` (the two leaves start within the page, the chain neighbour
beyond the sibling is a leaf or absent), the call returns with `oldPid` the
sibling's page id; the sibling holds no entries; the node holds, as a set,
every entry the two leaves held after the deletion; for a right sibling the
node's next is the sibling's old next and that page's prev is the node, for a
left sibling the node's prev is the sibling's old prev and that page's next is
the node; the parent page is as it was. -/
theorem deleteLeaf_merge_total (c : Config) (fuel : Nat) (f : BTreeFile)
    (parentPid nodePid siblingPid : PageID) (key : Key) (rid : RecordID)
    (np nn sp sn pleft : PageID) (nslots dslots sslots node2 sib2 : List (Key × RecordID))
    (pslots : List IndexEntry) ( rightSibling : Bool) (st : Status) (b0 : Key × RecordID)
    (pages2 : List (PageID × Page)) (buf2 : Option (Key × RecordID))
    (hN : getPage f.pages nodePid = some (Page.leaf np nn nslots))
    (hdel : leafDelete key rid nslots = (Status.OK, dslots))
    (hunder : ¬ leafAvail c dslots ≤ c.HEAPPAGE_DATA_SIZE / 2)
    (hP : getPage f.pages parentPid = some (Page.index pleft pslots))
    (hsib : FindSiblingForChild nodePid pleft pslots
      = Except.ok (st, some siblingPid, some rightSibling))
    (hS : getPage f.pages siblingPid = some (Page.leaf sp sn sslots))
    (hne : nodePid ≠ siblingPid)
    (hb0 : (if rightSibling = true then sslots.head? else dslots.head?) = some b0)
    (hloop : leafRedistLoop c rightSibling nodePid siblingPid fuel
      (setLeafSlots f.pages nodePid dslots) (some b0) = Except.ok (pages2, buf2))
    (hn2 : leafSlots pages2 nodePid = Except.ok node2)
    (hs2 : leafSlots pages2 siblingPid = Except.ok sib2)
    (hnot : ¬ leafAvail c sib2 ≤ c.HEAPPAGE_DATA_SIZE / 2)
    (hmerge : leafAvail c sib2 + leafAvail c node2 ≥ c.HEAPPAGE_DATA_SIZE)
    (huN : leafUsed c nslots ≤ c.HEAPPAGE_DATA_SIZE)
    (huS : leafUsed c sslots ≤ c.HEAPPAGE_DATA_SIZE)
    (hfuel : sslots.length < fuel)
    (hnb : (if rightSibling = true then sn else sp) = INVALID_PAGE ∨
      ∃ a b es, getPage f.pages (if rightSibling = true then sn else sp)
        = some (Page.leaf a b es)) :
    ∃ (f2 : BTreeFile) (nodeF : List (Key × RecordID)),
      deleteLeaf c fuel f parentPid nodePid key rid
        = Except.ok (Status.OK, siblingPid, some rightSibling, f2) ∧
      HasSlots f2.pages siblingPid [] ∧ HasSlots f2.pages nodePid nodeF ∧
      (∀ e, e ∈ nodeF ↔ e ∈ dslots ∨ e ∈ sslots) ∧
      (rightSibling = true → getNext f2.pages nodePid = Except.ok sn ∧
        (sn ≠ INVALID_PAGE → getPrev f2.pages sn = Except.ok nodePid)) ∧
      (rightSibling = false → getPrev f2.pages nodePid = Except.ok sp ∧
        (sp ≠ INVALID_PAGE → getNext f2.pages sp = Except.ok nodePid)) ∧
      getPage f2.pages parentPid = some (Page.index pleft pslots) := by
  have hPN : parentPid ≠ nodePid := by
    intro h0; rw [h0, hN] at hP; cases hP
  have hPS : parentPid ≠ siblingPid := by
    intro h0; rw [h0, hS] at hP; cases hP
  -- the store after the deletion
  have hN1 := getPage_setLeafSlots_same f.pages nodePid np nn nslots dslots hN
  have hS1 : getPage (setLeafSlots f.pages nodePid dslots) siblingPid
      = some (Page.leaf sp sn sslots) := by
    rw [getPage_setLeafSlots_ne _ _ _ _ hne.symm, hS]
  have hP1 : getPage (setLeafSlots f.pages nodePid dslots) parentPid
      = some (Page.index pleft pslots) := by
    rw [getPage_setLeafSlots_ne _ _ _ _ hPN, hP]
  have hdsub : dslots.Sublist nslots := by
    have := leafDelete_sublist key rid nslots
    rw [hdel] at this
    exact this
  have huD : leafUsed c dslots ≤ c.HEAPPAGE_DATA_SIZE :=
    le_trans (leafUsed_sublist c hdsub) huN
  have hb0mem : b0 ∈ dslots ++ sslots := by
    by_cases hr : rightSibling = true
    · simp only [hr, if_true] at hb0
      exact List.mem_append_right _ (List.mem_of_mem_head? hb0)
    · simp only [hr, if_false] at hb0
      exact List.mem_append_left _ (List.mem_of_mem_head? hb0)
  -- the store after the redistribution loop
  obtain ⟨node2x, sib2x, a1, a2, a3, a4, a5, a6⟩ :=
    leafRedistLoop_spec c rightSibling nodePid siblingPid np nn sp sn hne fuel _ pages2 _ buf2
      dslots sslots hloop hN1 hS1
      (by intro e he; simp only [Option.some.injEq] at he; rw [← he]; exact hb0mem) huD
  have e1 : node2x = node2 := by
    have := leafSlots_of_getPage a1
    rw [hn2] at this
    cases this; rfl
  have e2 : sib2x = sib2 := by
    have := leafSlots_of_getPage a2
    rw [hs2] at this
    cases this; rfl
  subst e1; subst e2
  have hP2 : getPage pages2 parentPid = some (Page.index pleft pslots) := by
    rw [a3 parentPid hPN hPS, hP1]
  have huS2 : leafUsed c sib2x ≤ c.HEAPPAGE_DATA_SIZE :=
    le_trans (leafUsed_sublist c a6) huS
  have hsum : leafUsed c node2x + leafUsed c sib2x ≤ c.HEAPPAGE_DATA_SIZE := by
    unfold leafAvail at hmerge
    omega
  -- the store after the merge loop
  obtain ⟨pages3, node3, m1, m2, m3, m4, m5⟩ :=
    leafMergeLoop_total c nodePid siblingPid np nn sp sn hne fuel pages2 node2x sib2x
      (lt_of_le_of_lt a6.length_le hfuel) a1 a2 hsum
  have hP3 : getPage pages3 parentPid = some (Page.index pleft pslots) := by
    rw [m4 parentPid hPN hPS, hP2]
  have hmem : ∀ e, e ∈ node3 ↔ e ∈ dslots ∨ e ∈ sslots := by
    intro e
    rw [m5.mem_iff, a4 e, List.mem_append]
  have hHN : HasSlots pages3 nodePid node3 := ⟨np, nn, m2⟩
  have hHS : HasSlots pages3 siblingPid [] := ⟨sp, sn, m3⟩
  -- a leaf of the original store is a leaf of `pages3`
  have hleaf3 : ∀ q, (∃ a b es, getPage f.pages q = some (Page.leaf a b es)) →
      ∃ a b es, getPage pages3 q = some (Page.leaf a b es) := by
    intro q hq
    by_cases h1 : q = nodePid
    · rw [h1]; exact ⟨np, nn, node3, m2⟩
    · by_cases h2 : q = siblingPid
      · rw [h2]; exact ⟨sp, sn, [], m3⟩
      · rw [m4 q h1 h2, a3 q h1 h2, getPage_setLeafSlots_ne _ _ _ _ h1]
        exact hq
  have hfullOK : ¬ ((leafDelete key rid nslots).1 = Status.FAIL ∨
      leafAvail c (leafDelete key rid nslots).2 ≤ c.HEAPPAGE_DATA_SIZE / 2) := by
    rw [hdel]
    rintro (h0 | h0)
    · cases h0
    · exact hunder h0
  unfold deleteLeaf
  simp only [leafSlots_of_getPage hN, hfullOK, if_false]
  simp only [hdel, if_true, indexSlots, hP1, hsib, hS1, hb0, hloop, hn2, hs2, hP2, hnot,
    hmerge, ge_iff_le, m1]
  by_cases hr : rightSibling = true
  · subst hr
    simp only [if_true] at hnb ⊢
    have hnext : getNext pages3 siblingPid = Except.ok sn := by
      simp only [getNext, m3]
    simp only [hnext]
    have hpin : ¬ (sn ≠ INVALID_PAGE ∧ getPage pages3 sn = none) := by
      rintro ⟨h1, h2⟩
      rcases hnb with h0 | h0
      · exact h1 h0
      · obtain ⟨a, b, es, h3⟩ := hleaf3 sn h0
        rw [h3] at h2; cases h2
    simp only [hpin, if_false]
    refine ⟨_, node3, rfl, ?_, ?_, hmem, ?_, ?_, ?_⟩
    · simp only
      split
      · exact (hHS.links_setPrev _ _).links_setNext _ _
      · exact hHS.links_setNext _ _
    · simp only
      split
      · exact (hHN.links_setPrev _ _).links_setNext _ _
      · exact hHN.links_setNext _ _
    · intro _
      simp only
      constructor
      · split
        · exact getNext_setNext_same _ _ _ _ (hHN.links_setPrev _ _)
        · exact getNext_setNext_same _ _ _ _ hHN
      · intro hsn
        simp only [hsn, ne_eq, not_false_eq_true, if_true]
        rw [getPrev_setNext]
        apply getPrev_setPrev_same
        rcases hnb with h0 | h0
        · exact absurd h0 hsn
        · obtain ⟨a, b, es, h3⟩ := hleaf3 sn h0
          rw [h3]; simp
    · intro h0; cases h0
    · simp only
      apply getPage_setNext_of_leaf
      split
      · rename_i hsn
        apply getPage_setPrev_of_leaf _ _ _ _ _ _ _ hP3
        rcases hnb with h0 | h0
        · exact absurd h0 hsn
        · exact hleaf3 sn h0
      · exact hP3
  · have hr2 : rightSibling = false := by cases rightSibling <;> simp at hr ⊢
    subst hr2
    simp only [Bool.false_eq_true, if_false] at hnb ⊢
    have hprev : getPrev pages3 siblingPid = Except.ok sp := by
      simp only [getPrev, m3]
    simp only [hprev]
    have hpin : ¬ (sp ≠ INVALID_PAGE ∧ getPage pages3 sp = none) := by
      rintro ⟨h1, h2⟩
      rcases hnb with h0 | h0
      · exact h1 h0
      · obtain ⟨a, b, es, h3⟩ := hleaf3 sp h0
        rw [h3] at h2; cases h2
    simp only [hpin, if_false]
    refine ⟨_, node3, rfl, ?_, ?_, hmem, ?_, ?_, ?_⟩
    · simp only
      split
      · exact (hHS.links_setNext _ _).links_setPrev _ _
      · exact hHS.links_setPrev _ _
    · simp only
      split
      · exact (hHN.links_setNext _ _).links_setPrev _ _
      · exact hHN.links_setPrev _ _
    · intro h0; cases h0
    · intro _
      simp only
      constructor
      · apply getPrev_setPrev_same
        split
        · obtain ⟨a, b, h3⟩ := hHN.links_setNext sp nodePid
          rw [h3]; simp
        · rw [m2]; simp
      · intro hsp
        simp only [hsp, ne_eq, not_false_eq_true, if_true]
        rw [getNext_setPrev]
        rcases hnb with h0 | h0
        · exact absurd h0 hsp
        · obtain ⟨a, b, es, h3⟩ := hleaf3 sp h0
          exact getNext_setNext_same _ _ _ es ⟨a, b, h3⟩
    · simp only
      have hP4 : getPage (if sp ≠ INVALID_PAGE then setNext pages3 sp nodePid else pages3)
          parentPid = some (Page.index pleft pslots) := by
        split
        · exact getPage_setNext_of_leaf _ _ _ _ _ _ hP3
        · exact hP3
      apply getPage_setPrev_of_leaf _ _ _ _ _ _ _ hP4
      split
      · obtain ⟨a, b, h3⟩ := hHN.links_setNext sp nodePid
        exact ⟨a, b, node3, h3⟩
      · exact ⟨np, nn, node3, m2⟩

/-- C18: in `_Delete` at a leaf, when the deletion leaves the node underfull,
the redistribution loop has returned the store `pages2`, the sibling is then
underfull and `AvailableSpace(sibling) + AvailableSpace(node) >=
HEAPPAGE_DATA_SIZE` (the two leaves start within the page, the chain neighbour
beyond the sibling is a leaf or absent), the call returns with `oldPid` the
sibling's page id; the sibling holds no entries; the node holds, as a set,
every entry the two leaves held after the deletion; for a right sibling the
node's next is the sibling's old next and that page's prev is the node, for a
left sibling the node's prev is the sibling's old prev and that page's next is
the node; the parent page is as it was. -/
theorem C18_leaf_merge (c : Config) (fuel : Nat) (f : BTreeFile)
    (parentPid nodePid siblingPid : PageID) (key : Key) (rid : RecordID)
    (np nn sp sn pleft : PageID) (nslots dslots sslots node2 sib2 : List (Key × RecordID))
    (pslots : List IndexEntry) ( rightSibling : Bool) (st : Status) (b0 : Key × RecordID)
    (pages2 : List (PageID × Page)) (buf2 : Option (Key × RecordID))
    (hN : getPage f.pages nodePid = some (Page.leaf np nn nslots))
    (hdel : leafDelete key rid nslots = (Status.OK, dslots))
    (hunder : ¬ leafAvail c dslots ≤ c.HEAPPAGE_DATA_SIZE / 2)
    (hP : getPage f.pages parentPid = some (Page.index pleft pslots))
    (hsib : FindSiblingForChild nodePid pleft pslots
      = Except.ok (st, some siblingPid, some rightSibling))
    (hS : getPage f.pages siblingPid = some (Page.leaf sp sn sslots))
    (hne : nodePid ≠ siblingPid)
    (hb0 : (if rightSibling = true then sslots.head? else dslots.head?) = some b0)
    (hloop : leafRedistLoop c rightSibling nodePid siblingPid fuel
      (setLeafSlots f.pages nodePid dslots) (some b0) = Except.ok (pages2, buf2))
    (hn2 : leafSlots pages2 nodePid = Except.ok node2)
    (hs2 : leafSlots pages2 siblingPid = Except.ok sib2)
    (hnot : ¬ leafAvail c sib2 ≤ c.HEAPPAGE_DATA_SIZE / 2)
    (hmerge : leafAvail c sib2 + leafAvail c node2 ≥ c.HEAPPAGE_DATA_SIZE)
    (huN : leafUsed c nslots ≤ c.HEAPPAGE_DATA_SIZE)
    (huS : leafUsed c sslots ≤ c.HEAPPAGE_DATA_SIZE)
    (hfuel : sslots.length < fuel)
    (hnb : (if rightSibling = true then sn else sp) = INVALID_PAGE ∨
      ∃ a b es, getPage f.pages (if rightSibling = true then sn else sp)
        = some (Page.leaf a b es)) :
    ∃ (f2 : BTreeFile) (nodeF : List (Key × RecordID)),
      deleteLeaf c fuel f parentPid nodePid key rid
        = Except.ok (Status.OK, siblingPid, some rightSibling, f2) ∧
      HasSlots f2.pages siblingPid [] ∧ HasSlots f2.pages nodePid nodeF ∧
      (∀ e, e ∈ nodeF ↔ e ∈ dslots ∨ e ∈ sslots) ∧
      (rightSibling = true → getNext f2.pages nodePid = Except.ok sn ∧
        (sn ≠ INVALID_PAGE → getPrev f2.pages sn = Except.ok nodePid)) ∧
      (rightSibling = false → getPrev f2.pages nodePid = Except.ok sp ∧
        (sp ≠ INVALID_PAGE → getNext f2.pages sp = Except.ok nodePid)) ∧
      getPage f2.pages parentPid = some (Page.index pleft pslots) :=
  deleteLeaf_merge_total c fuel f parentPid nodePid siblingPid key rid np nn sp sn pleft nslots
    dslots sslots node2 sib2 pslots rightSibling st b0 pages2 buf2 hN hdel hunder hP hsib hS hne
    hb0 hloop hn2 hs2 hnot hmerge huN huS hfuel hnb

theorem C18_leaf_merge_witness :
    ∃ (f2 : BTreeFile) (nodeF : List (Key × RecordID)),
      deleteLeaf cfg45 20 fiveDistinctTree 1 2 [97] ⟨1, 0⟩
        = Except.ok (Status.OK, 0, some true, f2) ∧
      HasSlots f2.pages 0 [] ∧ HasSlots f2.pages 2 nodeF ∧
      (∀ e, e ∈ nodeF ↔ e ∈ [(([98] : Key), (⟨1, 1⟩ : RecordID))] ∨
        e ∈ [([99], ⟨1, 2⟩), ([100], ⟨1, 3⟩), ([101], ⟨1, 4⟩)]) ∧
      (true = true → getNext f2.pages 2 = Except.ok (-1) ∧
        ((-1 : PageID) ≠ INVALID_PAGE → getPrev f2.pages (-1) = Except.ok 2)) ∧
      (true = false → getPrev f2.pages 2 = Except.ok 2 ∧
        ((2 : PageID) ≠ INVALID_PAGE → getNext f2.pages 2 = Except.ok 2)) ∧
      getPage f2.pages 1 = some (Page.index 2 [⟨[99], 0, 6⟩]) :=
  C18_leaf_merge cfg45 20 fiveDistinctTree 1 2 0 [97] ⟨1, 0⟩ (-1) 0 2 (-1) 2
    [([97], ⟨1, 0⟩), ([98], ⟨1, 1⟩)] [([98], ⟨1, 1⟩)]
    [([99], ⟨1, 2⟩), ([100], ⟨1, 3⟩), ([101], ⟨1, 4⟩)]
    [([98], ⟨1, 1⟩), ([99], ⟨1, 2⟩), ([100], ⟨1, 3⟩)] [([101], ⟨1, 4⟩)]
    [⟨[99], 0, 6⟩] true Status.FAIL ([99], ⟨1, 2⟩) fiveDistinctMoved.pages
    (some ([100], ⟨1, 3⟩))
    (by rfl) (by rfl) (by decide) (by rfl) (by rfl) (by rfl) (by decide) (by rfl) (by rfl)
    (by rfl) (by rfl) (by decide) (by decide) (by decide) (by decide) (by decide) (Or.inl rfl)


/-! ### Root collapse -/

theorem deleteSlot_length {α : Type} : ∀ (n : Nat) (l : List α),
    l.length ≤ (deleteSlot n l).length + 1
  | _, [] => by simp [deleteSlot]
  | 0, _ :: es => by simp [deleteSlot]
  | n + 1, e :: es => by
    have := deleteSlot_length n es
    simp only [deleteSlot, List.length_cons]
    omega

theorem indexDelete_length (k : Key) (es es2 : List IndexEntry)
    (h : indexDelete k es = Except.ok es2) : es.length ≤ es2.length + 1 := by
  unfold indexDelete at h
  cases es with
  | nil => cases h
  | cons e rest =>
    simp only at h
    by_cases hlt : (if KeyCmp k (indexDeleteScan k 0 e.key rest).2 ≠ 0
        then ((indexDeleteScan k 0 e.key rest).1 : Int) - 1
        else ((indexDeleteScan k 0 e.key rest).1 : Int)) < 0
    · simp only [hlt, if_true, Except.ok.injEq] at h
      rw [← h]; omega
    · simp only [hlt, if_false, Except.ok.injEq] at h
      rw [← h]
      exact deleteSlot_length _ _

theorem adjustRev_length (c : Config) (newKey oldKey : Key) :
    ∀ (es es2 : List IndexEntry) (st : Status),
      adjustRev c newKey oldKey es = Except.ok (st, es2) → es2.length = es.length := by
  intro es
  induction es with
  | nil =>
    intro es2 st h
    simp only [adjustRev, Except.ok.injEq, Prod.mk.injEq] at h
    rw [← h.2]
  | cons e es ih =>
    intro es2 st h
    unfold adjustRev at h
    split at h
    · split at h
      · simp only [Except.ok.injEq, Prod.mk.injEq] at h
        rw [← h.2]; rfl
      · cases h
    · split at h
      · rename_i st1 es1 hrec
        simp only [Except.ok.injEq, Prod.mk.injEq] at h
        rw [← h.2]
        simp only [List.length_cons, ih es1 st1 hrec]
      · cases h

theorem AdjustKey_length (c : Config) (newKey oldKey : Key) (es es2 : List IndexEntry)
    (st : Status) (h : AdjustKey c newKey oldKey es = Except.ok (st, es2)) :
    es2.length = es.length := by
  unfold AdjustKey at h
  split at h
  · rename_i st1 es1 hrec
    simp only [Except.ok.injEq, Prod.mk.injEq] at h
    rw [← h.2]
    have := adjustRev_length c newKey oldKey _ _ _ hrec
    simpa using this
  · cases h

theorem indexDelete_single (e : IndexEntry) : indexDelete e.key [e] = Except.ok [] := by
  have := indexDelete_strict [] e [] (by simp [KeysStrict])
  simpa using this

theorem deletePageSeek_head (pid : PageID) (e : IndexEntry) (l : List IndexEntry)
    (h : deletePageSeek pid [e] = some l) : e.pid = pid := by
  unfold deletePageSeek at h
  split at h
  · rename_i h0; exact h0
  · simp [deletePageSeek] at h

/-- When `DeletePage` leaves an index page without separators, the page had at
most one separator, the leftmost child afterwards is one of its children, and
every child was either that one or the page id removed. -/
theorem DeletePage_empty (c : Config) (pid : PageID) (rs : Option Bool) (left : PageID)
    (es : List IndexEntry) (st : Status) (left2 : PageID)
    (h : DeletePage c pid rs left es = Except.ok (st, left2, [])) :
    left2 ∈ children left es ∧ (∀ q ∈ children left es, q = left2 ∨ q = pid) := by
  unfold DeletePage at h
  split at h
  · rename_i hl
    split at h
    · cases h
    · rename_i e rest
      split at h
      · rename_i es2 hd
        simp only [Except.ok.injEq, Prod.mk.injEq] at h
        obtain ⟨_, h2, h3⟩ := h
        subst h3
        have hlen := indexDelete_length _ _ _ hd
        have hrest : rest = [] := by
          cases rest with
          | nil => rfl
          | cons a r => simp at hlen
        subst hrest
        subst h2
        refine ⟨by simp [children], ?_⟩
        intro q hq
        simp only [children, List.map_cons, List.map_nil, List.mem_cons, List.mem_singleton,
          List.not_mem_nil, or_false] at hq
        rcases hq with hq | hq
        · right; rw [hq, hl]
        · left; exact hq
      · cases h
  · rename_i hl
    split at h
    · split at h
      · cases h
      · split at h
        · cases h
        · simp only [Except.ok.injEq, Prod.mk.injEq] at h
          obtain ⟨_, h2, _⟩ := h
          subst h2
          refine ⟨by simp [children], ?_⟩
          intro q hq
          simp only [children, List.map_nil, List.mem_singleton] at hq
          left; exact hq
    · rename_i e rest
      split at h
      · cases h
      · split at h
        · rename_i hcond
          split at h
          · rename_i es2 hd
            simp only [Except.ok.injEq, Prod.mk.injEq] at h
            obtain ⟨_, h2, h3⟩ := h
            subst h3
            subst h2
            have hlen := indexDelete_length _ _ _ hd
            have hrest : rest = [] := by
              cases rest with
              | nil => rfl
              | cons a r => simp at hlen
            subst hrest
            refine ⟨by simp [children], ?_⟩
            intro q hq
            simp only [children, List.map_cons, List.map_nil, List.mem_cons,
              List.mem_singleton, List.not_mem_nil, or_false] at hq
            rcases hq with hq | hq
            · left; exact hq
            · right; rw [hq, hcond.1]
          · cases h
        · split at h
          · cases h
          · cases h
          · rename_i t rest2 hseek
            have key : ∀ oldKey : Key,
                (match indexDelete t.key (e :: rest) with
                  | Except.error f => Except.error f
                  | Except.ok es2 =>
                    match AdjustKey c t.key oldKey es2 with
                    | Except.error f => Except.error f
                    | Except.ok (_, es3) => Except.ok (Status.OK, left, es3))
                  = Except.ok (st, left2, []) →
                left2 ∈ children left (e :: rest) ∧
                  ∀ q ∈ children left (e :: rest), q = left2 ∨ q = pid := by
              intro oldKey h
              split at h
              · cases h
              · rename_i es2 hd
                split at h
                · cases h
                · rename_i st3 es3 hadj
                  simp only [Except.ok.injEq, Prod.mk.injEq] at h
                  obtain ⟨_, h2, h3⟩ := h
                  subst h3
                  subst h2
                  have hl3 := AdjustKey_length _ _ _ _ _ _ hadj
                  have hlen := indexDelete_length _ _ _ hd
                  have hrest : rest = [] := by
                    cases rest with
                    | nil => rfl
                    | cons a r =>
                      simp only [List.length_nil] at hl3
                      simp only [List.length_cons, ← hl3] at hlen
                      omega
                  subst hrest
                  have hpid : e.pid = pid := by
                    by_cases hp : pid = INVALID_PAGE
                    · simp [hp] at hseek
                    · simp only [hp, if_false] at hseek
                      exact deletePageSeek_head pid e _ hseek
                  refine ⟨by simp [children], ?_⟩
                  intro q hq
                  simp only [children, List.map_cons, List.map_nil, List.mem_cons,
                    List.mem_singleton, List.not_mem_nil, or_false] at hq
                  rcases hq with hq | hq
                  · left; exact hq
                  · right; rw [hq, hpid]
            split at h <;> exact key _ h

/-- C20: in `Delete` with an index node as root, when the recursive delete
reports a merged-away child `oldPid` and `DeletePage` leaves the root without
separators, `Delete` returns the status of the recursive delete and sets the
header's root to the root's leftmost child `left2` after the removal, which is
a child of the root such that every child of the root was `left2` or the
merged-away child.  Consequently, when the root's children are leaves and the
recursive delete was a leaf merge (the hypotheses of the merge branch of
`_Delete` at the leaf `GetPageID key`), the new root is the surviving merged
node: a leaf that holds, as a set, every entry the two leaves held after the
deletion. -/
theorem C20_root_collapse (c : Config) (fuel : Nat) (f f1 : BTreeFile) (key : Key)
    (rid : RecordID) (left left1 left2 oldPid : PageID) (es es1 : List IndexEntry)
    (res st : Status) (rs : Option Bool)
    (hroot : getPage f.pages f.root = some (Page.index left es))
    (hdel : _Delete c fuel f f.root (GetPageID key left es) key rid
      = Except.ok (res, oldPid, rs, f1))
    (hres : res ≠ Status.FAIL) (hold : oldPid ≠ INVALID_PAGE)
    (hslots : indexSlots f1.pages f.root = Except.ok (left1, es1))
    (hdp : DeletePage c oldPid rs left1 es1 = Except.ok (st, left2, [])) :
    (Delete c fuel f key rid
        = Except.ok (res, { f1 with root := left2,
                                    pages := setPage f1.pages f.root (Page.index left2 []) }) ∧
      left2 ∈ children left1 es1 ∧ (∀ q ∈ children left1 es1, q = left2 ∨ q = oldPid)) ∧
    (∀ (n : Nat) (siblingPid np nn sp sn : PageID)
        (nslots dslots sslots node2 sib2 : List (Key × RecordID)) ( rightSibling : Bool)
        (st2 : Status) (b0 : Key × RecordID) (pages2 : List (PageID × Page))
        (buf2 : Option (Key × RecordID)),
      fuel = n + 1 →
      getPage f.pages (GetPageID key left es) = some (Page.leaf np nn nslots) →
      leafDelete key rid nslots = (Status.OK, dslots) →
      ¬ leafAvail c dslots ≤ c.HEAPPAGE_DATA_SIZE / 2 →
      FindSiblingForChild (GetPageID key left es) left es
        = Except.ok (st2, some siblingPid, some rightSibling) →
      getPage f.pages siblingPid = some (Page.leaf sp sn sslots) →
      GetPageID key left es ≠ siblingPid →
      (if rightSibling = true then sslots.head? else dslots.head?) = some b0 →
      leafRedistLoop c rightSibling (GetPageID key left es) siblingPid n
        (setLeafSlots f.pages (GetPageID key left es) dslots) (some b0)
        = Except.ok (pages2, buf2) →
      leafSlots pages2 (GetPageID key left es) = Except.ok node2 →
      leafSlots pages2 siblingPid = Except.ok sib2 →
      ¬ leafAvail c sib2 ≤ c.HEAPPAGE_DATA_SIZE / 2 →
      leafAvail c sib2 + leafAvail c node2 ≥ c.HEAPPAGE_DATA_SIZE →
      leafUsed c nslots ≤ c.HEAPPAGE_DATA_SIZE →
      leafUsed c sslots ≤ c.HEAPPAGE_DATA_SIZE →
      sslots.length < n →
      ((if rightSibling = true then sn else sp) = INVALID_PAGE ∨
        ∃ a b es0, getPage f.pages (if rightSibling = true then sn else sp)
          = some (Page.leaf a b es0)) →
      left2 = GetPageID key left es ∧ oldPid = siblingPid ∧
      ∃ nodeF, HasSlots (setPage f1.pages f.root (Page.index left2 [])) left2 nodeF ∧
        ∀ e, e ∈ nodeF ↔ e ∈ dslots ∨ e ∈ sslots) := by
  have hA := DeletePage_empty c oldPid rs left1 es1 st left2 hdp
  refine ⟨⟨?_, hA.1, hA.2⟩, ?_⟩
  · unfold Delete
    simp only [hroot, hdel, hres, if_false, hold, ne_eq, not_false_eq_true, if_true, hslots, hdp]
  · intro n siblingPid np nn sp sn nslots dslots sslots node2 sib2 rightSibling st2 b0 pages2
      buf2 hfuel hN hd hunder hsib hS hne hb0 hloop hn2 hs2 hnot hmerge huN huS hlen hnb
    obtain ⟨f2, nodeF, m1, m2, m3, m4, _, _, m7⟩ :=
      deleteLeaf_merge_total c n f f.root (GetPageID key left es) siblingPid key rid np nn sp sn
        left nslots dslots sslots node2 sib2 es rightSibling st2 b0 pages2 buf2 hN hd hunder
        hroot hsib hS hne hb0 hloop hn2 hs2 hnot hmerge huN huS hlen hnb
    subst hfuel
    have hdel2 : _Delete c (n + 1) f f.root (GetPageID key left es) key rid
        = Except.ok (Status.OK, siblingPid, some rightSibling, f2) := by
      unfold _Delete
      simp only [hroot, hN, m1]
    rw [hdel2] at hdel
    simp only [Except.ok.injEq, Prod.mk.injEq] at hdel
    obtain ⟨_, h2, _, h4⟩ := hdel
    subst h4
    have hsl : indexSlots f2.pages f.root = Except.ok (left, es) := by
      simp only [indexSlots, m7]
    rw [hsl] at hslots
    simp only [Except.ok.injEq, Prod.mk.injEq] at hslots
    obtain ⟨e1, e2⟩ := hslots
    subst e1; subst e2
    have hmemc : GetPageID key left es ∈ children left es := by
      rw [GetPageID_eq_FindPage]
      exact FindPage_mem_children key left es
    have hl2 : left2 = GetPageID key left es := by
      rcases hA.2 _ hmemc with h0 | h0
      · exact h0.symm
      · rw [← h2] at h0
        exact absurd h0 hne
    have hrn : GetPageID key left es ≠ f.root := by
      intro h0
      rw [h0, hroot] at hN
      cases hN
    refine ⟨hl2, h2.symm, nodeF, ?_, m4⟩
    rw [hl2]
    exact m3.setPage_ne _ _ hrn

theorem C20_root_collapse_witness :
    (Delete cfg45 21 fiveDistinctTree [97] ⟨1, 0⟩
        = Except.ok (Status.OK, { fiveDistinctMerged with
            root := 2,
            pages := setPage fiveDistinctMerged.pages fiveDistinctTree.root
              (Page.index 2 []) }) ∧
      (2 : PageID) ∈ children 2 [⟨[99], 0, 6⟩] ∧
      (∀ q ∈ children 2 [⟨[99], 0, 6⟩], q = 2 ∨ q = 0)) ∧
    ((2 : PageID) = GetPageID [97] 2 [⟨[99], 0, 6⟩] ∧ (0 : PageID) = 0 ∧
      ∃ nodeF, HasSlots (setPage fiveDistinctMerged.pages fiveDistinctTree.root
          (Page.index 2 [])) 2 nodeF ∧
        ∀ e, e ∈ nodeF ↔ e ∈ [(([98] : Key), (⟨1, 1⟩ : RecordID))] ∨
          e ∈ [([99], ⟨1, 2⟩), ([100], ⟨1, 3⟩), ([101], ⟨1, 4⟩)]) :=
  ⟨(C20_root_collapse cfg45 21 fiveDistinctTree fiveDistinctMerged [97] ⟨1, 0⟩ 2 2 2 0
      [⟨[99], 0, 6⟩] [⟨[99], 0, 6⟩] Status.OK Status.OK (some true)
      (by rfl) (by rfl) (by decide) (by decide) (by rfl) (by rfl)).1,
   (C20_root_collapse cfg45 21 fiveDistinctTree fiveDistinctMerged [97] ⟨1, 0⟩ 2 2 2 0
      [⟨[99], 0, 6⟩] [⟨[99], 0, 6⟩] Status.OK Status.OK (some true)
      (by rfl) (by rfl) (by decide) (by decide) (by rfl) (by rfl)).2
      20 0 (-1) 0 2 (-1) [([97], ⟨1, 0⟩), ([98], ⟨1, 1⟩)] [([98], ⟨1, 1⟩)]
      [([99], ⟨1, 2⟩), ([100], ⟨1, 3⟩), ([101], ⟨1, 4⟩)]
      [([98], ⟨1, 1⟩), ([99], ⟨1, 2⟩), ([100], ⟨1, 3⟩)] [([101], ⟨1, 4⟩)]
      true Status.FAIL ([99], ⟨1, 2⟩) fiveDistinctMoved.pages (some ([100], ⟨1, 3⟩))
      rfl (by rfl) (by rfl) (by decide) (by rfl) (by rfl) (by decide) (by rfl) (by rfl)
      (by rfl) (by rfl) (by decide) (by decide) (by decide) (by decide) (by decide)
      (Or.inl rfl)⟩

/-! ### C22: the sibling chosen by `FindSiblingForChild` -/

theorem findSiblingRev_skip (targetPid left : PageID) (b : List IndexEntry) :
    ∀ a : List IndexEntry, (∀ x ∈ a, x.pid ≠ targetPid) →
      findSiblingRev targetPid left (a ++ b) = findSiblingRev targetPid left b := by
  intro a
  induction a with
  | nil => intro _; rfl
  | cons x a ih =>
    intro h
    have hx : ¬ targetPid = x.pid := fun hh => h x (List.mem_cons_self _ _) hh.symm
    have h1 : findSiblingRev targetPid left (x :: (a ++ b))
        = findSiblingRev targetPid left (a ++ b) := by
      simp only [findSiblingRev, hx, if_false]
    show findSiblingRev targetPid left (x :: (a ++ b)) = _
    rw [h1]
    exact ih (fun y hy => h y (List.mem_cons_of_mem _ hy))

theorem findSiblingRev_none (targetPid left : PageID) (a : List IndexEntry)
    (h : ∀ x ∈ a, x.pid ≠ targetPid) : findSiblingRev targetPid left a = none := by
  have := findSiblingRev_skip targetPid left [] a h
  simpa [findSiblingRev] using this

/-- C22: on an index page with at least one separator and pairwise distinct
child pointers, `FindSiblingForChild` called with the leftmost child sets
`siblingPid` to the child of slot 0 and `rightSibling` to true (the loop over
the slots then finds nothing and the status is `FAIL`); called with the child
of slot i it sets `rightSibling` to false and `siblingPid` to the child of slot
i-1, or to the leftmost child when i = 0, and returns `OK`. -/
theorem C22_FindSiblingForChild_outputs (targetPid left : PageID) (es : List IndexEntry)
    (hne : es ≠ []) (hd : (children left es).Nodup) :
    (left = targetPid → ∃ e rest, es = e :: rest ∧
      FindSiblingForChild targetPid left es
        = Except.ok (Status.FAIL, some e.pid, some true)) ∧
    (∀ l1 e l2, es = l1 ++ e :: l2 → e.pid = targetPid →
      FindSiblingForChild targetPid left es
        = Except.ok (Status.OK,
            some (match l1.getLast? with | some p => p.pid | none => left), some false)) := by
  unfold children at hd
  rw [List.nodup_cons] at hd
  obtain ⟨hleft, hnd⟩ := hd
  constructor
  · intro hl
    subst hl
    cases es with
    | nil => exact absurd rfl hne
    | cons e rest =>
      refine ⟨e, rest, rfl, ?_⟩
      have hnone : findSiblingRev left left (e :: rest).reverse = none := by
        apply findSiblingRev_none
        intro x hx hxp
        apply hleft
        rw [← hxp]
        exact List.mem_map_of_mem _ (List.mem_reverse.1 hx)
      unfold FindSiblingForChild
      simp only [if_true, hnone]
  · intro l1 e l2 hes hp
    have hlt : left ≠ targetPid := by
      intro hl
      apply hleft
      rw [hl, ← hp, hes]
      exact List.mem_map_of_mem _ (by simp)
    have hl2 : ∀ x ∈ l2.reverse, x.pid ≠ targetPid := by
      intro x hx hxp
      rw [hes, List.map_append, List.map_cons, List.nodup_append] at hnd
      have h2 := (List.nodup_cons.1 hnd.2.1).1
      apply h2
      rw [hp, ← hxp]
      exact List.mem_map_of_mem _ (List.mem_reverse.1 hx)
    have hrev : (l1 ++ e :: l2).reverse = l2.reverse ++ e :: l1.reverse := by simp
    have hfind : findSiblingRev targetPid left es.reverse
        = some (match l1.getLast? with | some p => p.pid | none => left) := by
      rw [hes, hrev, findSiblingRev_skip targetPid left _ _ hl2]
      unfold findSiblingRev
      simp only [hp, if_true]
      rcases List.eq_nil_or_concat l1 with h | ⟨l0, p, h⟩
      · subst h; rfl
      · subst h
        simp
    unfold FindSiblingForChild
    simp only [hlt, if_false, hfind]

theorem C22_FindSiblingForChild_outputs_witness :
    (((5 : PageID) = 5 → ∃ e rest, [(⟨[99], 7, 6⟩ : IndexEntry), ⟨[101], 8, 6⟩] = e :: rest ∧
      FindSiblingForChild 5 5 [⟨[99], 7, 6⟩, ⟨[101], 8, 6⟩]
        = Except.ok (Status.FAIL, some e.pid, some true)) ∧
    (∀ l1 e l2, [(⟨[99], 7, 6⟩ : IndexEntry), ⟨[101], 8, 6⟩] = l1 ++ e :: l2 → e.pid = 5 →
      FindSiblingForChild 5 5 [⟨[99], 7, 6⟩, ⟨[101], 8, 6⟩]
        = Except.ok (Status.OK,
            some (match l1.getLast? with | some p => p.pid | none => 5), some false))) ∧
    FindSiblingForChild 8 5 [⟨[99], 7, 6⟩, ⟨[101], 8, 6⟩]
      = Except.ok (Status.OK, some 7, some false) :=
  ⟨C22_FindSiblingForChild_outputs 5 5 [⟨[99], 7, 6⟩, ⟨[101], 8, 6⟩] (by simp)
    (by unfold children; decide), by rfl⟩

/-! ### C26: `AdjustKey` on an arbitrary page -/

theorem adjustRev_skip (c : Config) (newKey oldKey : Key) (b : List IndexEntry) :
    ∀ a : List IndexEntry, (∀ x ∈ a, KeyCmp oldKey x.key < 0) →
      adjustRev c newKey oldKey (a ++ b) =
        match adjustRev c newKey oldKey b with
        | Except.ok (st, es2) => Except.ok (st, a ++ es2)
        | Except.error f => Except.error f := by
  intro a
  induction a with
  | nil =>
    intro _
    show adjustRev c newKey oldKey b = _
    cases hb : adjustRev c newKey oldKey b with
    | error f => rfl
    | ok r => rfl
  | cons x a ih =>
    intro h
    have hx : ¬ KeyCmp oldKey x.key ≥ 0 := by
      have := h x (List.mem_cons_self _ _)
      omega
    show adjustRev c newKey oldKey (x :: (a ++ b)) = _
    simp only [adjustRev, hx, if_false]
    rw [ih (fun y hy => h y (List.mem_cons_of_mem _ hy))]
    cases hb : adjustRev c newKey oldKey b with
    | error f => rfl
    | ok r => rfl

/-- `AdjustKey` rewrites the highest-numbered slot whose key is `<= oldKey` when
the new key with its terminator fits in front of the child pointer. -/
theorem AdjustKey_fits (c : Config) (newKey oldKey : Key) (l1 : List IndexEntry)
    (e : IndexEntry) (l2 : List IndexEntry)
    (he : KeyCmp e.key oldKey ≤ 0) (h2 : ∀ e2 ∈ l2, KeyCmp oldKey e2.key < 0)
    (hfit : newKey.length + 1 + c.pidSize ≤ e.len) :
    AdjustKey c newKey oldKey (l1 ++ e :: l2)
      = Except.ok (Status.OK, l1 ++ { e with key := newKey } :: l2) := by
  have hrev : (l1 ++ e :: l2).reverse = l2.reverse ++ e :: l1.reverse := by simp
  have hge : KeyCmp oldKey e.key ≥ 0 := (KeyCmp_ge_iff _ _).2 he
  have hb : adjustRev c newKey oldKey (e :: l1.reverse)
      = Except.ok (Status.OK, { e with key := newKey } :: l1.reverse) := by
    simp only [adjustRev, hge, if_true, hfit]
  unfold AdjustKey
  rw [hrev, adjustRev_skip c newKey oldKey _ _ (fun x hx => h2 x (List.mem_reverse.1 hx)), hb]
  simp

/-- `AdjustKey` has no defined result when the new key with its terminator is
longer than the key field of the slot it rewrites. -/
theorem AdjustKey_overflow (c : Config) (newKey oldKey : Key) (l1 : List IndexEntry)
    (e : IndexEntry) (l2 : List IndexEntry)
    (he : KeyCmp e.key oldKey ≤ 0) (h2 : ∀ e2 ∈ l2, KeyCmp oldKey e2.key < 0)
    (hfit : e.len < newKey.length + 1 + c.pidSize) :
    AdjustKey c newKey oldKey (l1 ++ e :: l2) = Except.error Fault.undefined := by
  have hrev : (l1 ++ e :: l2).reverse = l2.reverse ++ e :: l1.reverse := by simp
  have hge : KeyCmp oldKey e.key ≥ 0 := (KeyCmp_ge_iff _ _).2 he
  have hnf : ¬ newKey.length + 1 + c.pidSize ≤ e.len := by omega
  have hb : adjustRev c newKey oldKey (e :: l1.reverse) = Except.error Fault.undefined := by
    simp only [adjustRev, hge, if_true, hnf, if_false]
  unfold AdjustKey
  rw [hrev, adjustRev_skip c newKey oldKey _ _ (fun x hx => h2 x (List.mem_reverse.1 hx)), hb]

/-- `AdjustKey` returns `FAIL` and leaves the page as it is when no separator is
`<= oldKey`. -/
theorem AdjustKey_none (c : Config) (newKey oldKey : Key) (es : List IndexEntry)
    (h : ∀ e ∈ es, KeyCmp oldKey e.key < 0) :
    AdjustKey c newKey oldKey es = Except.ok (Status.FAIL, es) := by
  have := adjustRev_skip c newKey oldKey [] es.reverse (fun x hx => h x (List.mem_reverse.1 hx))
  unfold AdjustKey
  rw [List.append_nil] at this
  rw [this]
  simp [adjustRev]

/-- C26 (fails on the code): on the page with the strictly ascending separators
"b", "d" and "f", each in a 6-byte slot of a key byte, its terminator and a
4-byte child pointer, `AdjustKey("eee", "d")` finds slot 1 and copies the four
bytes of "eee" and its terminator over the two bytes of the key field and the
first two bytes of the child pointer: the call has no defined result, where the
claim promises the key replaced and the child pointer kept whatever the
lengths.  With a new key that fits (`AdjustKey("e", "d")`) slot 1 is rewritten
as claimed, and with no separator `<= old_key` the call returns `FAIL` and the
page is unchanged. -/
theorem C26_adjust_key_longer_key_overruns_slot :
    KeysStrict IndexEntry.key [(⟨[98], 7, 6⟩ : IndexEntry), ⟨[100], 8, 6⟩, ⟨[102], 9, 6⟩] ∧
    AdjustKey cfg40 [101, 101, 101] [100] [⟨[98], 7, 6⟩, ⟨[100], 8, 6⟩, ⟨[102], 9, 6⟩]
      = Except.error Fault.undefined ∧
    AdjustKey cfg40 [101] [100] [⟨[98], 7, 6⟩, ⟨[100], 8, 6⟩, ⟨[102], 9, 6⟩]
      = Except.ok (Status.OK, [⟨[98], 7, 6⟩, ⟨[101], 8, 6⟩, ⟨[102], 9, 6⟩]) ∧
    AdjustKey cfg40 [101] [97] [⟨[98], 7, 6⟩, ⟨[100], 8, 6⟩, ⟨[102], 9, 6⟩]
      = Except.ok (Status.FAIL, [⟨[98], 7, 6⟩, ⟨[100], 8, 6⟩, ⟨[102], 9, 6⟩]) :=
  ⟨by unfold KeysStrict; decide, by rfl, by rfl, by rfl⟩

/-! ### C27: `BTIndexPage::Delete` -/

/-- C27: on a non-empty index page with strictly ascending separators,
`BTIndexPage::Delete` called with the key of one of its entries returns `OK`
and removes exactly that slot; the entries before and behind it are unchanged
and keep their order.  (The record id is an output of the call: it is
overwritten by the scan that looks for the key.) -/
theorem C27_index_delete_removes_named_slot (l1 : List IndexEntry) (e : IndexEntry)
    (l2 : List IndexEntry) (hs : KeysStrict IndexEntry.key (l1 ++ e :: l2)) :
    indexDelete e.key (l1 ++ e :: l2) = Except.ok (l1 ++ l2) :=
  indexDelete_strict l1 e l2 hs

theorem C27_index_delete_removes_named_slot_witness :
    KeysStrict IndexEntry.key
      ([(⟨[98], 7, 6⟩ : IndexEntry)] ++ (⟨[100], 8, 6⟩ : IndexEntry) :: [⟨[102], 9, 6⟩]) ∧
    indexDelete [100] ([(⟨[98], 7, 6⟩ : IndexEntry)] ++ (⟨[100], 8, 6⟩ : IndexEntry) :: [⟨[102], 9, 6⟩])
      = Except.ok ([(⟨[98], 7, 6⟩ : IndexEntry)] ++ [⟨[102], 9, 6⟩]) :=
  ⟨by unfold KeysStrict; decide,
   C27_index_delete_removes_named_slot [⟨[98], 7, 6⟩] ⟨[100], 8, 6⟩ [⟨[102], 9, 6⟩]
     (by unfold KeysStrict; decide)⟩

/-! ### C23: `DeletePage` of the leftmost child -/

/-- C23: on an index page with at least one separator and strictly ascending
separator keys, `DeletePage(pid, flag)` with `pid` the leftmost child returns
`OK` for either value of the flag (and with the flag never written): the child
of the former slot 0 is the new leftmost child, slot 0 is removed, and the
remaining separators are unchanged and in order. -/
theorem C23_delete_page_leftmost_child (c : Config) (pid : PageID) (flag : Option Bool)
    (e : IndexEntry) (rest : List IndexEntry)
    (hs : KeysStrict IndexEntry.key (e :: rest)) :
    DeletePage c pid flag pid (e :: rest) = Except.ok (Status.OK, e.pid, rest) := by
  have hd : indexDelete e.key (e :: rest) = Except.ok rest := indexDelete_strict [] e rest hs
  unfold DeletePage
  simp only [if_true, hd]

theorem C23_delete_page_leftmost_child_witness :
    KeysStrict IndexEntry.key [(⟨[98], 7, 6⟩ : IndexEntry), ⟨[100], 8, 6⟩] ∧
    DeletePage cfg40 5 (some true) 5 [⟨[98], 7, 6⟩, ⟨[100], 8, 6⟩]
      = Except.ok (Status.OK, 7, [⟨[100], 8, 6⟩]) :=
  ⟨by unfold KeysStrict; decide,
   C23_delete_page_leftmost_child cfg40 5 (some true) ⟨[98], 7, 6⟩ [⟨[100], 8, 6⟩]
     (by unfold KeysStrict; decide)⟩

/-! ### C24 and C25: `DeletePage` of a slot child -/

theorem deletePageSeek_skip (pid : PageID) (b : List IndexEntry) :
    ∀ a : List IndexEntry, (∀ x ∈ a, x.pid ≠ pid) →
      deletePageSeek pid (a ++ b) = deletePageSeek pid b := by
  intro a
  induction a with
  | nil => intro _; rfl
  | cons x a ih =>
    intro h
    have hx : ¬ x.pid = pid := h x (List.mem_cons_self _ _)
    show deletePageSeek pid (x :: (a ++ b)) = _
    simp only [deletePageSeek, hx, if_false]
    exact ih (fun y hy => h y (List.mem_cons_of_mem _ hy))

/-- The general branch of `DeletePage` when the removed separator fits the slot
of the next one: slot j is removed and the next separator takes its key. -/
theorem DeletePage_adjust_next (c : Config) (pid left : PageID) (l1 : List IndexEntry)
    (t n : IndexEntry) (l2 : List IndexEntry)
    (hv : pid ≠ INVALID_PAGE) (hl : left ≠ pid) (h1 : ∀ x ∈ l1, x.pid ≠ pid) (ht : t.pid = pid)
    (hs : KeysStrict IndexEntry.key (l1 ++ t :: n :: l2))
    (hfit : t.key.length + 1 + c.pidSize ≤ n.len) :
    DeletePage c pid (some false) left (l1 ++ t :: n :: l2)
      = Except.ok (Status.OK, left, l1 ++ { n with key := t.key } :: l2) := by
  have hseek : deletePageSeek pid (l1 ++ t :: n :: l2) = some (t :: n :: l2) := by
    rw [deletePageSeek_skip pid _ l1 h1]
    simp only [deletePageSeek, ht, if_true]
  have hdel : indexDelete t.key (l1 ++ t :: n :: l2) = Except.ok (l1 ++ n :: l2) :=
    indexDelete_strict l1 t (n :: l2) hs
  have hn : ∀ e2 ∈ l2, KeyCmp n.key e2.key < 0 := by
    have h3 := (KeysStrict.append hs).2.1
    have h4 := KeysStrict.tail h3
    exact fun e2 he2 => KeysStrict.head_lt h4 e2 he2
  have hadj : AdjustKey c t.key n.key (l1 ++ n :: l2)
      = Except.ok (Status.OK, l1 ++ { n with key := t.key } :: l2) :=
    AdjustKey_fits c t.key n.key l1 n l2 (by rw [KeyCmp_self]) hn hfit
  have hf : ∀ q : PageID, ¬ (q = pid ∧ (some false : Option Bool) = some true) := by
    intro q h
    cases h.2
  cases l1 with
  | nil =>
    simp only [List.nil_append] at hseek hdel hadj ⊢
    unfold DeletePage
    simp only [hl, if_false, hv, hseek, hdel, hadj, and_false, reduceCtorEq, hf]
  | cons e0 l0 =>
    simp only [List.cons_append] at hseek hdel hadj ⊢
    unfold DeletePage
    simp only [hl, if_false, hv, hseek, hdel, hadj, and_false, reduceCtorEq, hf]

/-- C24 (fails on the code): on the page with leftmost child 5 and the strictly
ascending separators ("bbb", 7) and ("c", 8), `DeletePage(7, false)` removes
slot 0 and calls `AdjustKey("bbb", "c")`, which copies the three bytes of "bbb"
and the terminator over the 6-byte slot of "c": two bytes of key field and the
first two bytes of the child pointer of page 8.  The call has no defined
result, where the claim promises the key of the former slot 1 rewritten and its
child pointer kept.  With separators of one length (`"b"`, `"d"`, `"f"`) the
call does what the claim says. -/
theorem C24_delete_page_adjust_overruns_next_slot :
    KeysStrict IndexEntry.key [(⟨[98, 98, 98], 7, 8⟩ : IndexEntry), ⟨[99], 8, 6⟩] ∧
    DeletePage cfg40 7 (some false) 5 [⟨[98, 98, 98], 7, 8⟩, ⟨[99], 8, 6⟩]
      = Except.error Fault.undefined ∧
    indexDelete [98, 98, 98] [⟨[98, 98, 98], 7, 8⟩, ⟨[99], 8, 6⟩]
      = Except.ok [⟨[99], 8, 6⟩] ∧
    AdjustKey cfg40 [98, 98, 98] [99] [⟨[99], 8, 6⟩] = Except.error Fault.undefined ∧
    DeletePage cfg40 8 (some false) 5 [⟨[98], 7, 6⟩, ⟨[100], 8, 6⟩, ⟨[102], 9, 6⟩]
      = Except.ok (Status.OK, 5, [⟨[98], 7, 6⟩, ⟨[100], 9, 6⟩]) :=
  ⟨by unfold KeysStrict; decide, by rfl, by rfl, by rfl, by rfl⟩

/-- C25 (counterexample): on the page with leftmost child 5 and the strictly
ascending separators ("b", 7), ("d", 8), ("f", 9), `DeletePage(8, true)`
removes slot 1 and rewrites the key of the next separator from "f" to "d",
exactly as `DeletePage(8, false)` does; `DeletePage(9, true)` removes the last
slot and rewrites the key of the separator before it from "d" to "f". -/
theorem C25_flag_not_read_past_slot_zero :
    KeysStrict IndexEntry.key [(⟨[98], 7, 6⟩ : IndexEntry), ⟨[100], 8, 6⟩, ⟨[102], 9, 6⟩] ∧
    DeletePage cfg40 8 (some true) 5 [⟨[98], 7, 6⟩, ⟨[100], 8, 6⟩, ⟨[102], 9, 6⟩]
      = Except.ok (Status.OK, 5, [⟨[98], 7, 6⟩, ⟨[100], 9, 6⟩]) ∧
    DeletePage cfg40 8 (some false) 5 [⟨[98], 7, 6⟩, ⟨[100], 8, 6⟩, ⟨[102], 9, 6⟩]
      = Except.ok (Status.OK, 5, [⟨[98], 7, 6⟩, ⟨[100], 9, 6⟩]) ∧
    DeletePage cfg40 9 (some true) 5 [⟨[98], 7, 6⟩, ⟨[100], 8, 6⟩, ⟨[102], 9, 6⟩]
      = Except.ok (Status.OK, 5, [⟨[98], 7, 6⟩, ⟨[102], 8, 6⟩]) :=
  ⟨by unfold KeysStrict; decide, by rfl, by rfl, by rfl⟩

/-- C25 (as amended): on an index page with strictly ascending separators whose
leftmost child is not `pid`: when `pid` is the child of slot 0,
`DeletePage(pid, true)` returns `OK`, removes exactly slot 0 and changes no
other separator key and no child pointer; when slot 0 has another child, the
flag is not read and `DeletePage(pid, true)` is `DeletePage(pid, false)`. -/
theorem C25_delete_page_right_sibling_at_slot_zero (c : Config) (pid left : PageID)
    (e : IndexEntry) (rest : List IndexEntry) (hl : left ≠ pid)
    (hs : KeysStrict IndexEntry.key (e :: rest)) :
    (e.pid = pid →
      DeletePage c pid (some true) left (e :: rest) = Except.ok (Status.OK, left, rest)) ∧
    (e.pid ≠ pid →
      DeletePage c pid (some true) left (e :: rest)
        = DeletePage c pid (some false) left (e :: rest)) := by
  have hd : indexDelete e.key (e :: rest) = Except.ok rest := indexDelete_strict [] e rest hs
  constructor
  · intro he
    unfold DeletePage
    simp only [hl, if_false, he, true_and, reduceCtorEq, if_true, hd]
  · intro he
    unfold DeletePage
    simp only [hl, if_false, he, false_and]

theorem C25_delete_page_right_sibling_at_slot_zero_witness :
    (5 : PageID) ≠ 7 ∧
    KeysStrict IndexEntry.key [(⟨[98], 7, 6⟩ : IndexEntry), ⟨[100], 8, 6⟩, ⟨[102], 9, 6⟩] ∧
    (((⟨[98], 7, 6⟩ : IndexEntry).pid = 7 →
      DeletePage cfg40 7 (some true) 5 [⟨[98], 7, 6⟩, ⟨[100], 8, 6⟩, ⟨[102], 9, 6⟩]
        = Except.ok (Status.OK, 5, [⟨[100], 8, 6⟩, ⟨[102], 9, 6⟩])) ∧
    ((⟨[98], 7, 6⟩ : IndexEntry).pid ≠ 7 →
      DeletePage cfg40 7 (some true) 5 [⟨[98], 7, 6⟩, ⟨[100], 8, 6⟩, ⟨[102], 9, 6⟩]
        = DeletePage cfg40 7 (some false) 5 [⟨[98], 7, 6⟩, ⟨[100], 8, 6⟩, ⟨[102], 9, 6⟩])) :=
  ⟨by decide, by unfold KeysStrict; decide,
   C25_delete_page_right_sibling_at_slot_zero cfg40 7 5 ⟨[98], 7, 6⟩
     [⟨[100], 8, 6⟩, ⟨[102], 9, 6⟩] (by decide) (by unfold KeysStrict; decide)⟩

/-! ### C28: the positioning loop of `OpenScan` -/

/-- The positioning loop never ends on a start leaf without a key equal to the
low key: past the last slot `GetNext` leaves the key buffer as it is. -/
theorem openScanLoop_absent (lowKey : Key) (es : List (Key × RecordID))
    (h : ∀ e ∈ es, KeyCmp lowKey e.1 ≠ 0) :
    ∀ (fuel slotNo : Nat) (key : Key), KeyCmp lowKey key ≠ 0 →
      openScanLoop lowKey es fuel slotNo key = Except.error Fault.fuel := by
  intro fuel
  induction fuel with
  | zero => intro slotNo key _; rfl
  | succ n ih =>
    intro slotNo key hk
    simp only [openScanLoop, hk, ne_eq, not_false_eq_true, if_true]
    cases hg : es.get? (slotNo + 1) with
    | none => exact ih (slotNo + 1) key hk
    | some e => exact ih (slotNo + 1) e.1 (h e (List.get?_mem hg))

/-- C28 (fails on the code): `fiveDistinctTree`, built by five inserts under
`cfg45`, holds the keys "a" to "e" in the leaves 2 = [a, b] and 0 = [c, d, e].  For the low key "bb", which is not stored
while the stored key "c" is `>= "bb"`, the search returns leaf 2, and
`OpenScan("bb", "bb")` never returns: whatever the fuel, the positioning loop
is still waiting for a key equal to "bb" on leaf 2.  The claim has the cursor
placed on the first slot with a key `>= low`, here slot 0 of leaf 0. -/
theorem C28_open_scan_waits_for_equal_key :
    insertAll cfg45 20 BTreeFile.empty fiveDistinct = Except.ok fiveDistinctTree ∧
    _Search 20 fiveDistinctTree.pages [98, 98] fiveDistinctTree.root
      = Except.ok (Status.OK, some 2) ∧
    (([99], ⟨1, 2⟩) : Key × RecordID) ∈ chainEntries fiveDistinctTree.pages 20 2 ∧
    KeyCmp [98, 98] [99] ≤ 0 ∧
    ∀ fuel : Nat,
      OpenScan fuel fiveDistinctTree (some [98, 98]) (some [98, 98])
        = Except.error Fault.fuel := by
  refine ⟨by rfl, by rfl, by decide, by decide, ?_⟩
  intro fuel
  cases fuel with
  | zero => rfl
  | succ n =>
    cases n with
    | zero => rfl
    | succ m =>
      have h := openScanLoop_absent [98, 98] [([97], ⟨1, 0⟩), ([98], ⟨1, 1⟩)]
        (by decide) (m + 2) 0 [97] (by decide)
      have hs : _Search (m + 2) fiveDistinctTree.pages [98, 98] fiveDistinctTree.root
          = Except.ok (Status.OK, some 2) := by rfl
      have hr : ¬ fiveDistinctTree.root = INVALID_PAGE := by decide
      have hg : getPage fiveDistinctTree.pages 2
          = some (Page.leaf (-1) 0 [([97], ⟨1, 0⟩), ([98], ⟨1, 1⟩)]) := by rfl
      unfold OpenScan
      simp only [hr, if_false, hs, ne_eq, not_true_eq_false, hg, h]

/-! ### C29: the descent of `_Search` at an equal separator -/

/-- On a page with strictly ascending separators, `GetPageID` sends a key equal
to a separator to the child of that separator, the child on its upper side. -/
theorem GetPageID_equal_separator (left : PageID) (l1 : List IndexEntry) (e : IndexEntry)
    (l2 : List IndexEntry) (hs : KeysStrict IndexEntry.key (l1 ++ e :: l2)) :
    GetPageID e.key left (l1 ++ e :: l2) = e.pid := by
  have h2 : ∀ e2 ∈ l2, KeyCmp e.key e2.key < 0 :=
    KeysStrict.head_lt (KeysStrict.append hs).2.1
  unfold GetPageID
  rw [findSlot_last e.key l1 e l2 (by rw [KeyCmp_self]) h2]

/-- C29 (fails on the code): in `tieTree`, built by the inserts "a", "c", "c",
"d", "c", the root has the separator "c" between leaf 2 = [a, c] and leaf
0 = [c, c, d].  For the key "c", equal to the separator, `GetPageID` takes the
child of the separator, leaf 0 on its upper side, and `_Search` returns leaf 0;
the entry ("c", (1,1)) in leaf 2, on the lower side, is skipped, and the scan
`OpenScan("c", "c")` hands out two of the three entries of the key "c". -/
theorem C29_search_takes_upper_side_of_equal_separator :
    insertAll cfg40 20 BTreeFile.empty tieInserts = Except.ok tieTree ∧
    getPage tieTree.pages tieTree.root = some (Page.index 2 [⟨[99], 0, 6⟩]) ∧
    GetPageID [99] 2 [⟨[99], 0, 6⟩] = 0 ∧
    _Search 20 tieTree.pages [99] tieTree.root = Except.ok (Status.OK, some 0) ∧
    getPage tieTree.pages 2 = some (Page.leaf (-1) 0 [([97], ⟨1, 0⟩), ([99], ⟨1, 1⟩)]) ∧
    (([99], ⟨1, 1⟩) : Key × RecordID) ∉ chainEntries tieTree.pages 20 0 ∧
    scan 20 tieTree (some [99]) (some [99]) = Except.ok [([99], ⟨1, 2⟩), ([99], ⟨1, 4⟩)] :=
  ⟨by rfl, by rfl, by rfl, by rfl, by rfl, by decide, by rfl⟩

/-! ### C30: the pages `DestroyFile` frees -/

/-- C30 (fails on the code): `fiveDistinctTree` is a root index node 1 over the
leaves 2 and 0; let 9 be its header page.  With a buffer manager that accepts
every call, `DestroyFile` passes the pages 2, 2, 0, 0, 1, 9 to `FreePage`: each
leaf twice, once by `DestroyNode` on the leaf and once more by the caller.  On
a root leaf the log is the leaf and the header, each once.  Whatever the buffer
manager answers, the log starts with leaf 2 passed twice. -/
theorem C30_destroy_frees_each_leaf_twice :
    insertAll cfg45 20 BTreeFile.empty fiveDistinct = Except.ok fiveDistinctTree ∧
    DestroyFile (fun _ _ => true) 20 9 fiveDistinctTree
      = Except.ok (Status.OK, [2, 2, 0, 0, 1, 9], true) ∧
    DestroyFile (fun _ _ => true) 20 9 fourTree = Except.ok (Status.OK, [0, 9], true) ∧
    ∀ freeOK : List PageID → PageID → Bool, ∃ st rest del,
      DestroyFile freeOK 20 9 fiveDistinctTree = Except.ok (st, 2 :: 2 :: rest, del) := by
  refine ⟨by rfl, by rfl, by rfl, ?_⟩
  intro freeOK
  cases h1 : freeOK [] 2 <;> cases h2 : freeOK [2] 2 <;> cases h3 : freeOK [2, 2] 0 <;>
    cases h4 : freeOK [2, 2, 0] 0 <;> cases h5 : freeOK [2, 2, 1] 9 <;>
    cases h6 : freeOK [2, 2, 0, 0, 1] 9 <;>
    simp [DestroyFile, DestroyNode, destroyChildren, children, fiveDistinctTree, getPage,
      INVALID_PAGE, h1, h2, h3, h4, h5, h6]

/-! ### C21: the index merge of `_Delete` -/

/-- A merge with the left sibling after two moves of the redistribution loop:
deleting ("i", (1,8)) below index node 9 of `seventeenTree` merges the left
sibling 1 into node 9, and the children 3 and 4 of the sibling change places,
both under the key "e": after `keyToAdjust = tempKey` the key inserted for a
child is the one `GetLast` has just read. -/
theorem index_merge_left_sibling_swaps_children :
    insertAll cfg40 30 BTreeFile.empty (nineteenInserts.take 17) = Except.ok seventeenTree ∧
    _Delete cfg40 30 seventeenTree 10 9 [105] ⟨1, 8⟩
      = Except.ok (Status.OK, 1, none, seventeenTreeAfter) ∧
    indexSlots seventeenTree.pages 1
      = Except.ok (2, [⟨[99], 0, 6⟩, ⟨[101], 3, 6⟩, ⟨[103], 4, 6⟩]) ∧
    (indexSlots seventeenTreeAfter.pages 9).map (fun r => children r.1 r.2)
      = Except.ok [2, 0, 4, 3, 5, 7, 8] := by
  refine ⟨by rfl, by rfl, by rfl, by rfl⟩

/-- C21 (fails on the code): in `nineteenTree` the root 10 has the index nodes
1 and 9 below the separator "i".  Deleting ("a", (1,0)) merges leaf 0 into leaf
2; `DeletePage` leaves node 1 with the children 2, 3, 4, and its right sibling
9 has the children 5, 6, 7, 8, 11.  The redistribution loop moves two children
over, the sibling is then less than half full and the free space of both nodes
adds up to 44 bytes of a 40-byte page, so the merge loop runs: it moves the
children 7 and 8 and fills node 1, and the last `Insert`, for the child 11,
finds no room.  `_Delete` returns with `oldPid = 9`: the sibling has no slot
left, but leaf 11 is still its leftmost child and is not among the children
2, 3, 4, 5, 6, 7, 8 of the surviving node 1.  The child 5, leftmost on the
right-hand side, is addressed by the separator "i" as claimed. -/
theorem C21_index_merge_loses_last_child :
    insertAll cfg40 30 BTreeFile.empty nineteenInserts = Except.ok nineteenTree ∧
    _Delete cfg40 29 nineteenTree 1 2 [97] ⟨1, 0⟩
      = Except.ok (Status.OK, 0, some true, nineteenTreeLeafMerged) ∧
    DeletePage cfg40 0 (some true) 2 [⟨[99], 0, 6⟩, ⟨[101], 3, 6⟩, ⟨[103], 4, 6⟩]
      = Except.ok (Status.OK, 2, [⟨[101], 3, 6⟩, ⟨[103], 4, 6⟩]) ∧
    FindSiblingForChild 1 1 [⟨[105], 9, 6⟩] = Except.ok (Status.FAIL, some 9, some true) ∧
    indexSlots nineteenTreeLeafMerged.pages 9
      = Except.ok (5, [⟨[107], 6, 6⟩, ⟨[109], 7, 6⟩, ⟨[111], 8, 6⟩, ⟨[113], 11, 6⟩]) ∧
    (idxRedistLoop cfg40 true 10 1 9 29
        ⟨setPage nineteenTreeLeafMerged.pages 1
          (Page.index 2 [⟨[101], 3, 6⟩, ⟨[103], 4, 6⟩]), none, some [105], false⟩).map
        (fun st => (indexSlots st.pages 1, indexSlots st.pages 9))
      = Except.ok
          (Except.ok (2, [⟨[101], 3, 6⟩, ⟨[103], 4, 6⟩, ⟨[105], 5, 6⟩, ⟨[109], 6, 6⟩]),
           Except.ok (7, [⟨[111], 8, 6⟩, ⟨[113], 11, 6⟩])) ∧
    indexAvail cfg40 [⟨[111], 8, 6⟩, ⟨[113], 11, 6⟩] > cfg40.HEAPPAGE_DATA_SIZE / 2 ∧
    indexAvail cfg40 [⟨[111], 8, 6⟩, ⟨[113], 11, 6⟩]
        + indexAvail cfg40 [⟨[101], 3, 6⟩, ⟨[103], 4, 6⟩, ⟨[105], 5, 6⟩, ⟨[109], 6, 6⟩]
      ≥ cfg40.HEAPPAGE_DATA_SIZE ∧
    deleteIndex cfg40 29 nineteenTreeLeafMerged 10 1 Status.OK 0 (some true)
      = Except.ok (Status.OK, 9, none, nineteenTreeAfter) ∧
    _Delete cfg40 30 nineteenTree 10 1 [97] ⟨1, 0⟩
      = Except.ok (Status.OK, 9, none, nineteenTreeAfter) ∧
    indexSlots nineteenTreeAfter.pages 9 = Except.ok (11, []) ∧
    (indexSlots nineteenTreeAfter.pages 1).map (fun r => children r.1 r.2)
      = Except.ok [2, 3, 4, 5, 6, 7, 8] ∧
    (11 : PageID) ∉ [(2 : PageID), 3, 4, 5, 6, 7, 8] ∧
    (⟨[105], 5, 6⟩ : IndexEntry) ∈
      [(⟨[101], 3, 6⟩ : IndexEntry), ⟨[103], 4, 6⟩, ⟨[105], 5, 6⟩, ⟨[109], 6, 6⟩,
       ⟨[111], 7, 6⟩, ⟨[113], 8, 6⟩] := by
  refine ⟨by rfl, by rfl, by rfl, by rfl, by rfl, by rfl, by decide, by decide, by rfl,
    by rfl, by rfl, by rfl, by decide, by decide⟩

/-! ### C35: `FindPage` and `GetPageID` choose the same child -/

/-- C35: on every index page and for every key, `GetPageID` (search, and
`Delete` at the root) and `FindPage` (the descent of insert and delete) return
the same child page id. -/
theorem C35_FindPage_and_GetPageID_agree (key : Key) (left : PageID) (es : List IndexEntry) :
    (FindPage key left es).1 = GetPageID key left es :=
  (GetPageID_eq_FindPage key left es).symm

/-! ### C37: the status of `FindSiblingForChild` -/

/-- On a page with at least one separator `FindSiblingForChild` returns `OK`
exactly when the target is the child of some slot. -/
theorem FindSiblingForChild_status (targetPid left : PageID) (es : List IndexEntry)
    (hne : es ≠ []) :
    ∃ sp rs, FindSiblingForChild targetPid left es
      = Except.ok (if targetPid ∈ es.map IndexEntry.pid then Status.OK else Status.FAIL,
          sp, rs) := by
  cases es with
  | nil => exact absurd rfl hne
  | cons e rest =>
    by_cases hm : targetPid ∈ (e :: rest).map IndexEntry.pid
    · have hfind : ∃ q, findSiblingRev targetPid left (e :: rest).reverse = some q := by
        cases hf : findSiblingRev targetPid left (e :: rest).reverse with
        | some q => exact ⟨q, rfl⟩
        | none =>
          exfalso
          obtain ⟨x, hx, hxp⟩ := List.mem_map.1 hm
          have hx2 : x ∈ (e :: rest).reverse := List.mem_reverse.2 hx
          obtain ⟨a, b, hab⟩ := List.append_of_mem hx2
          have : ∀ (a : List IndexEntry), findSiblingRev targetPid left (a ++ x :: b) ≠ none := by
            intro a
            induction a with
            | nil =>
              show findSiblingRev targetPid left (x :: b) ≠ none
              unfold findSiblingRev
              simp only [hxp, if_true]
              cases b <;> simp
            | cons y a ih =>
              show findSiblingRev targetPid left (y :: (a ++ x :: b)) ≠ none
              unfold findSiblingRev
              by_cases hy : targetPid = y.pid
              · simp only [hy, if_true]
                cases (a ++ x :: b) <;> simp
              · simp only [hy, if_false]
                exact ih
          exact this a (hab ▸ hf)
      obtain ⟨q, hq⟩ := hfind
      by_cases hl : left = targetPid
      · subst hl
        refine ⟨some q, some false, ?_⟩
        unfold FindSiblingForChild
        simp only [if_true, hq, hm]
      · refine ⟨some q, some false, ?_⟩
        unfold FindSiblingForChild
        simp only [hl, if_false, hq, hm, if_true]
    · have hnone : findSiblingRev targetPid left (e :: rest).reverse = none := by
        apply findSiblingRev_none
        intro x hx hxp
        apply hm
        rw [← hxp]
        exact List.mem_map_of_mem _ (List.mem_reverse.1 hx)
      by_cases hl : left = targetPid
      · subst hl
        refine ⟨some e.pid, some true, ?_⟩
        unfold FindSiblingForChild
        simp only [if_true, hnone, hm, if_false]
      · refine ⟨none, none, ?_⟩
        unfold FindSiblingForChild
        simp only [hl, if_false, hnone, hm]

/-- C37 (fails on the code): on the page with leftmost child 5 and the
separators ("b", 7) and ("d", 8), `FindSiblingForChild(5)`, called for the
leftmost child, sets `siblingPid = 7` and `rightSibling = true` and returns
`FAIL`: the branch for the leftmost child has no `return`, and the loop over
the slots that follows finds nothing.  For the slot child 8 the call returns
`OK`, and for page 6, which is no child, `FAIL` with no output written. -/
theorem C37_leftmost_child_gets_status_FAIL :
    (5 : PageID) ∈ children 5 [⟨[98], 7, 6⟩, ⟨[100], 8, 6⟩] ∧
    FindSiblingForChild 5 5 [⟨[98], 7, 6⟩, ⟨[100], 8, 6⟩]
      = Except.ok (Status.FAIL, some 7, some true) ∧
    FindSiblingForChild 8 5 [⟨[98], 7, 6⟩, ⟨[100], 8, 6⟩]
      = Except.ok (Status.OK, some 7, some false) ∧
    (6 : PageID) ∉ children 5 [⟨[98], 7, 6⟩, ⟨[100], 8, 6⟩] ∧
    FindSiblingForChild 6 5 [⟨[98], 7, 6⟩, ⟨[100], 8, 6⟩]
      = Except.ok (Status.FAIL, none, none) :=
  ⟨by unfold children; decide, by rfl, by rfl, by unfold children; decide, by rfl⟩

/-! ### C34: the key `FindKey` copies -/

/-- `FindKey` returns `OK` exactly when some separator is `<= key`. -/
theorem FindKey_status (key : Key) (es : List IndexEntry) :
    ((FindKey key es).1 = Status.OK ↔ ∃ e ∈ es, KeyCmp e.key key ≤ 0) ∧
    ((FindKey key es).1 = Status.FAIL ↔ ∀ e ∈ es, KeyCmp key e.key < 0) := by
  unfold FindKey
  cases h : findSlot key es with
  | none =>
    have hall := findSlot_none_strict key es h
    refine ⟨⟨fun hh => (by cases hh), ?_⟩, ⟨fun _ => hall, fun _ => rfl⟩⟩
    rintro ⟨e, he, hle⟩
    have := hall e he
    have h2 := (KeyCmp_ge_iff key e.key).2 hle
    omega
  | some e0 =>
    obtain ⟨l1, l2, hes, hle, _⟩ := findSlot_split key es e0 h
    have hmem : e0 ∈ es := by rw [hes]; simp
    refine ⟨⟨fun _ => ⟨e0, hmem, hle⟩, fun _ => rfl⟩, ⟨fun hh => (by cases hh), ?_⟩⟩
    intro hall
    have := hall e0 hmem
    have h2 := (KeyCmp_ge_iff key e0.key).2 hle
    omega

/-- The buffer after `FindKey` found the slot `e`: the whole separator when it
is not longer than `key`, and no defined content otherwise. -/
theorem FindKey_found (key : Key) (l1 : List IndexEntry) (e : IndexEntry)
    (l2 : List IndexEntry) (he : KeyCmp e.key key ≤ 0)
    (h2 : ∀ e2 ∈ l2, KeyCmp key e2.key < 0) :
    FindKey key (l1 ++ e :: l2)
      = (Status.OK, if e.key.length ≤ key.length then some e.key else none) := by
  unfold FindKey
  rw [findSlot_last key l1 e l2 he h2]

/-- C34 (fails on the code): on the page with the one separator "bbb",
`FindKey("c")` finds the slot ("bbb" is `<= "c"`), returns `OK` and copies
`GetKeyLength("c")` = 2 bytes of the separator: the buffer holds "bb" without
the third byte and without a terminator, not the complete key "bbb".  With the
key "ccc" the buffer holds "bbb", with the separator "b" and the key "c" it
holds "b", and for the key "a" the status is `FAIL`. -/
theorem C34_find_key_copies_length_of_probe :
    KeyCmp [98, 98, 98] [99] ≤ 0 ∧
    FindKey [99] [⟨[98, 98, 98], 7, 8⟩] = (Status.OK, none) ∧
    FindKey [99, 99, 99] [⟨[98, 98, 98], 7, 8⟩] = (Status.OK, some [98, 98, 98]) ∧
    FindKey [99] [⟨[98], 7, 6⟩] = (Status.OK, some [98]) ∧
    FindKey [97] [⟨[98, 98, 98], 7, 8⟩] = (Status.FAIL, none) :=
  ⟨by decide, by rfl, by rfl, by rfl, by rfl⟩

/-! ### C36: `BTIndexPage::Delete` with a key that is no separator -/

theorem indexDeleteScan_skip (key : Key) (e : IndexEntry) (b : List IndexEntry) :
    ∀ (a : List IndexEntry) (i : Nat) (cur : Key), KeyCmp key cur > 0 →
      (∀ x ∈ a, KeyCmp key x.key > 0) →
      indexDeleteScan key i cur (a ++ e :: b) = indexDeleteScan key (i + a.length + 1) e.key b := by
  intro a
  induction a with
  | nil =>
    intro i cur hc _
    show indexDeleteScan key i cur (e :: b) = _
    simp only [indexDeleteScan, hc, if_true, List.length_nil, Nat.add_zero]
  | cons x a ih =>
    intro i cur hc ha
    show indexDeleteScan key i cur (x :: (a ++ e :: b)) = _
    simp only [indexDeleteScan, hc, if_true]
    rw [ih (i + 1) x.key (ha x (List.mem_cons_self _ _))
      (fun y hy => ha y (List.mem_cons_of_mem _ hy))]
    simp only [List.length_cons]
    congr 1
    omega

/-- The scan of `BTIndexPage::Delete` for a key above the slots `l1 ++ [e]` and
below the slots `l2`: the slot number is one past `e`, and the key read last is
not the key looked for. -/
theorem indexDeleteScan_between (key : Key) (e : IndexEntry) (l2 : List IndexEntry)
    (he : KeyCmp e.key key < 0) (h2 : ∀ e2 ∈ l2, KeyCmp key e2.key < 0) (i : Nat) :
    ∃ cur, indexDeleteScan key i e.key l2 = (i + 1, cur) ∧ KeyCmp key cur ≠ 0 := by
  have hgt : KeyCmp key e.key > 0 := by
    have := KeyCmp_swap e.key key
    omega
  cases l2 with
  | nil =>
    refine ⟨e.key, ?_, by omega⟩
    simp only [indexDeleteScan, hgt, if_true]
  | cons y l =>
    have hy := h2 y (List.mem_cons_self _ _)
    have hny : ¬ KeyCmp key y.key > 0 := by omega
    refine ⟨y.key, ?_, by omega⟩
    simp only [indexDeleteScan, hgt, if_true]
    cases l with
    | nil => simp only [indexDeleteScan, hny, if_false]
    | cons z l3 => simp only [indexDeleteScan, hny, if_false]

/-- C36 (counterexample): on the page with the strictly ascending separators
("b", 7), ("d", 8), ("f", 9), `Delete("c")` with a key equal to none of them
returns `OK` and removes slot 0, the entry ("b", 7); `Delete("g")` removes the
last slot; only `Delete("a")`, below every separator, leaves the page
unchanged. -/
theorem C36_index_delete_removes_slot_below_key :
    KeysStrict IndexEntry.key [(⟨[98], 7, 6⟩ : IndexEntry), ⟨[100], 8, 6⟩, ⟨[102], 9, 6⟩] ∧
    indexDelete [99] [⟨[98], 7, 6⟩, ⟨[100], 8, 6⟩, ⟨[102], 9, 6⟩]
      = Except.ok [⟨[100], 8, 6⟩, ⟨[102], 9, 6⟩] ∧
    indexDelete [103] [⟨[98], 7, 6⟩, ⟨[100], 8, 6⟩, ⟨[102], 9, 6⟩]
      = Except.ok [⟨[98], 7, 6⟩, ⟨[100], 8, 6⟩] ∧
    indexDelete [97] [⟨[98], 7, 6⟩, ⟨[100], 8, 6⟩, ⟨[102], 9, 6⟩]
      = Except.ok [⟨[98], 7, 6⟩, ⟨[100], 8, 6⟩, ⟨[102], 9, 6⟩] :=
  ⟨by unfold KeysStrict; decide, by rfl, by rfl, by rfl⟩

/-- C36 (as amended): on a non-empty index page with strictly ascending
separators and for a key equal to none of them, `BTIndexPage::Delete` returns
`OK`; it leaves the page unchanged when the key is below every separator, and
otherwise it removes exactly the highest-numbered slot whose separator is below
the key, leaving the other entries unchanged and in order. -/
theorem C36_index_delete_of_absent_key (key : Key) (es : List IndexEntry) (hne : es ≠ [])
    (hs : KeysStrict IndexEntry.key es) :
    ((∀ e ∈ es, KeyCmp key e.key < 0) → indexDelete key es = Except.ok es) ∧
    (∀ l1 e l2, es = l1 ++ e :: l2 → KeyCmp e.key key < 0 →
      (∀ e2 ∈ l2, KeyCmp key e2.key < 0) → indexDelete key es = Except.ok (l1 ++ l2)) := by
  constructor
  · intro hall
    cases es with
    | nil => exact absurd rfl hne
    | cons x rest =>
      have hx := hall x (List.mem_cons_self _ _)
      have hnx : ¬ KeyCmp key x.key > 0 := by omega
      have hscan : indexDeleteScan key 0 x.key rest = (0, x.key) := by
        cases rest with
        | nil => simp only [indexDeleteScan, hnx, if_false]
        | cons y l => simp only [indexDeleteScan, hnx, if_false]
      have hne0 : KeyCmp key x.key ≠ 0 := by omega
      unfold indexDelete
      simp only [hscan, hne0, ne_eq, not_false_eq_true, if_true]
      simp
  · intro l1 e l2 hes he h2
    subst hes
    have hl1 : ∀ x ∈ l1, KeyCmp key x.key > 0 := by
      intro x hx
      have h1 := (KeysStrict.append hs).2.2 x hx e (List.mem_cons_self _ _)
      have h3 := KeyCmp_lt_trans x.key e.key key h1 he
      have := KeyCmp_swap x.key key
      omega
    have key2 : ∀ (x : IndexEntry) (rest : List IndexEntry) (n : Nat) (cur : Key),
        indexDeleteScan key 0 x.key rest = (n + 1, cur) → KeyCmp key cur ≠ 0 →
        indexDelete key (x :: rest) = Except.ok (deleteSlot n (x :: rest)) := by
      intro x rest n cur hscan hc
      unfold indexDelete
      simp only [hscan, hc, ne_eq, not_false_eq_true, if_true]
      have h0 : ¬ ((↑(n + 1) : Int) - 1 < 0) := by push_cast; omega
      have h1 : ((↑(n + 1) : Int) - 1).toNat = n := by push_cast; omega
      simp only [h0, if_false, h1]
    cases l1 with
    | nil =>
      obtain ⟨cur, hscan, hc⟩ := indexDeleteScan_between key e l2 he h2 0
      have := key2 e l2 0 cur (by simpa using hscan) hc
      simpa [deleteSlot] using this
    | cons x a =>
      have hx := hl1 x (List.mem_cons_self _ _)
      have ha : ∀ y ∈ a, KeyCmp key y.key > 0 := fun y hy => hl1 y (List.mem_cons_of_mem _ hy)
      obtain ⟨cur, hscan, hc⟩ := indexDeleteScan_between key e l2 he h2 (0 + a.length + 1)
      have hsc : indexDeleteScan key 0 x.key (a ++ e :: l2) = (a.length + 1 + 1, cur) := by
        rw [indexDeleteScan_skip key e l2 a 0 x.key hx ha, hscan]
        simp
      have := key2 x (a ++ e :: l2) (a.length + 1) cur hsc hc
      rw [List.cons_append, this]
      have hd := deleteSlot_append (x :: a) e l2
      simp only [List.length_cons, List.cons_append] at hd
      rw [hd]
      rfl

theorem C36_index_delete_of_absent_key_witness :
    ([(⟨[98], 7, 6⟩ : IndexEntry), ⟨[100], 8, 6⟩, ⟨[102], 9, 6⟩] ≠ []) ∧
    KeysStrict IndexEntry.key [(⟨[98], 7, 6⟩ : IndexEntry), ⟨[100], 8, 6⟩, ⟨[102], 9, 6⟩] ∧
    (((∀ e ∈ [(⟨[98], 7, 6⟩ : IndexEntry), ⟨[100], 8, 6⟩, ⟨[102], 9, 6⟩],
        KeyCmp [101] e.key < 0) →
      indexDelete [101] [⟨[98], 7, 6⟩, ⟨[100], 8, 6⟩, ⟨[102], 9, 6⟩]
        = Except.ok [⟨[98], 7, 6⟩, ⟨[100], 8, 6⟩, ⟨[102], 9, 6⟩]) ∧
    (∀ l1 e l2, [(⟨[98], 7, 6⟩ : IndexEntry), ⟨[100], 8, 6⟩, ⟨[102], 9, 6⟩] = l1 ++ e :: l2 →
      KeyCmp e.key [101] < 0 → (∀ e2 ∈ l2, KeyCmp [101] e2.key < 0) →
      indexDelete [101] [⟨[98], 7, 6⟩, ⟨[100], 8, 6⟩, ⟨[102], 9, 6⟩] = Except.ok (l1 ++ l2))) ∧
    indexDelete [101] [⟨[98], 7, 6⟩, ⟨[100], 8, 6⟩, ⟨[102], 9, 6⟩]
      = Except.ok [⟨[98], 7, 6⟩, ⟨[102], 9, 6⟩] :=
  ⟨by simp, by unfold KeysStrict; decide,
   C36_index_delete_of_absent_key [101] [⟨[98], 7, 6⟩, ⟨[100], 8, 6⟩, ⟨[102], 9, 6⟩]
     (by simp) (by unfold KeysStrict; decide), by rfl⟩

/-! ### C31: the `rightSibling` output of `_Delete` -/

/-- C31 (fails on the code): in `twentyFiveTree` the root 10 has the index
nodes 1, 9 and 15.  At leaf level `_Delete` writes its `rightSibling` output:
true when leaf 0, the right sibling of leaf 2, is merged away, false when leaf
0 is merged away as the left sibling of leaf 3.  At index level,
`_Delete(10, 1, "a", (1,0))` merges node 9, the right sibling of node 1, into
node 1 and returns `oldPid = 9` with the output never written: the sibling side
was stored in a local variable of the same name.  The root then holds ("o", 9)
and ("q", 15), and `DeletePage(9, flag)` gives [("q", 15)] for the flag true
and [("o", 15)] for the flag false; `Delete` passes its own unwritten
variable, so the call has no defined result. -/
theorem C31_index_merge_leaves_rightSibling_unwritten :
    insertAll cfg40 30 BTreeFile.empty twentyFiveInserts = Except.ok twentyFiveTree ∧
    (_Delete cfg40 29 twentyFiveTree 1 2 [97] ⟨1, 0⟩).map (fun r => (r.1, r.2.1, r.2.2.1))
      = Except.ok (Status.OK, 0, some true) ∧
    (_Delete cfg40 29 twentyFiveTree 1 3 [101] ⟨1, 4⟩).map (fun r => (r.1, r.2.1, r.2.2.1))
      = Except.ok (Status.OK, 0, some false) ∧
    FindSiblingForChild 1 1 [⟨[105], 9, 6⟩, ⟨[113], 15, 6⟩]
      = Except.ok (Status.FAIL, some 9, some true) ∧
    (_Delete cfg40 30 twentyFiveTree 10 1 [97] ⟨1, 0⟩).map
        (fun r => (r.1, r.2.1, r.2.2.1, indexSlots r.2.2.2.pages 10))
      = Except.ok (Status.OK, 9, none,
          Except.ok (1, [⟨[111], 9, 6⟩, ⟨[113], 15, 6⟩])) ∧
    DeletePage cfg40 9 (some true) 1 [⟨[111], 9, 6⟩, ⟨[113], 15, 6⟩]
      = Except.ok (Status.OK, 1, [⟨[113], 15, 6⟩]) ∧
    DeletePage cfg40 9 (some false) 1 [⟨[111], 9, 6⟩, ⟨[113], 15, 6⟩]
      = Except.ok (Status.OK, 1, [⟨[111], 15, 6⟩]) ∧
    Delete cfg40 30 twentyFiveTree [97] ⟨1, 0⟩ = Except.error Fault.undefined := by
  refine ⟨by rfl, by rfl, by rfl, by rfl, by rfl, by rfl, by rfl, by rfl⟩

/-! ### C32: the leaf redistribution loop and a drained sibling -/

/-- C32 (fails on the code): under `cfg45` let the node 2 hold ("b", (1,1)) and
its right sibling 0 hold ("c", (1,2)), the buffer holding the first entry of
the sibling as read before the loop.  The first pass moves "c"; the node is
still less than half full, `GetFirst` on the drained sibling reports `DONE` and
leaves the buffer as it is, and the second pass inserts "c" again: the two
leaves held "c" once and hold it twice.  The same happens inside
`Delete("e", (1,1))` on `dupEntryTree`, reached by thirteen calls: the left
sibling 3 of leaf 4 is empty and the loop inserts the first entry "f" of the
node itself a second time. -/
theorem C32_leaf_redistribution_repeats_buffered_entry :
    leafAvail cfg45 [([98], ⟨1, 1⟩)] > cfg45.HEAPPAGE_DATA_SIZE / 2 ∧
    leafRedistLoop cfg45 true 2 0 20
        [(0, Page.leaf 2 (-1) [([99], ⟨1, 2⟩)]), (2, Page.leaf (-1) 0 [([98], ⟨1, 1⟩)])]
        (some ([99], ⟨1, 2⟩))
      = Except.ok
          ([(0, Page.leaf 2 (-1) []),
            (2, Page.leaf (-1) 0 [([98], ⟨1, 1⟩), ([99], ⟨1, 2⟩), ([99], ⟨1, 2⟩)])],
           some ([99], ⟨1, 2⟩)) ∧
    ([([98], ⟨1, 1⟩), ([99], ⟨1, 2⟩)] : List (Key × RecordID)).count
        (([99], ⟨1, 2⟩) : Key × RecordID) = 1 ∧
    ([([98], ⟨1, 1⟩), ([99], ⟨1, 2⟩), ([99], ⟨1, 2⟩)] : List (Key × RecordID)).count
        (([99], ⟨1, 2⟩) : Key × RecordID) = 2 ∧
    applyOps cfg45 20 BTreeFile.empty dupEntryOps = Except.ok dupEntryTree ∧
    (leafRedistLoop cfg45 false 4 3 20
        (setLeafSlots dupEntryTree.pages 4 [([102], ⟨1, 6⟩), ([103], ⟨1, 8⟩)])
        (some ([102], ⟨1, 6⟩))).map (fun r => (leafSlots r.1 4, leafSlots r.1 3))
      = Except.ok
          (Except.ok [([102], ⟨1, 6⟩), ([102], ⟨1, 6⟩), ([103], ⟨1, 8⟩)], Except.ok []) := by
  refine ⟨by decide, by rfl, by decide, by decide, by rfl, by rfl⟩

/-! ### C33: the index redistribution loop -/

/-- C33 (fails on the code): `Delete("a", (1,0))` on `twentyThreeTree` merges
leaf 0 into leaf 2, and index node 1, left with the children 2, 3, 4, takes two
children from its right sibling 9 by redistribution.  The first child, 5, is
inserted under the parent's separator "i" and the parent's separator becomes
"k".  After `keyToAdjust = tempKey` both names denote one buffer, so the second
child, 6, is inserted under the key "m" that `GetFirst` has just read from the
sibling, not under "k", the parent's separator at that moment.  Afterwards the
last separator of node 1 and the parent's separator are both "m": the keys are
not strictly ascending across node, parent separator and sibling, `Search("k")`
returns leaf 5 while "k" is stored in leaf 6, and `Delete("k", (1,10))` returns
`FAIL`.  The children of the two nodes are the same and in the same order. -/
theorem C33_second_rotation_inserts_wrong_separator :
    insertAll cfg40 30 BTreeFile.empty twentyThreeInserts = Except.ok twentyThreeTree ∧
    _Delete cfg40 30 twentyThreeTree 10 1 [97] ⟨1, 0⟩
      = Except.ok (Status.OK, INVALID_PAGE, none, twentyThreeTreeAfter) ∧
    Delete cfg40 30 twentyThreeTree [97] ⟨1, 0⟩ = Except.ok (Status.OK, twentyThreeTreeAfter) ∧
    indexSlots twentyThreeTreeAfter.pages 1
      = Except.ok (2, [⟨[101], 3, 6⟩, ⟨[103], 4, 6⟩, ⟨[105], 5, 6⟩, ⟨[109], 6, 6⟩]) ∧
    indexSlots twentyThreeTreeAfter.pages 10 = Except.ok (1, [⟨[109], 9, 6⟩]) ∧
    indexSlots twentyThreeTreeAfter.pages 9
      = Except.ok (7, [⟨[111], 8, 6⟩, ⟨[113], 11, 6⟩, ⟨[115], 12, 6⟩, ⟨[117], 13, 6⟩]) ∧
    ¬ KeysStrict IndexEntry.key
        ([(⟨[101], 3, 6⟩ : IndexEntry), ⟨[103], 4, 6⟩, ⟨[105], 5, 6⟩, ⟨[109], 6, 6⟩]
          ++ [⟨[109], 9, 6⟩]
          ++ [⟨[111], 8, 6⟩, ⟨[113], 11, 6⟩, ⟨[115], 12, 6⟩, ⟨[117], 13, 6⟩]) ∧
    Search 30 twentyThreeTree [107] = Except.ok (Status.OK, some 6) ∧
    Search 30 twentyThreeTreeAfter [107] = Except.ok (Status.OK, some 5) ∧
    leafSlots twentyThreeTreeAfter.pages 6
      = Except.ok [([107], ⟨1, 10⟩), ([108], ⟨1, 11⟩)] ∧
    (Delete cfg40 30 twentyThreeTreeAfter [107] ⟨1, 10⟩).map (fun r => r.1)
      = Except.ok Status.FAIL := by
  refine ⟨by rfl, by rfl, by rfl, by rfl, by rfl, by rfl, by unfold KeysStrict; decide,
    by rfl, by rfl, by rfl, by rfl⟩

/-! ### C7: a run that ends with the root as its own child -/

end BTree
